import Mathlib

/-!
# Sparse tensor arithmetic (COO form): a shallow embedding of `SparseTensorMath.cpp`

Conventions of the embedding.

* The element type `α` is a commutative ring with decidable equality (exact arithmetic).
* An index tensor of shape `[sparseDims, n]` is kept as the list of its `n` columns; the
  accessor expression `indices_accessor[d][i]` is `accessor indices d i`.
* A values tensor of shape `[n, ...denseShape]` is kept as the list of its `n` rows, each row
  being the flattened (contiguous) value block; `ptr + i * blockSize` addresses row `i`.
* `_indices()` and `_values()` are the views onto the first `nnz` columns / rows.
* A dense tensor is a contiguous row-major buffer together with its sizes.
* Loops that the source bounds by data run here on fuel; a write outside the allocated
  output is reported as `Err.OutOfBounds`, running out of fuel as `Err.Fuel`.
* An operator that fills its output through the views `r._indices()` and `r._values()`
  (`mul_out_sparse_scalar`, `div_out_sparse_scalar`, `pow_out_sparse_scalar`) goes through
  `write_views`: the writes reach an output that holds no entries and fail for one whose
  views have another shape.
* A parallel loop is given as its body together with a schedule, the list of loop indices in
  the order in which the body runs.
* The handles of `Retainable.h` live in a state `RState` of impls (refcount, deleted mark)
  and handles (`pImpl`); the singleton `NullType::singleton()` is the impl at address 0.
-/

namespace SparseTensorMath

/-- Failures of the operators. -/
inductive Err where
  | ShapeMismatch
  | InvalidArgument
  | IndexOutOfBounds
  | UnsupportedOperation
  | OutOfBounds
  | Fuel
  deriving DecidableEq, Repr

/-- Coordinate sparse tensor (`SparseTensorImpl`): sizes, the sparse/dense split, the index
columns, the value blocks, the stored-entry count and the coalesced flag. -/
structure SparseTensor (α : Type) where
  sizes : List Nat
  sparseDims : Nat
  denseDims : Nat
  indices : List (List Int)
  values : List (List α)
  nnz : Nat
  coalesced : Bool
  deriving DecidableEq, Repr

variable {α : Type}

/-- Modelled from the spec: `_indices()`, the index matrix of shape `[sparseDims, nnz]`,
a view onto the first `nnz` columns of the stored index tensor. -/
def SparseTensor._indices (t : SparseTensor α) : List (List Int) := t.indices.take t.nnz

/-- Modelled from the spec: `_values()`, the value buffer of shape `[nnz, ...denseShape]`,
a view onto the first `nnz` rows of the stored value tensor. -/
def SparseTensor._values (t : SparseTensor α) : List (List α) := t.values.take t.nnz

/-- Number of elements of one value block: `stride(0)` of a contiguous values tensor of shape
`[n, sizes[sparseDims], ..., sizes[last]]`. -/
def SparseTensor.blockSize (t : SparseTensor α) : Nat := (t.sizes.drop t.sparseDims).prod

/-- The accessor expression `indices_accessor[d][i]` of a 2-D index tensor. -/
def accessor (indices : List (List Int)) (d i : Nat) : Int := (indices.getD i []).getD d 0

/-- Lexicographic order on coordinate tuples, (dim0, dim1, ...) ascending. -/
def tupleLt : List Int → List Int → Bool
  | [], [] => false
  | [], _ :: _ => true
  | _ :: _, [] => false
  | a :: as, b :: bs => if a < b then true else if b < a then false else tupleLt as bs

/-- Index columns strictly increasing in lexicographic order: sorted, no coordinate repeated. -/
def StrictlyIncreasing (cols : List (List Int)) : Prop :=
  cols.Pairwise (fun a b => tupleLt a b = true)

instance (cols : List (List Int)) : Decidable (StrictlyIncreasing cols) := by
  unfold StrictlyIncreasing; infer_instance

/-- `_is_same_density` (lines 31-33). -/
def _is_same_density (self src : SparseTensor α) : Bool :=
  self.sparseDims == src.sparseDims && self.denseDims == src.denseDims

/-- Modelled from the spec: the fused scaled-accumulate primitive `THBlas_axpy(n, a, x, incx,
y, incy)`, `y[i*incy] += a * x[i*incx]` for `i < n`, `x` and `y` given as a buffer with the
offset the pointer argument carries. -/
def THBlas_axpy [CommRing α] (n : Nat) (a : α) (x : List α) (xoff incx : Nat)
    (y : List α) (yoff incy : Nat) : List α :=
  (List.range n).foldl
    (fun acc i => acc.set (yoff + i * incy)
      (acc.getD (yoff + i * incy) 0 + a * x.getD (xoff + i * incx) 0)) y

/-- Modelled from the spec: the dense out-of-place multiply by a scalar, `at::mul_out`, on a
values buffer. -/
def at_mul_out [CommRing α] (values : List (List α)) (value : α) : List (List α) :=
  values.map (fun b => b.map (fun x => x * value))

/-- Modelled from the spec: a freshly constructed sparse tensor, `t.type().tensor()`: no
dimensions, no storage, zero nnz. -/
def SparseTensor.fresh : SparseTensor α :=
  { sizes := [], sparseDims := 0, denseDims := 0, indices := [], values := [], nnz := 0,
    coalesced := true }

/-- Modelled from the spec: the output sequence of lines 108-114 (again at 143-149 and
171-177),
`r.resize_as_(t); r._indices().resize_as_(t._indices()); r._indices().copy_(t._indices());
r_values = r._values(); <write r_values>; set_nnz(t._nnz()); set_coalesced(...)`, where
`values` is what the write puts into `r_values`. `r.resize_as_(t)` gives `r` the shape of `t`
and touches no buffer. An output with `nnz = 0` hands out its own index and value tensors, so
the resize and the writes reach them. An output that holds entries hands out narrowed views
(the note at lines 78-81): resizing such a view does not reach the tensor, and the copy and
the write go through only when the views already have the shape of what is written;
otherwise the call fails, `r` keeping the shape it was resized to and its old entries. -/
def write_views (r t : SparseTensor α) (values : List (List α)) :
    Except (Err × SparseTensor α) (SparseTensor α) :=
  let r1 : SparseTensor α :=
    { r with sizes := t.sizes, sparseDims := t.sparseDims, denseDims := t.denseDims }
  if r.nnz = 0 then
    .ok { r1 with indices := t._indices, values := values, nnz := t.nnz,
                  coalesced := t.coalesced }
  else if r.nnz = t.nnz ∧ r._indices.map List.length = t._indices.map List.length ∧
      r._values.map List.length = values.map List.length then
    .ok { r1 with indices := t._indices ++ r.indices.drop r.nnz,
                  values := values ++ r.values.drop r.nnz, nnz := t.nnz,
                  coalesced := t.coalesced }
  else .error (.ShapeMismatch, r1)

/-- `mul_out_sparse_scalar` (lines 101-117). `same` is `isSameTensor(r, t)`; when it holds the
first `nnz` value rows of `r` are multiplied in place, otherwise `r` takes `t`'s shape and,
through its views, a copy of `t`'s index view and the product of `t`'s value view. A failure
carries the output tensor as the call leaves it. -/
def mul_out_sparse_scalar [CommRing α] (same : Bool) (r t : SparseTensor α) (value : α) :
    Except (Err × SparseTensor α) (SparseTensor α) :=
  if same then
    .ok { r with values := at_mul_out (r.values.take r.nnz) value ++ r.values.drop r.nnz }
  else write_views r t (at_mul_out t._values value)

/-- `mul_sparse_scalar` (lines 119-123): the output is a fresh tensor. -/
def mul_sparse_scalar [CommRing α] (t : SparseTensor α) (value : α) :
    Except (Err × SparseTensor α) (SparseTensor α) :=
  mul_out_sparse_scalar false SparseTensor.fresh t value

/-- `mul_sparse_scalar_` (lines 125-127): the output is the input. -/
def mul_sparse_scalar_ [CommRing α] (t : SparseTensor α) (v : α) :
    Except (Err × SparseTensor α) (SparseTensor α) :=
  mul_out_sparse_scalar true t t v

/-- Modelled from the spec: `raw_copy_sparse_`, the structural copy of `t` into `r`. -/
def raw_copy_sparse_ (_r t : SparseTensor α) : SparseTensor α :=
  { sizes := t.sizes, sparseDims := t.sparseDims, denseDims := t.denseDims,
    indices := t._indices, values := t._values, nnz := t.nnz, coalesced := t.coalesced }

/-- The comparison loop of lines 256-266 over the dimensions `d, d+1, ...` (`n` of them):
`1` at the first dimension where the left coordinate is smaller, `-1` where it is larger,
`0` when none differs. -/
def cmp_loop (tcol scol : Nat → Int) : Nat → Nat → Int
  | 0, _ => 0
  | n + 1, d =>
    if tcol d < scol d then 1
    else if tcol d > scol d then -1
    else cmp_loop tcol scol n (d + 1)

/-- Cursors and output buffers of a merge loop. -/
structure MergeState (α : Type) where
  t_i : Nat
  s_i : Nat
  r_i : Nat
  r_indices : List (List Int)
  r_values : List (List α)
  deriving DecidableEq, Repr

/-- One guarded branch of the add loop (lines 269-274 and 278-283): copy column `i` of
`indices` into output column `r_i` and accumulate `scale * values[i]` into output block `r_i`.
Both writes need `r_i` inside the allocated output. -/
def add_emit [CommRing α] (sparseDims blockSize : Nat) (indices : List (List Int))
    (values : List (List α)) (i : Nat) (scale : α) (st : MergeState α) :
    Except Err (MergeState α) :=
  if st.r_i < st.r_indices.length ∧ st.r_i < st.r_values.length then
    .ok { st with
      r_indices := st.r_indices.set st.r_i
        ((List.range sparseDims).map (fun d => accessor indices d i)),
      r_values := st.r_values.set st.r_i
        (THBlas_axpy blockSize scale (values.getD i []) 0 1 (st.r_values.getD st.r_i []) 0 1) }
  else .error .OutOfBounds

/-- The value of `cmp` computed at lines 251-267. -/
def add_cmp (sparseDims t_nnz s_nnz : Nat) (t_indices src_indices : List (List Int))
    (t_i s_i : Nat) : Int :=
  if t_i ≥ t_nnz then -1
  else if s_i ≥ s_nnz then 1
  else cmp_loop (fun d => accessor t_indices d t_i) (fun d => accessor src_indices d s_i)
    sparseDims 0

/-- One iteration of the `while` loop of lines 250-287. -/
def add_step [CommRing α] (sparseDims blockSize t_nnz s_nnz : Nat)
    (t_indices src_indices : List (List Int)) (t_values s_values : List (List α))
    (cast_value : α) (st : MergeState α) : Except Err (MergeState α) :=
  let cmp := add_cmp sparseDims t_nnz s_nnz t_indices src_indices st.t_i st.s_i
  match (if cmp ≥ 0 then
      (add_emit sparseDims blockSize t_indices t_values st.t_i 1 st).map
        (fun s => { s with t_i := s.t_i + 1 })
    else .ok st) with
  | .error e => .error e
  | .ok st1 =>
    match (if cmp ≤ 0 then
        (add_emit sparseDims blockSize src_indices s_values st1.s_i cast_value st1).map
          (fun s => { s with s_i := s.s_i + 1 })
      else .ok st1) with
    | .error e => .error e
    | .ok st2 => .ok { st2 with r_i := st2.r_i + 1 }

/-- The `while (t_i < t_nnz || s_i < s_nnz)` loop of lines 250-287, on fuel. -/
def add_loop [CommRing α] (sparseDims blockSize t_nnz s_nnz : Nat)
    (t_indices src_indices : List (List Int)) (t_values s_values : List (List α))
    (cast_value : α) : Nat → MergeState α → Except Err (MergeState α)
  | 0, st => if st.t_i < t_nnz ∨ st.s_i < s_nnz then .error .Fuel else .ok st
  | fuel + 1, st =>
    if st.t_i < t_nnz ∨ st.s_i < s_nnz then
      match add_step sparseDims blockSize t_nnz s_nnz t_indices src_indices t_values s_values
          cast_value st with
      | .error e => .error e
      | .ok st' =>
        add_loop sparseDims blockSize t_nnz s_nnz t_indices src_indices t_values s_values
          cast_value fuel st'
    else .ok st

/-- The general path of `s_add_out_sparse_cpu` (lines 223-298): allocate `t.nnz + src.nnz`
output slots (index columns, modelled zero-filled, and zeroed value blocks), run the merge
loop, then set `nnz` and the coalesced flag. -/
def s_add_general [CommRing α] (t src : SparseTensor α) (value : α) :
    Except Err (SparseTensor α) :=
  let t_nnz := t.nnz
  let s_nnz := src.nnz
  let max_nnz := t_nnz + s_nnz
  let sparseDims := src.sparseDims
  let blockSize := src.blockSize
  let r_indices := List.replicate max_nnz (List.replicate sparseDims (0 : Int))
  let r_values := List.replicate max_nnz (List.replicate blockSize (0 : α))
  match add_loop sparseDims blockSize t_nnz s_nnz t._indices src._indices
      t._values src._values value (t_nnz + s_nnz)
      { t_i := 0, s_i := 0, r_i := 0, r_indices := r_indices, r_values := r_values } with
  | .error e => .error e
  | .ok st =>
    .ok { sizes := src.sizes, sparseDims := src.sparseDims, denseDims := src.denseDims,
          indices := st.r_indices, values := st.r_values, nnz := st.r_i,
          coalesced := t.coalesced && src.coalesced }

/-- `s_add_out_sparse_cpu` (lines 207-299). `r_is_src` is `isSameTensor(r, src)`, which only
the `t.nnz == 0` path looks at. Both checks fail with a shape mismatch, before `r` is
touched; a failure carries the output tensor as the call leaves it. -/
def s_add_out_sparse_cpu [CommRing α] (r_is_src : Bool) (r t src : SparseTensor α)
    (value : α) : Except (Err × SparseTensor α) (SparseTensor α) :=
  if t.sizes ≠ src.sizes then .error (.ShapeMismatch, r)
  else if src.nnz = 0 then .ok (raw_copy_sparse_ r t)
  else if t.nnz = 0 then mul_out_sparse_scalar r_is_src r src value
  else if ¬ (_is_same_density t src = true) then .error (.ShapeMismatch, r)
  else
    match s_add_general t src value with
    | .ok res => .ok res
    | .error e =>
      .error (e,
        { sizes := src.sizes, sparseDims := src.sparseDims, denseDims := src.denseDims,
          indices := List.replicate (t.nnz + src.nnz) (List.replicate src.sparseDims 0),
          values := List.replicate (t.nnz + src.nnz) (List.replicate src.blockSize 0),
          nnz := t.nnz + src.nnz, coalesced := r.coalesced })

/-- `s_add_sparse_cpu` (lines 301-305): the output is a fresh tensor. -/
def s_add_sparse_cpu [CommRing α] (t src : SparseTensor α) (alpha : α) :
    Except (Err × SparseTensor α) (SparseTensor α) :=
  s_add_out_sparse_cpu false SparseTensor.fresh t src alpha

/-- Column `i` of an index tensor as the accessor reads it, dimension by dimension. -/
def readColumn (sparseDims : Nat) (indices : List (List Int)) (i : Nat) : List Int :=
  (List.range sparseDims).map (fun d => accessor indices d i)

/-- The stored entries `i, i+1, ..., nnz-1` of an operand as (coordinate, value block) pairs. -/
def entriesFrom (sparseDims : Nat) (indices : List (List Int)) (values : List (List α))
    (nnz i : Nat) : List (List Int × List α) :=
  (List.range' i (nnz - i)).map (fun k => (readColumn sparseDims indices k, values.getD k []))

/-- Functional description of the add merge on entry lists: the smaller head is emitted alone,
equal heads collapse into one output entry. The loop is shown to compute it. -/
def mergeAdd [CommRing α] (bs : Nat) (alpha : α) :
    List (List Int × List α) → List (List Int × List α) → List (List Int × List α)
  | [], [] => []
  | [], s :: ss =>
    (s.1, THBlas_axpy bs alpha s.2 0 1 (List.replicate bs 0) 0 1) :: mergeAdd bs alpha [] ss
  | t :: ts, [] =>
    (t.1, THBlas_axpy bs 1 t.2 0 1 (List.replicate bs 0) 0 1) :: mergeAdd bs alpha ts []
  | t :: ts, s :: ss =>
    if tupleLt t.1 s.1 = true then
      (t.1, THBlas_axpy bs 1 t.2 0 1 (List.replicate bs 0) 0 1) :: mergeAdd bs alpha ts (s :: ss)
    else if tupleLt s.1 t.1 = true then
      (s.1, THBlas_axpy bs alpha s.2 0 1 (List.replicate bs 0) 0 1) ::
        mergeAdd bs alpha (t :: ts) ss
    else
      (s.1, THBlas_axpy bs alpha s.2 0 1
          (THBlas_axpy bs 1 t.2 0 1 (List.replicate bs 0) 0 1) 0 1) :: mergeAdd bs alpha ts ss
termination_by ts ss => ts.length + ss.length

/-- Sum of the blocks of an entry list stored at coordinate `c`, at block position `i`. -/
def entrySum [CommRing α] (E : List (List Int × List α)) (c : List Int) (i : Nat) : α :=
  ((E.filter (fun p => decide (p.1 = c))).map (fun p => p.2.getD i 0)).sum

/-- Logical value of a coordinate list at coordinate `c`, position `i` of the value block: the
sum of the stored blocks whose coordinate is `c` (repeated coordinates sum, an absent
coordinate gives 0). -/
def logicalValue [CommRing α] (cols : List (List Int)) (vals : List (List α))
    (c : List Int) (i : Nat) : α :=
  (((cols.zip vals).filter (fun p => decide (p.1 = c))).map (fun p => p.2.getD i 0)).sum

/-- Logical value of a sparse tensor at coordinate `c`, block position `i`. -/
def SparseTensor.valueAt [CommRing α] (t : SparseTensor α) (c : List Int) (i : Nat) : α :=
  logicalValue t._indices t._values c i

/-- Storage invariant of the data model: the sizes cover the sparse and the dense dimensions,
at least `nnz` columns and rows are stored, every column of the index view has `sparseDims`
entries and every row of the value view is one block. -/
def SparseTensor.WellFormed (t : SparseTensor α) : Prop :=
  t.sizes.length = t.sparseDims + t.denseDims ∧
  t.nnz ≤ t.indices.length ∧ t.nnz ≤ t.values.length ∧
  (∀ c ∈ t._indices, c.length = t.sparseDims) ∧
  (∀ b ∈ t._values, b.length = t.blockSize)

instance (t : SparseTensor α) : Decidable t.WellFormed := by
  unfold SparseTensor.WellFormed; infer_instance

/-- The 1-D tensor `{(1): 3}` of length 4. -/
def exA : SparseTensor Int :=
  { sizes := [4], sparseDims := 1, denseDims := 0, indices := [[1]], values := [[3]],
    nnz := 1, coalesced := true }

/-- The 1-D tensor `{(1): 2, (2): 5}` of length 4. -/
def exB : SparseTensor Int :=
  { sizes := [4], sparseDims := 1, denseDims := 0, indices := [[1], [2]],
    values := [[2], [5]], nnz := 2, coalesced := true }

/-- The empty tensor of length 4. -/
def exZ : SparseTensor Int :=
  { sizes := [4], sparseDims := 1, denseDims := 0, indices := [], values := [],
    nnz := 0, coalesced := true }

/-- The inner loop of `_to_csr` (lines 60-62): `k` iterations `csr[h+1] = v` for
`h, h+1, ...`; a write outside `csr` is a fault. -/
def csr_stamp (v : Nat) : Nat → Int → List Nat → Except Err (List Nat)
  | 0, _, csr => .ok csr
  | k + 1, h, csr =>
    if 0 ≤ h + 1 ∧ (h + 1).toNat < csr.length then
      csr_stamp v k (h + 1) (csr.set (h + 1).toNat v)
    else .error .OutOfBounds

/-- The loop `for (i = 0; i < nnz; i++)` of `_to_csr` (lines 57-63), run in index order,
with `k` iterations left. -/
def _to_csr_loop (indices : List Int) (dim nnz : Nat) :
    Nat → Nat → List Nat → Except Err (List Nat)
  | 0, _, csr => .ok csr
  | k + 1, i, csr =>
    let hp0 := indices.getD i 0
    let hp1 := if i + 1 = nnz then (dim : Int) else indices.getD (i + 1) 0
    match (if hp0 ≠ hp1 then csr_stamp (i + 1) (hp1 - hp0).toNat hp0 csr else .ok csr) with
    | .error e => .error e
    | .ok csr' => _to_csr_loop indices dim nnz k (i + 1) csr'

/-- `_to_csr` (lines 48-66): `indices` is the buffer of row coordinates the pointer argument
addresses, `dim` the number of rows. -/
def _to_csr (indices : List Int) (dim nnz : Nat) : Except Err (List Nat) :=
  let csr := List.replicate (dim + 1) 0
  if nnz > 0 then _to_csr_loop indices dim nnz nnz 0 csr else .ok csr

/-- Number of positions `i < nnz` whose row coordinate is below `h`. -/
def countBelow (indices : List Int) (nnz : Nat) (h : Int) : Nat :=
  (List.range nnz).countP (fun i => decide (indices.getD i 0 < h))

/-- Modelled from the spec: a `Scalar`, which holds either an integer or a floating-point
number. A double is represented by the rational it denotes. -/
inductive Scalar where
  | ofInt (v : Int)
  | ofDouble (v : Rat)
  deriving DecidableEq

/-- The scalar is the number zero. -/
def Scalar.isZero : Scalar → Bool
  | .ofInt v => v == 0
  | .ofDouble v => v == 0

/-- Modelled from the spec: `Scalar::toDouble`. The conversion of an integer may round, but
never turns a nonzero integer into zero; the integer's own value stands for the result. -/
def Scalar.toDouble : Scalar → Rat
  | .ofInt v => (v : Rat)
  | .ofDouble v => v

/-- `pow_out_sparse_scalar` (lines 135-152). The exponent check comes first and fails with
the output untouched; then the power of the coalesced operand's value view is written through
the views of `r`. A failure carries the output tensor as the call leaves it. `coalesce` and
the dense power primitive `pow_out` are not part of this file and are passed in. -/
def pow_out_sparse_scalar (coalesce : SparseTensor α → SparseTensor α)
    (pow_out : List (List α) → Scalar → List (List α))
    (r t_ : SparseTensor α) (value : Scalar) :
    Except (Err × SparseTensor α) (SparseTensor α) :=
  if ¬ (value.toDouble ≠ 0) then .error (.InvalidArgument, r)
  else
    let t := coalesce t_
    write_views r t (pow_out t._values value)

/-- Dense tensor: a contiguous row-major buffer with its sizes (storage offset 0). -/
structure Tensor (α : Type) where
  sizes : List Nat
  data : List α
  deriving DecidableEq, Repr

/-- `dim()`. -/
def Tensor.dim (t : Tensor α) : Nat := t.sizes.length

/-- `size(d)`. -/
def Tensor.size (t : Tensor α) (d : Nat) : Nat := t.sizes.getD d 0

/-- `stride(d)` of a contiguous tensor: the product of the sizes after dimension `d`. -/
def Tensor.stride (t : Tensor α) (d : Nat) : Nat := (t.sizes.drop (d + 1)).prod

/-- The buffer has one element per coordinate. -/
def Tensor.WellFormed (t : Tensor α) : Prop := t.data.length = t.sizes.prod

instance (t : Tensor α) : Decidable t.WellFormed := by
  unfold Tensor.WellFormed; infer_instance

/-- Modelled from the spec: `resize_` (resize-to-shape). The buffer keeps its leading elements
and is cut or extended to the new element count; new elements are modelled as 0. -/
def Tensor.resize_ [Zero α] (r : Tensor α) (sizes : List Nat) : Tensor α :=
  { sizes := sizes,
    data := (r.data ++ List.replicate (sizes.prod - r.data.length) 0).take sizes.prod }

/-- Modelled from the spec: `zero_` (zero-fill). -/
def Tensor.zero_ [Zero α] (r : Tensor α) : Tensor α :=
  { r with data := List.replicate r.data.length 0 }

/-- Modelled from the spec: `copy_` between contiguous tensors of the same element count. -/
def Tensor.copy_ (r src : Tensor α) : Tensor α :=
  { r with data := src.data }

/-- Modelled from the spec: the dense `at::mul_out(r, t, value)`: `r` takes `t`'s sizes and
the elementwise product. -/
def Tensor.mul_out [CommRing α] (_r t : Tensor α) (value : α) : Tensor α :=
  { sizes := t.sizes, data := t.data.map (fun x => x * value) }

/-- `size(d)` of a sparse tensor. -/
def SparseTensor.size (t : SparseTensor α) (d : Nat) : Nat := t.sizes.getD d 0

/-- The buffer `indices.data<int64_t>()` addresses: row 0 of the index matrix. -/
def rowIndices (indices : List (List Int)) : List Int := indices.map (fun c => c.getD 0 0)

/-- The inner loop of the accumulate-multiply worker (lines 548-559) for output row `h`:
`n` iterations from position `i`. An out-of-range column is a fatal fault, reported with the
buffer as it stands. -/
def addmm_row [CommRing α] (dim_j dim_k : Nat) (cast_alpha : α) (indices : List (List Int))
    (values : List (List α)) (dense : Tensor α) (r_stride0 r_stride1 h : Nat) :
    Nat → Nat → List α → Except (Err × List α) (List α)
  | 0, _, r => .ok r
  | n + 1, i, r =>
    let val := (values.getD i []).getD 0 0
    let col := accessor indices 1 i
    if col ≥ 0 ∧ col < dim_j then
      addmm_row dim_j dim_k cast_alpha indices values dense r_stride0 r_stride1 h n (i + 1)
        (THBlas_axpy dim_k (cast_alpha * val) dense.data (col.toNat * dense.stride 0)
          (dense.stride 1) r (h * r_stride0) r_stride1)
    else .error (.IndexOutOfBounds, r)

/-- The row loop of the worker (lines 545-560), rows in ascending order: `n` rows from `h`. -/
def addmm_rows [CommRing α] (dim_j dim_k : Nat) (cast_alpha : α) (csr : List Nat)
    (indices : List (List Int)) (values : List (List α)) (dense : Tensor α)
    (r_stride0 r_stride1 : Nat) : Nat → Nat → List α → Except (Err × List α) (List α)
  | 0, _, r => .ok r
  | n + 1, h, r =>
    let i_start := csr.getD h 0
    let i_end := csr.getD (h + 1) 0
    match addmm_row dim_j dim_k cast_alpha indices values dense r_stride0 r_stride1 h
        (i_end - i_start) i_start r with
    | .error e => .error e
    | .ok r' =>
      addmm_rows dim_j dim_k cast_alpha csr indices values dense r_stride0 r_stride1 n
        (h + 1) r'

/-- `s_addmm_out_sparse_dense_worker` (lines 516-561): seed `r` from `beta` and `t`, then scan
the rows. `r_is_t` is `isSameTensor(r, t)`. -/
def s_addmm_out_sparse_dense_worker [CommRing α] [DecidableEq α] (r_is_t : Bool)
    (_nnz dim_i dim_j dim_k : Nat) (r : Tensor α) (beta : α) (t : Tensor α) (alpha : α)
    (csr : List Nat) (indices : List (List Int)) (values : List (List α))
    (dense : Tensor α) : Except (Err × Tensor α) (Tensor α) :=
  let r1 :=
    if beta = 0 then r.zero_
    else if beta = 1 then (if ¬ (r_is_t = true) then r.copy_ t else r)
    else Tensor.mul_out r t beta
  match addmm_rows dim_j dim_k alpha csr indices values dense (r1.stride 0) (r1.stride 1)
      dim_i 0 r1.data with
  | .error (e, d) => .error (e, { r1 with data := d })
  | .ok d => .ok { r1 with data := d }

/-- `s_addmm_out_sparse_dense_cpu` (lines 563-611). The failure carries the output tensor as
the call leaves it. `coalesce` is not part of this file and is passed in; `r_is_t` is
`isSameTensor(r, t)`, in which case resizing `r` resizes `t`. -/
def s_addmm_out_sparse_dense_cpu [CommRing α] [DecidableEq α]
    (coalesce : SparseTensor α → SparseTensor α) (r_is_t : Bool) (r t : Tensor α)
    (sparse_ : SparseTensor α) (dense : Tensor α) (beta alpha : α) :
    Except (Err × Tensor α) (Tensor α) :=
  if sparse_.sparseDims ≠ 2 then .error (.ShapeMismatch, r)
  else if sparse_.denseDims ≠ 0 then .error (.ShapeMismatch, r)
  else if dense.dim ≠ 2 then .error (.ShapeMismatch, r)
  else
    let sparse := coalesce sparse_
    let dim_i := sparse.size 0
    let dim_j := sparse.size 1
    let dim_k := dense.size 1
    let r1 := r.resize_ [dim_i, dim_k]
    let t1 := if r_is_t then r1 else t
    if dense.size 0 ≠ dim_j then .error (.ShapeMismatch, r1)
    else if t1.size 0 ≠ dim_i then .error (.ShapeMismatch, r1)
    else if t1.size 1 ≠ dim_k then .error (.ShapeMismatch, r1)
    else
      let nnz := sparse.nnz
      if nnz = 0 then .ok (Tensor.mul_out r1 t1 beta)
      else
        match _to_csr (rowIndices sparse._indices) dim_i nnz with
        | .error e => .error (e, r1)
        | .ok csr =>
          s_addmm_out_sparse_dense_worker r_is_t nnz dim_i dim_j dim_k r1 beta t1 alpha csr
            sparse._indices sparse._values dense

/-- The sum, over the stored nonzeros `i` with row `h`, of `value[i] * dense[col[i]][k]`. -/
def rowDot [CommRing α] (sparse : SparseTensor α) (dense : Tensor α) (h k : Nat) : α :=
  (((List.range sparse.nnz).filter
      (fun i => decide (accessor sparse._indices 0 i = (h : Int)))).map
    (fun i => (sparse._values.getD i []).getD 0 0 *
      dense.data.getD ((accessor sparse._indices 1 i).toNat * dense.size 1 + k) 0)).sum

/-- The 2×2 sparse matrix `{(0,0): 1, (1,1): 2}`. -/
def exS : SparseTensor Int :=
  { sizes := [2, 2], sparseDims := 2, denseDims := 0, indices := [[0, 0], [1, 1]],
    values := [[1], [2]], nnz := 2, coalesced := true }

/-- The dense matrix `[[1, 2], [3, 4]]`. -/
def exD : Tensor Int := { sizes := [2, 2], data := [1, 2, 3, 4] }

/-- A dense 2×2 matrix used as the `t` operand. -/
def exT : Tensor Int := { sizes := [2, 2], data := [7, 7, 7, 7] }

/-- Modelled from the spec: a freshly constructed dense tensor, `t.type().tensor()`. -/
def Tensor.fresh : Tensor α := { sizes := [], data := [] }

/-- `zero_sparse_` (lines 75-93): indices and values are cut to zero length, nnz becomes 0 and
the tensor is flagged coalesced; the sizes are not touched. -/
def zero_sparse_ (self : SparseTensor α) : SparseTensor α :=
  { self with indices := [], values := [], nnz := 0, coalesced := true }

/-- Modelled from the spec: the dense `addcmul_` on one value block, `self[j] += t1[j] * t2[j]`
for every element of `self`. -/
def addcmul_ [CommRing α] (self t1 t2 : List α) : List α :=
  (List.range self.length).map (fun j => self.getD j 0 + t1.getD j 0 * t2.getD j 0)

/-- One iteration of the mul loops (lines 470-476 and 484-490) with `index_preamble` (lines
448-467) inlined: on a mismatch the cursor of the smaller coordinate advances and nothing is
written; on a match column `t_i` is copied to output column `r_i`, the product is written to
output row `r_i` (`addcmul_` when the values carry dense dimensions, a single element
otherwise) and all three cursors advance. -/
def mul_step [CommRing α] (sparseDims : Nat) (hybrid : Bool)
    (t_indices src_indices : List (List Int)) (t_values s_values : List (List α))
    (st : MergeState α) : Except Err (MergeState α) :=
  let c := cmp_loop (fun d => accessor t_indices d st.t_i)
    (fun d => accessor src_indices d st.s_i) sparseDims 0
  if c = 1 then .ok { st with t_i := st.t_i + 1 }
  else if c = -1 then .ok { st with s_i := st.s_i + 1 }
  else if st.r_i < st.r_indices.length ∧ st.r_i < st.r_values.length then
    .ok { t_i := st.t_i + 1, s_i := st.s_i + 1, r_i := st.r_i + 1,
          r_indices := st.r_indices.set st.r_i
            ((List.range sparseDims).map (fun d => accessor t_indices d st.t_i)),
          r_values := st.r_values.set st.r_i
            (if hybrid then
              addcmul_ (st.r_values.getD st.r_i []) (t_values.getD st.t_i [])
                (s_values.getD st.s_i [])
            else
              (st.r_values.getD st.r_i []).set 0
                ((t_values.getD st.t_i []).getD 0 0 * (s_values.getD st.s_i []).getD 0 0)) }
  else .error .OutOfBounds

/-- The loop `while (t_i < t_nnz && s_i < s_nnz)` of `s_mul_out_sparse_cpu`, on fuel. -/
def mul_loop [CommRing α] (sparseDims : Nat) (hybrid : Bool) (t_nnz s_nnz : Nat)
    (t_indices src_indices : List (List Int)) (t_values s_values : List (List α)) :
    Nat → MergeState α → Except Err (MergeState α)
  | 0, st => if st.t_i < t_nnz ∧ st.s_i < s_nnz then .error .Fuel else .ok st
  | fuel + 1, st =>
    if st.t_i < t_nnz ∧ st.s_i < s_nnz then
      match mul_step sparseDims hybrid t_indices src_indices t_values s_values st with
      | .error e => .error e
      | .ok st' =>
        mul_loop sparseDims hybrid t_nnz s_nnz t_indices src_indices t_values s_values fuel st'
    else .ok st

/-- `s_mul_out_sparse_cpu` (lines 415-499). `coalesce` is not part of this file and is passed
in. The sizes check fails with a shape mismatch before `r` is touched. After `r.resize_as_(src)`
(line 434), `set_indices_and_values` (line 435) takes the new buffers; modelled from the spec,
it checks them against the shape `r` now has, `src`'s: the index buffer has `src`'s
`sparseDims` rows, the value buffer has the dimensions of `t`'s value view, one more than
`t`'s `denseDims`, where one more than `src`'s is required, so operands of different
sparse/dense split fail here with a shape mismatch, `r` resized and its buffers untouched.
The loop then runs on the coalesced operands with `min t.nnz src.nnz` output slots. -/
def s_mul_out_sparse_cpu [CommRing α] (coalesce : SparseTensor α → SparseTensor α)
    (r t_ src_ : SparseTensor α) : Except (Err × SparseTensor α) (SparseTensor α) :=
  if t_.sizes ≠ src_.sizes then .error (.ShapeMismatch, r)
  else if src_.nnz = 0 ∨ t_.nnz = 0 then .ok (zero_sparse_ r)
  else
    let t := coalesce t_
    let src := coalesce src_
    let t_nnz := t.nnz
    let s_nnz := src.nnz
    let max_nnz := min t_nnz s_nnz
    let sparseDims := src.sparseDims
    let r_indices := List.replicate max_nnz (List.replicate sparseDims (0 : Int))
    let r_values := List.replicate max_nnz (List.replicate t.blockSize (0 : α))
    if t.denseDims + 1 ≠ src.denseDims + 1 then
      .error (.ShapeMismatch,
        { r with sizes := src.sizes, sparseDims := src.sparseDims,
                 denseDims := src.denseDims })
    else
      let r1 : SparseTensor α :=
        { sizes := src.sizes, sparseDims := src.sparseDims, denseDims := src.denseDims,
          indices := r_indices, values := r_values, nnz := max_nnz,
          coalesced := r.coalesced }
      match mul_loop sparseDims (decide (t.denseDims + 1 > 1)) t_nnz s_nnz t._indices
          src._indices t._values src._values (t_nnz + s_nnz)
          { t_i := 0, s_i := 0, r_i := 0, r_indices := r_indices, r_values := r_values } with
      | .error e => .error (e, r1)
      | .ok st =>
        .ok { r1 with indices := st.r_indices, values := st.r_values, nnz := st.r_i,
                      coalesced := true }

/-- Functional description of the mul merge on entry lists: a smaller head is dropped, equal
heads give one output entry with the product block. The loop is shown to compute it. -/
def mergeMul [CommRing α] (hybrid : Bool) (bs : Nat) :
    List (List Int × List α) → List (List Int × List α) → List (List Int × List α)
  | [], _ => []
  | _ :: _, [] => []
  | t :: ts, s :: ss =>
    if tupleLt t.1 s.1 = true then mergeMul hybrid bs ts (s :: ss)
    else if tupleLt s.1 t.1 = true then mergeMul hybrid bs (t :: ts) ss
    else
      (t.1, if hybrid then addcmul_ (List.replicate bs 0) t.2 s.2
            else (List.replicate bs (0 : α)).set 0 (t.2.getD 0 0 * s.2.getD 0 0)) ::
        mergeMul hybrid bs ts ss
termination_by ts ss => ts.length + ss.length

/-- The 1-D tensor `{(0): 2, (2): 3}` of length 4. -/
def exMulA : SparseTensor Int :=
  { sizes := [4], sparseDims := 1, denseDims := 0, indices := [[0], [2]],
    values := [[2], [3]], nnz := 2, coalesced := true }

/-- The 1-D tensor `{(0): 4, (1): 9}` of length 4. -/
def exMulB : SparseTensor Int :=
  { sizes := [4], sparseDims := 1, denseDims := 0, indices := [[0], [1]],
    values := [[4], [9]], nnz := 2, coalesced := true }

/-- A 4×4 tensor with two sparse dimensions storing `{(0,1): 2}`. -/
def exMixT : SparseTensor Int :=
  { sizes := [4, 4], sparseDims := 2, denseDims := 0, indices := [[0, 1]], values := [[2]],
    nnz := 1, coalesced := true }

/-- A 4×4 tensor with one sparse and one dense dimension storing the row `{(0): [4,4,4,4]}`. -/
def exMixS : SparseTensor Int :=
  { sizes := [4, 4], sparseDims := 1, denseDims := 1, indices := [[0]],
    values := [[4, 4, 4, 4]], nnz := 1, coalesced := true }

/-- The loop `for (d = 0; d < sparseDims; d++) index += r.stride(d) * indices[d][k]` of
`add_dense_sparse_worker_cpu` (lines 329-331): `n` dimensions from `d`. -/
def flat_index_loop (r : Tensor α) (indices : List (List Int)) (k : Nat) :
    Nat → Nat → Int → Int
  | 0, _, index => index
  | n + 1, d, index =>
    flat_index_loop r indices k n (d + 1) (index + (r.stride d : Int) * accessor indices d k)

/-- The flat storage offset the worker computes for nonzero `k` (storage offset 0). -/
def flat_index (r : Tensor α) (sparseDims : Nat) (indices : List (List Int)) (k : Nat) : Int :=
  flat_index_loop r indices k sparseDims 0 0

/-- The loop over the nonzeros of `add_dense_sparse_worker_cpu` (lines 327-333), in index
order: `n` nonzeros from `k`. A computed offset outside the buffer is a fault. -/
def add_dense_sparse_worker_loop [CommRing α] (r : Tensor α) (cast_value : α)
    (sparseDims : Nat) (indices : List (List Int)) (values : List (List α)) :
    Nat → Nat → List α → Except Err (List α)
  | 0, _, data => .ok data
  | n + 1, k, data =>
    let index := flat_index r sparseDims indices k
    if 0 ≤ index ∧ index.toNat < data.length then
      add_dense_sparse_worker_loop r cast_value sparseDims indices values n (k + 1)
        (data.set index.toNat
          (data.getD index.toNat 0 + cast_value * (values.getD k []).getD 0 0))
    else .error .OutOfBounds

/-- `add_dense_sparse_worker_cpu` (lines 316-334). -/
def add_dense_sparse_worker_cpu [CommRing α] (r : Tensor α) (value : α)
    (sparse : SparseTensor α) (indices : List (List Int)) (values : List (List α)) :
    Except Err (Tensor α) :=
  match add_dense_sparse_worker_loop r value sparse.sparseDims indices values sparse.nnz 0
      r.data with
  | .error e => .error e
  | .ok data => .ok { r with data := data }

/-- A view into a contiguous buffer: the storage offset and the sizes of the sub-tensor. -/
structure View where
  offset : Nat
  sizes : List Nat
  deriving DecidableEq, Repr

/-- Modelled from the spec: `select(0, index)`, the sub-tensor selection by leading index;
an index outside the leading dimension is an index fault. -/
def View.select (v : View) (index : Int) : Except Err View :=
  match v.sizes with
  | [] => .error .IndexOutOfBounds
  | n :: rest =>
    if 0 ≤ index ∧ index < n then
      .ok { offset := v.offset + index.toNat * rest.prod, sizes := rest }
    else .error .IndexOutOfBounds

/-- The loop `for (d ...) dstBuffer = dstBuffer.select(0, indices[d][k])` (lines 358-360):
`n` selections from dimension `d`. -/
def select_loop (indices : List (List Int)) (k : Nat) : Nat → Nat → View → Except Err View
  | 0, _, v => .ok v
  | n + 1, d, v =>
    match v.select (accessor indices d k) with
    | .error e => .error e
    | .ok v' => select_loop indices k n (d + 1) v'

/-- Modelled from the spec: the dense `add_(src, value)` on a view, `dst[j] += value * src[j]`
over the elements of the view. -/
def View.add_ [CommRing α] (v : View) (data : List α) (src : List α) (value : α) : List α :=
  THBlas_axpy v.sizes.prod value src 0 1 data v.offset 1

/-- The loop over the nonzeros on the path `nDim > nDimI` (lines 356-363): `n` nonzeros
from `k`. -/
def add_dense_sparse_hybrid_loop [CommRing α] (sizes : List Nat) (value : α)
    (sparseDims : Nat) (indices : List (List Int)) (values : List (List α)) :
    Nat → Nat → List α → Except Err (List α)
  | 0, _, data => .ok data
  | n + 1, k, data =>
    match select_loop indices k sparseDims 0 { offset := 0, sizes := sizes } with
    | .error e => .error e
    | .ok dstBuffer =>
      add_dense_sparse_hybrid_loop sizes value sparseDims indices values n (k + 1)
        (dstBuffer.add_ data (values.getD k []) value)

/-- `add_out_dense_sparse_cpu` (lines 336-371). `same` is `isSameTensor(r, dense)`;
`coalesce` is not part of this file and is passed in. A failure carries the output tensor
as resized and filled from `dense`. -/
def add_out_dense_sparse_cpu [CommRing α] (coalesce : SparseTensor α → SparseTensor α)
    (same : Bool) (r dense : Tensor α) (sparse_ : SparseTensor α) (value : α) :
    Except (Err × Tensor α) (Tensor α) :=
  let r0 := r.resize_ dense.sizes
  let sparse := coalesce sparse_
  let indices := sparse._indices
  let values := sparse._values
  let nDim := dense.dim
  let nDimI := sparse.sparseDims
  let r1 := if ¬ (same = true) then r0.copy_ dense else r0
  if sparse.nnz = 0 then .ok r1
  else if nDim > nDimI then
    match add_dense_sparse_hybrid_loop r1.sizes value sparse.sparseDims indices values
        sparse.nnz 0 r1.data with
    | .error e => .error (e, r1)
    | .ok data => .ok { r1 with data := data }
  else
    match add_dense_sparse_worker_cpu r1 value sparse indices values with
    | .error e => .error (e, r1)
    | .ok r2 => .ok r2

/-- Row-major offset of a coordinate prefix in a contiguous tensor of the given sizes: the
sum of `coord[d] * stride(d)`. -/
def offsetOf : List Nat → List Int → Int
  | [], _ => 0
  | _ :: _, [] => 0
  | _ :: rest, c :: cs => c * (rest.prod : Int) + offsetOf rest cs

/-- The coordinate prefix lies within the leading sizes: `0 ≤ coord[d] < sizes[d]`. -/
def InRange : List Nat → List Int → Prop
  | _, [] => True
  | [], _ :: _ => False
  | n :: rest, c :: cs => (0 ≤ c ∧ c < n) ∧ InRange rest cs

instance InRange.decidable : ∀ (sizes : List Nat) (coord : List Int),
    Decidable (InRange sizes coord)
  | [], [] => isTrue (by simp [InRange])
  | _ :: _, [] => isTrue (by simp [InRange])
  | [], _ :: _ => isFalse (by simp [InRange])
  | n :: rest, c :: cs =>
    have := InRange.decidable rest cs
    (inferInstance : Decidable ((0 ≤ c ∧ c < n) ∧ InRange rest cs))

/-- The per-nonzero updates of dense += sparse as one fold: for the nonzeros `k, k+1, ...`
(`n` of them) accumulate `alpha * values[k]` into the `bs` elements at offset `base k`. Both
loops are shown to compute it. -/
def accumBlocks [CommRing α] (bs : Nat) (alpha : α) (values : List (List α))
    (base : Nat → Nat) : Nat → Nat → List α → List α
  | 0, _, data => data
  | n + 1, k, data =>
    accumBlocks bs alpha values base n (k + 1)
      (THBlas_axpy bs alpha (values.getD k []) 0 1 data (base k) 1)

/-- A 2×2 tensor with one sparse and one dense dimension storing the row `{(1): [5, 6]}`. -/
def exHyb : SparseTensor Int :=
  { sizes := [2, 2], sparseDims := 1, denseDims := 1, indices := [[1]], values := [[5, 6]],
    nnz := 1, coalesced := true }

/-- Modelled from the spec: `sparse_raw_resize_(size, sparseDims, denseDims)`, which sets the
sizes and the sparse/dense split of a sparse tensor and leaves its storage alone. -/
def SparseTensor.sparse_raw_resize_ (r : SparseTensor α) (sizes : List Nat)
    (sparseDims denseDims : Nat) : SparseTensor α :=
  { r with sizes := sizes, sparseDims := sparseDims, denseDims := denseDims }

/-- The inner loop of `_sspaddmm_out_cpu` (lines 782-793) for one row: `n` iterations from
position `i`, each accumulating `alpha * val * dense[col]` into the `dim_k` values at offset
`p` of `newv` (`newv_stride0` is 1). An out-of-range column is an index fault; a write
beyond `newv` is reported as out of bounds. -/
def sspaddmm_row [CommRing α] (dim_j dim_k : Nat) (cast_alpha : α) (indices : List (List Int))
    (values : List (List α)) (dense : Tensor α) (p : Nat) :
    Nat → Nat → List α → Except Err (List α)
  | 0, _, newv => .ok newv
  | n + 1, i, newv =>
    let val := (values.getD i []).getD 0 0
    let col := accessor indices 1 i
    if col ≥ 0 ∧ col < dim_j then
      if p + dim_k ≤ newv.length then
        sspaddmm_row dim_j dim_k cast_alpha indices values dense p n (i + 1)
          (THBlas_axpy dim_k (cast_alpha * val) dense.data (col.toNat * dense.stride 0)
            (dense.stride 1) newv p 1)
      else .error .OutOfBounds
    else .error .IndexOutOfBounds

/-- The index fill of `_sspaddmm_out_cpu` (lines 796-799): `n` iterations from `i`, each
writing the coordinate `(h, i)` to column `p + i` of `newi`. -/
def sspaddmm_fill (h p : Nat) : Nat → Nat → List (List Int) → Except Err (List (List Int))
  | 0, _, newi => .ok newi
  | n + 1, i, newi =>
    if p + i < newi.length then
      sspaddmm_fill h p n (i + 1) (newi.set (p + i) [(h : Int), (i : Int)])
    else .error .OutOfBounds

/-- The row loop of `_sspaddmm_out_cpu` (lines 779-802): `n` rows from `h`, threading the
output position `p` and the two output buffers. -/
def sspaddmm_rows [CommRing α] (dim_j dim_k : Nat) (cast_alpha : α) (csr : List Nat)
    (indices : List (List Int)) (values : List (List α)) (dense : Tensor α) :
    Nat → Nat → Nat → List (List Int) → List α →
      Except Err (Nat × List (List Int) × List α)
  | 0, _, p, newi, newv => .ok (p, newi, newv)
  | n + 1, h, p, newi, newv =>
    let i_start := csr.getD h 0
    let i_end := csr.getD (h + 1) 0
    match sspaddmm_row dim_j dim_k cast_alpha indices values dense p (i_end - i_start)
        i_start newv with
    | .error e => .error e
    | .ok newv' =>
      if i_start ≠ i_end then
        match sspaddmm_fill h p dim_k 0 newi with
        | .error e => .error e
        | .ok newi' =>
          sspaddmm_rows dim_j dim_k cast_alpha csr indices values dense n (h + 1)
            (p + dim_k) newi' newv'
      else
        sspaddmm_rows dim_j dim_k cast_alpha csr indices values dense n (h + 1) p newi newv'

/-- The output index buffer of `_sspaddmm_out_cpu` before the row loop (lines 749-756):
`r_nnz` columns, the first `t_nnz` copied from `t`'s index view (the rest, uninitialised in
the source, modelled as zero). -/
def sspaddmm_newi (t_indices : List (List Int)) (t_nnz r_nnz : Nat) : List (List Int) :=
  (List.range r_nnz).map
    (fun k => if t_nnz ≠ 0 ∧ k < t_nnz then readColumn 2 t_indices k else [0, 0])

/-- The output value buffer of `_sspaddmm_out_cpu` before the row loop (lines 750-758):
`r_nnz` zeros, the first `t_nnz` copied from `t`'s value view, then all scaled by `beta`;
left as zeros when `t_nnz` is 0. -/
def sspaddmm_newv [CommRing α] (t_values : List (List α)) (beta : α) (t_nnz r_nnz : Nat) :
    List α :=
  if t_nnz ≠ 0 then
    ((List.range r_nnz).map
      (fun k => if k < t_nnz then (t_values.getD k []).getD 0 0 else 0)).map
      (fun x => x * beta)
  else List.replicate r_nnz 0

/-- `_sspaddmm_out_cpu` (lines 710-812). A failure carries the output tensor as the call
leaves it. `coalesce` is not part of this file and is passed in; `r_is_t` is
`isSameTensor(r, t)`, in which case resizing `r` resizes `t`. The 1-D value buffer becomes
the value rows of the result, one scalar per row. -/
def _sspaddmm_out_cpu [CommRing α] (coalesce : SparseTensor α → SparseTensor α)
    (r_is_t : Bool) (r t sparse_ : SparseTensor α) (dense : Tensor α) (beta alpha : α) :
    Except (Err × SparseTensor α) (SparseTensor α) :=
  if sparse_.sparseDims ≠ 2 then .error (.ShapeMismatch, r)
  else if sparse_.denseDims ≠ 0 then .error (.ShapeMismatch, r)
  else if dense.dim ≠ 2 then .error (.ShapeMismatch, r)
  else
    let sparse := coalesce sparse_
    let dim_i := sparse.size 0
    let dim_j := sparse.size 1
    let dim_k := dense.size 1
    let r1 := r.sparse_raw_resize_ [dim_i, dim_k] 2 0
    let t1 := if r_is_t then r1 else t
    if dense.size 0 ≠ dim_j then .error (.ShapeMismatch, r1)
    else if t1.size 0 ≠ dim_i then .error (.ShapeMismatch, r1)
    else if t1.size 1 ≠ dim_k then .error (.ShapeMismatch, r1)
    else
      let nnz := sparse.nnz
      let indices := sparse._indices
      let values := sparse._values
      match _to_csr (rowIndices indices) dim_i nnz with
      | .error e => .error (e, r1)
      | .ok csr =>
        let t_nnz := t1.nnz
        let r_nnz := nnz * dim_k + t_nnz
        let newi := sspaddmm_newi t1._indices t_nnz r_nnz
        let newv := sspaddmm_newv t1._values beta t_nnz r_nnz
        match sspaddmm_rows dim_j dim_k alpha csr indices values dense dim_i 0 t_nnz
            newi newv with
        | .error e => .error (e, r1)
        | .ok (p, newi', newv') =>
          .ok { r1 with indices := newi', values := newv'.map (fun v => [v]), nnz := p }

/-- The 2×2 sparse matrix `{(0,1): 5}`. -/
def exSpT : SparseTensor Int :=
  { sizes := [2, 2], sparseDims := 2, denseDims := 0, indices := [[0, 1]], values := [[5]],
    nnz := 1, coalesced := true }

/-- A dense 3×2 matrix, whose row count does not match the columns of `exS`. -/
def exD3 : Tensor Int := { sizes := [3, 2], data := [1, 2, 3, 4, 5, 6] }

/-- The empty 4×4 tensor with one sparse and one dense dimension. -/
def exMixZ : SparseTensor Int :=
  { sizes := [4, 4], sparseDims := 1, denseDims := 1, indices := [], values := [],
    nnz := 0, coalesced := true }

/-- The 2×2 sparse matrix storing `1` at `(0,0)` and `2` at `(1,5)`: the second column
coordinate lies outside the matrix. -/
def exSbad : SparseTensor Int :=
  { sizes := [2, 2], sparseDims := 2, denseDims := 0, indices := [[0, 0], [1, 5]],
    values := [[1], [2]], nnz := 2, coalesced := true }

/-- Number of distinct row values among the first `nnz` stored coordinates. -/
def distinctRows (indices : List (List Int)) (nnz : Nat) : Nat :=
  ((List.range nnz).map (fun i => accessor indices 0 i)).dedup.length

/-- Whether one of the first `nnz` stored coordinates has row `h`. -/
def rowHasEntry (indices : List (List Int)) (nnz h : Nat) : Bool :=
  (List.range nnz).any (fun i => decide (accessor indices 0 i = (h : Int)))

/-- Number of rows below `h` in which a nonzero is stored. -/
def rowsBefore (indices : List (List Int)) (nnz h : Nat) : Nat :=
  (List.range h).countP (rowHasEntry indices nnz)

/-- Number of rows among `h, ..., h + n - 1` whose two row offsets differ, the test
`i_start != i_end` of `_sspaddmm_out_cpu`. -/
def csrRowCount (csr : List Nat) (h n : Nat) : Nat :=
  (List.range' h n).countP (fun h' => decide (csr.getD h' 0 ≠ csr.getD (h' + 1) 0))

/-- Modelled from the spec: the dense out-of-place divide by a scalar, `at::div_out`, on a
values buffer of an integer element type: every element is divided by the scalar, the
quotient truncated towards zero. -/
def at_div_out (values : List (List Int)) (value : Int) : List (List Int) :=
  values.map (fun b => b.map (fun x => Int.tdiv x value))

/-- `div_out_sparse_scalar` (lines 164-180) over an integer element type. `same` is
`isSameTensor(r, t)`; when it holds the first `nnz` value rows of `r` are divided in place,
otherwise `r` takes `t`'s shape and, through its views, a copy of `t`'s index view and the
quotient of `t`'s value view. A failure carries the output tensor as the call leaves it. -/
def div_out_sparse_scalar (same : Bool) (r t : SparseTensor Int) (value : Int) :
    Except (Err × SparseTensor Int) (SparseTensor Int) :=
  if same then
    .ok { r with values := at_div_out (r.values.take r.nnz) value ++ r.values.drop r.nnz }
  else write_views r t (at_div_out t._values value)

/-- The uncoalesced 1-D tensor of length 4 storing `1` twice at coordinate `(0)`: its logical
value there is `2`. -/
def exDup : SparseTensor Int :=
  { sizes := [4], sparseDims := 1, denseDims := 0, indices := [[0], [0]],
    values := [[1], [1]], nnz := 2, coalesced := false }

/-- The uncoalesced 1-D tensor `{(1): 3, (1): 4, (0): 1}` of length 4. -/
def exUnT : SparseTensor Int :=
  { sizes := [4], sparseDims := 1, denseDims := 0, indices := [[1], [1], [0]],
    values := [[3], [4], [1]], nnz := 3, coalesced := false }

/-- The uncoalesced 1-D tensor `{(1): 2, (0): 5}` of length 4. -/
def exUnS : SparseTensor Int :=
  { sizes := [4], sparseDims := 1, denseDims := 0, indices := [[1], [0]],
    values := [[2], [5]], nnz := 2, coalesced := false }

/-- The contribution to output slot `q`, at block position `i`, of the first `n` value
blocks of an operand under a slot map `f`: the sum of the blocks `p` with `f p = q`. -/
def slotSum [CommRing α] (f : Nat → Nat) (vals : List (List α)) (n q i : Nat) : α :=
  (((List.range n).filter (fun p => decide (f p = q))).map
    (fun p => (vals.getD p []).getD i 0)).sum

/-- Faults of the handle model: use of a handle outside its lifetime, and access to an impl
that has been deleted. -/
inductive RErr where
  | DeadHandle
  | UseAfterFree
  deriving DecidableEq, Repr

/-- The objects of `Retainable.h`: the impls (`RetainableImpl`, addressed by number) with
their `refcount_` and whether they have been deleted, and the handles (`Retainable`, numbered
in order of construction) with their `pImpl`; a handle whose lifetime has ended holds
`none`. -/
structure RState where
  refcount : List Int
  deleted : List Bool
  handles : List (Option Nat)
  deriving DecidableEq, Repr

/-- `NullType::singleton()`: the impl at address 0. -/
def NullType.singleton : Nat := 0

/-- The field `pImpl` of a live handle. -/
def RState.pImpl (s : RState) (self : Nat) : Except RErr Nat :=
  match s.handles.getD self none with
  | none => .error .DeadHandle
  | some p => .ok p

/-- Assignment to the field `pImpl` of a handle. -/
def RState.setPImpl (s : RState) (self p : Nat) : RState :=
  { s with handles := s.handles.set self (some p) }

/-- `retain()` (lines 28-31). -/
def Retainable.retain (s : RState) (self : Nat) : Except RErr RState :=
  match s.pImpl self with
  | .error e => .error e
  | .ok p =>
    if p = NullType.singleton then .ok s
    else if s.deleted.getD p true = true then .error .UseAfterFree
    else .ok { s with refcount := s.refcount.set p (s.refcount.getD p 0 + 1) }

/-- `release()` (lines 33-38): the impl is deleted when its count drops to zero. -/
def Retainable.release (s : RState) (self : Nat) : Except RErr RState :=
  match s.pImpl self with
  | .error e => .error e
  | .ok p =>
    if p = NullType.singleton then .ok s
    else if s.deleted.getD p true = true then .error .UseAfterFree
    else
      let s1 := { s with refcount := s.refcount.set p (s.refcount.getD p 0 - 1) }
      if s1.refcount.getD p 0 = 0 then .ok { s1 with deleted := s1.deleted.set p true }
      else .ok s1

/-- The default constructor `Retainable()` (line 42): the new handle and the state. -/
def Retainable.mk_default (s : RState) : RState × Nat :=
  ({ s with handles := s.handles ++ [some NullType.singleton] }, s.handles.length)

/-- The copy constructor `Retainable(const T &rhs)` (lines 47-52). -/
def Retainable.mk_copy (s : RState) (rhs : Nat) : Except RErr (RState × Nat) :=
  match s.pImpl rhs with
  | .error e => .error e
  | .ok p =>
    let self := s.handles.length
    let s1 := { s with handles := s.handles ++ [some p] }
    if p ≠ NullType.singleton then
      match Retainable.retain s1 self with
      | .error e => .error e
      | .ok s2 => .ok (s2, self)
    else .ok (s1, self)

/-- The move constructor `Retainable(T &&rhs)` (lines 54-57). -/
def Retainable.mk_move (s : RState) (rhs : Nat) : Except RErr (RState × Nat) :=
  match s.pImpl rhs with
  | .error e => .error e
  | .ok p =>
    let self := s.handles.length
    let s1 := { s with handles := s.handles ++ [some p] }
    .ok (s1.setPImpl rhs NullType.singleton, self)

/-- The destructor `~Retainable()` (lines 60-64); the lifetime of the handle ends. -/
def Retainable.destroy (s : RState) (self : Nat) : Except RErr RState :=
  match s.pImpl self with
  | .error e => .error e
  | .ok p =>
    match (if p ≠ NullType.singleton then Retainable.release s self else .ok s) with
    | .error e => .error e
    | .ok s1 => .ok { s1 with handles := s1.handles.set self none }

/-- `swap(T &rhs)` (lines 97-101). -/
def Retainable.swap (s : RState) (self rhs : Nat) : Except RErr RState :=
  match s.pImpl self with
  | .error e => .error e
  | .ok tmp =>
    match s.pImpl rhs with
    | .error e => .error e
    | .ok q => .ok ((s.setPImpl self q).setPImpl rhs tmp)

/-- Move assignment `operator=(T &&rhs)` (lines 78-83): `rhs.swap(*this)`. -/
def Retainable.move_assign (s : RState) (self rhs : Nat) : Except RErr RState :=
  Retainable.swap s rhs self

/-- Copy assignment `operator=(T const &rhs)` (lines 85-91): `T(rhs).swap(*this)`, the
temporary being destroyed at the end of the statement. -/
def Retainable.copy_assign (s : RState) (self rhs : Nat) : Except RErr RState :=
  match Retainable.mk_copy s rhs with
  | .error e => .error e
  | .ok (s1, tmp) =>
    match Retainable.swap s1 tmp self with
    | .error e => .error e
    | .ok s2 => Retainable.destroy s2 tmp

/-- `reset()` (lines 93-95): `T().swap(*this)`, the temporary being destroyed at the end of
the statement. -/
def Retainable.reset (s : RState) (self : Nat) : Except RErr RState :=
  match Retainable.swap (Retainable.mk_default s).1 (Retainable.mk_default s).2 self with
  | .error e => .error e
  | .ok s2 => Retainable.destroy s2 (Retainable.mk_default s).2

/-- `defined()` (lines 104-106). -/
def Retainable.defined (s : RState) (self : Nat) : Except RErr Bool :=
  match s.pImpl self with
  | .error e => .error e
  | .ok p => .ok (decide (p ≠ NullType.singleton))

/-- The operations on handles a program can perform. -/
inductive ROp where
  | default_ctor
  | copy_ctor (rhs : Nat)
  | move_ctor (rhs : Nat)
  | copy_assign (self rhs : Nat)
  | move_assign (self rhs : Nat)
  | swap (self rhs : Nat)
  | reset (self : Nat)
  | destroy (self : Nat)
  deriving DecidableEq, Repr

/-- One operation. -/
def ROp.apply (s : RState) : ROp → Except RErr RState
  | .default_ctor => .ok (Retainable.mk_default s).1
  | .copy_ctor rhs =>
    match Retainable.mk_copy s rhs with
    | .error e => .error e
    | .ok (s1, _) => .ok s1
  | .move_ctor rhs =>
    match Retainable.mk_move s rhs with
    | .error e => .error e
    | .ok (s1, _) => .ok s1
  | .copy_assign self rhs => Retainable.copy_assign s self rhs
  | .move_assign self rhs => Retainable.move_assign s self rhs
  | .swap self rhs => Retainable.swap s self rhs
  | .reset self => Retainable.reset s self
  | .destroy self => Retainable.destroy s self

/-- A sequence of operations, in order. -/
def ROp.run (s : RState) : List ROp → Except RErr RState
  | [] => .ok s
  | op :: ops =>
    match op.apply s with
    | .error e => .error e
    | .ok s1 => ROp.run s1 ops

/-- The handle arguments of an operation are within their lifetime. -/
def ROp.Live (s : RState) : ROp → Prop
  | .default_ctor => True
  | .copy_ctor rhs => s.handles.getD rhs none ≠ none
  | .move_ctor rhs => s.handles.getD rhs none ≠ none
  | .copy_assign self rhs => s.handles.getD self none ≠ none ∧ s.handles.getD rhs none ≠ none
  | .move_assign self rhs => s.handles.getD self none ≠ none ∧ s.handles.getD rhs none ≠ none
  | .swap self rhs => s.handles.getD self none ≠ none ∧ s.handles.getD rhs none ≠ none
  | .reset self => s.handles.getD self none ≠ none
  | .destroy self => s.handles.getD self none ≠ none

/-- Number of live handles holding impl `p`. -/
def RState.holders (s : RState) (p : Nat) : Nat := s.handles.count (some p)

/-- The pointers held by handles address impls of the heap, which contains the singleton. -/
def RState.Valid (s : RState) : Prop :=
  s.deleted.length = s.refcount.length ∧ 0 < s.refcount.length ∧
  (∀ h ∈ s.handles, ∀ p ∈ h, p < s.refcount.length) ∧
  s.deleted.getD NullType.singleton true = false

/-- The refcount invariant: a non-singleton impl is deleted exactly when no live handle holds
it, and the refcount of an impl that is not deleted is the number of live handles holding
it. -/
def RState.Inv (s : RState) : Prop :=
  s.Valid ∧
  ∀ p, p < s.refcount.length → p ≠ NullType.singleton →
    (s.deleted.getD p true = true ↔ s.holders p = 0) ∧
    (s.deleted.getD p true = false → s.refcount.getD p 0 = (s.holders p : Int))

/-- Every non-singleton impl has been adopted by exactly one handle and has refcount 1. -/
def RState.Adopted (s : RState) : Prop :=
  s.Valid ∧
  ∀ p, p < s.refcount.length → p ≠ NullType.singleton →
    s.deleted.getD p true = false ∧ s.refcount.getD p 0 = 1 ∧ s.holders p = 1

instance (s : RState) : Decidable s.Valid := by
  unfold RState.Valid; infer_instance

instance (s : RState) : Decidable s.Inv := by
  unfold RState.Inv; infer_instance

instance (s : RState) : Decidable s.Adopted := by
  unfold RState.Adopted; infer_instance

instance (s : RState) (op : ROp) : Decidable (op.Live s) := by
  cases op <;> unfold ROp.Live <;> infer_instance

/-- Two impls adopted by one handle each: handle 0 holds impl 1, handle 1 holds impl 2. -/
def exHeap : RState :=
  { refcount := [7, 1, 1], deleted := [false, false, false], handles := [some 1, some 2] }

/-- The body of the loop of `_to_csr` (lines 58-62) at loop index `i`. -/
def _to_csr_body (indices : List Int) (dim nnz i : Nat) (csr : List Nat) :
    Except Err (List Nat) :=
  let hp0 := indices.getD i 0
  let hp1 := if i + 1 = nnz then (dim : Int) else indices.getD (i + 1) 0
  if hp0 ≠ hp1 then csr_stamp (i + 1) (hp1 - hp0).toNat hp0 csr else .ok csr

/-- The loop of `_to_csr` with its body executed for the loop indices in the given order, a
schedule of the parallel loop. -/
def _to_csr_schedule (indices : List Int) (dim nnz : Nat) :
    List Nat → List Nat → Except Err (List Nat)
  | [], csr => .ok csr
  | i :: rest, csr =>
    match _to_csr_body indices dim nnz i csr with
    | .error e => .error e
    | .ok csr' => _to_csr_schedule indices dim nnz rest csr'

/-- Loop index `i` of `_to_csr` writes slot `j` of `csr`: `j = h + 1` for a row `h` with
`indices[i] ≤ h < hp1`, where `hp1` is `indices[i+1]`, or `dim` at the last index. -/
def csrWrites (indices : List Int) (dim nnz i j : Nat) : Prop :=
  indices.getD i 0 < (j : Int) ∧
    (j : Int) ≤ (if i + 1 = nnz then (dim : Int) else indices.getD (i + 1) 0)

instance (indices : List Int) (dim nnz i j : Nat) : Decidable (csrWrites indices dim nnz i j) := by
  unfold csrWrites; infer_instance

/-- The body of the loop over the nonzeros of `add_dense_sparse_worker_cpu` (lines 328-332)
at nonzero `k`. A computed offset outside the buffer is a fault. -/
def add_dense_sparse_worker_body [CommRing α] (r : Tensor α) (cast_value : α)
    (sparseDims : Nat) (indices : List (List Int)) (values : List (List α)) (k : Nat)
    (data : List α) : Except Err (List α) :=
  let index := flat_index r sparseDims indices k
  if 0 ≤ index ∧ index.toNat < data.length then
    .ok (data.set index.toNat
      (data.getD index.toNat 0 + cast_value * (values.getD k []).getD 0 0))
  else .error .OutOfBounds

/-- The loop over the nonzeros of `add_dense_sparse_worker_cpu` with its body executed for
the nonzeros in the given order, a schedule of the parallel loop. -/
def add_dense_sparse_worker_schedule [CommRing α] (r : Tensor α) (cast_value : α)
    (sparseDims : Nat) (indices : List (List Int)) (values : List (List α)) :
    List Nat → List α → Except Err (List α)
  | [], data => .ok data
  | k :: rest, data =>
    match add_dense_sparse_worker_body r cast_value sparseDims indices values k data with
    | .error e => .error e
    | .ok data' =>
      add_dense_sparse_worker_schedule r cast_value sparseDims indices values rest data'

/-- The compaction loop of `hspmm_out_sparse_cpu` (lines 679-687): `n` iterations from `j`.
`indices` is the single row of the output index tensor, `valueIndices` the row-coordinate
view of the cloned operand's index tensor. A write outside either buffer is a fault. -/
def hspmm_compact_loop :
    Nat → Nat → Int → Int → List Int → List Int → Except Err (Int × List Int × List Int)
  | 0, _, i, _, indices, valueIndices => .ok (i, indices, valueIndices)
  | n + 1, j, i, prevIdx, indices, valueIndices =>
    let currIdx := valueIndices.getD j 0
    if j < valueIndices.length then
      if currIdx ≠ prevIdx then
        if 0 ≤ i + 1 ∧ (i + 1).toNat < indices.length then
          hspmm_compact_loop n (j + 1) (i + 1) currIdx
            (indices.set (i + 1).toNat currIdx) (valueIndices.set j (i + 1))
        else .error .OutOfBounds
      else hspmm_compact_loop n (j + 1) i prevIdx indices (valueIndices.set j i)
    else .error .OutOfBounds

/-- The clone `newSparse` of the coalesced operand (lines 671-673, 691) once the loop has
rewritten its row coordinates to `valueIndices` through the aliasing row view, with its
first size set to `outNnz`. -/
def hspmm_newSparse (sparse : SparseTensor α) (outNnz : Nat) (valueIndices : List Int) :
    SparseTensor α :=
  { sparse with
    sizes := sparse.sizes.set 0 outNnz,
    indices := (List.range sparse.nnz).map
      (fun j => (sparse._indices.getD j []).set 0 (valueIndices.getD j 0)),
    values := sparse._values }

/-- Lines 667-691 of `hspmm_out_sparse_cpu`: clone the coalesced operand, run the compaction
loop over its row coordinates, cut the output index row to `outNnz` entries and set the
first size of the clone to `outNnz`. Returns the output index tensor (one column per
retained row), `outNnz` and the compacted clone `newSparse`. The row view `select(0, 0)`
aliases the clone's index tensor: the rewritten rows are written back into its columns. The
uninitialised output index tensor is modelled as zeros. -/
def hspmm_compact (sparse : SparseTensor α) :
    Except Err (List (List Int) × Nat × SparseTensor α) :=
  let nnz := sparse.nnz
  let spIndices := sparse._indices
  match hspmm_compact_loop nnz 0 (-1) (-1) (List.replicate nnz 0) (rowIndices spIndices) with
  | .error e => .error e
  | .ok (i, indices, valueIndices) =>
    let outNnz := (i + 1).toNat
    .ok ((indices.take outNnz).map (fun x => [x]), outNnz,
      hspmm_newSparse sparse outNnz valueIndices)

/-- Modelled from the spec: `set_indices_and_values(indices, values)` with a 2-D values
tensor: the rows of `values` become the value blocks, nnz becomes the number of rows and the
tensor is flagged uncoalesced. -/
def set_indices_and_values (r : SparseTensor α) [Zero α] (indices : List (List Int))
    (values : Tensor α) : SparseTensor α :=
  { r with
    indices := indices,
    values := (List.range (values.size 0)).map
      (fun a => (List.range (values.size 1)).map
        (fun c => values.data.getD (a * values.size 1 + c) 0)),
    nnz := values.size 0,
    coalesced := false }

/-- `hspmm_out_sparse_cpu` (lines 640-698), with `alpha = 1`. A failure carries the output
tensor as the call leaves it. `coalesce` is not part of this file and is passed in; the
freshly constructed `values` tensor of shape `(outNnz, n)` is modelled as zeros, and
`raw_resize_(1, 1, {m, n})` sets the sizes and the split. -/
def hspmm_out_sparse_cpu [CommRing α] [DecidableEq α]
    (coalesce : SparseTensor α → SparseTensor α) (r sparse_ : SparseTensor α)
    (dense : Tensor α) : Except (Err × SparseTensor α) (SparseTensor α) :=
  if sparse_.sparseDims ≠ 2 then .error (.ShapeMismatch, r)
  else if sparse_.denseDims ≠ 0 then .error (.ShapeMismatch, r)
  else if dense.dim ≠ 2 then .error (.ShapeMismatch, r)
  else
    let m := sparse_.size 0
    let k := sparse_.size 1
    let n := dense.size 1
    if dense.size 0 ≠ k then .error (.ShapeMismatch, r)
    else
      let r1 := r.sparse_raw_resize_ [m, n] 1 1
      let sparse := coalesce sparse_
      let nnz := sparse.nnz
      if nnz = 0 then .ok (zero_sparse_ r1)
      else
        match hspmm_compact sparse with
        | .error e => .error (e, r1)
        | .ok (indices, outNnz, newSparse) =>
          let values : Tensor α :=
            { sizes := [outNnz, n], data := List.replicate (outNnz * n) 0 }
          match s_addmm_out_sparse_dense_cpu coalesce true values values newSparse dense 0 1
            with
          | .error (e, _) => .error (e, r1)
          | .ok values' => .ok (set_indices_and_values r1 indices values')

/-- Loop invariant of the compaction loop before iteration `j`, for the original row
coordinates `rows`: `i + 1` output entries have been written, strictly increasing, each a
row value seen so far, the last one equal to `prevIdx`; the rows before `j` have been
rewritten to the position of their value in the output, the rows from `j` on are
untouched. -/
def CompactInv (rows : List Int) (j : Nat) (i prevIdx : Int) (indices valueIndices : List Int) :
    Prop :=
  valueIndices.length = rows.length ∧ indices.length = rows.length ∧
  -1 ≤ i ∧ i < (j : Int) ∧
  (j = 0 → prevIdx = -1) ∧ (0 < j → prevIdx = rows.getD (j - 1) 0 ∧ 0 ≤ i) ∧
  (0 ≤ i → indices.getD i.toNat 0 = prevIdx) ∧
  (∀ j', j ≤ j' → valueIndices.getD j' 0 = rows.getD j' 0) ∧
  (∀ j', j' < j → 0 ≤ valueIndices.getD j' 0 ∧ valueIndices.getD j' 0 ≤ i ∧
    indices.getD (valueIndices.getD j' 0).toNat 0 = rows.getD j' 0) ∧
  (∀ a b : Nat, a < b → (b : Int) ≤ i → indices.getD a 0 < indices.getD b 0) ∧
  (∀ a : Nat, (a : Int) ≤ i → ∃ j', j' < j ∧ rows.getD j' 0 = indices.getD a 0)

/-- The 3×2 sparse matrix `{(0,0): 1, (0,1): 2, (2,1): 3}`: rows 0 and 2 store nonzeros. -/
def exS3 : SparseTensor Int :=
  { sizes := [3, 2], sparseDims := 2, denseDims := 0, indices := [[0, 0], [0, 1], [2, 1]],
    values := [[1], [2], [3]], nnz := 3, coalesced := true }

/-- The value block stored for coordinate `x` in a list of index columns and value blocks:
the block of the first column equal to `x`, or the empty block when no column is. -/
def rowBlock : List (List Int) → List (List α) → List Int → List α
  | c :: cs, v :: vs, x => if c = x then v else rowBlock cs vs x
  | _, _, _ => []

/-- Row `h`, column `c` of the dense matrix that a sparse tensor with one sparse dimension
stands for: the entry of the value block stored for row `h`, or zero when row `h` is not
retained. -/
def SparseTensor.denseRow [Zero α] (t : SparseTensor α) (h c : Nat) : α :=
  (rowBlock t._indices t._values [(h : Int)]).getD c 0

/-- A dense 3×2 matrix of fives. -/
def exT3 : Tensor Int := { sizes := [3, 2], data := [5, 5, 5, 5, 5, 5] }

/-! ## Theorems -/

theorem tupleLt_irrefl (a : List Int) : tupleLt a a = false := by
  induction a with
  | nil => rfl
  | cons x xs ih => simp [tupleLt, ih]

theorem tupleLt_trans : ∀ (a b c : List Int), tupleLt a b = true → tupleLt b c = true →
    tupleLt a c = true
  | [], [], _, h, _ => by simp [tupleLt] at h
  | [], _ :: _, [], _, h => by simp [tupleLt] at h
  | [], _ :: _, _ :: _, _, _ => by simp [tupleLt]
  | _ :: _, [], _, h, _ => by simp [tupleLt] at h
  | _ :: _, _ :: _, [], _, h => by simp [tupleLt] at h
  | x :: xs, y :: ys, z :: zs, h1, h2 => by
    simp only [tupleLt] at h1 h2 ⊢
    split_ifs at h1 h2 ⊢ <;> first | rfl | omega | exact tupleLt_trans xs ys zs h1 h2

theorem tupleLt_asymm (a b : List Int) (h : tupleLt a b = true) : tupleLt b a = false := by
  cases hb : tupleLt b a with
  | false => rfl
  | true => have := tupleLt_trans a b a h hb; rw [tupleLt_irrefl] at this; exact this.symm

theorem tupleLt_total : ∀ (a b : List Int), a.length = b.length → tupleLt a b = false →
    tupleLt b a = false → a = b
  | [], [], _, _, _ => rfl
  | [], _ :: _, h, _, _ => by simp at h
  | _ :: _, [], h, _, _ => by simp at h
  | x :: xs, y :: ys, h, h1, h2 => by
    simp only [tupleLt] at h1 h2
    simp only [List.length_cons, Nat.add_right_cancel_iff] at h
    split_ifs at h1 h2
    have : x = y := by omega
    rw [this, tupleLt_total xs ys h h1 h2]

theorem cmp_loop_shift (f g : Nat → Int) : ∀ (n d : Nat),
    cmp_loop f g n (d + 1) = cmp_loop (fun k => f (k + 1)) (fun k => g (k + 1)) n d
  | 0, _ => rfl
  | n + 1, d => by simp only [cmp_loop]; rw [cmp_loop_shift f g n (d + 1)]

theorem cmp_loop_congr (f g f' g' : Nat → Int) : ∀ (n d : Nat),
    (∀ k, d ≤ k → k < d + n → f k = f' k ∧ g k = g' k) →
    cmp_loop f g n d = cmp_loop f' g' n d
  | 0, _, _ => rfl
  | n + 1, d, h => by
    simp only [cmp_loop]
    rw [(h d (le_refl d) (by omega)).1, (h d (le_refl d) (by omega)).2,
      cmp_loop_congr f g f' g' n (d + 1) (fun k hk1 hk2 => h k (by omega) (by omega))]

theorem cmp_loop_tuple : ∀ (a b : List Int), a.length = b.length →
    cmp_loop (fun k => a.getD k 0) (fun k => b.getD k 0) a.length 0 =
      if tupleLt a b = true then 1 else if tupleLt b a = true then -1 else 0
  | [], [], _ => by simp [cmp_loop, tupleLt]
  | [], _ :: _, h => by simp at h
  | _ :: _, [], h => by simp at h
  | x :: xs, y :: ys, h => by
    simp only [List.length_cons, Nat.add_right_cancel_iff] at h
    have ih := cmp_loop_tuple xs ys h
    simp only [List.length_cons, cmp_loop, tupleLt, List.getD_cons_zero]
    rw [cmp_loop_shift]
    simp only [List.getD_cons_succ]
    rw [ih]
    by_cases h1 : x < y
    · simp [h1]
    · by_cases h2 : y < x
      · simp [h1, h2]
      · simp [h1, h2]

theorem axpy_succ [CommRing α] (n : Nat) (a : α) (x : List α) (xoff incx : Nat)
    (y : List α) (yoff incy : Nat) :
    THBlas_axpy (n + 1) a x xoff incx y yoff incy =
      (THBlas_axpy n a x xoff incx y yoff incy).set (yoff + n * incy)
        ((THBlas_axpy n a x xoff incx y yoff incy).getD (yoff + n * incy) 0
          + a * x.getD (xoff + n * incx) 0) := by
  simp [THBlas_axpy, List.range_succ, List.foldl_append]

theorem axpy_length [CommRing α] (n : Nat) (a : α) (x : List α) (xoff incx : Nat)
    (y : List α) (yoff incy : Nat) :
    (THBlas_axpy n a x xoff incx y yoff incy).length = y.length := by
  induction n with
  | zero => simp [THBlas_axpy]
  | succ n ih => rw [axpy_succ, List.length_set, ih]

theorem getD_set_eq (l : List α) (i : Nat) (v d : α) (h : i < l.length) :
    (l.set i v).getD i d = v := by
  simp [List.getD_eq_getElem?_getD, List.getElem?_set, h]

theorem getD_set_ne (l : List α) (i j : Nat) (v d : α) (h : i ≠ j) :
    (l.set i v).getD j d = l.getD j d := by
  simp [List.getD_eq_getElem?_getD, List.getElem?_set, h]

theorem axpy_getD_miss [CommRing α] (n : Nat) (a : α) (x : List α) (xoff incx : Nat)
    (y : List α) (yoff incy p : Nat) (h : ∀ i, i < n → p ≠ yoff + i * incy) :
    (THBlas_axpy n a x xoff incx y yoff incy).getD p 0 = y.getD p 0 := by
  induction n with
  | zero => simp [THBlas_axpy]
  | succ n ih =>
    rw [axpy_succ, getD_set_ne _ _ _ _ _ (fun e => h n (Nat.lt_succ_self n) e.symm)]
    exact ih (fun i hi => h i (Nat.lt_succ_of_lt hi))

theorem axpy_getD_hit [CommRing α] (n : Nat) (a : α) (x : List α) (xoff incx : Nat)
    (y : List α) (yoff incy i : Nat) (hi : i < n) (hinc : 0 < incy)
    (hlen : yoff + i * incy < y.length) :
    (THBlas_axpy n a x xoff incx y yoff incy).getD (yoff + i * incy) 0 =
      y.getD (yoff + i * incy) 0 + a * x.getD (xoff + i * incx) 0 := by
  induction n with
  | zero => omega
  | succ n ih =>
    rw [axpy_succ]
    by_cases hin : i = n
    · subst hin
      rw [getD_set_eq _ _ _ _ (by rw [axpy_length]; exact hlen)]
      rw [axpy_getD_miss]
      intro j hj e
      have : j * incy < i * incy := Nat.mul_lt_mul_of_pos_right hj hinc
      omega
    · have hlt : i < n := by omega
      rw [getD_set_ne]
      · exact ih hlt
      · intro e
        have : i * incy < n * incy := Nat.mul_lt_mul_of_pos_right hlt hinc
        omega

theorem axpy_block_getD [CommRing α] (n : Nat) (a : α) (x y : List α) (i : Nat)
    (hi : i < n) (hy : y.length = n) :
    (THBlas_axpy n a x 0 1 y 0 1).getD i 0 = y.getD i 0 + a * x.getD i 0 := by
  have := axpy_getD_hit n a x 0 1 y 0 1 i hi (by omega) (by omega)
  simpa using this

theorem set_length_append {β : Type} (xs : List β) (z v : β) (ys : List β) :
    (xs ++ z :: ys).set xs.length v = xs ++ v :: ys := by
  induction xs with
  | nil => rfl
  | cons x xs ih => simp [ih]

theorem getD_length_append {β : Type} (xs : List β) (z d : β) (ys : List β) :
    (xs ++ z :: ys).getD xs.length d = z := by
  induction xs with
  | nil => rfl
  | cons x xs ih => simpa using ih

theorem entriesFrom_done (n : Nat) (C : List (List Int)) (V : List (List α)) (nnz i : Nat)
    (h : nnz ≤ i) : entriesFrom n C V nnz i = [] := by
  simp [entriesFrom, Nat.sub_eq_zero_of_le h]

theorem entriesFrom_step (n : Nat) (C : List (List Int)) (V : List (List α)) (nnz i : Nat)
    (h : i < nnz) : entriesFrom n C V nnz i =
      (readColumn n C i, V.getD i []) :: entriesFrom n C V nnz (i + 1) := by
  have : nnz - i = (nnz - (i + 1)) + 1 := by omega
  simp [entriesFrom, this, List.range'_succ]

theorem readColumn_length (n : Nat) (C : List (List Int)) (i : Nat) :
    (readColumn n C i).length = n := by
  simp [readColumn]

theorem readColumn_getD (n : Nat) (C : List (List Int)) (i k : Nat) (hk : k < n) :
    (readColumn n C i).getD k 0 = accessor C k i := by
  simp [readColumn, List.getD_eq_getElem?_getD, hk]

theorem add_cmp_eq (n tn sn : Nat) (Tc Sc : List (List Int)) (t_i s_i : Nat)
    (ht : t_i < tn) (hs : s_i < sn) :
    add_cmp n tn sn Tc Sc t_i s_i =
      if tupleLt (readColumn n Tc t_i) (readColumn n Sc s_i) = true then 1
      else if tupleLt (readColumn n Sc s_i) (readColumn n Tc t_i) = true then -1 else 0 := by
  have h := cmp_loop_tuple (readColumn n Tc t_i) (readColumn n Sc s_i)
    (by rw [readColumn_length, readColumn_length])
  rw [← h, readColumn_length]
  unfold add_cmp
  rw [if_neg (by omega), if_neg (by omega)]
  apply cmp_loop_congr
  intro k _ hk
  exact ⟨(readColumn_getD n Tc t_i k (by omega)).symm, (readColumn_getD n Sc s_i k (by omega)).symm⟩

theorem add_emit_eq [CommRing α] (n bs : Nat) (C : List (List Int)) (V : List (List α))
    (i : Nat) (scale : α) (t_i s_i : Nat) (doneI restI : List (List Int)) (z : List Int)
    (doneV restV : List (List α)) (zb : List α) (hlen : doneI.length = doneV.length) :
    add_emit n bs C V i scale
        ⟨t_i, s_i, doneI.length, doneI ++ z :: restI, doneV ++ zb :: restV⟩ =
      .ok ⟨t_i, s_i, doneI.length, doneI ++ readColumn n C i :: restI,
        doneV ++ THBlas_axpy bs scale (V.getD i []) 0 1 zb 0 1 :: restV⟩ := by
  unfold add_emit
  rw [if_pos (by simp; omega)]
  simp only [readColumn, set_length_append]
  rw [hlen, set_length_append, getD_length_append]
theorem add_step_left [CommRing α] (n bs tn sn : Nat) (Tc Sc : List (List Int))
    (Tv Sv : List (List α)) (alpha : α) (t_i s_i : Nat) (doneI restI : List (List Int))
    (z : List Int) (doneV restV : List (List α)) (zb : List α)
    (hlen : doneI.length = doneV.length)
    (hc : 0 < add_cmp n tn sn Tc Sc t_i s_i) :
    add_step n bs tn sn Tc Sc Tv Sv alpha
        ⟨t_i, s_i, doneI.length, doneI ++ z :: restI, doneV ++ zb :: restV⟩ =
      .ok ⟨t_i + 1, s_i, doneI.length + 1, doneI ++ readColumn n Tc t_i :: restI,
        doneV ++ THBlas_axpy bs 1 (Tv.getD t_i []) 0 1 zb 0 1 :: restV⟩ := by
  unfold add_step
  simp only
  rw [if_pos (by omega), add_emit_eq _ _ _ _ _ _ _ _ _ _ _ _ _ _ hlen]
  simp only [Except.map]
  rw [if_neg (by omega)]

theorem add_step_right [CommRing α] (n bs tn sn : Nat) (Tc Sc : List (List Int))
    (Tv Sv : List (List α)) (alpha : α) (t_i s_i : Nat) (doneI restI : List (List Int))
    (z : List Int) (doneV restV : List (List α)) (zb : List α)
    (hlen : doneI.length = doneV.length)
    (hc : add_cmp n tn sn Tc Sc t_i s_i < 0) :
    add_step n bs tn sn Tc Sc Tv Sv alpha
        ⟨t_i, s_i, doneI.length, doneI ++ z :: restI, doneV ++ zb :: restV⟩ =
      .ok ⟨t_i, s_i + 1, doneI.length + 1, doneI ++ readColumn n Sc s_i :: restI,
        doneV ++ THBlas_axpy bs alpha (Sv.getD s_i []) 0 1 zb 0 1 :: restV⟩ := by
  unfold add_step
  simp only
  rw [if_neg (by omega)]
  simp only
  rw [if_pos (by omega), add_emit_eq _ _ _ _ _ _ _ _ _ _ _ _ _ _ hlen]
  simp only [Except.map]

theorem add_step_both [CommRing α] (n bs tn sn : Nat) (Tc Sc : List (List Int))
    (Tv Sv : List (List α)) (alpha : α) (t_i s_i : Nat) (doneI restI : List (List Int))
    (z : List Int) (doneV restV : List (List α)) (zb : List α)
    (hlen : doneI.length = doneV.length)
    (hc : add_cmp n tn sn Tc Sc t_i s_i = 0) :
    add_step n bs tn sn Tc Sc Tv Sv alpha
        ⟨t_i, s_i, doneI.length, doneI ++ z :: restI, doneV ++ zb :: restV⟩ =
      .ok ⟨t_i + 1, s_i + 1, doneI.length + 1, doneI ++ readColumn n Sc s_i :: restI,
        doneV ++ THBlas_axpy bs alpha (Sv.getD s_i []) 0 1
          (THBlas_axpy bs 1 (Tv.getD t_i []) 0 1 zb 0 1) 0 1 :: restV⟩ := by
  unfold add_step
  simp only
  rw [if_pos (by omega), add_emit_eq _ _ _ _ _ _ _ _ _ _ _ _ _ _ hlen]
  simp only [Except.map]
  rw [if_pos (by omega), add_emit_eq _ _ _ _ _ _ _ _ _ _ _ _ _ _ hlen]

theorem add_loop_refines [CommRing α] (n bs tn sn : Nat) (Tc Sc : List (List Int))
    (Tv Sv : List (List α)) (alpha : α) :
    ∀ (fuel t_i s_i : Nat) (doneI restI : List (List Int)) (doneV restV : List (List α)),
      t_i ≤ tn → s_i ≤ sn → (tn - t_i) + (sn - s_i) ≤ fuel →
      doneI.length = doneV.length → restI.length = restV.length →
      (tn - t_i) + (sn - s_i) ≤ restI.length →
      (∀ b ∈ restV, b = List.replicate bs (0 : α)) →
      add_loop n bs tn sn Tc Sc Tv Sv alpha fuel
          ⟨t_i, s_i, doneI.length, doneI ++ restI, doneV ++ restV⟩ =
        .ok ⟨tn, sn,
          doneI.length +
            (mergeAdd bs alpha (entriesFrom n Tc Tv tn t_i) (entriesFrom n Sc Sv sn s_i)).length,
          doneI ++
            (mergeAdd bs alpha (entriesFrom n Tc Tv tn t_i) (entriesFrom n Sc Sv sn s_i)).map
              Prod.fst ++
            restI.drop
              (mergeAdd bs alpha (entriesFrom n Tc Tv tn t_i)
                (entriesFrom n Sc Sv sn s_i)).length,
          doneV ++
            (mergeAdd bs alpha (entriesFrom n Tc Tv tn t_i) (entriesFrom n Sc Sv sn s_i)).map
              Prod.snd ++
            restV.drop
              (mergeAdd bs alpha (entriesFrom n Tc Tv tn t_i)
                (entriesFrom n Sc Sv sn s_i)).length⟩ := by
  intro fuel
  induction fuel with
  | zero =>
    intro t_i s_i doneI restI doneV restV ht hs hf _ _ _ _
    have e1 : t_i = tn := by omega
    have e2 : s_i = sn := by omega
    subst e1 e2
    simp [add_loop, entriesFrom_done, mergeAdd]
  | succ fuel ih =>
    intro t_i s_i doneI restI doneV restV ht hs hf hlen hrest hcap hzero
    by_cases hcond : t_i < tn ∨ s_i < sn
    · -- one more iteration
      have hpos : 0 < restI.length := by omega
      obtain ⟨z, restI', rfl⟩ : ∃ z r, restI = z :: r := by
        cases restI with
        | nil => simp at hpos
        | cons z r => exact ⟨z, r, rfl⟩
      obtain ⟨zb, restV', rfl⟩ : ∃ z r, restV = z :: r := by
        cases restV with
        | nil => simp at hrest
        | cons z r => exact ⟨z, r, rfl⟩
      have hzb : zb = List.replicate bs 0 := hzero zb (by simp)
      have hzero' : ∀ b ∈ restV', b = List.replicate bs (0 : α) :=
        fun b hb => hzero b (by simp [hb])
      simp only [List.length_cons, Nat.add_right_cancel_iff] at hrest hcap
      have happI : ∀ (c : List Int), doneI ++ c :: restI' = (doneI ++ [c]) ++ restI' := by
        intro c; simp
      have happV : ∀ (c : List α), doneV ++ c :: restV' = (doneV ++ [c]) ++ restV' := by
        intro c; simp
      have hlen1 : ∀ (c : List Int) (b : List α),
          (doneI ++ [c]).length = (doneV ++ [b]).length := by
        intro c b; simp [hlen]
      have hl1 : ∀ (c : List Int), doneI.length + 1 = (doneI ++ [c]).length := by
        intro c; simp
      rw [add_loop, if_pos hcond]
      by_cases ht' : t_i < tn
      · by_cases hs' : s_i < sn
        · -- both operands have entries left
          have hcmp := add_cmp_eq n tn sn Tc Sc t_i s_i ht' hs'
          rw [entriesFrom_step n Tc Tv tn t_i ht', entriesFrom_step n Sc Sv sn s_i hs']
          by_cases h1 : tupleLt (readColumn n Tc t_i) (readColumn n Sc s_i) = true
          · rw [if_pos h1] at hcmp
            rw [add_step_left n bs tn sn Tc Sc Tv Sv alpha t_i s_i doneI restI' z doneV restV'
              zb hlen (by omega)]
            simp only
            rw [happI, happV, hl1 (readColumn n Tc t_i),
              ih (t_i + 1) s_i _ restI' _ restV' (by omega) hs (by omega) (hlen1 _ _) hrest
                (by omega) hzero']
            rw [mergeAdd, if_pos h1, ← entriesFrom_step n Sc Sv sn s_i hs', hzb]
            simp [Nat.add_assoc, Nat.add_comm 1]
          · rw [if_neg h1] at hcmp
            by_cases h2 : tupleLt (readColumn n Sc s_i) (readColumn n Tc t_i) = true
            · rw [if_pos h2] at hcmp
              rw [add_step_right n bs tn sn Tc Sc Tv Sv alpha t_i s_i doneI restI' z doneV
                restV' zb hlen (by omega)]
              simp only
              rw [happI, happV, hl1 (readColumn n Sc s_i),
                ih t_i (s_i + 1) _ restI' _ restV' ht (by omega) (by omega) (hlen1 _ _) hrest
                  (by omega) hzero']
              rw [mergeAdd, if_neg h1, if_pos h2, ← entriesFrom_step n Tc Tv tn t_i ht', hzb]
              simp [Nat.add_assoc, Nat.add_comm 1]
            · rw [if_neg h2] at hcmp
              rw [add_step_both n bs tn sn Tc Sc Tv Sv alpha t_i s_i doneI restI' z doneV
                restV' zb hlen hcmp]
              simp only
              rw [happI, happV, hl1 (readColumn n Sc s_i),
                ih (t_i + 1) (s_i + 1) _ restI' _ restV' (by omega) (by omega) (by omega)
                  (hlen1 _ _) hrest (by omega) hzero']
              rw [mergeAdd, if_neg h1, if_neg h2, hzb]
              simp [Nat.add_assoc, Nat.add_comm 1]
        · -- src exhausted
          have hcmp : add_cmp n tn sn Tc Sc t_i s_i = 1 := by
            unfold add_cmp; rw [if_neg (by omega), if_pos (by omega)]
          rw [entriesFrom_step n Tc Tv tn t_i ht', entriesFrom_done n Sc Sv sn s_i (by omega)]
          rw [add_step_left n bs tn sn Tc Sc Tv Sv alpha t_i s_i doneI restI' z doneV restV'
            zb hlen (by omega)]
          simp only
          rw [happI, happV, hl1 (readColumn n Tc t_i),
            ih (t_i + 1) s_i _ restI' _ restV' (by omega) hs (by omega) (hlen1 _ _) hrest
              (by omega) hzero']
          rw [entriesFrom_done n Sc Sv sn s_i (by omega), mergeAdd, hzb]
          simp [Nat.add_assoc, Nat.add_comm 1]
      · -- t exhausted
        have hs' : s_i < sn := by omega
        have hcmp : add_cmp n tn sn Tc Sc t_i s_i = -1 := by
          unfold add_cmp; rw [if_pos (by omega)]
        rw [entriesFrom_done n Tc Tv tn t_i (by omega), entriesFrom_step n Sc Sv sn s_i hs']
        rw [add_step_right n bs tn sn Tc Sc Tv Sv alpha t_i s_i doneI restI' z doneV restV'
          zb hlen (by omega)]
        simp only
        rw [happI, happV, hl1 (readColumn n Sc s_i),
          ih t_i (s_i + 1) _ restI' _ restV' ht (by omega) (by omega) (hlen1 _ _) hrest
            (by omega) hzero']
        rw [entriesFrom_done n Tc Tv tn t_i (by omega), mergeAdd, hzb]
        simp [Nat.add_assoc, Nat.add_comm 1]
    · have e1 : t_i = tn := by omega
      have e2 : s_i = sn := by omega
      subst e1 e2
      rw [add_loop, if_neg hcond]
      simp [entriesFrom_done, mergeAdd]

theorem entrySum_nil [CommRing α] (c : List Int) (i : Nat) :
    entrySum ([] : List (List Int × List α)) c i = 0 := by
  simp [entrySum]

theorem entrySum_cons [CommRing α] (p : List Int × List α) (E : List (List Int × List α))
    (c : List Int) (i : Nat) :
    entrySum (p :: E) c i = (if p.1 = c then p.2.getD i 0 else 0) + entrySum E c i := by
  unfold entrySum
  by_cases h : p.1 = c
  · simp [List.filter_cons, h]
  · simp [List.filter_cons, h]

theorem mergeAdd_length [CommRing α] (bs : Nat) (alpha : α)
    (T S : List (List Int × List α)) :
    T.length ≤ (mergeAdd bs alpha T S).length ∧ S.length ≤ (mergeAdd bs alpha T S).length ∧
      (mergeAdd bs alpha T S).length ≤ T.length + S.length := by
  induction T, S using @mergeAdd.induct α _ bs alpha with
  | case1 => simp [mergeAdd]
  | case2 s ss ih => rw [mergeAdd]; simp only [List.length_cons, List.length_nil] at ih ⊢; omega
  | case3 t ts ih => rw [mergeAdd]; simp only [List.length_cons, List.length_nil] at ih ⊢; omega
  | case4 t ts s ss h ih =>
    rw [mergeAdd, if_pos h]; simp only [List.length_cons] at ih ⊢; omega
  | case5 t ts s ss h1 h2 ih =>
    rw [mergeAdd, if_neg h1, if_pos h2]; simp only [List.length_cons] at ih ⊢; omega
  | case6 t ts s ss h1 h2 ih =>
    rw [mergeAdd, if_neg h1, if_neg h2]; simp only [List.length_cons] at ih ⊢; omega

theorem mergeAdd_mem [CommRing α] (n bs : Nat) (alpha : α)
    (T S : List (List Int × List α))
    (hT : ∀ p ∈ T, p.1.length = n) (hS : ∀ p ∈ S, p.1.length = n) (c : List Int) :
    c ∈ (mergeAdd bs alpha T S).map Prod.fst ↔ c ∈ T.map Prod.fst ∨ c ∈ S.map Prod.fst := by
  induction T, S using @mergeAdd.induct α _ bs alpha with
  | case1 => simp [mergeAdd]
  | case2 s ss ih =>
    rw [mergeAdd]
    have := ih hT (fun p hp => hS p (by simp [hp]))
    simp only [List.map_cons, List.mem_cons, this, List.map_nil, List.not_mem_nil, false_or]
  | case3 t ts ih =>
    rw [mergeAdd]
    have := ih (fun p hp => hT p (by simp [hp])) hS
    simp only [List.map_cons, List.mem_cons, this, List.map_nil, List.not_mem_nil, or_false]
  | case4 t ts s ss h ih =>
    rw [mergeAdd, if_pos h]
    have := ih (fun p hp => hT p (by simp [hp])) hS
    simp only [List.map_cons, List.mem_cons, this]
    tauto
  | case5 t ts s ss h1 h2 ih =>
    rw [mergeAdd, if_neg h1, if_pos h2]
    have := ih hT (fun p hp => hS p (by simp [hp]))
    simp only [List.map_cons, List.mem_cons, this]
    tauto
  | case6 t ts s ss h1 h2 ih =>
    rw [mergeAdd, if_neg h1, if_neg h2]
    have := ih (fun p hp => hT p (by simp [hp])) (fun p hp => hS p (by simp [hp]))
    have e : t.1 = s.1 := tupleLt_total t.1 s.1
      (by rw [hT t (by simp), hS s (by simp)]) (by simpa using h1) (by simpa using h2)
    simp only [List.map_cons, List.mem_cons, this, e]
    tauto

theorem mergeAdd_sorted [CommRing α] (n bs : Nat) (alpha : α)
    (T S : List (List Int × List α))
    (hT : ∀ p ∈ T, p.1.length = n) (hS : ∀ p ∈ S, p.1.length = n)
    (sT : StrictlyIncreasing (T.map Prod.fst)) (sS : StrictlyIncreasing (S.map Prod.fst)) :
    StrictlyIncreasing ((mergeAdd bs alpha T S).map Prod.fst) := by
  unfold StrictlyIncreasing at *
  induction T, S using @mergeAdd.induct α _ bs alpha with
  | case1 => simp [mergeAdd]
  | case2 s ss ih =>
    rw [mergeAdd]
    simp only [List.map_cons, List.pairwise_cons] at sS ⊢
    refine ⟨?_, ih hT (fun p hp => hS p (by simp [hp])) sT sS.2⟩
    intro c hc
    rw [mergeAdd_mem n bs alpha [] ss hT (fun p hp => hS p (by simp [hp]))] at hc
    rcases hc with hc | hc
    · simp at hc
    · exact sS.1 c hc
  | case3 t ts ih =>
    rw [mergeAdd]
    simp only [List.map_cons, List.pairwise_cons] at sT ⊢
    refine ⟨?_, ih (fun p hp => hT p (by simp [hp])) hS sT.2 sS⟩
    intro c hc
    rw [mergeAdd_mem n bs alpha ts [] (fun p hp => hT p (by simp [hp])) hS] at hc
    rcases hc with hc | hc
    · exact sT.1 c hc
    · simp at hc
  | case4 t ts s ss h ih =>
    rw [mergeAdd, if_pos h]
    have sT' := sT
    simp only [List.map_cons, List.pairwise_cons] at sT' sS ⊢
    refine ⟨?_, ih (fun p hp => hT p (by simp [hp])) hS sT'.2 (by simpa using sS)⟩
    intro c hc
    rw [mergeAdd_mem n bs alpha ts (s :: ss) (fun p hp => hT p (by simp [hp])) hS] at hc
    rcases hc with hc | hc
    · exact sT'.1 c hc
    · simp only [List.map_cons, List.mem_cons] at hc
      rcases hc with hc | hc
      · rw [hc]; exact h
      · exact tupleLt_trans _ _ _ h (sS.1 c hc)
  | case5 t ts s ss h1 h2 ih =>
    rw [mergeAdd, if_neg h1, if_pos h2]
    have sS' := sS
    simp only [List.map_cons, List.pairwise_cons] at sT sS' ⊢
    refine ⟨?_, ih hT (fun p hp => hS p (by simp [hp])) (by simpa using sT) sS'.2⟩
    intro c hc
    rw [mergeAdd_mem n bs alpha (t :: ts) ss hT (fun p hp => hS p (by simp [hp]))] at hc
    rcases hc with hc | hc
    · simp only [List.map_cons, List.mem_cons] at hc
      rcases hc with hc | hc
      · rw [hc]; exact h2
      · exact tupleLt_trans _ _ _ h2 (sT.1 c hc)
    · exact sS'.1 c hc
  | case6 t ts s ss h1 h2 ih =>
    rw [mergeAdd, if_neg h1, if_neg h2]
    have e : t.1 = s.1 := tupleLt_total t.1 s.1
      (by rw [hT t (by simp), hS s (by simp)]) (by simpa using h1) (by simpa using h2)
    simp only [List.map_cons, List.pairwise_cons] at sT sS ⊢
    refine ⟨?_, ih (fun p hp => hT p (by simp [hp])) (fun p hp => hS p (by simp [hp]))
      sT.2 sS.2⟩
    intro c hc
    rw [mergeAdd_mem n bs alpha ts ss (fun p hp => hT p (by simp [hp]))
      (fun p hp => hS p (by simp [hp]))] at hc
    rcases hc with hc | hc
    · rw [← e]; exact sT.1 c hc
    · exact sS.1 c hc

theorem axpy_zero_getD [CommRing α] (bs : Nat) (a : α) (x : List α) (i : Nat) (hi : i < bs) :
    (THBlas_axpy bs a x 0 1 (List.replicate bs 0) 0 1).getD i 0 = a * x.getD i 0 := by
  rw [axpy_block_getD bs a x _ i hi (by simp)]
  simp [List.getD_eq_getElem?_getD, hi]

theorem mergeAdd_sum [CommRing α] (n bs : Nat) (alpha : α)
    (T S : List (List Int × List α))
    (hT : ∀ p ∈ T, p.1.length = n) (hS : ∀ p ∈ S, p.1.length = n)
    (c : List Int) (i : Nat) (hi : i < bs) :
    entrySum (mergeAdd bs alpha T S) c i = entrySum T c i + alpha * entrySum S c i := by
  induction T, S using @mergeAdd.induct α _ bs alpha with
  | case1 => simp [mergeAdd, entrySum_nil]
  | case2 s ss ih =>
    rw [mergeAdd, entrySum_cons, entrySum_cons, ih hT (fun p hp => hS p (by simp [hp]))]
    simp only [axpy_zero_getD bs alpha s.2 i hi, entrySum_nil]
    split_ifs <;> ring
  | case3 t ts ih =>
    rw [mergeAdd, entrySum_cons, entrySum_cons, ih (fun p hp => hT p (by simp [hp])) hS]
    simp only [axpy_zero_getD bs 1 t.2 i hi, entrySum_nil]
    split_ifs <;> ring
  | case4 t ts s ss h ih =>
    rw [mergeAdd, if_pos h, entrySum_cons, entrySum_cons t,
      ih (fun p hp => hT p (by simp [hp])) hS]
    simp only [axpy_zero_getD bs 1 t.2 i hi]
    split_ifs <;> ring
  | case5 t ts s ss h1 h2 ih =>
    rw [mergeAdd, if_neg h1, if_pos h2, entrySum_cons, entrySum_cons s,
      ih hT (fun p hp => hS p (by simp [hp]))]
    simp only [axpy_zero_getD bs alpha s.2 i hi]
    split_ifs <;> ring
  | case6 t ts s ss h1 h2 ih =>
    have e : t.1 = s.1 := tupleLt_total t.1 s.1
      (by rw [hT t (by simp), hS s (by simp)]) (by simpa using h1) (by simpa using h2)
    rw [mergeAdd, if_neg h1, if_neg h2, entrySum_cons, entrySum_cons t,
      entrySum_cons s,
      ih (fun p hp => hT p (by simp [hp])) (fun p hp => hS p (by simp [hp]))]
    simp only [axpy_block_getD bs alpha s.2 _ i hi (axpy_length _ _ _ _ _ _ _ _ |>.trans
      (List.length_replicate _ _)), axpy_zero_getD bs 1 t.2 i hi, e]
    split_ifs <;> ring

theorem map_range_getD (l : List Int) (n : Nat) (h : l.length = n) :
    (List.range n).map (fun d => l.getD d 0) = l := by
  apply List.ext_getElem
  · simp [h]
  · intro i h1 h2
    simp [List.getD_eq_getElem?_getD, h2]

theorem readColumn_eq (n : Nat) (C : List (List Int)) (k : Nat) (hk : k < C.length)
    (hc : ∀ c ∈ C, c.length = n) : readColumn n C k = C[k] := by
  unfold readColumn accessor
  have e : C.getD k [] = C[k] := by simp [List.getD_eq_getElem?_getD, hk]
  rw [e]
  exact map_range_getD _ _ (hc _ (List.getElem_mem _))

theorem entriesFrom_zip (n : Nat) (C : List (List Int)) (V : List (List α)) (nnz : Nat)
    (hC : C.length = nnz) (hV : V.length = nnz) (hc : ∀ c ∈ C, c.length = n) :
    entriesFrom n C V nnz 0 = C.zip V := by
  apply List.ext_getElem
  · simp [entriesFrom, hC, hV]
  · intro i h1 h2
    have hi : i < nnz := by simpa [entriesFrom] using h1
    simp only [entriesFrom, List.getElem_map, List.getElem_range', List.getElem_zip]
    rw [readColumn_eq n C _ (by omega) hc]
    simp [List.getD_eq_getElem?_getD, hV, hi]

theorem entriesFrom_length (n : Nat) (C : List (List Int)) (V : List (List α)) (nnz i : Nat) :
    (entriesFrom n C V nnz i).length = nnz - i := by
  simp [entriesFrom]

theorem entriesFrom_col_length (n : Nat) (C : List (List Int)) (V : List (List α))
    (nnz i : Nat) : ∀ p ∈ entriesFrom n C V nnz i, p.1.length = n := by
  intro p hp
  simp only [entriesFrom, List.mem_map] at hp
  obtain ⟨k, _, rfl⟩ := hp
  exact readColumn_length n C k

theorem s_add_general_eq [CommRing α] (t src : SparseTensor α) (alpha : α) :
    ∃ res, s_add_general t src alpha = .ok res ∧
      res.sizes = src.sizes ∧ res.sparseDims = src.sparseDims ∧
      res.denseDims = src.denseDims ∧
      res.coalesced = (t.coalesced && src.coalesced) ∧
      res.indices.length = t.nnz + src.nnz ∧ res.values.length = t.nnz + src.nnz ∧
      res.nnz = (mergeAdd src.blockSize alpha
        (entriesFrom src.sparseDims t._indices t._values t.nnz 0)
        (entriesFrom src.sparseDims src._indices src._values src.nnz 0)).length ∧
      res._indices = (mergeAdd src.blockSize alpha
        (entriesFrom src.sparseDims t._indices t._values t.nnz 0)
        (entriesFrom src.sparseDims src._indices src._values src.nnz 0)).map Prod.fst ∧
      res._values = (mergeAdd src.blockSize alpha
        (entriesFrom src.sparseDims t._indices t._values t.nnz 0)
        (entriesFrom src.sparseDims src._indices src._values src.nnz 0)).map Prod.snd := by
  have hM := mergeAdd_length src.blockSize alpha
    (entriesFrom src.sparseDims t._indices t._values t.nnz 0)
    (entriesFrom src.sparseDims src._indices src._values src.nnz 0)
  simp only [entriesFrom_length, Nat.sub_zero] at hM
  have h := add_loop_refines src.sparseDims src.blockSize t.nnz src.nnz t._indices
    src._indices t._values src._values alpha (t.nnz + src.nnz) 0 0 []
    (List.replicate (t.nnz + src.nnz) (List.replicate src.sparseDims (0 : Int))) []
    (List.replicate (t.nnz + src.nnz) (List.replicate src.blockSize (0 : α)))
    (Nat.zero_le _) (Nat.zero_le _) (by omega) rfl (by simp) (by simp)
    (fun b hb => (List.mem_replicate.mp hb).2)
  simp only [List.nil_append, List.length_nil, Nat.zero_add] at h
  unfold s_add_general
  simp only
  rw [h]
  refine ⟨_, rfl, rfl, rfl, rfl, rfl, ?_, ?_, rfl, ?_, ?_⟩
  · simp; omega
  · simp; omega
  · simp [SparseTensor._indices]
  · simp [SparseTensor._values]

theorem mergeAdd_block_length [CommRing α] (bs : Nat) (alpha : α)
    (T S : List (List Int × List α)) :
    ∀ p ∈ mergeAdd bs alpha T S, p.2.length = bs := by
  induction T, S using @mergeAdd.induct α _ bs alpha with
  | case1 => simp [mergeAdd]
  | case2 s ss ih =>
    rw [mergeAdd]; intro p hp
    rcases List.mem_cons.mp hp with rfl | hp
    · simp [axpy_length]
    · exact ih p hp
  | case3 t ts ih =>
    rw [mergeAdd]; intro p hp
    rcases List.mem_cons.mp hp with rfl | hp
    · simp [axpy_length]
    · exact ih p hp
  | case4 t ts s ss h ih =>
    rw [mergeAdd, if_pos h]; intro p hp
    rcases List.mem_cons.mp hp with rfl | hp
    · simp [axpy_length]
    · exact ih p hp
  | case5 t ts s ss h1 h2 ih =>
    rw [mergeAdd, if_neg h1, if_pos h2]; intro p hp
    rcases List.mem_cons.mp hp with rfl | hp
    · simp [axpy_length]
    · exact ih p hp
  | case6 t ts s ss h1 h2 ih =>
    rw [mergeAdd, if_neg h1, if_neg h2]; intro p hp
    rcases List.mem_cons.mp hp with rfl | hp
    · simp [axpy_length]
    · exact ih p hp

theorem entrySum_absent [CommRing α] (E : List (List Int × List α)) (c : List Int) (i : Nat)
    (h : c ∉ E.map Prod.fst) : entrySum E c i = 0 := by
  induction E with
  | nil => exact entrySum_nil c i
  | cons p E ih =>
    simp only [List.map_cons, List.mem_cons, not_or] at h
    rw [entrySum_cons, if_neg (fun e => h.1 e.symm), ih h.2, add_zero]

theorem entrySum_unique [CommRing α] (E : List (List Int × List α)) (i : Nat)
    (hs : StrictlyIncreasing (E.map Prod.fst)) :
    ∀ (k : Nat) (hk : k < E.length), entrySum E (E[k].1) i = (E[k].2).getD i 0 := by
  induction E with
  | nil => intro k hk; simp at hk
  | cons p E ih =>
    unfold StrictlyIncreasing at hs ih
    simp only [List.map_cons, List.pairwise_cons] at hs
    intro k hk
    cases k with
    | zero =>
      simp only [List.getElem_cons_zero]
      rw [entrySum_cons, if_pos rfl, entrySum_absent, add_zero]
      intro hmem
      have := hs.1 _ hmem
      rw [tupleLt_irrefl] at this
      exact Bool.false_ne_true this
    | succ k =>
      simp only [List.getElem_cons_succ]
      have hk' : k < E.length := by simpa using hk
      rw [entrySum_cons, if_neg, zero_add, ih hs.2 k hk']
      intro e
      have := hs.1 (E[k].1) (List.mem_map_of_mem _ (List.getElem_mem _))
      rw [e, tupleLt_irrefl] at this
      exact Bool.false_ne_true this

theorem zip_map_fst_snd {β γ : Type} (E : List (β × γ)) :
    (E.map Prod.fst).zip (E.map Prod.snd) = E := by
  induction E with
  | nil => rfl
  | cons p E ih => simp [ih]

theorem wf_entries (t : SparseTensor α) (n : Nat) (h : t.WellFormed) (hn : t.sparseDims = n) :
    entriesFrom n t._indices t._values t.nnz 0 = t._indices.zip t._values := by
  obtain ⟨_, h2, h3, h4, _⟩ := h
  apply entriesFrom_zip
  · simp [SparseTensor._indices, h2]
  · simp [SparseTensor._values, h3]
  · rw [← hn]; exact h4

theorem wf_zip_fst (t : SparseTensor α) (h : t.WellFormed) :
    (t._indices.zip t._values).map Prod.fst = t._indices := by
  obtain ⟨_, h2, h3, _, _⟩ := h
  rw [List.map_fst_zip]
  simp [SparseTensor._indices, SparseTensor._values, h2, h3]

/-- C10: the add merge stays inside its allocation. For every pair of operands (coalesced or
not, of any nnz) the loop of the general path ends within its fuel `t.nnz + src.nnz`, every
write to an output slot is inside the `t.nnz + src.nnz` allocated slots (no `OutOfBounds`),
and the final nnz lies between `max t.nnz src.nnz` and `t.nnz + src.nnz`. -/
theorem add_merge_within_allocation [CommRing α] (t src : SparseTensor α) (alpha : α) :
    ∃ res, s_add_general t src alpha = .ok res ∧
      res.indices.length = t.nnz + src.nnz ∧ res.values.length = t.nnz + src.nnz ∧
      max t.nnz src.nnz ≤ res.nnz ∧ res.nnz ≤ t.nnz + src.nnz := by
  obtain ⟨res, h, _, _, _, _, hi, hv, hn, _, _⟩ := s_add_general_eq t src alpha
  have hM := mergeAdd_length src.blockSize alpha
    (entriesFrom src.sparseDims t._indices t._values t.nnz 0)
    (entriesFrom src.sparseDims src._indices src._values src.nnz 0)
  simp only [entriesFrom_length, Nat.sub_zero] at hM
  exact ⟨res, h, hi, hv, by rw [hn]; exact max_le hM.1 hM.2.1, by rw [hn]; exact hM.2.2⟩

theorem s_add_out_general [CommRing α] (f : Bool) (r t src res : SparseTensor α) (alpha : α)
    (hsz : t.sizes = src.sizes) (hd : t.sparseDims = src.sparseDims)
    (hdd : t.denseDims = src.denseDims) (htn : 0 < t.nnz) (hsn : 0 < src.nnz)
    (h : s_add_general t src alpha = .ok res) :
    s_add_out_sparse_cpu f r t src alpha = .ok res := by
  unfold s_add_out_sparse_cpu
  rw [if_neg (by simp [hsz]), if_neg (by omega), if_neg (by omega),
    if_neg (by simp [_is_same_density, hd, hdd]), h]

/-- C1: the general path of sparse add. For coalesced operands (index columns strictly
increasing) of equal sizes and split, both with nnz > 0, the call succeeds; the first nnz
index columns of the result are strictly increasing and are exactly the coordinate tuples
stored in `t` or in `src`; and the block stored at each such coordinate `c` is
`t(c) + alpha * src(c)` position by position, a tensor contributing 0 where it stores
nothing. -/
theorem s_add_general_correct [CommRing α] (f : Bool) (r t src : SparseTensor α) (alpha : α)
    (ht : t.WellFormed) (hs : src.WellFormed)
    (hsz : t.sizes = src.sizes) (hd : t.sparseDims = src.sparseDims)
    (hdd : t.denseDims = src.denseDims) (htn : 0 < t.nnz) (hsn : 0 < src.nnz)
    (htc : StrictlyIncreasing t._indices) (hsc : StrictlyIncreasing src._indices) :
    ∃ res, s_add_out_sparse_cpu f r t src alpha = .ok res ∧
      StrictlyIncreasing res._indices ∧
      (∀ c, c ∈ res._indices ↔ c ∈ t._indices ∨ c ∈ src._indices) ∧
      (∀ b ∈ res._values, b.length = src.blockSize) ∧
      (∀ k, k < res.nnz → ∀ i, i < src.blockSize →
        (res._values.getD k []).getD i 0 =
          t.valueAt (res._indices.getD k []) i + alpha * src.valueAt (res._indices.getD k []) i)
      := by
  obtain ⟨res, h, _, _, _, _, _, _, hn, hI, hV⟩ := s_add_general_eq t src alpha
  rw [wf_entries t _ ht hd, wf_entries src _ hs rfl] at hn hI hV
  have hTl : ∀ p ∈ t._indices.zip t._values, p.1.length = src.sparseDims := by
    intro p hp
    rw [← hd]
    exact ht.2.2.2.1 p.1 (List.of_mem_zip hp).1
  have hSl : ∀ p ∈ src._indices.zip src._values, p.1.length = src.sparseDims := by
    intro p hp
    exact hs.2.2.2.1 p.1 (List.of_mem_zip hp).1
  refine ⟨res, s_add_out_general f r t src res alpha hsz hd hdd htn hsn h, ?_, ?_, ?_, ?_⟩
  · rw [hI]
    exact mergeAdd_sorted _ _ _ _ _ hTl hSl (by rw [wf_zip_fst t ht]; exact htc)
      (by rw [wf_zip_fst src hs]; exact hsc)
  · intro c
    rw [hI, mergeAdd_mem _ _ _ _ _ hTl hSl, wf_zip_fst t ht, wf_zip_fst src hs]
  · intro b hb
    rw [hV] at hb
    obtain ⟨p, hp, rfl⟩ := List.mem_map.mp hb
    exact mergeAdd_block_length _ _ _ _ p hp
  · intro k hk i hi
    rw [hn] at hk
    have hsorted : StrictlyIncreasing ((mergeAdd src.blockSize alpha
        (t._indices.zip t._values) (src._indices.zip src._values)).map Prod.fst) :=
      mergeAdd_sorted _ _ _ _ _ hTl hSl (by rw [wf_zip_fst t ht]; exact htc)
        (by rw [wf_zip_fst src hs]; exact hsc)
    have hu := entrySum_unique _ i hsorted k hk
    rw [mergeAdd_sum _ _ _ _ _ hTl hSl _ i hi] at hu
    have e1 : res._indices.getD k [] = ((mergeAdd src.blockSize alpha
        (t._indices.zip t._values) (src._indices.zip src._values))[k]).1 := by
      rw [hI]; simp [List.getD_eq_getElem?_getD, hk]
    have e2 : res._values.getD k [] = ((mergeAdd src.blockSize alpha
        (t._indices.zip t._values) (src._indices.zip src._values))[k]).2 := by
      rw [hV]; simp [List.getD_eq_getElem?_getD, hk]
    rw [e1, e2, ← hu]
    rfl

/-- The general path of sparse add at `{(1): 3} + 1 * {(1): 2, (2): 5}`. -/
theorem s_add_general_correct_witness :
    ∃ res, s_add_out_sparse_cpu false SparseTensor.fresh exA exB 1 = .ok res ∧
      StrictlyIncreasing res._indices ∧
      (∀ c, c ∈ res._indices ↔ c ∈ exA._indices ∨ c ∈ exB._indices) ∧
      (∀ b ∈ res._values, b.length = exB.blockSize) ∧
      (∀ k, k < res.nnz → ∀ i, i < exB.blockSize →
        (res._values.getD k []).getD i 0 =
          exA.valueAt (res._indices.getD k []) i + 1 * exB.valueAt (res._indices.getD k []) i) :=
  s_add_general_correct false SparseTensor.fresh exA exB 1 (by decide) (by decide) rfl rfl rfl
    (by decide) (by decide) (by decide) (by decide)


theorem logicalValue_eq_entrySum [CommRing α] (cols : List (List Int)) (vals : List (List α))
    (c : List Int) (i : Nat) : logicalValue cols vals c i = entrySum (cols.zip vals) c i := rfl

theorem logicalValue_nil [CommRing α] (vals : List (List α)) (c : List Int) (i : Nat) :
    logicalValue [] vals c i = 0 := by
  simp [logicalValue]

theorem entrySum_scale [CommRing α] (cols : List (List Int)) (vals : List (List α)) (a : α)
    (c : List Int) (i : Nat) :
    entrySum (cols.zip (at_mul_out vals a)) c i = entrySum (cols.zip vals) c i * a := by
  induction cols generalizing vals with
  | nil => simp [entrySum_nil]
  | cons x cols ih =>
    cases vals with
    | nil => simp [at_mul_out, entrySum_nil]
    | cons v vals =>
      have ih' := ih vals
      simp only [at_mul_out, List.map_cons, List.zip_cons_cons, entrySum_cons] at ih' ⊢
      rw [ih']
      have e : (v.map (fun x => x * a)).getD i 0 = v.getD i 0 * a := by
        simp only [List.getD_eq_getElem?_getD, List.getElem?_map]
        cases v[i]? with
        | none => simp
        | some y => rfl
      rw [e]
      split_ifs <;> ring

theorem take_view {β : Type} (l : List β) (g : List β → List β)
    (hg : ∀ l, (g l).length = l.length) (k : Nat) :
    (g (l.take k) ++ l.drop k).take k = g (l.take k) := by
  by_cases h : k ≤ l.length
  · rw [List.take_append_of_le_length (by rw [hg]; simp [h])]
    apply List.take_of_length_le
    rw [hg]; simp
  · rw [List.drop_of_length_le (by omega), List.append_nil]
    apply List.take_of_length_le
    rw [hg]; simp

theorem at_mul_out_length [CommRing α] (vals : List (List α)) (a : α) :
    (at_mul_out vals a).length = vals.length := by
  simp [at_mul_out]

theorem write_views_empty (r t : SparseTensor α) (values : List (List α))
    (hr : r.nnz = 0) :
    write_views r t values =
      .ok { sizes := t.sizes, sparseDims := t.sparseDims, denseDims := t.denseDims,
            indices := t._indices, values := values, nnz := t.nnz,
            coalesced := t.coalesced } := by
  unfold write_views
  simp only [if_pos hr]

theorem write_views_error (r t : SparseTensor α) (values : List (List α)) (e : Err)
    (r' : SparseTensor α) (h : write_views r t values = .error (e, r')) :
    e = Err.ShapeMismatch := by
  unfold write_views at h
  simp only at h
  split_ifs at h
  cases h
  rfl

theorem mul_out_view [CommRing α] (same : Bool) (r t : SparseTensor α) (a : α)
    (h : same = true → r = t) (hr : same = false → r.nnz = 0) :
    ∃ res, mul_out_sparse_scalar same r t a = .ok res ∧
      res.sizes = t.sizes ∧ res.sparseDims = t.sparseDims ∧ res.denseDims = t.denseDims ∧
      res.nnz = t.nnz ∧ res.coalesced = t.coalesced ∧ res._indices = t._indices ∧
      res._values = at_mul_out t._values a := by
  cases same with
  | true =>
    have e := h rfl
    subst e
    refine ⟨{ r with values := at_mul_out (r.values.take r.nnz) a ++ r.values.drop r.nnz },
      by simp only [mul_out_sparse_scalar, if_true], rfl, rfl, rfl, rfl, rfl, rfl, ?_⟩
    simp only [SparseTensor._values]
    exact take_view r.values (fun l => at_mul_out l a) (fun l => at_mul_out_length l a) r.nnz
  | false =>
    refine ⟨{ sizes := t.sizes, sparseDims := t.sparseDims, denseDims := t.denseDims,
              indices := t._indices, values := at_mul_out t._values a, nnz := t.nnz,
              coalesced := t.coalesced }, ?_, rfl, rfl, rfl, rfl, rfl, ?_, ?_⟩
    · simp only [mul_out_sparse_scalar, Bool.false_eq_true, if_false]
      exact write_views_empty r t _ (hr rfl)
    · simp [SparseTensor._indices]
    · simp only [SparseTensor._values]
      apply List.take_of_length_le
      rw [at_mul_out_length]; simp

theorem raw_copy_view (r t : SparseTensor α) :
    (raw_copy_sparse_ r t).sizes = t.sizes ∧
    (raw_copy_sparse_ r t).sparseDims = t.sparseDims ∧
    (raw_copy_sparse_ r t).denseDims = t.denseDims ∧
    (raw_copy_sparse_ r t).nnz = t.nnz ∧
    (raw_copy_sparse_ r t).coalesced = t.coalesced ∧
    (raw_copy_sparse_ r t)._indices = t._indices ∧
    (raw_copy_sparse_ r t)._values = t._values := by
  simp [raw_copy_sparse_, SparseTensor._indices, SparseTensor._values]

/-- Sparse add preserves the logical value on each of its three paths. -/
theorem s_add_valueAt [CommRing α] (f : Bool) (r t src : SparseTensor α) (alpha : α)
    (ht : t.WellFormed) (hs : src.WellFormed)
    (hsz : t.sizes = src.sizes) (hd : t.sparseDims = src.sparseDims)
    (hdd : t.denseDims = src.denseDims) (hf : f = true → r = src)
    (hr : f = false → r.nnz = 0) :
    ∃ res, s_add_out_sparse_cpu f r t src alpha = .ok res ∧
      ∀ c i, i < src.blockSize →
        res.valueAt c i = t.valueAt c i + alpha * src.valueAt c i := by
  by_cases hsn : src.nnz = 0
  · refine ⟨raw_copy_sparse_ r t, ?_, ?_⟩
    · unfold s_add_out_sparse_cpu
      rw [if_neg (by simp [hsz]), if_pos hsn]
    · intro c i _
      obtain ⟨_, _, _, _, _, hI, hV⟩ := raw_copy_view r t
      have e : src.valueAt c i = 0 := by
        simp [SparseTensor.valueAt, SparseTensor._indices, hsn, logicalValue_nil]
      simp only [SparseTensor.valueAt] at e ⊢
      rw [hI, hV, e, mul_zero, add_zero]
  · by_cases htn : t.nnz = 0
    · obtain ⟨res, hres, _, _, _, _, _, hI, hV⟩ := mul_out_view f r src alpha hf hr
      refine ⟨res, ?_, ?_⟩
      · unfold s_add_out_sparse_cpu
        rw [if_neg (by simp [hsz]), if_neg hsn, if_pos htn]
        exact hres
      · intro c i _
        have e : t.valueAt c i = 0 := by
          simp [SparseTensor.valueAt, SparseTensor._indices, htn, logicalValue_nil]
        simp only [SparseTensor.valueAt] at e ⊢
        rw [hI, hV, e, logicalValue_eq_entrySum, entrySum_scale, zero_add, mul_comm]
        rfl
    · obtain ⟨res, h, _, _, _, _, _, _, _, hI, hV⟩ := s_add_general_eq t src alpha
      rw [wf_entries t _ ht hd, wf_entries src _ hs rfl] at hI hV
      refine ⟨res, ?_, ?_⟩
      · exact s_add_out_general f r t src res alpha hsz hd hdd (by omega) (by omega) h
      · intro c i hi
        have hTl : ∀ p ∈ t._indices.zip t._values, p.1.length = src.sparseDims := by
          intro p hp
          rw [← hd]
          exact ht.2.2.2.1 p.1 (List.of_mem_zip hp).1
        have hSl : ∀ p ∈ src._indices.zip src._values, p.1.length = src.sparseDims := by
          intro p hp
          exact hs.2.2.2.1 p.1 (List.of_mem_zip hp).1
        simp only [SparseTensor.valueAt, logicalValue_eq_entrySum]
        rw [hI, hV, zip_map_fst_snd, mergeAdd_sum _ _ _ _ _ hTl hSl c i hi]

/-- An output that already holds an entry, with views of another shape than the operand's:
writing the sum of the empty tensor and `{(1): 2, (2): 5}` into `{(1): 3}` fails at the copy
into the index view. -/
theorem s_add_stale_output_fails :
    s_add_out_sparse_cpu false exA exZ exB 1 = .error (Err.ShapeMismatch, exA) := rfl

/-- C5: sparse add is commutative at alpha = 1. For operands of equal sizes and split, and
outputs that alias the second operand or hold no entries, both orders succeed and assign the
same summed value to every coordinate and block position, namely the sum of the two
operands' logical values. -/
theorem s_add_comm [CommRing α] (f1 f2 : Bool) (r1 r2 A B : SparseTensor α)
    (hA : A.WellFormed) (hB : B.WellFormed)
    (hsz : A.sizes = B.sizes) (hd : A.sparseDims = B.sparseDims)
    (hdd : A.denseDims = B.denseDims) (h1 : f1 = true → r1 = B) (h2 : f2 = true → r2 = A)
    (hr1 : f1 = false → r1.nnz = 0) (hr2 : f2 = false → r2.nnz = 0) :
    ∃ x y, s_add_out_sparse_cpu f1 r1 A B 1 = .ok x ∧
      s_add_out_sparse_cpu f2 r2 B A 1 = .ok y ∧
      ∀ c i, i < A.blockSize →
        x.valueAt c i = y.valueAt c i ∧ x.valueAt c i = A.valueAt c i + B.valueAt c i := by
  obtain ⟨x, hx, hxv⟩ := s_add_valueAt f1 r1 A B 1 hA hB hsz hd hdd h1 hr1
  obtain ⟨y, hy, hyv⟩ :=
    s_add_valueAt f2 r2 B A 1 hB hA hsz.symm hd.symm hdd.symm h2 hr2
  have hbs : A.blockSize = B.blockSize := by
    simp [SparseTensor.blockSize, hsz, hd]
  refine ⟨x, y, hx, hy, ?_⟩
  intro c i hi
  rw [hxv c i (by rw [← hbs]; exact hi), hyv c i hi]
  constructor <;> ring

/-- Commutativity of sparse add at the example of the specification, with fresh outputs:
`{(1): 3}` and `{(1): 2, (2): 5}` give `{(1): 5, (2): 5}` in both orders. -/
theorem s_add_comm_witness :
    (s_add_out_sparse_cpu false SparseTensor.fresh exA exB 1).map
        (fun x => (x._indices, x._values)) = .ok ([[1], [2]], [[5], [5]]) ∧
    (s_add_out_sparse_cpu false SparseTensor.fresh exB exA 1).map
        (fun x => (x._indices, x._values)) = .ok ([[1], [2]], [[5], [5]]) ∧
    ∃ x y, s_add_out_sparse_cpu false SparseTensor.fresh exA exB 1 = .ok x ∧
      s_add_out_sparse_cpu false SparseTensor.fresh exB exA 1 = .ok y ∧
      ∀ c i, i < exA.blockSize →
        x.valueAt c i = y.valueAt c i ∧
          x.valueAt c i = exA.valueAt c i + exB.valueAt c i :=
  ⟨rfl, rfl,
    s_add_comm false false SparseTensor.fresh SparseTensor.fresh exA exB (by decide)
      (by decide) rfl rfl rfl (by decide) (by decide) (fun _ => rfl) (fun _ => rfl)⟩

/-- C6: additive identity of sparse add. With `Z` of the same sizes and nnz = 0, `add(X, Z,
alpha)` is a structural copy of `X` (shape, index view, value view, nnz, coalesced flag), and
for `X` with nnz > 0, `add(Z, X, alpha)` into an output that is `X` itself or holds no
entries has `X`'s shape, index view, nnz and coalesced flag with every stored value
multiplied by `alpha`. -/
theorem s_add_identity [CommRing α] (f g : Bool) (r X Z : SparseTensor α) (alpha : α)
    (hsz : X.sizes = Z.sizes) (hz : Z.nnz = 0) (hg : g = true → r = X)
    (hr : g = false → r.nnz = 0) :
    (∃ res, s_add_out_sparse_cpu f r X Z alpha = .ok res ∧
      res.sizes = X.sizes ∧ res.sparseDims = X.sparseDims ∧ res.denseDims = X.denseDims ∧
      res._indices = X._indices ∧ res._values = X._values ∧ res.nnz = X.nnz ∧
      res.coalesced = X.coalesced) ∧
    (0 < X.nnz → ∃ res, s_add_out_sparse_cpu g r Z X alpha = .ok res ∧
      res.sizes = X.sizes ∧ res.sparseDims = X.sparseDims ∧ res.denseDims = X.denseDims ∧
      res._indices = X._indices ∧ res.nnz = X.nnz ∧ res.coalesced = X.coalesced ∧
      res._values = X._values.map (fun b => b.map (fun x => x * alpha))) := by
  constructor
  · refine ⟨raw_copy_sparse_ r X, ?_, ?_⟩
    · unfold s_add_out_sparse_cpu
      rw [if_neg (by simp [hsz]), if_pos hz]
    · obtain ⟨h1, h2, h3, h4, h5, h6, h7⟩ := raw_copy_view r X
      exact ⟨h1, h2, h3, h6, h7, h4, h5⟩
  · intro hx
    obtain ⟨res, hres, h1, h2, h3, h4, h5, h6, h7⟩ := mul_out_view g r X alpha hg hr
    refine ⟨res, ?_, h1, h2, h3, h6, h4, h5, h7⟩
    unfold s_add_out_sparse_cpu
    rw [if_neg (by simp [hsz]), if_neg (by omega), if_pos hz]
    exact hres

/-- The additive identity at `{(1): 2, (2): 5}`, the empty tensor, a fresh output and
`alpha = 3`. -/
theorem s_add_identity_witness :
    (∃ res, s_add_out_sparse_cpu false SparseTensor.fresh exB exZ 3 = .ok res ∧
      res.sizes = exB.sizes ∧ res.sparseDims = exB.sparseDims ∧
      res.denseDims = exB.denseDims ∧
      res._indices = exB._indices ∧ res._values = exB._values ∧ res.nnz = exB.nnz ∧
      res.coalesced = exB.coalesced) ∧
    (0 < exB.nnz → ∃ res, s_add_out_sparse_cpu false SparseTensor.fresh exZ exB 3 = .ok res ∧
      res.sizes = exB.sizes ∧ res.sparseDims = exB.sparseDims ∧
      res.denseDims = exB.denseDims ∧
      res._indices = exB._indices ∧ res.nnz = exB.nnz ∧ res.coalesced = exB.coalesced ∧
      res._values = exB._values.map (fun b => b.map (fun x => x * 3))) :=
  s_add_identity false false SparseTensor.fresh exB exZ 3 rfl rfl (by decide) (fun _ => rfl)

/-- C9: the in-place fast path of the scalar multiply agrees with the out-of-place path.
Both `mul_sparse_scalar_ X s` and `mul_sparse_scalar X s` return; what the first leaves in
`X` and the fresh result of the second have the same shape, index view, nnz, coalesced flag
and value view, each stored value being the original times `s`. -/
theorem mul_scalar_inplace_eq [CommRing α] (X : SparseTensor α) (s : α) :
    ∃ a b, mul_sparse_scalar_ X s = .ok a ∧ mul_sparse_scalar X s = .ok b ∧
      a.sizes = b.sizes ∧ a.sparseDims = b.sparseDims ∧ a.denseDims = b.denseDims ∧
      a._indices = b._indices ∧ a.nnz = b.nnz ∧ a.coalesced = b.coalesced ∧
      a._values = b._values ∧
      b._indices = X._indices ∧
      b._values = X._values.map (fun v => v.map (fun x => x * s)) := by
  obtain ⟨a, ha, a1, a2, a3, a4, a5, a6, a7⟩ :=
    mul_out_view true X X s (fun _ => rfl) (fun h => by simp at h)
  obtain ⟨b, hb, b1, b2, b3, b4, b5, b6, b7⟩ :=
    mul_out_view false SparseTensor.fresh X s (fun h => by simp at h) (fun _ => rfl)
  refine ⟨a, b, ha, hb, ?_⟩
  rw [a1, a2, a3, a4, a5, a6, a7, b1, b2, b3, b4, b5, b6, b7]
  exact ⟨rfl, rfl, rfl, rfl, rfl, rfl, rfl, rfl, rfl⟩

theorem csr_stamp_spec (v : Nat) : ∀ (k a : Nat) (csr : List Nat), a + k < csr.length →
    ∃ csr', csr_stamp v k (a : Int) csr = .ok csr' ∧ csr'.length = csr.length ∧
      ∀ j, csr'.getD j 0 = if a < j ∧ j ≤ a + k then v else csr.getD j 0
  | 0, a, csr, _ => ⟨csr, rfl, rfl, fun j => by rw [if_neg (by omega)]⟩
  | k + 1, a, csr, h => by
    have e : ((a : Int) + 1).toNat = a + 1 := by omega
    have e' : ((a : Int) + 1) = ((a + 1 : Nat) : Int) := by omega
    obtain ⟨csr', h1, h2, h3⟩ := csr_stamp_spec v k (a + 1) (csr.set (a + 1) v)
      (by rw [List.length_set]; omega)
    refine ⟨csr', ?_, by rw [h2, List.length_set], ?_⟩
    · rw [csr_stamp, if_pos ⟨by omega, by omega⟩, e, e']
      exact h1
    · intro j
      rw [h3]
      by_cases hj : j = a + 1
      · subst hj
        rw [getD_set_eq _ _ _ _ (by omega)]
        simp
      · rw [getD_set_ne _ _ _ _ _ (fun e => hj e.symm)]
        by_cases h4 : a + 1 < j ∧ j ≤ a + 1 + k
        · rw [if_pos h4, if_pos ⟨by omega, by omega⟩]
        · rw [if_neg h4, if_neg (by omega)]

theorem countP_range_lt (n c : Nat) (h : c ≤ n) :
    (List.range n).countP (fun i => decide (i < c)) = c := by
  induction n with
  | zero => simp at h; simp [h]
  | succ n ih =>
    rw [List.range_succ, List.countP_append]
    by_cases hc : c ≤ n
    · rw [ih hc]; simp; omega
    · have e : c = n + 1 := by omega
      subst e
      have : (List.range n).countP (fun i => decide (i < n + 1)) = n := by
        rw [List.countP_eq_length.mpr]
        · simp
        · intro a ha; simp at ha ⊢; omega
      rw [this]; simp

theorem countP_downward (P : Nat → Bool) : ∀ (n : Nat),
    (∀ i j, i ≤ j → j < n → P j = true → P i = true) →
    ∀ i, i < n → (P i = true ↔ i < (List.range n).countP P)
  | 0, _, i, hi => by omega
  | n + 1, hP, i, hi => by
    rw [List.range_succ, List.countP_append]
    have hle : (List.range n).countP P ≤ n := by
      have := List.countP_le_length P (l := List.range n)
      simpa using this
    by_cases hn : P n = true
    · have hall : (List.range n).countP P = n := by
        have := (List.countP_eq_length (p := P) (l := List.range n)).mpr
          (fun a ha => hP a n (by simp at ha; omega) (by omega) hn)
        simpa using this
      rw [hall]
      simp only [List.countP_cons, List.countP_nil, hn, if_true]
      constructor
      · intro _; omega
      · intro _; exact hP i n (by omega) (by omega) hn
    · have ih := countP_downward P n (fun i j h1 h2 h3 => hP i j h1 (by omega) h3)
      simp only [List.countP_cons, List.countP_nil, hn]
      by_cases hin : i = n
      · subst hin
        constructor
        · intro h; exact absurd h hn
        · intro h; simp at h; omega
      · rw [ih i (by omega)]
        simp

theorem countBelow_prefix (indices : List Int) (nnz : Nat) (h : Int) (m : Nat)
    (hs : ∀ i j, i ≤ j → j < nnz → indices.getD i 0 ≤ indices.getD j 0)
    (hm : m < nnz) (h1 : indices.getD m 0 < h)
    (h2 : h ≤ (if m + 1 = nnz then (h : Int) else indices.getD (m + 1) 0)) :
    countBelow indices nnz h = m + 1 := by
  unfold countBelow
  rw [← countP_range_lt nnz (m + 1) (by omega)]
  apply List.countP_congr
  intro i hi
  simp only [List.mem_range] at hi
  simp only [decide_eq_true_eq]
  constructor
  · intro hlt
    by_contra hge
    have hmi : m + 1 ≤ i := by omega
    have hne : ¬ (m + 1 = nnz) := by omega
    rw [if_neg hne] at h2
    have := hs (m + 1) i hmi hi
    omega
  · intro hlt
    have := hs i m (by omega) hm
    omega

theorem to_csr_loop_inv (indices : List Int) (dim nnz : Nat)
    (hs : ∀ i j, i ≤ j → j < nnz → indices.getD i 0 ≤ indices.getD j 0)
    (hr : ∀ i, i < nnz → 0 ≤ indices.getD i 0 ∧ indices.getD i 0 < dim) :
    ∀ (k m : Nat) (csr : List Nat), m + k = nnz → csr.length = dim + 1 →
      (∀ h, h ≤ dim → csr.getD h 0 =
        if (h : Int) ≤ (if m = nnz then (dim : Int) else indices.getD m 0)
        then countBelow indices nnz h else 0) →
      ∃ csr', _to_csr_loop indices dim nnz k m csr = .ok csr' ∧ csr'.length = dim + 1 ∧
        ∀ h, h ≤ dim → csr'.getD h 0 = countBelow indices nnz h
  | 0, m, csr, hm, hl, hinv => by
    refine ⟨csr, rfl, hl, ?_⟩
    intro h hh
    rw [hinv h hh, if_pos (by omega)]
  | k + 1, m, csr, hm, hl, hinv => by
    have hmn : m < nnz := by omega
    obtain ⟨h0, h0'⟩ := hr m hmn
    have hbm : (if m = nnz then (dim : Int) else indices.getD m 0) = indices.getD m 0 :=
      if_neg (by omega)
    simp only [hbm] at hinv
    have hb : indices.getD m 0 ≤ (if m + 1 = nnz then (dim : Int) else indices.getD (m + 1) 0)
        ∧ (if m + 1 = nnz then (dim : Int) else indices.getD (m + 1) 0) ≤ dim := by
      by_cases e : m + 1 = nnz
      · rw [if_pos e]; omega
      · rw [if_neg e]
        have := hs m (m + 1) (by omega) (by omega)
        have := (hr (m + 1) (by omega)).2
        omega
    rw [_to_csr_loop]
    by_cases hne : indices.getD m 0 ≠
        (if m + 1 = nnz then (dim : Int) else indices.getD (m + 1) 0)
    · rw [if_pos hne]
      obtain ⟨a, ha⟩ : ∃ a : Nat, indices.getD m 0 = (a : Int) :=
        ⟨(indices.getD m 0).toNat, by omega⟩
      obtain ⟨b, hbb⟩ : ∃ b : Nat,
          (if m + 1 = nnz then (dim : Int) else indices.getD (m + 1) 0) = (b : Int) :=
        ⟨(if m + 1 = nnz then (dim : Int) else indices.getD (m + 1) 0).toNat, by omega⟩
      rw [hbb] at hb hne ⊢
      rw [ha] at hb hne ⊢
      have hk : ((b : Int) - (a : Int)).toNat = b - a := by omega
      rw [hk]
      obtain ⟨csr', e1, e2, e3⟩ := csr_stamp_spec (m + 1) (b - a) a csr (by omega)
      rw [e1]
      simp only
      apply to_csr_loop_inv indices dim nnz hs hr k (m + 1) csr' (by omega) (by omega)
      intro h hh
      rw [e3 h]
      have hbound : (if m + 1 = nnz then (dim : Int) else indices.getD (m + 1) 0) = (b : Int) :=
        hbb
      rw [hbound]
      by_cases c1 : a < h ∧ h ≤ a + (b - a)
      · rw [if_pos c1, if_pos (by omega)]
        symm
        apply countBelow_prefix indices nnz h m hs hmn (by omega)
        by_cases e : m + 1 = nnz
        · rw [if_pos e]
        · rw [if_neg e]; rw [if_neg e] at hbb; omega
      · rw [if_neg c1, hinv h hh, ha]
        by_cases c2 : (h : Int) ≤ (a : Int)
        · rw [if_pos c2, if_pos (show (h : Int) ≤ (b : Int) by omega)]
        · rw [if_neg c2, if_neg (show ¬ (h : Int) ≤ (b : Int) by omega)]
    · have heq : indices.getD m 0 =
          (if m + 1 = nnz then (dim : Int) else indices.getD (m + 1) 0) := by
        by_contra hc; exact hne hc
      rw [if_neg hne]
      simp only
      apply to_csr_loop_inv indices dim nnz hs hr k (m + 1) csr (by omega) hl
      intro h hh
      rw [← heq]
      exact hinv h hh

theorem to_csr_counts (indices : List Int) (dim nnz : Nat)
    (hs : ∀ i j, i ≤ j → j < nnz → indices.getD i 0 ≤ indices.getD j 0)
    (hr : ∀ i, i < nnz → 0 ≤ indices.getD i 0 ∧ indices.getD i 0 < dim) :
    ∃ csr, _to_csr indices dim nnz = .ok csr ∧ csr.length = dim + 1 ∧
      ∀ h, h ≤ dim → csr.getD h 0 = countBelow indices nnz h := by
  unfold _to_csr
  simp only
  by_cases hn : nnz > 0
  · rw [if_pos hn]
    apply to_csr_loop_inv indices dim nnz hs hr nnz 0 _ (by omega) (by simp)
    intro h hh
    have hz : (List.replicate (dim + 1) 0).getD h 0 = 0 := by
      simp [List.getD_eq_getElem?_getD]
    have hb0 : (if 0 = nnz then (dim : Int) else indices.getD 0 0) = indices.getD 0 0 :=
      if_neg (by omega)
    rw [hz, hb0]
    by_cases c : (h : Int) ≤ indices.getD 0 0
    · rw [if_pos c]
      unfold countBelow
      symm
      rw [List.countP_eq_zero]
      intro i hi
      simp only [List.mem_range] at hi
      have := hs 0 i (by omega) hi
      simp only [decide_eq_true_eq]
      omega
    · rw [if_neg c]
  · rw [if_neg hn]
    refine ⟨_, rfl, by simp, ?_⟩
    intro h hh
    have e : nnz = 0 := by omega
    subst e
    simp [countBelow, List.getD_eq_getElem?_getD]

theorem countBelow_positions (indices : List Int) (nnz : Nat)
    (hs : ∀ i j, i ≤ j → j < nnz → indices.getD i 0 ≤ indices.getD j 0)
    (h i : Nat) (hi : i < nnz) :
    (countBelow indices nnz (h : Int) ≤ i ∧ i < countBelow indices nnz ((h + 1 : Nat) : Int)) ↔
      indices.getD i 0 = (h : Int) := by
  have hiff : ∀ (h : Int) (i : Nat), i < nnz →
      (indices.getD i 0 < h ↔ i < countBelow indices nnz h) := by
    intro h i hi
    have := countP_downward (fun i => decide (indices.getD i 0 < h)) nnz
      (fun a b hab hb hP => by
        simp only [decide_eq_true_eq] at hP ⊢
        have := hs a b hab hb
        omega) i hi
    simpa [countBelow] using this
  have a1 := hiff (h : Int) i hi
  have a2 := hiff ((h + 1 : Nat) : Int) i hi
  constructor
  · rintro ⟨b1, b2⟩
    have c1 : ¬ indices.getD i 0 < (h : Int) := fun c => by have := a1.mp c; omega
    have c2 := a2.mpr b2
    omega
  · intro e
    have c2 : i < countBelow indices nnz ((h + 1 : Nat) : Int) := a2.mp (by omega)
    have c1 : ¬ i < countBelow indices nnz (h : Int) := fun c => by
      have := a1.mpr c; omega
    exact ⟨by omega, c2⟩

/-- C4: `_to_csr` builds the row-offset array. For non-decreasing row coordinates with values
in `[0, dim)` the call succeeds with an array of length `dim + 1` whose entry `h` is the
number of positions `i < nnz` with row below `h`; hence `csr[0] = 0`, `csr[dim] = nnz`, the
positions in `[csr[h], csr[h+1])` are exactly those whose row is `h`, and a row without
nonzeros has `csr[h] = csr[h+1]`. -/
theorem to_csr_correct (indices : List Int) (dim nnz : Nat)
    (hsorted : ∀ j, j < nnz → ∀ i, i ≤ j → indices.getD i 0 ≤ indices.getD j 0)
    (hr : ∀ i, i < nnz → 0 ≤ indices.getD i 0 ∧ indices.getD i 0 < dim) :
    ∃ csr, _to_csr indices dim nnz = .ok csr ∧ csr.length = dim + 1 ∧
      (∀ h, h ≤ dim → csr.getD h 0 = countBelow indices nnz h) ∧
      csr.getD 0 0 = 0 ∧ csr.getD dim 0 = nnz ∧
      (∀ h i, h < dim → i < nnz →
        ((csr.getD h 0 ≤ i ∧ i < csr.getD (h + 1) 0) ↔ indices.getD i 0 = (h : Int))) ∧
      (∀ h, h < dim → (∀ i, i < nnz → indices.getD i 0 ≠ (h : Int)) →
        csr.getD h 0 = csr.getD (h + 1) 0) := by
  have hs : ∀ i j, i ≤ j → j < nnz → indices.getD i 0 ≤ indices.getD j 0 :=
    fun i j hij hj => hsorted j hj i hij
  obtain ⟨csr, h1, h2, h3⟩ := to_csr_counts indices dim nnz hs hr
  have hpos : ∀ h i, h < dim → i < nnz →
      ((csr.getD h 0 ≤ i ∧ i < csr.getD (h + 1) 0) ↔ indices.getD i 0 = (h : Int)) := by
    intro h i hh hi
    rw [h3 h (by omega), h3 (h + 1) (by omega)]
    exact countBelow_positions indices nnz hs h i hi
  refine ⟨csr, h1, h2, h3, ?_, ?_, hpos, ?_⟩
  · rw [h3 0 (by omega)]
    unfold countBelow
    rw [List.countP_eq_zero]
    intro i hi
    simp only [List.mem_range] at hi
    have := (hr i hi).1
    simp only [decide_eq_true_eq]
    omega
  · rw [h3 dim (le_refl _)]
    unfold countBelow
    have := (List.countP_eq_length (p := fun i => decide (indices.getD i 0 < (dim : Int)))
      (l := List.range nnz)).mpr (fun i hi => by
        simp only [List.mem_range] at hi
        simpa using (hr i hi).2)
    simpa using this
  · intro h hh hempty
    by_contra hne
    have hmono : countBelow indices nnz (h : Int) ≤ countBelow indices nnz ((h + 1 : Nat) : Int)
        := by
      unfold countBelow
      apply List.countP_mono_left
      intro i _ hP
      simp only [decide_eq_true_eq] at hP ⊢
      omega
    rw [h3 h (by omega), h3 (h + 1) (by omega)] at hne
    have hlt : countBelow indices nnz (h : Int) < countBelow indices nnz ((h + 1 : Nat) : Int) := by
      omega
    have hle : countBelow indices nnz ((h + 1 : Nat) : Int) ≤ nnz := by
      unfold countBelow
      have := List.countP_le_length (fun i => decide (indices.getD i 0 < ((h + 1 : Nat) : Int)))
        (l := List.range nnz)
      simpa using this
    have hi : countBelow indices nnz (h : Int) < nnz := by omega
    have := (hpos h (countBelow indices nnz (h : Int)) hh hi).mp
      ⟨by rw [h3 h (by omega)], by rw [h3 (h + 1) (by omega)]; exact hlt⟩
    exact hempty _ hi this

/-- The row-offset array of the rows `0, 0, 2, 3` of a 4-row matrix. -/
theorem to_csr_correct_witness :
    ∃ csr, _to_csr [0, 0, 2, 3] 4 4 = .ok csr ∧ csr.length = 4 + 1 ∧
      (∀ h : Nat, h ≤ 4 → csr.getD h 0 = countBelow [0, 0, 2, 3] 4 h) ∧
      csr.getD 0 0 = 0 ∧ csr.getD 4 0 = 4 ∧
      (∀ h i : Nat, h < 4 → i < 4 →
        ((csr.getD h 0 ≤ i ∧ i < csr.getD (h + 1) 0) ↔
          ([0, 0, 2, 3] : List Int).getD i 0 = (h : Int))) ∧
      (∀ h : Nat, h < 4 → (∀ i, i < 4 → ([0, 0, 2, 3] : List Int).getD i 0 ≠ (h : Int)) →
        csr.getD h 0 = csr.getD (h + 1) 0) :=
  to_csr_correct [0, 0, 2, 3] 4 4 (by decide) (by decide)


theorem toDouble_eq_zero (value : Scalar) : value.toDouble = 0 ↔ value.isZero = true := by
  cases value with
  | ofInt v => simp [Scalar.toDouble, Scalar.isZero]
  | ofDouble v => simp [Scalar.toDouble, Scalar.isZero]

/-- C8: `pow_out_sparse_scalar` rejects a zero exponent before computing anything. With
exponent 0 the call fails with `InvalidArgument` and the output tensor is left as it was,
whatever the output, the operand and its nnz. With a nonzero exponent the check does not
fail: the call never fails with `InvalidArgument`, and into an output that holds no entries
it returns the coalesced operand's shape, index view, nnz and flag with the powers of its
values. -/
theorem pow_rejects_zero (coalesce : SparseTensor α → SparseTensor α)
    (pow_out : List (List α) → Scalar → List (List α)) (r X : SparseTensor α)
    (value : Scalar) :
    (value.isZero = true →
      pow_out_sparse_scalar coalesce pow_out r X value = .error (Err.InvalidArgument, r)) ∧
    (value.isZero = false →
      (∀ r', pow_out_sparse_scalar coalesce pow_out r X value ≠
        .error (Err.InvalidArgument, r')) ∧
      (r.nnz = 0 →
        pow_out_sparse_scalar coalesce pow_out r X value =
          .ok { sizes := (coalesce X).sizes, sparseDims := (coalesce X).sparseDims,
                denseDims := (coalesce X).denseDims, indices := (coalesce X)._indices,
                values := pow_out (coalesce X)._values value, nnz := (coalesce X).nnz,
                coalesced := (coalesce X).coalesced })) := by
  constructor
  · intro h
    unfold pow_out_sparse_scalar
    rw [if_pos (by simpa using (toDouble_eq_zero value).mpr h)]
  · intro h
    have hne : value.toDouble ≠ 0 := by
      intro e
      rw [(toDouble_eq_zero value).mp e] at h
      exact Bool.noConfusion h
    have hcall : pow_out_sparse_scalar coalesce pow_out r X value =
        write_views r (coalesce X) (pow_out (coalesce X)._values value) := by
      unfold pow_out_sparse_scalar
      rw [if_neg (by simpa using hne)]
    rw [hcall]
    constructor
    · intro r' he
      have := write_views_error _ _ _ _ _ he
      exact absurd this (by decide)
    · intro hr
      exact write_views_empty r (coalesce X) _ hr

/-- The exponent check at the exponents `0`, with an output that holds an entry, and `1/2`,
with a fresh output. -/
theorem pow_rejects_zero_witness :
    pow_out_sparse_scalar id (fun v _ => v) exA exB (Scalar.ofInt 0)
        = .error (Err.InvalidArgument, exA) ∧
    pow_out_sparse_scalar id (fun v _ => v) SparseTensor.fresh exB (Scalar.ofDouble (1 / 2))
        = .ok { sizes := (id exB).sizes, sparseDims := (id exB).sparseDims,
                denseDims := (id exB).denseDims, indices := (id exB)._indices,
                values := (fun v _ => v) (id exB)._values (Scalar.ofDouble (1 / 2)),
                nnz := (id exB).nnz, coalesced := (id exB).coalesced } :=
  ⟨(pow_rejects_zero id (fun v _ => v) exA exB (Scalar.ofInt 0)).1 rfl,
    ((pow_rejects_zero id (fun v _ => v) SparseTensor.fresh exB (Scalar.ofDouble (1 / 2))).2
      (by simp [Scalar.isZero])).2 rfl⟩

theorem row_pos_lt (a b k d : Nat) (hab : a < b) (hk : k < d) : a * d + k < b * d := by
  have h1 : (a + 1) * d ≤ b * d := Nat.mul_le_mul_right d hab
  have h2 : (a + 1) * d = a * d + d := by ring
  omega

theorem addmm_row_spec [CommRing α] (dim_j dim_k : Nat) (alpha : α)
    (indices : List (List Int)) (values : List (List α)) (dense : Tensor α) (h : Nat) :
    ∀ (n i : Nat) (r : List α),
      (∀ i', i ≤ i' → i' < i + n → 0 ≤ accessor indices 1 i' ∧ accessor indices 1 i' < dim_j) →
      (h + 1) * dim_k ≤ r.length →
      ∃ r', addmm_row dim_j dim_k alpha indices values dense dim_k 1 h n i r = .ok r' ∧
        r'.length = r.length ∧
        (∀ k, k < dim_k → r'.getD (h * dim_k + k) 0 = r.getD (h * dim_k + k) 0 +
          ((List.range' i n).map (fun i' => alpha * (values.getD i' []).getD 0 0 *
            dense.data.getD ((accessor indices 1 i').toNat * dense.stride 0
              + k * dense.stride 1) 0)).sum) ∧
        (∀ p, (p < h * dim_k ∨ (h + 1) * dim_k ≤ p) → r'.getD p 0 = r.getD p 0)
  | 0, i, r, _, _ => ⟨r, rfl, rfl, fun k _ => by simp, fun p _ => rfl⟩
  | n + 1, i, r, hc, hl => by
    have hci := hc i (le_refl i) (by omega)
    have hlen : (THBlas_axpy dim_k (alpha * (values.getD i []).getD 0 0) dense.data
        ((accessor indices 1 i).toNat * dense.stride 0) (dense.stride 1) r
        (h * dim_k) 1).length = r.length := axpy_length _ _ _ _ _ _ _ _
    obtain ⟨r', e1, e2, e3, e4⟩ := addmm_row_spec dim_j dim_k alpha indices values dense h n
      (i + 1) (THBlas_axpy dim_k (alpha * (values.getD i []).getD 0 0) dense.data
        ((accessor indices 1 i).toNat * dense.stride 0) (dense.stride 1) r (h * dim_k) 1)
      (fun i' h1 h2 => hc i' (by omega) (by omega)) (by rw [hlen]; exact hl)
    have hexp : (h + 1) * dim_k = h * dim_k + dim_k := by ring
    refine ⟨r', ?_, by rw [e2, hlen], ?_, ?_⟩
    · rw [addmm_row, if_pos ⟨hci.1, hci.2⟩]
      exact e1
    · intro k hk
      rw [e3 k hk]
      have := axpy_getD_hit dim_k (alpha * (values.getD i []).getD 0 0) dense.data
        ((accessor indices 1 i).toNat * dense.stride 0) (dense.stride 1) r (h * dim_k) 1 k hk
        (by omega) (by omega)
      simp only [Nat.mul_one] at this
      rw [this, List.range'_succ, List.map_cons, List.sum_cons, add_assoc]
    · intro p hp
      rw [e4 p hp]
      apply axpy_getD_miss
      intro j hj
      omega

theorem addmm_rows_spec [CommRing α] (dim_j dim_k : Nat) (alpha : α) (csr : List Nat)
    (indices : List (List Int)) (values : List (List α)) (dense : Tensor α) :
    ∀ (n h : Nat) (r : List α),
      (∀ h', h ≤ h' → h' < h + n → ∀ i', csr.getD h' 0 ≤ i' → i' < csr.getD (h' + 1) 0 →
        0 ≤ accessor indices 1 i' ∧ accessor indices 1 i' < dim_j) →
      (h + n) * dim_k ≤ r.length →
      ∃ r', addmm_rows dim_j dim_k alpha csr indices values dense dim_k 1 n h r = .ok r' ∧
        r'.length = r.length ∧
        ∀ h' k, h' < h + n → k < dim_k → r'.getD (h' * dim_k + k) 0 =
          r.getD (h' * dim_k + k) 0 +
          (if h ≤ h' then
            ((List.range' (csr.getD h' 0) (csr.getD (h' + 1) 0 - csr.getD h' 0)).map
              (fun i' => alpha * (values.getD i' []).getD 0 0 *
                dense.data.getD ((accessor indices 1 i').toNat * dense.stride 0
                  + k * dense.stride 1) 0)).sum
          else 0)
  | 0, h, r, _, _ => ⟨r, rfl, rfl, fun h' k hh _ => by
      rw [if_neg (by omega), add_zero]⟩
  | n + 1, h, r, hc, hl => by
    have hl1 : (h + 1) * dim_k ≤ r.length := by
      have : (h + 1) * dim_k ≤ (h + (n + 1)) * dim_k := Nat.mul_le_mul_right _ (by omega)
      omega
    obtain ⟨r1, a1, a2, a3, a4⟩ := addmm_row_spec dim_j dim_k alpha indices values dense h
      (csr.getD (h + 1) 0 - csr.getD h 0) (csr.getD h 0) r
      (fun i' h1 h2 => hc h (le_refl h) (by omega) i' h1 (by omega)) hl1
    obtain ⟨r', b1, b2, b3⟩ := addmm_rows_spec dim_j dim_k alpha csr indices values dense n
      (h + 1) r1 (fun h' h1 h2 => hc h' (by omega) (by omega))
      (by rw [a2]; have : h + 1 + n = h + (n + 1) := by omega
          rw [this]; exact hl)
    refine ⟨r', ?_, by rw [b2, a2], ?_⟩
    · rw [addmm_rows, a1]
      exact b1
    · intro h' k hh hk
      rw [b3 h' k (by omega) hk]
      by_cases c1 : h' = h
      · subst c1
        rw [if_neg (by omega), if_pos (le_refl _), add_zero, a3 k hk]
      · by_cases c2 : h < h'
        · rw [if_pos (by omega), if_pos (by omega),
            a4 (h' * dim_k + k) (Or.inr (by
              have := Nat.mul_le_mul_right dim_k (show h + 1 ≤ h' by omega)
              omega))]
        · rw [if_neg (by omega), if_neg (by omega),
            a4 (h' * dim_k + k) (Or.inl (row_pos_lt h' h k dim_k (by omega) hk))]

theorem filter_range_interval (n a b : Nat) (hb : b ≤ n) :
    (List.range n).filter (fun i => decide (a ≤ i ∧ i < b)) = List.range' a (b - a) := by
  induction n generalizing b with
  | zero =>
    have : b = 0 := by omega
    subst this
    simp
  | succ n ih =>
    rw [List.range_succ, List.filter_append]
    by_cases hbn : b ≤ n
    · rw [ih b hbn]
      have : ¬ (a ≤ n ∧ n < b) := by omega
      simp [this]
    · have hbe : b = n + 1 := by omega
      subst hbe
      have hcongr : (List.range n).filter (fun i => decide (a ≤ i ∧ i < n + 1)) =
          (List.range n).filter (fun i => decide (a ≤ i ∧ i < n)) := by
        apply List.filter_congr
        intro x hx
        simp only [List.mem_range] at hx
        simp only [decide_eq_decide]
        omega
      rw [hcongr, ih n (le_refl n)]
      by_cases han : a ≤ n
      · have e : n + 1 - a = (n - a) + 1 := by omega
        rw [e, List.range'_concat]
        have : a ≤ n ∧ n < n + 1 := ⟨han, by omega⟩
        have e2 : a + 1 * (n - a) = n := by omega
        simp [this, e2]
      · have e : n + 1 - a = 0 := by omega
        have e' : n - a = 0 := by omega
        have : ¬ (a ≤ n ∧ n < n + 1) := by omega
        simp [e, e']
        omega

theorem rowIndices_getD (indices : List (List Int)) (i : Nat) :
    (rowIndices indices).getD i 0 = accessor indices 0 i := by
  unfold rowIndices accessor
  simp only [List.getD_eq_getElem?_getD, List.getElem?_map]
  cases indices[i]? with
  | none => simp
  | some c => simp

theorem resize_length [Zero α] (r : Tensor α) (s : List Nat) :
    (r.resize_ s).data.length = s.prod := by
  simp [Tensor.resize_]
  omega

theorem resize_self [Zero α] (t : Tensor α) (h : t.WellFormed) : t.resize_ t.sizes = t := by
  unfold Tensor.WellFormed at h
  cases t with
  | mk sizes data =>
    simp only at h
    simp [Tensor.resize_, h]

theorem getD_map_mul [CommRing α] (l : List α) (b : α) (p : Nat) :
    (l.map (fun x => x * b)).getD p 0 = b * l.getD p 0 := by
  simp only [List.getD_eq_getElem?_getD, List.getElem?_map]
  cases l[p]? with
  | none => simp
  | some y => simp [mul_comm]

theorem addmm_seed [CommRing α] [DecidableEq α] (f : Bool) (r1 t : Tensor α) (beta : α)
    (s : List Nat) (hr : r1.sizes = s) (hrl : r1.data.length = s.prod)
    (ht : t.sizes = s) (htl : t.data.length = s.prod) (hf : f = true → r1 = t) :
    (if beta = 0 then r1.zero_
      else if beta = 1 then (if ¬ (f = true) then r1.copy_ t else r1)
      else Tensor.mul_out r1 t beta).sizes = s ∧
    (if beta = 0 then r1.zero_
      else if beta = 1 then (if ¬ (f = true) then r1.copy_ t else r1)
      else Tensor.mul_out r1 t beta).data.length = s.prod ∧
    ∀ p, p < s.prod →
      (if beta = 0 then r1.zero_
        else if beta = 1 then (if ¬ (f = true) then r1.copy_ t else r1)
        else Tensor.mul_out r1 t beta).data.getD p 0 = beta * t.data.getD p 0 := by
  by_cases h0 : beta = 0
  · simp only [if_pos h0]
    refine ⟨hr, by simp [Tensor.zero_, hrl], ?_⟩
    intro p hp
    simp [Tensor.zero_, h0, List.getD_eq_getElem?_getD, hrl, hp]
  · simp only [if_neg h0]
    by_cases h1 : beta = 1
    · simp only [if_pos h1]
      by_cases hf' : f = true
      · have e := hf hf'
        simp only [hf', not_true_eq_false, if_false]
        refine ⟨hr, hrl, ?_⟩
        intro p _
        rw [e, h1, one_mul]
      · simp only [hf', not_false_eq_true, if_true]
        refine ⟨hr, htl, ?_⟩
        intro p _
        simp [Tensor.copy_, h1]
    · simp only [if_neg h1]
      refine ⟨ht, by simp [Tensor.mul_out, htl], ?_⟩
      intro p _
      exact getD_map_mul t.data beta p

theorem countBelow_le (indices : List Int) (nnz : Nat) (h : Int) :
    countBelow indices nnz h ≤ nnz := by
  unfold countBelow
  have := List.countP_le_length (fun i => decide (indices.getD i 0 < h)) (l := List.range nnz)
  simpa using this

theorem sum_map_mul_left' [CommRing α] (l : List Nat) (a : α) (f g : Nat → α) :
    (l.map (fun i => a * f i * g i)).sum = a * (l.map (fun i => f i * g i)).sum := by
  induction l with
  | nil => simp
  | cons x l ih => simp only [List.map_cons, List.sum_cons, ih]; ring

/-- The row coordinates of a coalesced 2-D operand are non-decreasing. -/
theorem coalesced_rows_sorted (indices : List (List Int)) (nnz : Nat)
    (hlen : indices.length = nnz) (hc : ∀ c ∈ indices, c.length = 2)
    (hs : StrictlyIncreasing indices) :
    ∀ j, j < nnz → ∀ i, i ≤ j → accessor indices 0 i ≤ accessor indices 0 j := by
  intro j hj i hij
  rcases Nat.lt_or_eq_of_le hij with hlt | heq
  · have hi : i < indices.length := by omega
    have hj' : j < indices.length := by omega
    have := (List.pairwise_iff_getElem.mp hs) i j hi hj' hlt
    have e1 : accessor indices 0 i = (indices[i]).getD 0 0 := by
      simp [accessor, List.getD_eq_getElem?_getD, hi]
    have e2 : accessor indices 0 j = (indices[j]).getD 0 0 := by
      simp [accessor, List.getD_eq_getElem?_getD, hj']
    rw [e1, e2]
    have l1 := hc _ (List.getElem_mem hi)
    have l2 := hc _ (List.getElem_mem hj')
    generalize indices[i] = a at this l1 ⊢
    generalize indices[j] = b at this l2 ⊢
    match a, b, l1, l2 with
    | [a0, a1], [b0, b1], _, _ =>
      simp only [tupleLt] at this
      simp only [List.getD_cons_zero]
      by_contra hcon
      have hba : b0 < a0 := by omega
      have hab : ¬ a0 < b0 := by omega
      simp [hab, hba] at this
  · subst heq; exact le_refl _

/-- The entries of the accumulate-multiply result: under the shape and range conditions the
call succeeds and entry `(h, k)` is `beta * t[h][k] + alpha * rowDot h k`. -/
theorem s_addmm_entries [CommRing α] [DecidableEq α]
    (coalesce : SparseTensor α → SparseTensor α) (f : Bool) (r t : Tensor α)
    (sparse_ : SparseTensor α) (dense : Tensor α) (beta alpha : α) (dim_i dim_j dim_k : Nat)
    (h2 : sparse_.sparseDims = 2) (h0 : sparse_.denseDims = 0)
    (hS : (coalesce sparse_).sizes = [dim_i, dim_j])
    (hD : dense.sizes = [dim_j, dim_k]) (hT : t.sizes = [dim_i, dim_k])
    (hTw : t.WellFormed) (hf : f = true → r = t)
    (hsorted : ∀ j, j < (coalesce sparse_).nnz → ∀ i, i ≤ j →
      accessor (coalesce sparse_)._indices 0 i ≤ accessor (coalesce sparse_)._indices 0 j)
    (hrange : ∀ i, i < (coalesce sparse_).nnz →
      (0 ≤ accessor (coalesce sparse_)._indices 0 i ∧
        accessor (coalesce sparse_)._indices 0 i < dim_i) ∧
      (0 ≤ accessor (coalesce sparse_)._indices 1 i ∧
        accessor (coalesce sparse_)._indices 1 i < dim_j)) :
    ∃ res, s_addmm_out_sparse_dense_cpu coalesce f r t sparse_ dense beta alpha = .ok res ∧
      res.sizes = [dim_i, dim_k] ∧ res.data.length = dim_i * dim_k ∧
      ∀ h k, h < dim_i → k < dim_k →
        res.data.getD (h * dim_k + k) 0 =
          beta * t.data.getD (h * dim_k + k) 0 + alpha * rowDot (coalesce sparse_) dense h k
    := by
  have hsz0 : (coalesce sparse_).size 0 = dim_i := by simp [SparseTensor.size, hS]
  have hsz1 : (coalesce sparse_).size 1 = dim_j := by simp [SparseTensor.size, hS]
  have hd0 : dense.size 0 = dim_j := by simp [Tensor.size, hD]
  have hd1 : dense.size 1 = dim_k := by simp [Tensor.size, hD]
  have hdd : dense.dim = 2 := by simp [Tensor.dim, hD]
  have hds0 : dense.stride 0 = dim_k := by simp [Tensor.stride, hD]
  have hds1 : dense.stride 1 = 1 := by simp [Tensor.stride, hD]
  have hprod : ([dim_i, dim_k] : List Nat).prod = dim_i * dim_k := by simp
  have htl : t.data.length = ([dim_i, dim_k] : List Nat).prod := by
    unfold Tensor.WellFormed at hTw; rw [hTw, hT]
  have hr1s : (r.resize_ [dim_i, dim_k]).sizes = [dim_i, dim_k] := rfl
  have hr1l : (r.resize_ [dim_i, dim_k]).data.length = ([dim_i, dim_k] : List Nat).prod :=
    resize_length r _
  have hr1f : f = true → r.resize_ [dim_i, dim_k] = t := by
    intro hft
    rw [hf hft, ← hT]
    exact resize_self t hTw
  have ht1 : (if f = true then r.resize_ [dim_i, dim_k] else t) = t := by
    by_cases hft : f = true
    · rw [if_pos hft]; exact hr1f hft
    · rw [if_neg hft]
  have ht0 : t.size 0 = dim_i := by simp [Tensor.size, hT]
  have ht1' : t.size 1 = dim_k := by simp [Tensor.size, hT]
  unfold s_addmm_out_sparse_dense_cpu
  rw [if_neg (by simp [h2]), if_neg (by simp [h0]), if_neg (by simp [hdd])]
  simp only [hsz0, hsz1, hd0, hd1, ht1]
  rw [if_neg (by simp), if_neg (by simp [ht0]), if_neg (by simp [ht1'])]
  by_cases hn : (coalesce sparse_).nnz = 0
  · rw [if_pos hn]
    refine ⟨_, rfl, hT, by simp [Tensor.mul_out, htl], ?_⟩
    intro h k _ _
    have : rowDot (coalesce sparse_) dense h k = 0 := by simp [rowDot, hn]
    rw [this, mul_zero, add_zero]
    exact getD_map_mul t.data beta _
  · rw [if_neg hn]
    have hrows : ∀ i j, i ≤ j → j < (coalesce sparse_).nnz →
        (rowIndices (coalesce sparse_)._indices).getD i 0 ≤
          (rowIndices (coalesce sparse_)._indices).getD j 0 := by
      intro i j hij hj
      rw [rowIndices_getD, rowIndices_getD]
      exact hsorted j hj i hij
    obtain ⟨csr, c1, _, c3⟩ := to_csr_counts
      (rowIndices (coalesce sparse_)._indices) dim_i (coalesce sparse_).nnz hrows
      (fun i hi => by rw [rowIndices_getD]; exact (hrange i hi).1)
    have c6 : ∀ h i, h < dim_i → i < (coalesce sparse_).nnz →
        ((csr.getD h 0 ≤ i ∧ i < csr.getD (h + 1) 0) ↔
          (rowIndices (coalesce sparse_)._indices).getD i 0 = (h : Int)) := by
      intro h i hh hi
      rw [c3 h (by omega), c3 (h + 1) (by omega)]
      exact countBelow_positions _ _ hrows h i hi
    rw [c1]
    simp only
    obtain ⟨s1, s2, s3⟩ := addmm_seed f (r.resize_ [dim_i, dim_k]) t beta [dim_i, dim_k]
      hr1s hr1l hT htl hr1f
    unfold s_addmm_out_sparse_dense_worker
    simp only
    generalize (if beta = 0 then (r.resize_ [dim_i, dim_k]).zero_
      else if beta = 1 then
        (if ¬ (f = true) then (r.resize_ [dim_i, dim_k]).copy_ t else r.resize_ [dim_i, dim_k])
      else Tensor.mul_out (r.resize_ [dim_i, dim_k]) t beta) = seed at s1 s2 s3 ⊢
    have hst0 : ∀ x : Tensor α, x.sizes = [dim_i, dim_k] → x.stride 0 = dim_k := by
      intro x hx; simp [Tensor.stride, hx]
    have hst1 : ∀ x : Tensor α, x.sizes = [dim_i, dim_k] → x.stride 1 = 1 := by
      intro x hx; simp [Tensor.stride, hx]
    rw [hst0 _ s1, hst1 _ s1]
    have hle : ∀ h, h < dim_i → csr.getD (h + 1) 0 ≤ (coalesce sparse_).nnz := by
      intro h hh
      rw [c3 (h + 1) (by omega)]
      exact countBelow_le _ _ _
    obtain ⟨d, e1, e2, e3⟩ := addmm_rows_spec dim_j dim_k alpha csr
      (coalesce sparse_)._indices (coalesce sparse_)._values dense dim_i 0 seed.data
      (fun h' _ hh i' _ hi => (hrange i' (by have := hle h' (by omega); omega)).2)
      (by rw [s2, hprod, Nat.zero_add])
    rw [e1]
    simp only
    refine ⟨_, rfl, s1, by simp only; rw [e2, s2, hprod], ?_⟩
    intro h k hh hk
    simp only
    rw [e3 h k (by omega) hk, if_pos (Nat.zero_le _),
      s3 _ (by rw [hprod]; exact row_pos_lt h dim_i k dim_k hh hk |>.trans_le (le_refl _))]
    congr 1
    have hlist : List.range' (csr.getD h 0) (csr.getD (h + 1) 0 - csr.getD h 0) =
        (List.range (coalesce sparse_).nnz).filter
          (fun i => decide (accessor (coalesce sparse_)._indices 0 i = (h : Int))) := by
      rw [← filter_range_interval (coalesce sparse_).nnz _ _ (hle h hh)]
      apply List.filter_congr
      intro i hi
      simp only [List.mem_range] at hi
      have := c6 h i hh hi
      rw [rowIndices_getD] at this
      simp only [decide_eq_decide]
      exact this
    rw [hlist, sum_map_mul_left', hds0, hds1]
    simp only [rowDot, hd1, Nat.mul_one]

/-- C3: `s_addmm_out_sparse_dense_cpu` computes `beta * t + alpha * (sparse · dense)`. For a
2-D operand with scalar values whose coalesced form has non-decreasing rows (as every
coalesced operand has), rows in `[0, dim_i)` and columns in `[0, dim_j)`, a dense matrix of
shape `(dim_j, dim_k)` and `t` of shape `(dim_i, dim_k)`, the call succeeds with a result of
shape `(dim_i, dim_k)` whose entry `(h, k)` is `beta * t[h][k] + alpha * (sum over the
nonzeros i of row h of value[i] * dense[col[i]][k])`, whichever of the three seeding paths
`beta` selects. -/
theorem s_addmm_correct [CommRing α] [DecidableEq α]
    (coalesce : SparseTensor α → SparseTensor α) (f : Bool) (r t : Tensor α)
    (sparse_ : SparseTensor α) (dense : Tensor α) (beta alpha : α) (dim_i dim_j dim_k : Nat)
    (h2 : sparse_.sparseDims = 2) (h0 : sparse_.denseDims = 0)
    (hS : (coalesce sparse_).sizes = [dim_i, dim_j])
    (hD : dense.sizes = [dim_j, dim_k]) (hT : t.sizes = [dim_i, dim_k])
    (hTw : t.WellFormed) (hf : f = true → r = t)
    (hsorted : ∀ j, j < (coalesce sparse_).nnz → ∀ i, i ≤ j →
      accessor (coalesce sparse_)._indices 0 i ≤ accessor (coalesce sparse_)._indices 0 j)
    (hrange : ∀ i, i < (coalesce sparse_).nnz →
      (0 ≤ accessor (coalesce sparse_)._indices 0 i ∧
        accessor (coalesce sparse_)._indices 0 i < dim_i) ∧
      (0 ≤ accessor (coalesce sparse_)._indices 1 i ∧
        accessor (coalesce sparse_)._indices 1 i < dim_j)) :
    ∃ res, s_addmm_out_sparse_dense_cpu coalesce f r t sparse_ dense beta alpha = .ok res ∧
      res.sizes = [dim_i, dim_k] ∧ res.data.length = dim_i * dim_k ∧
      ∀ h k, h < dim_i → k < dim_k →
        res.data.getD (h * dim_k + k) 0 =
          beta * t.data.getD (h * dim_k + k) 0 + alpha * rowDot (coalesce sparse_) dense h k
    :=
  s_addmm_entries coalesce f r t sparse_ dense beta alpha dim_i dim_j dim_k h2 h0 hS hD hT hTw
    hf hsorted hrange

/-- Accumulate-multiply at the example of the specification: `{(0,0): 1, (1,1): 2}`
times `[[1, 2], [3, 4]]` with `beta = 0`, `alpha = 1` is `[[1, 2], [6, 8]]`. -/
theorem s_addmm_correct_witness :
    s_addmm_out_sparse_dense_cpu id false Tensor.fresh exT exS exD 0 1 =
      .ok { sizes := [2, 2], data := [1, 2, 6, 8] } ∧
    ∃ res, s_addmm_out_sparse_dense_cpu id false Tensor.fresh exT exS exD 0 1 = .ok res ∧
      res.sizes = [2, 2] ∧ res.data.length = 2 * 2 ∧
      ∀ h k, h < 2 → k < 2 →
        res.data.getD (h * 2 + k) 0 =
          0 * exT.data.getD (h * 2 + k) 0 + 1 * rowDot (id exS) exD h k :=
  ⟨rfl, s_addmm_correct id false Tensor.fresh exT exS exD 0 1 2 2 2 rfl rfl rfl rfl rfl
    (by decide) (by decide) (by decide) (by decide)⟩

theorem cmp_loop_readColumn (n : Nat) (Tc Sc : List (List Int)) (t_i s_i : Nat) :
    cmp_loop (fun d => accessor Tc d t_i) (fun d => accessor Sc d s_i) n 0 =
      if tupleLt (readColumn n Tc t_i) (readColumn n Sc s_i) = true then 1
      else if tupleLt (readColumn n Sc s_i) (readColumn n Tc t_i) = true then -1 else 0 := by
  have h := add_cmp_eq n (t_i + 1) (s_i + 1) Tc Sc t_i s_i (by omega) (by omega)
  unfold add_cmp at h
  rw [if_neg (by omega), if_neg (by omega)] at h
  exact h

theorem mergeMul_nil_right [CommRing α] (hybrid : Bool) (bs : Nat)
    (T : List (List Int × List α)) : mergeMul hybrid bs T [] = [] := by
  cases T with
  | nil => rw [mergeMul]
  | cons t ts => rw [mergeMul]

theorem mul_loop_refines [CommRing α] (n : Nat) (hybrid : Bool) (bs tn sn : Nat)
    (Tc Sc : List (List Int)) (Tv Sv : List (List α)) :
    ∀ (fuel t_i s_i : Nat) (doneI restI : List (List Int)) (doneV restV : List (List α)),
      t_i ≤ tn → s_i ≤ sn → (tn - t_i) + (sn - s_i) ≤ fuel →
      doneI.length = doneV.length → restI.length = restV.length →
      min (tn - t_i) (sn - s_i) ≤ restI.length →
      (∀ b ∈ restV, b = List.replicate bs (0 : α)) →
      ∃ st', mul_loop n hybrid tn sn Tc Sc Tv Sv fuel
          ⟨t_i, s_i, doneI.length, doneI ++ restI, doneV ++ restV⟩ = .ok st' ∧
        st'.r_i = doneI.length +
          (mergeMul hybrid bs (entriesFrom n Tc Tv tn t_i) (entriesFrom n Sc Sv sn s_i)).length ∧
        st'.r_indices = doneI ++
          (mergeMul hybrid bs (entriesFrom n Tc Tv tn t_i) (entriesFrom n Sc Sv sn s_i)).map
            Prod.fst ++
          restI.drop
            (mergeMul hybrid bs (entriesFrom n Tc Tv tn t_i)
              (entriesFrom n Sc Sv sn s_i)).length ∧
        st'.r_values = doneV ++
          (mergeMul hybrid bs (entriesFrom n Tc Tv tn t_i) (entriesFrom n Sc Sv sn s_i)).map
            Prod.snd ++
          restV.drop
            (mergeMul hybrid bs (entriesFrom n Tc Tv tn t_i)
              (entriesFrom n Sc Sv sn s_i)).length := by
  intro fuel
  induction fuel with
  | zero =>
    intro t_i s_i doneI restI doneV restV ht hs hf _ _ _ _
    have e1 : t_i = tn := by omega
    have e2 : s_i = sn := by omega
    subst e1 e2
    refine ⟨_, by simp [mul_loop]; rfl, ?_, ?_, ?_⟩ <;>
      simp [entriesFrom_done, mergeMul]
  | succ fuel ih =>
    intro t_i s_i doneI restI doneV restV ht hs hf hlen hrest hcap hzero
    by_cases hcond : t_i < tn ∧ s_i < sn
    · obtain ⟨ht', hs'⟩ := hcond
      rw [mul_loop, if_pos ⟨ht', hs'⟩]
      have hcmp := cmp_loop_readColumn n Tc Sc t_i s_i
      rw [entriesFrom_step n Tc Tv tn t_i ht', entriesFrom_step n Sc Sv sn s_i hs']
      by_cases h1 : tupleLt (readColumn n Tc t_i) (readColumn n Sc s_i) = true
      · rw [if_pos h1] at hcmp
        have hstep : mul_step n hybrid Tc Sc Tv Sv
            ⟨t_i, s_i, doneI.length, doneI ++ restI, doneV ++ restV⟩ =
            .ok ⟨t_i + 1, s_i, doneI.length, doneI ++ restI, doneV ++ restV⟩ := by
          unfold mul_step
          simp only [hcmp, if_true]
        rw [hstep]
        simp only
        rw [mergeMul, if_pos h1, ← entriesFrom_step n Sc Sv sn s_i hs']
        exact ih (t_i + 1) s_i doneI restI doneV restV (by omega) hs (by omega) hlen hrest
          (by omega) hzero
      · rw [if_neg h1] at hcmp
        by_cases h2 : tupleLt (readColumn n Sc s_i) (readColumn n Tc t_i) = true
        · rw [if_pos h2] at hcmp
          have hstep : mul_step n hybrid Tc Sc Tv Sv
              ⟨t_i, s_i, doneI.length, doneI ++ restI, doneV ++ restV⟩ =
              .ok ⟨t_i, s_i + 1, doneI.length, doneI ++ restI, doneV ++ restV⟩ := by
            unfold mul_step
            simp [hcmp]
          rw [hstep]
          simp only
          rw [mergeMul, if_neg h1, if_pos h2, ← entriesFrom_step n Tc Tv tn t_i ht']
          exact ih t_i (s_i + 1) doneI restI doneV restV ht (by omega) (by omega) hlen hrest
            (by omega) hzero
        · rw [if_neg h2] at hcmp
          have hpos : 0 < restI.length := by omega
          obtain ⟨z, restI', rfl⟩ : ∃ z r, restI = z :: r := by
            cases restI with
            | nil => simp at hpos
            | cons z r => exact ⟨z, r, rfl⟩
          obtain ⟨zb, restV', rfl⟩ : ∃ z r, restV = z :: r := by
            cases restV with
            | nil => simp at hrest
            | cons z r => exact ⟨z, r, rfl⟩
          have hzb : zb = List.replicate bs 0 := hzero zb (by simp)
          have hzero' : ∀ b ∈ restV', b = List.replicate bs (0 : α) :=
            fun b hb => hzero b (by simp [hb])
          simp only [List.length_cons, Nat.add_right_cancel_iff] at hrest hcap
          have hstep : mul_step n hybrid Tc Sc Tv Sv
              ⟨t_i, s_i, doneI.length, doneI ++ z :: restI', doneV ++ zb :: restV'⟩ =
              .ok ⟨t_i + 1, s_i + 1, doneI.length + 1,
                (doneI ++ [readColumn n Tc t_i]) ++ restI',
                (doneV ++ [if hybrid = true then
                    addcmul_ (List.replicate bs 0) (Tv.getD t_i []) (Sv.getD s_i [])
                  else (List.replicate bs (0 : α)).set 0
                    ((Tv.getD t_i []).getD 0 0 * (Sv.getD s_i []).getD 0 0)]) ++ restV'⟩ := by
            unfold mul_step
            have hne1 : ¬ ((0 : Int) = 1) := by decide
            have hne2 : ¬ ((0 : Int) = -1) := by decide
            simp only [hcmp, hne1, hne2, if_false]
            rw [if_pos (by simp; omega)]
            simp only [readColumn, set_length_append]
            rw [hlen, set_length_append, getD_length_append, hzb]
            simp
          rw [hstep]
          simp only
          have hl1 : doneI.length + 1 = (doneI ++ [readColumn n Tc t_i]).length := by simp
          rw [hl1]
          obtain ⟨st', a1, a2, a3, a4⟩ := ih (t_i + 1) (s_i + 1)
            (doneI ++ [readColumn n Tc t_i]) restI'
            (doneV ++ [if hybrid = true then
                addcmul_ (List.replicate bs 0) (Tv.getD t_i []) (Sv.getD s_i [])
              else (List.replicate bs (0 : α)).set 0
                ((Tv.getD t_i []).getD 0 0 * (Sv.getD s_i []).getD 0 0)]) restV'
            (by omega) (by omega) (by omega) (by simp [hlen]) hrest (by omega) hzero'
          refine ⟨st', a1, ?_, ?_, ?_⟩
          · rw [a2, mergeMul, if_neg h1, if_neg h2]
            simp [Nat.add_assoc, Nat.add_comm 1]
          · rw [a3, mergeMul, if_neg h1, if_neg h2]
            simp
          · rw [a4, mergeMul, if_neg h1, if_neg h2]
            simp
    · rw [mul_loop, if_neg hcond]
      have hM : mergeMul hybrid bs (entriesFrom n Tc Tv tn t_i) (entriesFrom n Sc Sv sn s_i)
          = [] := by
        by_cases ht' : t_i < tn
        · have hs' : ¬ s_i < sn := fun h => hcond ⟨ht', h⟩
          rw [entriesFrom_done n Sc Sv sn s_i (by omega), mergeMul_nil_right]
        · rw [entriesFrom_done n Tc Tv tn t_i (by omega), mergeMul]
      rw [hM]
      exact ⟨_, rfl, by simp, by simp, by simp⟩

theorem tupleLt_ne (a b : List Int) (h : tupleLt a b = true) : a ≠ b := by
  intro e
  rw [e, tupleLt_irrefl] at h
  exact Bool.false_ne_true h

theorem mergeMul_length [CommRing α] (hybrid : Bool) (bs : Nat)
    (T S : List (List Int × List α)) :
    (mergeMul hybrid bs T S).length ≤ min T.length S.length := by
  induction T, S using @mergeMul.induct α _ hybrid bs with
  | case1 S => rw [mergeMul]; simp
  | case2 t ts => rw [mergeMul]; simp
  | case3 t ts s ss h ih =>
    rw [mergeMul, if_pos h]; simp only [List.length_cons] at ih ⊢; omega
  | case4 t ts s ss h1 h2 ih =>
    rw [mergeMul, if_neg h1, if_pos h2]; simp only [List.length_cons] at ih ⊢; omega
  | case5 t ts s ss h1 h2 ih =>
    rw [mergeMul, if_neg h1, if_neg h2]; simp only [List.length_cons] at ih ⊢; omega

theorem mergeMul_cols [CommRing α] (n : Nat) (hybrid : Bool) (bs : Nat)
    (T S : List (List Int × List α))
    (hT : ∀ p ∈ T, p.1.length = n) (hS : ∀ p ∈ S, p.1.length = n)
    (sT : StrictlyIncreasing (T.map Prod.fst)) (sS : StrictlyIncreasing (S.map Prod.fst)) :
    (mergeMul hybrid bs T S).map Prod.fst =
      (T.map Prod.fst).filter (fun c => decide (c ∈ S.map Prod.fst)) := by
  unfold StrictlyIncreasing at *
  induction T, S using @mergeMul.induct α _ hybrid bs with
  | case1 S => rw [mergeMul]; simp
  | case2 t ts => rw [mergeMul]; simp
  | case3 t ts s ss h ih =>
    rw [mergeMul, if_pos h]
    have sT' := sT
    have sS' := sS
    simp only [List.map_cons, List.pairwise_cons] at sT' sS'
    rw [ih (fun p hp => hT p (by simp [hp])) hS sT'.2 sS]
    have hnot : t.1 ∉ (s :: ss).map Prod.fst := by
      intro hmem
      simp only [List.map_cons, List.mem_cons] at hmem
      rcases hmem with e | hmem
      · exact tupleLt_ne _ _ h e
      · exact tupleLt_ne _ _ (tupleLt_trans _ _ _ h (sS'.1 _ hmem)) rfl
    have hm : (t :: ts).map Prod.fst = t.1 :: ts.map Prod.fst := rfl
    rw [hm, List.filter_cons_of_neg (by simpa using hnot)]
  | case4 t ts s ss h1 h2 ih =>
    rw [mergeMul, if_neg h1, if_pos h2]
    have sT' := sT
    have sS' := sS
    simp only [List.map_cons, List.pairwise_cons] at sT' sS'
    rw [ih hT (fun p hp => hS p (by simp [hp])) sT sS'.2]
    apply List.filter_congr
    intro c hc
    have hlt : tupleLt s.1 c = true := by
      simp only [List.map_cons, List.mem_cons] at hc
      rcases hc with e | hc
      · rw [e]; exact h2
      · exact tupleLt_trans _ _ _ h2 (sT'.1 c hc)
    have hne : c ≠ s.1 := fun e => tupleLt_ne _ _ hlt e.symm
    simp [hne]
  | case5 t ts s ss h1 h2 ih =>
    rw [mergeMul, if_neg h1, if_neg h2]
    have e : t.1 = s.1 := tupleLt_total t.1 s.1
      (by rw [hT t (by simp), hS s (by simp)]) (by simpa using h1) (by simpa using h2)
    have sT' := sT
    have sS' := sS
    simp only [List.map_cons, List.pairwise_cons] at sT' sS'
    rw [List.map_cons, ih (fun p hp => hT p (by simp [hp])) (fun p hp => hS p (by simp [hp]))
      sT'.2 sS'.2]
    have hm : (t :: ts).map Prod.fst = t.1 :: ts.map Prod.fst := rfl
    rw [hm, List.filter_cons_of_pos (by simp [e])]
    congr 1
    apply List.filter_congr
    intro c hc
    have hne : c ≠ s.1 := by
      intro e'
      have := sT'.1 c hc
      rw [e, ← e'] at this
      exact tupleLt_ne _ _ this rfl
    simp [hne]

theorem mergeMul_entries [CommRing α] (n : Nat) (hybrid : Bool) (bs : Nat)
    (T S : List (List Int × List α))
    (hT : ∀ p ∈ T, p.1.length = n) (hS : ∀ p ∈ S, p.1.length = n) :
    ∀ p ∈ mergeMul hybrid bs T S, ∃ t ∈ T, ∃ s ∈ S, t.1 = p.1 ∧ s.1 = p.1 ∧
      p.2 = (if hybrid = true then addcmul_ (List.replicate bs 0) t.2 s.2
            else (List.replicate bs (0 : α)).set 0 (t.2.getD 0 0 * s.2.getD 0 0)) := by
  induction T, S using @mergeMul.induct α _ hybrid bs with
  | case1 S => rw [mergeMul]; simp
  | case2 t ts => rw [mergeMul]; simp
  | case3 t ts s ss h ih =>
    rw [mergeMul, if_pos h]
    intro p hp
    obtain ⟨t', ht', s', hs', e⟩ := ih (fun p hp => hT p (by simp [hp])) hS p hp
    exact ⟨t', by simp [ht'], s', hs', e⟩
  | case4 t ts s ss h1 h2 ih =>
    rw [mergeMul, if_neg h1, if_pos h2]
    intro p hp
    obtain ⟨t', ht', s', hs', e⟩ := ih hT (fun p hp => hS p (by simp [hp])) p hp
    exact ⟨t', ht', s', by simp [hs'], e⟩
  | case5 t ts s ss h1 h2 ih =>
    rw [mergeMul, if_neg h1, if_neg h2]
    have e : t.1 = s.1 := tupleLt_total t.1 s.1
      (by rw [hT t (by simp), hS s (by simp)]) (by simpa using h1) (by simpa using h2)
    intro p hp
    rcases List.mem_cons.mp hp with rfl | hp
    · exact ⟨t, by simp, s, by simp, rfl, e.symm, rfl⟩
    · obtain ⟨t', ht', s', hs', e'⟩ :=
        ih (fun p hp => hT p (by simp [hp])) (fun p hp => hS p (by simp [hp])) p hp
      exact ⟨t', by simp [ht'], s', by simp [hs'], e'⟩

theorem entrySum_unique_mem [CommRing α] (E : List (List Int × List α)) (i : Nat)
    (hs : StrictlyIncreasing (E.map Prod.fst)) (p : List Int × List α) (hp : p ∈ E) :
    entrySum E p.1 i = p.2.getD i 0 := by
  obtain ⟨k, hk, rfl⟩ := List.mem_iff_getElem.mp hp
  exact entrySum_unique E i hs k hk

theorem addcmul_zero_getD [CommRing α] (bs : Nat) (t s : List α) (i : Nat) (hi : i < bs) :
    (addcmul_ (List.replicate bs 0) t s).getD i 0 = t.getD i 0 * s.getD i 0 := by
  simp [addcmul_, List.getD_eq_getElem?_getD, hi]

theorem blockSize_scalar (t : SparseTensor α) (h : t.WellFormed) (hd : t.denseDims = 0) :
    t.blockSize = 1 := by
  unfold SparseTensor.blockSize
  rw [List.drop_eq_nil_of_le (by rw [h.1, hd]; omega)]
  rfl

/-- C2 (amended): sparse mul has intersection semantics. For operands of equal sizes, both
with nnz > 0, whose coalesced forms are well-formed with the same sparse/dense split and
strictly increasing index columns, the call succeeds; the result's index columns are the
columns of the first operand that the second also stores, in ascending order, so exactly the
coordinate tuples stored in both; nnz is the size of that intersection; each stored value is
the product of the two operands' values at its coordinate; and the result is flagged
coalesced. -/
theorem s_mul_intersection [CommRing α] (coalesce : SparseTensor α → SparseTensor α)
    (r t_ src_ : SparseTensor α)
    (hsz : t_.sizes = src_.sizes) (htn : 0 < t_.nnz) (hsn : 0 < src_.nnz)
    (hT : (coalesce t_).WellFormed) (hS : (coalesce src_).WellFormed)
    (hd : (coalesce t_).sparseDims = (coalesce src_).sparseDims)
    (hdd : (coalesce t_).denseDims = (coalesce src_).denseDims)
    (htc : StrictlyIncreasing (coalesce t_)._indices)
    (hsc : StrictlyIncreasing (coalesce src_)._indices) :
    ∃ res, s_mul_out_sparse_cpu coalesce r t_ src_ = .ok res ∧
      res._indices = (coalesce t_)._indices.filter
        (fun c => decide (c ∈ (coalesce src_)._indices)) ∧
      StrictlyIncreasing res._indices ∧
      (∀ c, c ∈ res._indices ↔ c ∈ (coalesce t_)._indices ∧ c ∈ (coalesce src_)._indices) ∧
      res.nnz = ((coalesce t_)._indices.filter
        (fun c => decide (c ∈ (coalesce src_)._indices))).length ∧
      (∀ k, k < res.nnz → ∀ i, i < (coalesce t_).blockSize →
        (res._values.getD k []).getD i 0 =
          (coalesce t_).valueAt (res._indices.getD k []) i *
            (coalesce src_).valueAt (res._indices.getD k []) i) ∧
      res.coalesced = true := by
  obtain ⟨st, h1, h2, h3, h4⟩ := mul_loop_refines (coalesce src_).sparseDims
    (decide ((coalesce t_).denseDims + 1 > 1)) (coalesce t_).blockSize
    (coalesce t_).nnz (coalesce src_).nnz (coalesce t_)._indices (coalesce src_)._indices
    (coalesce t_)._values (coalesce src_)._values
    ((coalesce t_).nnz + (coalesce src_).nnz) 0 0 []
    (List.replicate (min (coalesce t_).nnz (coalesce src_).nnz)
      (List.replicate (coalesce src_).sparseDims (0 : Int))) []
    (List.replicate (min (coalesce t_).nnz (coalesce src_).nnz)
      (List.replicate (coalesce t_).blockSize (0 : α)))
    (Nat.zero_le _) (Nat.zero_le _) (by omega) rfl (by simp) (by simp)
    (fun b hb => (List.mem_replicate.mp hb).2)
  rw [wf_entries _ _ hT hd, wf_entries _ _ hS rfl] at h2 h3 h4
  simp only [List.nil_append, List.length_nil, Nat.zero_add] at h1 h2 h3 h4
  have hTl : ∀ p ∈ (coalesce t_)._indices.zip (coalesce t_)._values,
      p.1.length = (coalesce src_).sparseDims := by
    intro p hp
    rw [← hd]
    exact hT.2.2.2.1 p.1 (List.of_mem_zip hp).1
  have hSl : ∀ p ∈ (coalesce src_)._indices.zip (coalesce src_)._values,
      p.1.length = (coalesce src_).sparseDims := by
    intro p hp
    exact hS.2.2.2.1 p.1 (List.of_mem_zip hp).1
  have sT : StrictlyIncreasing (((coalesce t_)._indices.zip (coalesce t_)._values).map
      Prod.fst) := by rw [wf_zip_fst _ hT]; exact htc
  have sS : StrictlyIncreasing (((coalesce src_)._indices.zip (coalesce src_)._values).map
      Prod.fst) := by rw [wf_zip_fst _ hS]; exact hsc
  have hcols := mergeMul_cols (coalesce src_).sparseDims
    (decide ((coalesce t_).denseDims + 1 > 1)) (coalesce t_).blockSize _ _ hTl hSl sT sS
  rw [wf_zip_fst _ hT, wf_zip_fst _ hS] at hcols
  generalize hM : mergeMul (decide ((coalesce t_).denseDims + 1 > 1)) (coalesce t_).blockSize
    ((coalesce t_)._indices.zip (coalesce t_)._values)
    ((coalesce src_)._indices.zip (coalesce src_)._values) = M at h2 h3 h4 hcols
  have hres : s_mul_out_sparse_cpu coalesce r t_ src_ =
      .ok { sizes := (coalesce src_).sizes, sparseDims := (coalesce src_).sparseDims,
            denseDims := (coalesce src_).denseDims, indices := st.r_indices,
            values := st.r_values, nnz := st.r_i, coalesced := true } := by
    unfold s_mul_out_sparse_cpu
    rw [if_neg (by simp [hsz]), if_neg (by omega)]
    simp only
    rw [if_neg (not_not.mpr (congrArg (fun n => n + 1) hdd)), h1]
  have key : ∃ res : SparseTensor α, s_mul_out_sparse_cpu coalesce r t_ src_ = .ok res ∧
      res.indices = st.r_indices ∧ res.values = st.r_values ∧ res.nnz = st.r_i ∧
      res.coalesced = true := ⟨_, hres, rfl, rfl, rfl, rfl⟩
  obtain ⟨res, hok, ri, rv, rn, rc⟩ := key
  have hI : res._indices = M.map Prod.fst := by
    simp [SparseTensor._indices, ri, rn, h2, h3]
  have hV : res._values = M.map Prod.snd := by
    simp [SparseTensor._values, rv, rn, h2, h4]
  have hsorted : StrictlyIncreasing (M.map Prod.fst) := by
    rw [hcols]
    exact List.Pairwise.sublist (List.filter_sublist _) htc
  refine ⟨res, hok, by rw [hI, hcols], by rw [hI]; exact hsorted, ?_, ?_, ?_, rc⟩
  · intro c
    rw [hI, hcols]
    simp
  · rw [rn, h2, ← hcols]
    simp
  · intro k hk i hi
    rw [rn, h2] at hk
    have e1 : res._indices.getD k [] = (M[k]).1 := by
      rw [hI]; simp [List.getD_eq_getElem?_getD, hk]
    have e2 : res._values.getD k [] = (M[k]).2 := by
      rw [hV]; simp [List.getD_eq_getElem?_getD, hk]
    rw [e1, e2]
    obtain ⟨t, ht, s, hs, et, es, eb⟩ := mergeMul_entries (coalesce src_).sparseDims
      (decide ((coalesce t_).denseDims + 1 > 1)) (coalesce t_).blockSize _ _ hTl hSl (M[k])
      (by rw [hM]; exact List.getElem_mem hk)
    have vT : (coalesce t_).valueAt (M[k]).1 i = t.2.getD i 0 := by
      rw [← et]
      exact entrySum_unique_mem _ i sT t ht
    have vS : (coalesce src_).valueAt (M[k]).1 i = s.2.getD i 0 := by
      rw [← es]
      exact entrySum_unique_mem _ i sS s hs
    rw [vT, vS, eb]
    by_cases hh : (coalesce t_).denseDims + 1 > 1
    · simp only [hh, decide_True, if_true]
      exact addcmul_zero_getD _ _ _ i hi
    · have hb := blockSize_scalar _ hT (by omega)
      rw [hb] at hi ⊢
      have hi0 : i = 0 := by omega
      subst hi0
      simp [hh]

/-- Sparse mul at the example of the specification: `{(0): 2, (2): 3}`
times `{(0): 4, (1): 9}` is `{(0): 8}` with nnz = 1. -/
theorem s_mul_intersection_witness :
    (s_mul_out_sparse_cpu id SparseTensor.fresh exMulA exMulB).map
        (fun x => (x._indices, x._values, x.nnz)) = .ok ([[0]], [[8]], 1) ∧
    ∃ res, s_mul_out_sparse_cpu id SparseTensor.fresh exMulA exMulB = .ok res ∧
      res._indices = (id exMulA)._indices.filter
        (fun c => decide (c ∈ (id exMulB)._indices)) ∧
      StrictlyIncreasing res._indices ∧
      (∀ c, c ∈ res._indices ↔ c ∈ (id exMulA)._indices ∧ c ∈ (id exMulB)._indices) ∧
      res.nnz = ((id exMulA)._indices.filter
        (fun c => decide (c ∈ (id exMulB)._indices))).length ∧
      (∀ k, k < res.nnz → ∀ i, i < (id exMulA).blockSize →
        (res._values.getD k []).getD i 0 =
          (id exMulA).valueAt (res._indices.getD k []) i *
            (id exMulB).valueAt (res._indices.getD k []) i) ∧
      res.coalesced = true :=
  ⟨rfl, s_mul_intersection id SparseTensor.fresh exMulA exMulB rfl (by decide) (by decide)
    (by decide) (by decide) rfl rfl (by decide) (by decide)⟩

/-- Intersection semantics is not available for equal-sized operands that split their sizes
differently: both operands are well-formed and coalesced with nnz > 0, yet the call fails at
the shape check on the new buffers, before the merge, and returns no result; the output is
left resized to the shape of `src`. -/
theorem s_mul_mixed_split_counterexample :
    exMixT.sizes = exMixS.sizes ∧ 0 < exMixT.nnz ∧ 0 < exMixS.nnz ∧
    exMixT.WellFormed ∧ exMixS.WellFormed ∧
    StrictlyIncreasing exMixT._indices ∧ StrictlyIncreasing exMixS._indices ∧
    s_mul_out_sparse_cpu id SparseTensor.fresh exMixT exMixS =
      .error (Err.ShapeMismatch,
        { sizes := [4, 4], sparseDims := 1, denseDims := 1, indices := [], values := [],
          nnz := 0, coalesced := true }) ∧
    ¬ ∃ res, s_mul_out_sparse_cpu id SparseTensor.fresh exMixT exMixS = .ok res := by
  refine ⟨rfl, by decide, by decide, by decide, by decide, by decide, by decide, rfl, ?_⟩
  rintro ⟨res, h⟩
  have e : s_mul_out_sparse_cpu id SparseTensor.fresh exMixT exMixS =
      .error (Err.ShapeMismatch,
        { sizes := [4, 4], sparseDims := 1, denseDims := 1, indices := [], values := [],
          nnz := 0, coalesced := true }) := rfl
  rw [e] at h
  cases h

theorem offsetOf_bounds : ∀ (sizes : List Nat) (coord : List Int), InRange sizes coord →
    0 ≤ offsetOf sizes coord ∧
      offsetOf sizes coord + ((sizes.drop coord.length).prod : Nat) ≤ (sizes.prod : Nat)
  | [], [], _ => by simp [offsetOf]
  | [], _ :: _, h => by simp [InRange] at h
  | n :: rest, [], _ => by simp [offsetOf]
  | n :: rest, c :: cs, h => by
    obtain ⟨⟨h0, h1⟩, h2⟩ := h
    obtain ⟨a, b⟩ := offsetOf_bounds rest cs h2
    have hR : (0 : Int) ≤ (rest.prod : Nat) := Int.ofNat_nonneg _
    have hm : c * (rest.prod : Int) + (rest.prod : Int) ≤ (n : Int) * (rest.prod : Int) := by
      have : (c + 1) * (rest.prod : Int) ≤ (n : Int) * (rest.prod : Int) :=
        mul_le_mul_of_nonneg_right (by omega) hR
      linarith
    simp only [offsetOf, List.length_cons, List.drop_succ_cons, List.prod_cons, Nat.cast_mul]
    constructor
    · have := mul_nonneg h0 hR
      linarith
    · linarith

theorem offsetOf_separated : ∀ (sizes : List Nat) (c c' : List Int), InRange sizes c →
    InRange sizes c' → c.length = c'.length → c ≠ c' →
    offsetOf sizes c + ((sizes.drop c.length).prod : Nat) ≤ offsetOf sizes c' ∨
      offsetOf sizes c' + ((sizes.drop c.length).prod : Nat) ≤ offsetOf sizes c
  | _, [], [], _, _, _, hne => absurd rfl hne
  | _, [], _ :: _, _, _, hl, _ => by simp at hl
  | _, _ :: _, [], _, _, hl, _ => by simp at hl
  | [], _ :: _, _ :: _, h, _, _, _ => by simp [InRange] at h
  | n :: rest, x :: xs, y :: ys, h, h', hl, hne => by
    obtain ⟨⟨x0, x1⟩, hx⟩ := h
    obtain ⟨⟨y0, y1⟩, hy⟩ := h'
    simp only [List.length_cons, Nat.add_right_cancel_iff] at hl
    obtain ⟨ax, bx⟩ := offsetOf_bounds rest xs hx
    obtain ⟨ay, by'⟩ := offsetOf_bounds rest ys hy
    rw [← hl] at by'
    have hR : (0 : Int) ≤ (rest.prod : Nat) := Int.ofNat_nonneg _
    simp only [offsetOf, List.length_cons, List.drop_succ_cons]
    rcases lt_trichotomy x y with hlt | heq | hgt
    · left
      have : (x + 1) * (rest.prod : Int) ≤ y * (rest.prod : Int) :=
        mul_le_mul_of_nonneg_right (by omega) hR
      linarith
    · subst heq
      have hne' : xs ≠ ys := fun e => hne (by rw [e])
      rcases offsetOf_separated rest xs ys hx hy hl hne' with h1 | h1
      · left; linarith
      · right; linarith
    · right
      have : (y + 1) * (rest.prod : Int) ≤ x * (rest.prod : Int) :=
        mul_le_mul_of_nonneg_right (by omega) hR
      linarith

theorem flat_index_loop_eq (r : Tensor α) (indices : List (List Int)) (k : Nat) :
    ∀ (n d : Nat) (index : Int), d + n ≤ r.sizes.length →
      flat_index_loop r indices k n d index =
        index + offsetOf (r.sizes.drop d) ((List.range' d n).map (fun e => accessor indices e k))
  | 0, d, index, _ => by
    cases hdrop : r.sizes.drop d with
    | nil => simp [flat_index_loop, offsetOf]
    | cons a l => simp [flat_index_loop, offsetOf]
  | n + 1, d, index, h => by
    have hd : d < r.sizes.length := by omega
    have hdrop : r.sizes.drop d = r.sizes[d] :: r.sizes.drop (d + 1) :=
      List.drop_eq_getElem_cons hd
    rw [flat_index_loop, flat_index_loop_eq r indices k n (d + 1) _ (by omega), hdrop]
    simp only [List.range'_succ, List.map_cons, offsetOf, Tensor.stride]
    ring

theorem select_loop_eq (indices : List (List Int)) (k : Nat) :
    ∀ (n d : Nat) (v : View),
      InRange v.sizes ((List.range' d n).map (fun e => accessor indices e k)) →
      ∃ v', select_loop indices k n d v = .ok v' ∧ v'.sizes = v.sizes.drop n ∧
        (v'.offset : Int) = v.offset +
          offsetOf v.sizes ((List.range' d n).map (fun e => accessor indices e k))
  | 0, d, v, _ => by
    refine ⟨v, rfl, by simp, ?_⟩
    cases hs : v.sizes with
    | nil => simp [offsetOf]
    | cons a l => simp [offsetOf]
  | n + 1, d, v, h => by
    cases hs : v.sizes with
    | nil => rw [hs] at h; simp [List.range'_succ, InRange] at h
    | cons m rest =>
      rw [hs] at h
      simp only [List.range'_succ, List.map_cons, InRange] at h
      obtain ⟨⟨h0, h1⟩, h2⟩ := h
      obtain ⟨v', e1, e2, e3⟩ := select_loop_eq indices k n (d + 1)
        { offset := v.offset + (accessor indices d k).toNat * rest.prod, sizes := rest } h2
      refine ⟨v', ?_, ?_, ?_⟩
      · rw [select_loop]
        simp only [View.select, hs]
        rw [if_pos ⟨h0, h1⟩]
        exact e1
      · rw [e2]; simp
      · rw [e3]
        simp only [List.range'_succ, List.map_cons, offsetOf, Nat.cast_add, Nat.cast_mul]
        have : (((accessor indices d k).toNat : Nat) : Int) = accessor indices d k := by omega
        rw [this]
        ring

theorem accumBlocks_spec [CommRing α] (bs : Nat) (alpha : α) (values : List (List α))
    (base : Nat → Nat) :
    ∀ (n k : Nat) (data : List α),
      (∀ k', k ≤ k' → k' < k + n → base k' + bs ≤ data.length) →
      (∀ k1 k2, k ≤ k1 → k1 < k + n → k ≤ k2 → k2 < k + n → k1 ≠ k2 →
        base k1 + bs ≤ base k2 ∨ base k2 + bs ≤ base k1) →
      (accumBlocks bs alpha values base n k data).length = data.length ∧
      (∀ k' j, k ≤ k' → k' < k + n → j < bs →
        (accumBlocks bs alpha values base n k data).getD (base k' + j) 0 =
          data.getD (base k' + j) 0 + alpha * (values.getD k' []).getD j 0) ∧
      (∀ p, (∀ k', k ≤ k' → k' < k + n → ¬ (base k' ≤ p ∧ p < base k' + bs)) →
        (accumBlocks bs alpha values base n k data).getD p 0 = data.getD p 0)
  | 0, k, data, _, _ => ⟨rfl, fun k' j h1 h2 _ => by omega, fun p _ => rfl⟩
  | n + 1, k, data, hb, hd => by
    have hlen : (THBlas_axpy bs alpha (values.getD k []) 0 1 data (base k) 1).length =
        data.length := axpy_length _ _ _ _ _ _ _ _
    obtain ⟨a1, a2, a3⟩ := accumBlocks_spec bs alpha values base n (k + 1)
      (THBlas_axpy bs alpha (values.getD k []) 0 1 data (base k) 1)
      (fun k' h1 h2 => by rw [hlen]; exact hb k' (by omega) (by omega))
      (fun k1 k2 h1 h2 h3 h4 h5 => hd k1 k2 (by omega) (by omega) (by omega) (by omega) h5)
    refine ⟨by rw [accumBlocks, a1, hlen], ?_, ?_⟩
    · intro k' j h1 h2 hj
      rw [accumBlocks]
      by_cases hk : k' = k
      · subst hk
        rw [a3 (base k' + j) (fun k'' c1 c2 hc => by
          have := hd k' k'' (le_refl _) (by omega) (by omega) (by omega) (by omega)
          omega)]
        have := axpy_getD_hit bs alpha (values.getD k' []) 0 1 data (base k') 1 j hj
          (by omega) (by have := hb k' (le_refl _) (by omega); omega)
        simpa using this
      · rw [a2 k' j (by omega) (by omega) hj]
        congr 1
        apply axpy_getD_miss
        intro i hi
        have := hd k' k (by omega) (by omega) (le_refl _) (by omega) hk
        omega
    · intro p hp
      rw [accumBlocks, a3 p (fun k' c1 c2 => hp k' (by omega) (by omega))]
      apply axpy_getD_miss
      intro i hi
      have := hp k (le_refl _) (by omega)
      omega

theorem worker_loop_eq [CommRing α] (r : Tensor α) (alpha : α) (sparseDims : Nat)
    (indices : List (List Int)) (values : List (List α)) (base : Nat → Nat) :
    ∀ (n k : Nat) (data : List α),
      (∀ k', k ≤ k' → k' < k + n →
        flat_index r sparseDims indices k' = (base k' : Int) ∧ base k' < data.length) →
      add_dense_sparse_worker_loop r alpha sparseDims indices values n k data =
        .ok (accumBlocks 1 alpha values base n k data)
  | 0, k, data, _ => rfl
  | n + 1, k, data, h => by
    obtain ⟨e1, e2⟩ := h k (le_refl _) (by omega)
    rw [add_dense_sparse_worker_loop]
    simp only [e1]
    rw [if_pos ⟨by omega, by simpa using e2⟩, accumBlocks]
    have hax : THBlas_axpy 1 alpha (values.getD k []) 0 1 data (base k) 1 =
        data.set (base k) (data.getD (base k) 0 + alpha * (values.getD k []).getD 0 0) := by
      unfold THBlas_axpy
      simp [List.range_succ]
    rw [hax]
    simp only [Int.toNat_ofNat]
    apply worker_loop_eq r alpha sparseDims indices values base n (k + 1)
    intro k' h1 h2
    rw [List.length_set]
    exact h k' (by omega) (by omega)

theorem hybrid_loop_eq [CommRing α] (sizes : List Nat) (alpha : α) (sparseDims bs : Nat)
    (indices : List (List Int)) (values : List (List α)) (base : Nat → Nat) :
    ∀ (n k : Nat) (data : List α),
      (∀ k', k ≤ k' → k' < k + n →
        select_loop indices k' sparseDims 0 { offset := 0, sizes := sizes } =
          .ok { offset := base k', sizes := sizes.drop sparseDims }) →
      (sizes.drop sparseDims).prod = bs →
      add_dense_sparse_hybrid_loop sizes alpha sparseDims indices values n k data =
        .ok (accumBlocks bs alpha values base n k data)
  | 0, k, data, _, _ => rfl
  | n + 1, k, data, h, hbs => by
    rw [add_dense_sparse_hybrid_loop, h k (le_refl _) (by omega)]
    simp only [View.add_, hbs]
    rw [accumBlocks]
    exact hybrid_loop_eq sizes alpha sparseDims bs indices values base n (k + 1) _
      (fun k' h1 h2 => h k' (by omega) (by omega)) hbs

theorem strictlyIncreasing_ne (cols : List (List Int)) (hs : StrictlyIncreasing cols)
    (i j : Nat) (hi : i < cols.length) (hj : j < cols.length) (hne : i ≠ j) :
    cols[i] ≠ cols[j] := by
  rcases Nat.lt_or_gt_of_ne hne with h | h
  · exact tupleLt_ne _ _ ((List.pairwise_iff_getElem.mp hs) i j hi hj h)
  · exact fun e => tupleLt_ne _ _ ((List.pairwise_iff_getElem.mp hs) j i hj hi h) e.symm

/-- C7: `add_out_dense_sparse_cpu` computes `dense + alpha * sparse`. For a dense tensor and
a sparse operand of the same sizes whose coalesced form is well-formed, strictly increasing
and in range, the call succeeds with a result of the dense tensor's sizes; for each stored
nonzero `k` the `blockSize` elements at the offset of coordinate `indices[:, k]` are the
dense ones plus `alpha * values[k]` (one element when the operand has no dense dimensions);
every element outside those blocks is the dense tensor's; and with nnz = 0 the result is the
dense tensor. -/
theorem add_dense_sparse_correct [CommRing α] (coalesce : SparseTensor α → SparseTensor α)
    (same : Bool) (r dense : Tensor α) (sparse_ : SparseTensor α) (alpha : α)
    (hD : dense.WellFormed) (hS : (coalesce sparse_).WellFormed)
    (hshape : (coalesce sparse_).sizes = dense.sizes)
    (hsame : same = true → r = dense)
    (hc : StrictlyIncreasing (coalesce sparse_)._indices)
    (hr : ∀ c ∈ (coalesce sparse_)._indices, InRange dense.sizes c) :
    ∃ res, add_out_dense_sparse_cpu coalesce same r dense sparse_ alpha = .ok res ∧
      res.sizes = dense.sizes ∧ res.data.length = dense.data.length ∧
      (∀ k j, k < (coalesce sparse_).nnz → j < (coalesce sparse_).blockSize →
        res.data.getD
            ((offsetOf dense.sizes ((coalesce sparse_)._indices.getD k [])).toNat + j) 0 =
          dense.data.getD
            ((offsetOf dense.sizes ((coalesce sparse_)._indices.getD k [])).toNat + j) 0 +
          alpha * ((coalesce sparse_)._values.getD k []).getD j 0) ∧
      (∀ p, (∀ k, k < (coalesce sparse_).nnz →
          ¬ ((offsetOf dense.sizes ((coalesce sparse_)._indices.getD k [])).toNat ≤ p ∧
            p < (offsetOf dense.sizes ((coalesce sparse_)._indices.getD k [])).toNat +
              (coalesce sparse_).blockSize)) →
        res.data.getD p 0 = dense.data.getD p 0) ∧
      ((coalesce sparse_).nnz = 0 → res = dense) := by
  obtain ⟨w1, w2, _, w4, _⟩ := hS
  have hr1 : (if ¬ (same = true) then (r.resize_ dense.sizes).copy_ dense
      else r.resize_ dense.sizes) = dense := by
    by_cases hsm : same = true
    · rw [if_neg (by simp [hsm]), hsame hsm]
      exact resize_self dense hD
    · rw [if_pos hsm]
      cases dense with
      | mk sizes data => simp [Tensor.copy_, Tensor.resize_]
  unfold add_out_dense_sparse_cpu
  simp only [hr1]
  by_cases hn : (coalesce sparse_).nnz = 0
  · rw [if_pos hn]
    exact ⟨dense, rfl, rfl, rfl, fun k j hk _ => by omega, fun p _ => rfl, fun _ => rfl⟩
  · rw [if_neg hn]
    have hIlen : (coalesce sparse_)._indices.length = (coalesce sparse_).nnz := by
      simp [SparseTensor._indices, w2]
    have hbs : (dense.sizes.drop (coalesce sparse_).sparseDims).prod =
        (coalesce sparse_).blockSize := by
      simp [SparseTensor.blockSize, hshape]
    have hcol : ∀ k, k < (coalesce sparse_).nnz →
        (coalesce sparse_)._indices.getD k [] ∈ (coalesce sparse_)._indices ∧
        readColumn (coalesce sparse_).sparseDims (coalesce sparse_)._indices k =
          (coalesce sparse_)._indices.getD k [] := by
      intro k hk
      have hk' : k < (coalesce sparse_)._indices.length := by omega
      have e : (coalesce sparse_)._indices.getD k [] = (coalesce sparse_)._indices[k] := by
        simp [List.getD_eq_getElem?_getD, hk']
      rw [e]
      exact ⟨List.getElem_mem hk', readColumn_eq _ _ k hk' w4⟩
    have hbound : ∀ k, k < (coalesce sparse_).nnz →
        0 ≤ offsetOf dense.sizes ((coalesce sparse_)._indices.getD k []) ∧
        (offsetOf dense.sizes ((coalesce sparse_)._indices.getD k [])).toNat +
          (coalesce sparse_).blockSize ≤ dense.data.length := by
      intro k hk
      obtain ⟨b1, b2⟩ := offsetOf_bounds dense.sizes _ (hr _ (hcol k hk).1)
      rw [w4 _ (hcol k hk).1, hbs] at b2
      unfold Tensor.WellFormed at hD
      refine ⟨b1, ?_⟩
      rw [hD]
      omega
    have hsep : ∀ k1 k2, k1 < (coalesce sparse_).nnz → k2 < (coalesce sparse_).nnz →
        k1 ≠ k2 →
        (offsetOf dense.sizes ((coalesce sparse_)._indices.getD k1 [])).toNat +
            (coalesce sparse_).blockSize ≤
          (offsetOf dense.sizes ((coalesce sparse_)._indices.getD k2 [])).toNat ∨
        (offsetOf dense.sizes ((coalesce sparse_)._indices.getD k2 [])).toNat +
            (coalesce sparse_).blockSize ≤
          (offsetOf dense.sizes ((coalesce sparse_)._indices.getD k1 [])).toNat := by
      intro k1 k2 h1 h2 hne
      have hne' : (coalesce sparse_)._indices.getD k1 [] ≠
          (coalesce sparse_)._indices.getD k2 [] := by
        have := strictlyIncreasing_ne _ hc k1 k2 (by omega) (by omega) hne
        simpa [List.getD_eq_getElem?_getD, hIlen, h1, h2] using this
      have := offsetOf_separated dense.sizes _ _ (hr _ (hcol k1 h1).1) (hr _ (hcol k2 h2).1)
        (by rw [w4 _ (hcol k1 h1).1, w4 _ (hcol k2 h2).1]) hne'
      rw [w4 _ (hcol k1 h1).1, hbs] at this
      have := (hbound k1 h1).1
      have := (hbound k2 h2).1
      omega
    obtain ⟨s1, s2, s3⟩ := accumBlocks_spec (coalesce sparse_).blockSize alpha
      (coalesce sparse_)._values
      (fun k => (offsetOf dense.sizes ((coalesce sparse_)._indices.getD k [])).toNat)
      (coalesce sparse_).nnz 0 dense.data
      (fun k' _ h2 => (hbound k' (by omega)).2)
      (fun k1 k2 _ h1 _ h2 hne => hsep k1 k2 (by omega) (by omega) hne)
    have hfinal : ∀ data, data = accumBlocks (coalesce sparse_).blockSize alpha
        (coalesce sparse_)._values
        (fun k => (offsetOf dense.sizes ((coalesce sparse_)._indices.getD k [])).toNat)
        (coalesce sparse_).nnz 0 dense.data →
        ({ dense with data := data } : Tensor α).sizes = dense.sizes ∧
        ({ dense with data := data } : Tensor α).data.length = dense.data.length ∧
        (∀ k j, k < (coalesce sparse_).nnz → j < (coalesce sparse_).blockSize →
          ({ dense with data := data } : Tensor α).data.getD
              ((offsetOf dense.sizes ((coalesce sparse_)._indices.getD k [])).toNat + j) 0 =
            dense.data.getD
              ((offsetOf dense.sizes ((coalesce sparse_)._indices.getD k [])).toNat + j) 0 +
            alpha * ((coalesce sparse_)._values.getD k []).getD j 0) ∧
        (∀ p, (∀ k, k < (coalesce sparse_).nnz →
            ¬ ((offsetOf dense.sizes ((coalesce sparse_)._indices.getD k [])).toNat ≤ p ∧
              p < (offsetOf dense.sizes ((coalesce sparse_)._indices.getD k [])).toNat +
                (coalesce sparse_).blockSize)) →
          ({ dense with data := data } : Tensor α).data.getD p 0 = dense.data.getD p 0) ∧
        ((coalesce sparse_).nnz = 0 → ({ dense with data := data } : Tensor α) = dense) := by
      intro data hdata
      subst hdata
      exact ⟨rfl, s1, fun k j hk hj => s2 k j (Nat.zero_le _) (by omega) hj,
        fun p hp => s3 p (fun k' _ h2 => hp k' (by omega)), fun h => absurd h hn⟩
    by_cases hdim : dense.dim > (coalesce sparse_).sparseDims
    · rw [if_pos hdim]
      have hloop := hybrid_loop_eq dense.sizes alpha (coalesce sparse_).sparseDims
        (coalesce sparse_).blockSize (coalesce sparse_)._indices (coalesce sparse_)._values
        (fun k => (offsetOf dense.sizes ((coalesce sparse_)._indices.getD k [])).toNat)
        (coalesce sparse_).nnz 0 dense.data
        (fun k' _ hk' => by
          have hk : k' < (coalesce sparse_).nnz := by omega
          have hin : InRange dense.sizes
              ((List.range' 0 (coalesce sparse_).sparseDims).map
                (fun e => accessor (coalesce sparse_)._indices e k')) := by
            have := (hcol k' hk).2
            unfold readColumn at this
            rw [List.range_eq_range'] at this
            rw [this]
            exact hr _ (hcol k' hk).1
          obtain ⟨v', e1, e2, e3⟩ := select_loop_eq (coalesce sparse_)._indices k'
            (coalesce sparse_).sparseDims 0 { offset := 0, sizes := dense.sizes } hin
          rw [e1]
          have hoff : v'.offset =
              (offsetOf dense.sizes ((coalesce sparse_)._indices.getD k' [])).toNat := by
            have := (hcol k' hk).2
            unfold readColumn at this
            rw [List.range_eq_range'] at this
            rw [this] at e3
            simp only [Nat.cast_zero, zero_add] at e3
            omega
          cases v' with
          | mk o s =>
            simp only at e2 hoff
            rw [e2, hoff])
        hbs
      rw [hloop]
      exact ⟨_, rfl, hfinal _ rfl⟩
    · rw [if_neg hdim]
      have hdd : (coalesce sparse_).denseDims = 0 := by
        have : dense.dim = (coalesce sparse_).sparseDims + (coalesce sparse_).denseDims := by
          unfold Tensor.dim; rw [← hshape, w1]
        omega
      have hb1 : (coalesce sparse_).blockSize = 1 := by
        unfold SparseTensor.blockSize
        rw [List.drop_eq_nil_of_le (by rw [w1, hdd]; omega)]
        rfl
      have hloop := worker_loop_eq dense alpha (coalesce sparse_).sparseDims
        (coalesce sparse_)._indices (coalesce sparse_)._values
        (fun k => (offsetOf dense.sizes ((coalesce sparse_)._indices.getD k [])).toNat)
        (coalesce sparse_).nnz 0 dense.data
        (fun k' _ hk' => by
          have hk : k' < (coalesce sparse_).nnz := by omega
          have hfi : flat_index dense (coalesce sparse_).sparseDims
              (coalesce sparse_)._indices k' =
              offsetOf dense.sizes ((coalesce sparse_)._indices.getD k' []) := by
            unfold flat_index
            rw [flat_index_loop_eq dense _ k' _ 0 0 (by
              rw [← hshape, w1]; omega)]
            have := (hcol k' hk).2
            unfold readColumn at this
            rw [List.range_eq_range'] at this
            rw [this]
            simp
          have hb := hbound k' hk
          rw [hb1] at hb
          rw [hfi]
          beta_reduce
          constructor
          · omega
          · omega)
      unfold add_dense_sparse_worker_cpu
      rw [hloop]
      simp only
      rw [← hb1]
      exact ⟨_, rfl, hfinal _ rfl⟩

/-- Dense plus sparse at `[[1, 2], [3, 4]] + 10 * {(0,0): 1, (1,1): 2}`,
with the evaluation of the block path on `{(1): [5, 6]}`. -/
theorem add_dense_sparse_correct_witness :
    add_out_dense_sparse_cpu id false Tensor.fresh exD exS 10 =
      .ok { sizes := [2, 2], data := [11, 2, 3, 24] } ∧
    add_out_dense_sparse_cpu id false Tensor.fresh exD exHyb 10 =
      .ok { sizes := [2, 2], data := [1, 2, 53, 64] } ∧
    ∃ res, add_out_dense_sparse_cpu id false Tensor.fresh exD exS 10 = .ok res ∧
      res.sizes = exD.sizes ∧ res.data.length = exD.data.length ∧
      (∀ k j, k < (id exS).nnz → j < (id exS).blockSize →
        res.data.getD ((offsetOf exD.sizes ((id exS)._indices.getD k [])).toNat + j) 0 =
          exD.data.getD ((offsetOf exD.sizes ((id exS)._indices.getD k [])).toNat + j) 0 +
          10 * ((id exS)._values.getD k []).getD j 0) ∧
      (∀ p, (∀ k, k < (id exS).nnz →
          ¬ ((offsetOf exD.sizes ((id exS)._indices.getD k [])).toNat ≤ p ∧
            p < (offsetOf exD.sizes ((id exS)._indices.getD k [])).toNat +
              (id exS).blockSize)) →
        res.data.getD p 0 = exD.data.getD p 0) ∧
      ((id exS).nnz = 0 → res = exD) :=
  ⟨rfl, rfl,
    add_dense_sparse_correct id false Tensor.fresh exD exS 10 (by decide) (by decide) rfl
      (by decide) (by decide) (by decide)⟩

theorem mergeMul_sublist [CommRing α] (n : Nat) (hybrid : Bool) (bs : Nat)
    (T S : List (List Int × List α))
    (hT : ∀ p ∈ T, p.1.length = n) (hS : ∀ p ∈ S, p.1.length = n) :
    ((mergeMul hybrid bs T S).map Prod.fst).Sublist (S.map Prod.fst) := by
  induction T, S using @mergeMul.induct α _ hybrid bs with
  | case1 S => rw [mergeMul]; simp
  | case2 t ts => rw [mergeMul]
  | case3 t ts s ss h ih =>
    rw [mergeMul, if_pos h]
    exact ih (fun p hp => hT p (by simp [hp])) hS
  | case4 t ts s ss h1 h2 ih =>
    rw [mergeMul, if_neg h1, if_pos h2]
    exact List.Sublist.cons _ (ih hT (fun p hp => hS p (by simp [hp])))
  | case5 t ts s ss h1 h2 ih =>
    rw [mergeMul, if_neg h1, if_neg h2]
    have e : t.1 = s.1 := tupleLt_total t.1 s.1
      (by rw [hT t (by simp), hS s (by simp)]) (by simpa using h1) (by simpa using h2)
    simp only [List.map_cons, e]
    exact List.Sublist.cons₂ _
      (ih (fun p hp => hT p (by simp [hp])) (fun p hp => hS p (by simp [hp])))

/-- The general path of sparse mul, for arbitrary operands: the loop ends within its fuel without
a write outside the `min t.nnz src.nnz` allocated slots, and the output is the functional merge
of the entries the accessors read. -/
theorem s_mul_general_eq [CommRing α] (coalesce : SparseTensor α → SparseTensor α)
    (r t_ src_ : SparseTensor α)
    (hsz : t_.sizes = src_.sizes) (htn : 0 < t_.nnz) (hsn : 0 < src_.nnz) 
    (hdd : (coalesce t_).denseDims = (coalesce src_).denseDims):
    ∃ res, s_mul_out_sparse_cpu coalesce r t_ src_ = .ok res ∧
      res.sizes = (coalesce src_).sizes ∧ res.sparseDims = (coalesce src_).sparseDims ∧
      res.denseDims = (coalesce src_).denseDims ∧ res.coalesced = true ∧
      res.indices.length = min (coalesce t_).nnz (coalesce src_).nnz ∧
      res.values.length = min (coalesce t_).nnz (coalesce src_).nnz ∧
      res.nnz = (mergeMul (decide ((coalesce t_).denseDims + 1 > 1)) (coalesce t_).blockSize
        (entriesFrom (coalesce src_).sparseDims (coalesce t_)._indices (coalesce t_)._values
          (coalesce t_).nnz 0)
        (entriesFrom (coalesce src_).sparseDims (coalesce src_)._indices
          (coalesce src_)._values (coalesce src_).nnz 0)).length ∧
      res._indices = (mergeMul (decide ((coalesce t_).denseDims + 1 > 1))
        (coalesce t_).blockSize
        (entriesFrom (coalesce src_).sparseDims (coalesce t_)._indices (coalesce t_)._values
          (coalesce t_).nnz 0)
        (entriesFrom (coalesce src_).sparseDims (coalesce src_)._indices
          (coalesce src_)._values (coalesce src_).nnz 0)).map Prod.fst ∧
      res.nnz ≤ min (coalesce t_).nnz (coalesce src_).nnz := by
  obtain ⟨st, h1, h2, h3, h4⟩ := mul_loop_refines (coalesce src_).sparseDims
    (decide ((coalesce t_).denseDims + 1 > 1)) (coalesce t_).blockSize
    (coalesce t_).nnz (coalesce src_).nnz (coalesce t_)._indices (coalesce src_)._indices
    (coalesce t_)._values (coalesce src_)._values
    ((coalesce t_).nnz + (coalesce src_).nnz) 0 0 []
    (List.replicate (min (coalesce t_).nnz (coalesce src_).nnz)
      (List.replicate (coalesce src_).sparseDims (0 : Int))) []
    (List.replicate (min (coalesce t_).nnz (coalesce src_).nnz)
      (List.replicate (coalesce t_).blockSize (0 : α)))
    (Nat.zero_le _) (Nat.zero_le _) (by omega) rfl (by simp) (by simp)
    (fun b hb => (List.mem_replicate.mp hb).2)
  simp only [List.nil_append, List.length_nil, Nat.zero_add] at h1 h2 h3 h4
  have hlen := mergeMul_length (decide ((coalesce t_).denseDims + 1 > 1))
    (coalesce t_).blockSize
    (entriesFrom (coalesce src_).sparseDims (coalesce t_)._indices (coalesce t_)._values
      (coalesce t_).nnz 0)
    (entriesFrom (coalesce src_).sparseDims (coalesce src_)._indices
      (coalesce src_)._values (coalesce src_).nnz 0)
  simp only [entriesFrom_length, Nat.sub_zero] at hlen
  generalize hM : mergeMul (decide ((coalesce t_).denseDims + 1 > 1)) (coalesce t_).blockSize
    (entriesFrom (coalesce src_).sparseDims (coalesce t_)._indices (coalesce t_)._values
      (coalesce t_).nnz 0)
    (entriesFrom (coalesce src_).sparseDims (coalesce src_)._indices
      (coalesce src_)._values (coalesce src_).nnz 0) = M at h2 h3 h4 hlen
  have hres : s_mul_out_sparse_cpu coalesce r t_ src_ =
      .ok { sizes := (coalesce src_).sizes, sparseDims := (coalesce src_).sparseDims,
            denseDims := (coalesce src_).denseDims, indices := st.r_indices,
            values := st.r_values, nnz := st.r_i, coalesced := true } := by
    unfold s_mul_out_sparse_cpu
    rw [if_neg (by simp [hsz]), if_neg (by omega)]
    simp only
    rw [if_neg (not_not.mpr (congrArg (fun n => n + 1) hdd)), h1]
  refine ⟨_, hres, rfl, rfl, rfl, rfl, ?_, ?_, h2, ?_, by simp only; rw [h2]; exact hlen⟩
  · simp only
    rw [h3]
    simp
    omega
  · simp only
    rw [h4]
    simp
    omega
  · simp [SparseTensor._indices, h2, h3]

theorem s_mul_split_error [CommRing α] (coalesce : SparseTensor α → SparseTensor α)
    (r t_ src_ : SparseTensor α)
    (hsz : t_.sizes = src_.sizes) (htn : 0 < t_.nnz) (hsn : 0 < src_.nnz)
    (hdd : (coalesce t_).denseDims ≠ (coalesce src_).denseDims) :
    s_mul_out_sparse_cpu coalesce r t_ src_ =
      .error (Err.ShapeMismatch,
        { r with sizes := (coalesce src_).sizes, sparseDims := (coalesce src_).sparseDims,
                 denseDims := (coalesce src_).denseDims }) := by
  unfold s_mul_out_sparse_cpu
  rw [if_neg (by simp [hsz]), if_neg (by omega)]
  simp only
  rw [if_pos (fun h => hdd (Nat.succ.inj h))]

/-- C11: the mul merge stays inside its allocation. For operands of equal sizes with both
nnz > 0: when the coalesced operands split their sizes differently the call fails at the
shape check that precedes the loop, so nothing is written; otherwise the call returns: the
loop ends within its fuel, every write to an output slot (index column and value) is inside
the `min t.nnz src.nnz` slots allocated for the coalesced operands, and the final nnz is at
most that minimum. -/
theorem mul_merge_within_allocation [CommRing α] (coalesce : SparseTensor α → SparseTensor α)
    (r t_ src_ : SparseTensor α)
    (hsz : t_.sizes = src_.sizes) (htn : 0 < t_.nnz) (hsn : 0 < src_.nnz) :
    ((coalesce t_).denseDims ≠ (coalesce src_).denseDims →
      s_mul_out_sparse_cpu coalesce r t_ src_ =
        .error (Err.ShapeMismatch,
          { r with sizes := (coalesce src_).sizes, sparseDims := (coalesce src_).sparseDims,
                   denseDims := (coalesce src_).denseDims })) ∧
    ((coalesce t_).denseDims = (coalesce src_).denseDims →
      ∃ res, s_mul_out_sparse_cpu coalesce r t_ src_ = .ok res ∧
        res.indices.length = min (coalesce t_).nnz (coalesce src_).nnz ∧
        res.values.length = min (coalesce t_).nnz (coalesce src_).nnz ∧
        res.nnz ≤ min (coalesce t_).nnz (coalesce src_).nnz) := by
  constructor
  · exact s_mul_split_error coalesce r t_ src_ hsz htn hsn
  · intro hdd
    obtain ⟨res, h, _, _, _, _, hi, hv, _, _, hn⟩ :=
      s_mul_general_eq coalesce r t_ src_ hsz htn hsn hdd
    exact ⟨res, h, hi, hv, hn⟩

/-- The mul merge at `{(0): 2, (2): 3}` and `{(0): 4, (1): 9}`: two slots allocated, one
used; and at the operands `exMixT` and `exMixS` of different split, where the call fails
before the loop. -/
theorem mul_merge_within_allocation_witness :
    (∃ res, s_mul_out_sparse_cpu id SparseTensor.fresh exMulA exMulB = .ok res ∧
      res.indices.length = min (id exMulA).nnz (id exMulB).nnz ∧
      res.values.length = min (id exMulA).nnz (id exMulB).nnz ∧
      res.nnz ≤ min (id exMulA).nnz (id exMulB).nnz) ∧
    s_mul_out_sparse_cpu id SparseTensor.fresh exMixT exMixS =
      .error (Err.ShapeMismatch,
        { SparseTensor.fresh with sizes := (id exMixS).sizes,
                                  sparseDims := (id exMixS).sparseDims,
                                  denseDims := (id exMixS).denseDims }) :=
  ⟨(mul_merge_within_allocation id SparseTensor.fresh exMulA exMulB rfl (by decide)
      (by decide)).2 rfl,
    (mul_merge_within_allocation id SparseTensor.fresh exMixT exMixS rfl (by decide)
      (by decide)).1 (by decide)⟩

/-- C14: the unconditional `coalesced = true` of sparse mul is truthful. For operands of equal
sizes with both nnz > 0, when the coalesced form of `src` is well-formed with strictly
increasing index columns: for coalesced operands of the same sparse/dense split the call
returns a result flagged coalesced whose first nnz index columns are strictly increasing,
being a subsequence of `src`'s columns; and every result the call returns is flagged
coalesced with strictly increasing first nnz index columns. -/
theorem s_mul_flag_truthful [CommRing α] (coalesce : SparseTensor α → SparseTensor α)
    (r t_ src_ : SparseTensor α)
    (hsz : t_.sizes = src_.sizes) (htn : 0 < t_.nnz) (hsn : 0 < src_.nnz)
    (hS : (coalesce src_).WellFormed)
    (hsc : StrictlyIncreasing (coalesce src_)._indices) :
    ((coalesce t_).denseDims = (coalesce src_).denseDims →
      ∃ res, s_mul_out_sparse_cpu coalesce r t_ src_ = .ok res ∧ res.coalesced = true ∧
        res._indices.Sublist (coalesce src_)._indices ∧
        StrictlyIncreasing res._indices) ∧
    (∀ res, s_mul_out_sparse_cpu coalesce r t_ src_ = .ok res →
      res.coalesced = true ∧ StrictlyIncreasing res._indices) := by
  have main : (coalesce t_).denseDims = (coalesce src_).denseDims →
      ∃ res, s_mul_out_sparse_cpu coalesce r t_ src_ = .ok res ∧ res.coalesced = true ∧
        res._indices.Sublist (coalesce src_)._indices ∧
        StrictlyIncreasing res._indices := by
    intro hdd
    obtain ⟨res, h, _, _, _, hc, _, _, _, hI, _⟩ :=
      s_mul_general_eq coalesce r t_ src_ hsz htn hsn hdd
    have hsub := mergeMul_sublist (coalesce src_).sparseDims
      (decide ((coalesce t_).denseDims + 1 > 1)) (coalesce t_).blockSize
      (entriesFrom (coalesce src_).sparseDims (coalesce t_)._indices (coalesce t_)._values
        (coalesce t_).nnz 0)
      (entriesFrom (coalesce src_).sparseDims (coalesce src_)._indices
        (coalesce src_)._values (coalesce src_).nnz 0)
      (entriesFrom_col_length _ _ _ _ _) (entriesFrom_col_length _ _ _ _ _)
    rw [← hI, wf_entries _ _ hS rfl, wf_zip_fst _ hS] at hsub
    exact ⟨res, h, hc, hsub, List.Pairwise.sublist hsub hsc⟩
  refine ⟨main, ?_⟩
  intro res hres
  by_cases hdd : (coalesce t_).denseDims = (coalesce src_).denseDims
  · obtain ⟨res', h, hc, _, hs⟩ := main hdd
    rw [h] at hres
    cases hres
    exact ⟨hc, hs⟩
  · rw [s_mul_split_error coalesce r t_ src_ hsz htn hsn hdd] at hres
    cases hres

/-- Sparse mul at `{(0): 2, (2): 3}` and `{(0): 4, (1): 9}`: the output columns are sorted. -/
theorem s_mul_flag_truthful_witness :
    ∃ res, s_mul_out_sparse_cpu id SparseTensor.fresh exMulA exMulB = .ok res ∧
      res.coalesced = true ∧ res._indices.Sublist (id exMulB)._indices ∧
      StrictlyIncreasing res._indices :=
  (s_mul_flag_truthful id SparseTensor.fresh exMulA exMulB rfl (by decide) (by decide)
    (by decide) (by decide)).1 rfl

/-- C13: the coalesced flag set by sparse add is truthful. On the general path the result's
flag is `t.coalesced && src.coalesced`, and when the index columns of both operands are
strictly increasing so are the first nnz index columns of the result; hence a result
flagged coalesced is sorted without repeated coordinate whenever the operands' flags are
truthful. -/
theorem s_add_flag_truthful [CommRing α] (f : Bool) (r t src : SparseTensor α) (alpha : α)
    (ht : t.WellFormed) (hs : src.WellFormed)
    (hsz : t.sizes = src.sizes) (hd : t.sparseDims = src.sparseDims)
    (hdd : t.denseDims = src.denseDims) (htn : 0 < t.nnz) (hsn : 0 < src.nnz) :
    ∃ res, s_add_out_sparse_cpu f r t src alpha = .ok res ∧
      res.coalesced = (t.coalesced && src.coalesced) ∧
      (StrictlyIncreasing t._indices → StrictlyIncreasing src._indices →
        StrictlyIncreasing res._indices) ∧
      ((t.coalesced = true → StrictlyIncreasing t._indices) →
        (src.coalesced = true → StrictlyIncreasing src._indices) →
        res.coalesced = true → StrictlyIncreasing res._indices) := by
  obtain ⟨res, h, _, _, _, hc, _, _, _, hI, _⟩ := s_add_general_eq t src alpha
  rw [wf_entries t _ ht hd, wf_entries src _ hs rfl] at hI
  have hTl : ∀ p ∈ t._indices.zip t._values, p.1.length = src.sparseDims := by
    intro p hp
    rw [← hd]
    exact ht.2.2.2.1 p.1 (List.of_mem_zip hp).1
  have hSl : ∀ p ∈ src._indices.zip src._values, p.1.length = src.sparseDims := by
    intro p hp
    exact hs.2.2.2.1 p.1 (List.of_mem_zip hp).1
  have hsorted : StrictlyIncreasing t._indices → StrictlyIncreasing src._indices →
      StrictlyIncreasing res._indices := by
    intro htc hsc
    rw [hI]
    exact mergeAdd_sorted _ _ _ _ _ hTl hSl (by rw [wf_zip_fst t ht]; exact htc)
      (by rw [wf_zip_fst src hs]; exact hsc)
  refine ⟨res, s_add_out_general f r t src res alpha hsz hd hdd htn hsn h, hc, hsorted, ?_⟩
  intro h1 h2 hflag
  rw [hc, Bool.and_eq_true] at hflag
  exact hsorted (h1 hflag.1) (h2 hflag.2)

/-- The flag of `{(1): 3} + 1 * {(1): 2, (2): 5}`. -/
theorem s_add_flag_truthful_witness :
    ∃ res, s_add_out_sparse_cpu false SparseTensor.fresh exA exB 1 = .ok res ∧
      res.coalesced = (exA.coalesced && exB.coalesced) ∧
      (StrictlyIncreasing exA._indices → StrictlyIncreasing exB._indices →
        StrictlyIncreasing res._indices) ∧
      ((exA.coalesced = true → StrictlyIncreasing exA._indices) →
        (exB.coalesced = true → StrictlyIncreasing exB._indices) →
        res.coalesced = true → StrictlyIncreasing res._indices) :=
  s_add_flag_truthful false SparseTensor.fresh exA exB 1 (by decide) (by decide) rfl rfl rfl
    (by decide) (by decide)

/-- C15, evaluated: sparse mul of `{(0): 2, (2): 3}` (length 4) with the empty tensor of
length 4 into a fresh output takes the early return, which only zeroes the output: the result
has no stored entry and is flagged coalesced, but keeps the output's own sizes `[]` and its
zero sparse dimensions, not the sizes `[4]` and the one sparse dimension of `src`. -/
theorem s_mul_empty_operand_keeps_shape :
    s_mul_out_sparse_cpu id SparseTensor.fresh exMulA exZ =
        .ok { sizes := [], sparseDims := 0, denseDims := 0, indices := [], values := [],
              nnz := 0, coalesced := true } ∧
      exMulA.sizes = exZ.sizes ∧ exZ.nnz = 0 ∧ exZ.sizes = [4] ∧ exZ.sparseDims = 1 := by
  refine ⟨rfl, rfl, rfl, rfl, rfl⟩

/-- C16, counterexample: `exMixT` (two sparse dimensions) and the empty `exMixZ` (one sparse
and one dense dimension) have the same sizes and different splits, and sparse add of the two
succeeds, in either order, instead of failing with a shape mismatch. -/
theorem s_add_split_unchecked_when_empty :
    exMixT.sizes = exMixZ.sizes ∧ exMixT.sparseDims ≠ exMixZ.sparseDims ∧
      exMixT.denseDims ≠ exMixZ.denseDims ∧
      s_add_out_sparse_cpu false SparseTensor.fresh exMixT exMixZ 1 = .ok exMixT ∧
      s_add_out_sparse_cpu false SparseTensor.fresh exMixZ exMixT 1 = .ok exMixT := by
  refine ⟨rfl, by decide, by decide, rfl, rfl⟩

/-- C16, amended: sparse add fails with a shape mismatch, returning the output as it was
given, whenever the sizes of the operands differ (whatever their nnz), and whenever the sizes
agree, both operands have nnz > 0 and the sparse/dense split differs. -/
theorem s_add_rejects_incompatible [CommRing α] (f : Bool) (r t src : SparseTensor α)
    (alpha : α)
    (h : t.sizes ≠ src.sizes ∨
      (0 < t.nnz ∧ 0 < src.nnz ∧
        (t.sparseDims ≠ src.sparseDims ∨ t.denseDims ≠ src.denseDims))) :
    s_add_out_sparse_cpu f r t src alpha = .error (.ShapeMismatch, r) := by
  unfold s_add_out_sparse_cpu
  by_cases hsz : t.sizes = src.sizes
  · rcases h with h | ⟨ht, hs, hd⟩
    · exact absurd hsz h
    · have hd2 : _is_same_density t src = false := by
        unfold _is_same_density
        rcases hd with hd | hd <;> simp [hd]
      have h1 : ¬ src.nnz = 0 := by omega
      have h2 : ¬ t.nnz = 0 := by omega
      simp [hsz, h1, h2, hd2]
  · simp [hsz]

/-- Sparse add of `exMixT` and `exMixS`, which have the same sizes and different splits and
one stored entry each, fails with a shape mismatch and hands back the output untouched. -/
theorem s_add_rejects_incompatible_witness :
    (exMixT.sizes ≠ exMixS.sizes ∨
      (0 < exMixT.nnz ∧ 0 < exMixS.nnz ∧
        (exMixT.sparseDims ≠ exMixS.sparseDims ∨ exMixT.denseDims ≠ exMixS.denseDims))) ∧
      s_add_out_sparse_cpu false SparseTensor.fresh exMixT exMixS 1 =
        .error (.ShapeMismatch, SparseTensor.fresh) :=
  ⟨by decide, s_add_rejects_incompatible false SparseTensor.fresh exMixT exMixS 1 (by decide)⟩

/-- C17, evaluated: with the 2×2 sparse operand `exS` and the 3×2 dense operand `exD3` both
products fail the check `dense.size(0) == sparse.size(1)`, and the fresh output, which had
sizes `[]`, is left resized to `[2, 2]`: the resize of the output precedes the last three
shape checks. -/
theorem product_shape_failure_resizes_output :
    s_addmm_out_sparse_dense_cpu id false Tensor.fresh exT exS exD3 1 1 =
        .error (.ShapeMismatch, { sizes := [2, 2], data := [0, 0, 0, 0] }) ∧
      _sspaddmm_out_cpu id false SparseTensor.fresh exSpT exS exD3 1 1 =
        .error (.ShapeMismatch,
          { sizes := [2, 2], sparseDims := 2, denseDims := 0, indices := [], values := [],
            nnz := 0, coalesced := true }) ∧
      (Tensor.fresh : Tensor Int).sizes = [] ∧
      (SparseTensor.fresh : SparseTensor Int).sizes = [] := by
  refine ⟨rfl, rfl, rfl, rfl⟩

theorem countBelow_mono (indices : List Int) (nnz : Nat) (a b : Int) (hab : a ≤ b) :
    countBelow indices nnz a ≤ countBelow indices nnz b := by
  unfold countBelow
  apply List.countP_mono_left
  intro x _ hx
  simp only [decide_eq_true_eq] at hx ⊢
  omega

/-- The row-offset array of an operand whose row coordinates are non-decreasing and in
range: it exists, is non-decreasing, stays below nnz, and the positions between two
consecutive offsets are exactly the positions of that row. -/
theorem csr_rows (I : List (List Int)) (dim_i nnz : Nat)
    (hsorted : ∀ j, j < nnz → ∀ i, i ≤ j → accessor I 0 i ≤ accessor I 0 j)
    (hrange : ∀ i, i < nnz → 0 ≤ accessor I 0 i ∧ accessor I 0 i < dim_i) :
    ∃ csr, _to_csr (rowIndices I) dim_i nnz = .ok csr ∧
      (∀ h, h < dim_i → csr.getD (h + 1) 0 ≤ nnz) ∧
      (∀ h, h < dim_i → csr.getD h 0 ≤ csr.getD (h + 1) 0) ∧
      (∀ h i, h < dim_i → i < nnz →
        ((csr.getD h 0 ≤ i ∧ i < csr.getD (h + 1) 0) ↔ accessor I 0 i = (h : Int))) ∧
      (∀ h, h < dim_i →
        List.range' (csr.getD h 0) (csr.getD (h + 1) 0 - csr.getD h 0) =
          (List.range nnz).filter (fun i => decide (accessor I 0 i = (h : Int)))) := by
  have hrows : ∀ i j, i ≤ j → j < nnz →
      (rowIndices I).getD i 0 ≤ (rowIndices I).getD j 0 := by
    intro i j hij hj
    rw [rowIndices_getD, rowIndices_getD]
    exact hsorted j hj i hij
  obtain ⟨csr, c1, _, c3⟩ := to_csr_counts (rowIndices I) dim_i nnz hrows
    (fun i hi => by rw [rowIndices_getD]; exact hrange i hi)
  have hle : ∀ h, h < dim_i → csr.getD (h + 1) 0 ≤ nnz := by
    intro h hh
    rw [c3 (h + 1) (by omega)]
    exact countBelow_le _ _ _
  have c6 : ∀ h i, h < dim_i → i < nnz →
      ((csr.getD h 0 ≤ i ∧ i < csr.getD (h + 1) 0) ↔ accessor I 0 i = (h : Int)) := by
    intro h i hh hi
    rw [c3 h (by omega), c3 (h + 1) (by omega), ← rowIndices_getD]
    exact countBelow_positions _ _ hrows h i hi
  refine ⟨csr, c1, hle, ?_, c6, ?_⟩
  · intro h hh
    rw [c3 h (by omega), c3 (h + 1) (by omega)]
    exact countBelow_mono _ _ _ _ (by push_cast; omega)
  · intro h hh
    rw [← filter_range_interval nnz _ _ (hle h hh)]
    apply List.filter_congr
    intro i hi
    simp only [List.mem_range] at hi
    simp only [decide_eq_decide]
    exact c6 h i hh hi

/-- The inner loop of the worker either completes, every scanned column being in range, or
stops with an index fault at a scanned position whose column is out of range. -/
theorem addmm_row_fault [CommRing α] (dim_j dim_k : Nat) (alpha : α)
    (indices : List (List Int)) (values : List (List α)) (dense : Tensor α)
    (s0 s1 h : Nat) :
    ∀ (n i : Nat) (r : List α),
      (∃ r', addmm_row dim_j dim_k alpha indices values dense s0 s1 h n i r = .ok r' ∧
        ∀ i', i ≤ i' → i' < i + n →
          0 ≤ accessor indices 1 i' ∧ accessor indices 1 i' < dim_j) ∨
      (∃ d, addmm_row dim_j dim_k alpha indices values dense s0 s1 h n i r =
          .error (.IndexOutOfBounds, d) ∧
        ∃ i', i ≤ i' ∧ i' < i + n ∧
          ¬ (0 ≤ accessor indices 1 i' ∧ accessor indices 1 i' < dim_j))
  | 0, i, r => Or.inl ⟨r, rfl, fun i' h1 h2 => by omega⟩
  | n + 1, i, r => by
    by_cases hc : accessor indices 1 i ≥ 0 ∧ accessor indices 1 i < dim_j
    · rw [addmm_row, if_pos hc]
      rcases addmm_row_fault dim_j dim_k alpha indices values dense s0 s1 h n (i + 1)
        (THBlas_axpy dim_k (alpha * (values.getD i []).getD 0 0) dense.data
          ((accessor indices 1 i).toNat * dense.stride 0) (dense.stride 1) r (h * s0) s1)
        with ⟨r', e, hall⟩ | ⟨d, e, i', h1, h2, h3⟩
      · refine Or.inl ⟨r', e, ?_⟩
        intro i' h1 h2
        by_cases hi : i' = i
        · subst hi; exact ⟨hc.1, hc.2⟩
        · exact hall i' (by omega) (by omega)
      · exact Or.inr ⟨d, e, i', by omega, by omega, h3⟩
    · rw [addmm_row, if_neg hc]
      exact Or.inr ⟨r, rfl, i, le_refl _, by omega, fun hh => hc ⟨hh.1, hh.2⟩⟩

/-- The row loop of the worker either completes, every position of every scanned row having
its column in range, or stops with an index fault at such a position. -/
theorem addmm_rows_fault [CommRing α] (dim_j dim_k : Nat) (alpha : α) (csr : List Nat)
    (indices : List (List Int)) (values : List (List α)) (dense : Tensor α) (s0 s1 : Nat) :
    ∀ (n h : Nat) (r : List α),
      (∃ r', addmm_rows dim_j dim_k alpha csr indices values dense s0 s1 n h r = .ok r' ∧
        ∀ h' i', h ≤ h' → h' < h + n → csr.getD h' 0 ≤ i' → i' < csr.getD (h' + 1) 0 →
          0 ≤ accessor indices 1 i' ∧ accessor indices 1 i' < dim_j) ∨
      (∃ d, addmm_rows dim_j dim_k alpha csr indices values dense s0 s1 n h r =
          .error (.IndexOutOfBounds, d) ∧
        ∃ h' i', h ≤ h' ∧ h' < h + n ∧ csr.getD h' 0 ≤ i' ∧ i' < csr.getD (h' + 1) 0 ∧
          ¬ (0 ≤ accessor indices 1 i' ∧ accessor indices 1 i' < dim_j))
  | 0, h, r => Or.inl ⟨r, rfl, fun h' i' h1 h2 => by omega⟩
  | n + 1, h, r => by
    rcases addmm_row_fault dim_j dim_k alpha indices values dense s0 s1 h
      (csr.getD (h + 1) 0 - csr.getD h 0) (csr.getD h 0) r
      with ⟨r1, a1, a2⟩ | ⟨d, a1, i', b1, b2, b3⟩
    · rcases addmm_rows_fault dim_j dim_k alpha csr indices values dense s0 s1 n (h + 1) r1
        with ⟨r', e, hall⟩ | ⟨d, e, h', i', c1, c2, c3, c4, c5⟩
      · refine Or.inl ⟨r', by rw [addmm_rows, a1]; exact e, ?_⟩
        intro h' i' h1 h2 h3 h4
        by_cases hh : h' = h
        · subst hh; exact a2 i' h3 (by omega)
        · exact hall h' i' (by omega) (by omega) h3 h4
      · exact Or.inr ⟨d, by rw [addmm_rows, a1]; exact e, h', i', by omega, by omega, c3, c4,
          c5⟩
    · exact Or.inr ⟨d, by rw [addmm_rows, a1], h, i', le_refl _, by omega, b1, by omega, b3⟩

/-- C18: column bounds are checked for every stored nonzero of accumulate-multiply. For a
shape-valid call of `s_addmm_out_sparse_dense_cpu` whose coalesced sparse operand has
nnz > 0 and non-decreasing row coordinates all in `[0, dim_i)`, the call fails with
`IndexOutOfBounds` if and only if some stored column coordinate lies outside `[0, dim_j)`;
when none does, the call succeeds. -/
theorem s_addmm_column_fault [CommRing α] [DecidableEq α]
    (coalesce : SparseTensor α → SparseTensor α) (f : Bool) (r t : Tensor α)
    (sparse_ : SparseTensor α) (dense : Tensor α) (beta alpha : α) (dim_i dim_j dim_k : Nat)
    (h2 : sparse_.sparseDims = 2) (h0 : sparse_.denseDims = 0)
    (hS : (coalesce sparse_).sizes = [dim_i, dim_j])
    (hD : dense.sizes = [dim_j, dim_k]) (hT : t.sizes = [dim_i, dim_k])
    (hn : 0 < (coalesce sparse_).nnz)
    (hsorted : ∀ j, j < (coalesce sparse_).nnz → ∀ i, i ≤ j →
      accessor (coalesce sparse_)._indices 0 i ≤ accessor (coalesce sparse_)._indices 0 j)
    (hrange : ∀ i, i < (coalesce sparse_).nnz →
      0 ≤ accessor (coalesce sparse_)._indices 0 i ∧
        accessor (coalesce sparse_)._indices 0 i < dim_i) :
    ((∃ d, s_addmm_out_sparse_dense_cpu coalesce f r t sparse_ dense beta alpha =
        .error (.IndexOutOfBounds, d)) ↔
      ∃ i, i < (coalesce sparse_).nnz ∧
        ¬ (0 ≤ accessor (coalesce sparse_)._indices 1 i ∧
          accessor (coalesce sparse_)._indices 1 i < dim_j)) ∧
    ((∀ i, i < (coalesce sparse_).nnz →
        0 ≤ accessor (coalesce sparse_)._indices 1 i ∧
          accessor (coalesce sparse_)._indices 1 i < dim_j) →
      ∃ res, s_addmm_out_sparse_dense_cpu coalesce f r t sparse_ dense beta alpha = .ok res)
    := by
  have hsz0 : (coalesce sparse_).size 0 = dim_i := by simp [SparseTensor.size, hS]
  have hsz1 : (coalesce sparse_).size 1 = dim_j := by simp [SparseTensor.size, hS]
  have hd0 : dense.size 0 = dim_j := by simp [Tensor.size, hD]
  have hd1 : dense.size 1 = dim_k := by simp [Tensor.size, hD]
  have hdd : dense.dim = 2 := by simp [Tensor.dim, hD]
  have ht1 : (if f = true then r.resize_ [dim_i, dim_k] else t).sizes = [dim_i, dim_k] := by
    by_cases hft : f = true
    · rw [if_pos hft]; rfl
    · rw [if_neg hft]; exact hT
  have ht0 : (if f = true then r.resize_ [dim_i, dim_k] else t).size 0 = dim_i := by
    simp [Tensor.size, ht1]
  have ht1' : (if f = true then r.resize_ [dim_i, dim_k] else t).size 1 = dim_k := by
    simp [Tensor.size, ht1]
  obtain ⟨csr, c1, hle, _, c6, _⟩ := csr_rows (coalesce sparse_)._indices dim_i
    (coalesce sparse_).nnz hsorted hrange
  have hscan : ∀ i, i < (coalesce sparse_).nnz → ∃ h, h < dim_i ∧
      csr.getD h 0 ≤ i ∧ i < csr.getD (h + 1) 0 := by
    intro i hi
    have hr := hrange i hi
    refine ⟨(accessor (coalesce sparse_)._indices 0 i).toNat, by omega, ?_⟩
    exact (c6 _ i (by omega) hi).mpr (by omega)
  have key : (∃ res, s_addmm_out_sparse_dense_cpu coalesce f r t sparse_ dense beta alpha
        = .ok res ∧ ∀ i, i < (coalesce sparse_).nnz →
          0 ≤ accessor (coalesce sparse_)._indices 1 i ∧
            accessor (coalesce sparse_)._indices 1 i < dim_j) ∨
      ((∃ d, s_addmm_out_sparse_dense_cpu coalesce f r t sparse_ dense beta alpha =
          .error (.IndexOutOfBounds, d)) ∧
        ∃ i, i < (coalesce sparse_).nnz ∧
          ¬ (0 ≤ accessor (coalesce sparse_)._indices 1 i ∧
            accessor (coalesce sparse_)._indices 1 i < dim_j)) := by
    unfold s_addmm_out_sparse_dense_cpu
    rw [if_neg (by simp [h2]), if_neg (by simp [h0]), if_neg (by simp [hdd])]
    simp only [hsz0, hsz1, hd0, hd1]
    rw [if_neg (by simp), if_neg (by simp [ht0]), if_neg (by simp [ht1']),
      if_neg (by omega), c1]
    simp only
    unfold s_addmm_out_sparse_dense_worker
    simp only
    generalize (if beta = 0 then (r.resize_ [dim_i, dim_k]).zero_
      else if beta = 1 then
        (if ¬ (f = true) then
          (r.resize_ [dim_i, dim_k]).copy_ (if f = true then r.resize_ [dim_i, dim_k] else t)
          else r.resize_ [dim_i, dim_k])
      else Tensor.mul_out (r.resize_ [dim_i, dim_k])
        (if f = true then r.resize_ [dim_i, dim_k] else t) beta) = seed
    rcases addmm_rows_fault dim_j dim_k alpha csr (coalesce sparse_)._indices
      (coalesce sparse_)._values dense (seed.stride 0) (seed.stride 1) dim_i 0 seed.data
      with ⟨r', e, hall⟩ | ⟨d, e, h', i', a1, a2, a3, a4, a5⟩
    · left
      rw [e]
      refine ⟨_, rfl, ?_⟩
      intro i hi
      obtain ⟨h, hh, s1, s2⟩ := hscan i hi
      exact hall h i (Nat.zero_le _) (by omega) s1 s2
    · right
      rw [e]
      refine ⟨⟨_, rfl⟩, i', ?_, a5⟩
      have := hle h' (by omega)
      omega
  rcases key with ⟨res, e, hall⟩ | ⟨⟨d, e⟩, hex⟩
  · refine ⟨⟨?_, ?_⟩, fun _ => ⟨res, e⟩⟩
    · rintro ⟨d, e'⟩
      rw [e] at e'
      cases e'
    · rintro ⟨i, hi, hbad⟩
      exact absurd (hall i hi) hbad
  · refine ⟨⟨fun _ => hex, fun _ => ⟨d, e⟩⟩, ?_⟩
    intro hall
    obtain ⟨i, hi, hbad⟩ := hex
    exact absurd (hall i hi) hbad

/-- The 2×2 operand with a stored column coordinate 5: accumulate-multiply fails with
`IndexOutOfBounds`, the first row already accumulated. -/
theorem s_addmm_column_fault_witness :
    s_addmm_out_sparse_dense_cpu id false Tensor.fresh exT exSbad exD 0 1 =
      .error (.IndexOutOfBounds, { sizes := [2, 2], data := [1, 2, 0, 0] }) ∧
    (((∃ d, s_addmm_out_sparse_dense_cpu id false Tensor.fresh exT exSbad exD 0 1 =
        .error (.IndexOutOfBounds, d)) ↔
      ∃ i, i < (id exSbad).nnz ∧
        ¬ (0 ≤ accessor (id exSbad)._indices 1 i ∧
          accessor (id exSbad)._indices 1 i < (2 : Nat))) ∧
    ((∀ i, i < (id exSbad).nnz →
        0 ≤ accessor (id exSbad)._indices 1 i ∧
          accessor (id exSbad)._indices 1 i < (2 : Nat)) →
      ∃ res, s_addmm_out_sparse_dense_cpu id false Tensor.fresh exT exSbad exD 0 1 = .ok res))
    :=
  ⟨rfl, s_addmm_column_fault id false Tensor.fresh exT exSbad exD 0 1 2 2 2 rfl rfl rfl rfl rfl
    (by decide) (by decide) (by decide)⟩

/-- C19: row-scan boundary of accumulate-multiply. For a shape-valid call of
`s_addmm_out_sparse_dense_cpu` with in-range indices the call succeeds, and every output row
`h` in which the coalesced sparse operand stores no nonzero equals `beta * t[h]` entry by
entry. When the operand has nnz = 0 the result is the early return `mul_out(r, t, beta)`, so
that every row is `beta * t[h]`. -/
theorem s_addmm_empty_row [CommRing α] [DecidableEq α]
    (coalesce : SparseTensor α → SparseTensor α) (f : Bool) (r t : Tensor α)
    (sparse_ : SparseTensor α) (dense : Tensor α) (beta alpha : α) (dim_i dim_j dim_k : Nat)
    (h2 : sparse_.sparseDims = 2) (h0 : sparse_.denseDims = 0)
    (hS : (coalesce sparse_).sizes = [dim_i, dim_j])
    (hD : dense.sizes = [dim_j, dim_k]) (hT : t.sizes = [dim_i, dim_k])
    (hTw : t.WellFormed) (hf : f = true → r = t)
    (hsorted : ∀ j, j < (coalesce sparse_).nnz → ∀ i, i ≤ j →
      accessor (coalesce sparse_)._indices 0 i ≤ accessor (coalesce sparse_)._indices 0 j)
    (hrange : ∀ i, i < (coalesce sparse_).nnz →
      (0 ≤ accessor (coalesce sparse_)._indices 0 i ∧
        accessor (coalesce sparse_)._indices 0 i < dim_i) ∧
      (0 ≤ accessor (coalesce sparse_)._indices 1 i ∧
        accessor (coalesce sparse_)._indices 1 i < dim_j)) :
    ∃ res, s_addmm_out_sparse_dense_cpu coalesce f r t sparse_ dense beta alpha = .ok res ∧
      res.sizes = [dim_i, dim_k] ∧
      (∀ h : Nat, h < dim_i →
        (∀ i, i < (coalesce sparse_).nnz →
          accessor (coalesce sparse_)._indices 0 i ≠ (h : Int)) →
        ∀ k, k < dim_k →
          res.data.getD (h * dim_k + k) 0 = beta * t.data.getD (h * dim_k + k) 0) ∧
      ((coalesce sparse_).nnz = 0 →
        res = Tensor.mul_out (r.resize_ [dim_i, dim_k]) t beta ∧
        ∀ h k, h < dim_i → k < dim_k →
          res.data.getD (h * dim_k + k) 0 = beta * t.data.getD (h * dim_k + k) 0) := by
  obtain ⟨res, e, s1, _, s3⟩ := s_addmm_entries coalesce f r t sparse_ dense beta alpha
    dim_i dim_j dim_k h2 h0 hS hD hT hTw hf hsorted hrange
  have hrow : ∀ h : Nat, (∀ i, i < (coalesce sparse_).nnz →
      accessor (coalesce sparse_)._indices 0 i ≠ (h : Int)) →
      ∀ k, rowDot (coalesce sparse_) dense h k = 0 := by
    intro h hno k
    unfold rowDot
    have : (List.range (coalesce sparse_).nnz).filter
        (fun i => decide (accessor (coalesce sparse_)._indices 0 i = (h : Int))) = [] := by
      rw [List.filter_eq_nil_iff]
      intro i hi
      simp only [List.mem_range] at hi
      simpa using hno i hi
    rw [this]
    simp
  refine ⟨res, e, s1, ?_, ?_⟩
  · intro h hh hno k hk
    rw [s3 h k hh hk, hrow h hno k, mul_zero, add_zero]
  · intro hn
    refine ⟨?_, ?_⟩
    · have hsz0 : (coalesce sparse_).size 0 = dim_i := by simp [SparseTensor.size, hS]
      have hsz1 : (coalesce sparse_).size 1 = dim_j := by simp [SparseTensor.size, hS]
      have hd0 : dense.size 0 = dim_j := by simp [Tensor.size, hD]
      have hd1 : dense.size 1 = dim_k := by simp [Tensor.size, hD]
      have hdd : dense.dim = 2 := by simp [Tensor.dim, hD]
      have ht1 : (if f = true then r.resize_ [dim_i, dim_k] else t) = t := by
        by_cases hft : f = true
        · rw [if_pos hft, hf hft, ← hT]; exact resize_self t hTw
        · rw [if_neg hft]
      have ht0 : t.size 0 = dim_i := by simp [Tensor.size, hT]
      have ht1' : t.size 1 = dim_k := by simp [Tensor.size, hT]
      unfold s_addmm_out_sparse_dense_cpu at e
      rw [if_neg (by simp [h2]), if_neg (by simp [h0]), if_neg (by simp [hdd])] at e
      simp only [hsz0, hsz1, hd0, hd1, ht1] at e
      rw [if_neg (by simp), if_neg (by simp [ht0]), if_neg (by simp [ht1']), if_pos hn] at e
      cases e
      rfl
    · intro h k hh hk
      rw [s3 h k hh hk, hrow h (fun i hi => by omega) k, mul_zero, add_zero]

/-- Accumulate-multiply of the 2×2 operand `{(0,1): 5}`, whose second row is empty, with
`beta = 3`: the second output row is `3 * [7, 7]`. -/
theorem s_addmm_empty_row_witness :
    s_addmm_out_sparse_dense_cpu id false Tensor.fresh exT exSpT exD 3 1 =
      .ok { sizes := [2, 2], data := [36, 41, 21, 21] } ∧
    ∃ res, s_addmm_out_sparse_dense_cpu id false Tensor.fresh exT exSpT exD 3 1 = .ok res ∧
      res.sizes = [2, 2] ∧
      (∀ h : Nat, h < 2 →
        (∀ i, i < (id exSpT).nnz → accessor (id exSpT)._indices 0 i ≠ (h : Int)) →
        ∀ k, k < 2 →
          res.data.getD (h * 2 + k) 0 = 3 * exT.data.getD (h * 2 + k) 0) ∧
      ((id exSpT).nnz = 0 →
        res = Tensor.mul_out (Tensor.fresh.resize_ [2, 2]) exT 3 ∧
        ∀ h k, h < 2 → k < 2 →
          res.data.getD (h * 2 + k) 0 = 3 * exT.data.getD (h * 2 + k) 0) :=
  ⟨rfl, s_addmm_empty_row id false Tensor.fresh exT exSpT exD 3 1 2 2 2 rfl rfl rfl rfl rfl
    (by decide) (by decide) (by decide) (by decide)⟩

theorem csrRowCount_succ (csr : List Nat) (h n : Nat) :
    csrRowCount csr h (n + 1) =
      (if csr.getD h 0 ≠ csr.getD (h + 1) 0 then 1 else 0) + csrRowCount csr (h + 1) n := by
  unfold csrRowCount
  rw [List.range'_succ, List.countP_cons]
  simp only [decide_eq_true_eq]
  exact Nat.add_comm _ _

theorem sspaddmm_row_spec [CommRing α] (dim_j dim_k : Nat) (alpha : α)
    (indices : List (List Int)) (values : List (List α)) (dense : Tensor α) (p : Nat) :
    ∀ (n i : Nat) (newv : List α),
      (∀ i', i ≤ i' → i' < i + n → 0 ≤ accessor indices 1 i' ∧ accessor indices 1 i' < dim_j) →
      p + dim_k ≤ newv.length →
      ∃ newv', sspaddmm_row dim_j dim_k alpha indices values dense p n i newv = .ok newv' ∧
        newv'.length = newv.length ∧
        (∀ k, k < dim_k → newv'.getD (p + k) 0 = newv.getD (p + k) 0 +
          ((List.range' i n).map (fun i' => alpha * (values.getD i' []).getD 0 0 *
            dense.data.getD ((accessor indices 1 i').toNat * dense.stride 0
              + k * dense.stride 1) 0)).sum) ∧
        (∀ q, (q < p ∨ p + dim_k ≤ q) → newv'.getD q 0 = newv.getD q 0)
  | 0, i, newv, _, _ => ⟨newv, rfl, rfl, fun k _ => by simp, fun q _ => rfl⟩
  | n + 1, i, newv, hc, hl => by
    have hci := hc i (le_refl i) (by omega)
    have hlen : (THBlas_axpy dim_k (alpha * (values.getD i []).getD 0 0) dense.data
        ((accessor indices 1 i).toNat * dense.stride 0) (dense.stride 1) newv
        p 1).length = newv.length := axpy_length _ _ _ _ _ _ _ _
    obtain ⟨r', e1, e2, e3, e4⟩ := sspaddmm_row_spec dim_j dim_k alpha indices values dense p n
      (i + 1) (THBlas_axpy dim_k (alpha * (values.getD i []).getD 0 0) dense.data
        ((accessor indices 1 i).toNat * dense.stride 0) (dense.stride 1) newv p 1)
      (fun i' h1 h2 => hc i' (by omega) (by omega)) (by rw [hlen]; exact hl)
    refine ⟨r', ?_, by rw [e2, hlen], ?_, ?_⟩
    · rw [sspaddmm_row, if_pos ⟨hci.1, hci.2⟩, if_pos hl]
      exact e1
    · intro k hk
      rw [e3 k hk]
      have := axpy_getD_hit dim_k (alpha * (values.getD i []).getD 0 0) dense.data
        ((accessor indices 1 i).toNat * dense.stride 0) (dense.stride 1) newv p 1 k hk
        (by omega) (by omega)
      simp only [Nat.mul_one] at this
      rw [this, List.range'_succ, List.map_cons, List.sum_cons, add_assoc]
    · intro q hq
      rw [e4 q hq]
      apply axpy_getD_miss
      intro j hj
      omega

theorem sspaddmm_fill_spec (h p : Nat) :
    ∀ (n i : Nat) (newi : List (List Int)),
      p + i + n ≤ newi.length →
      ∃ newi', sspaddmm_fill h p n i newi = .ok newi' ∧ newi'.length = newi.length ∧
        (∀ j, i ≤ j → j < i + n → newi'.getD (p + j) [] = [(h : Int), (j : Int)]) ∧
        (∀ q, (q < p + i ∨ p + i + n ≤ q) → newi'.getD q [] = newi.getD q [])
  | 0, i, newi, _ => ⟨newi, rfl, rfl, fun j h1 h2 => by omega, fun q _ => rfl⟩
  | n + 1, i, newi, hl => by
    obtain ⟨r', e1, e2, e3, e4⟩ := sspaddmm_fill_spec h p n (i + 1)
      (newi.set (p + i) [(h : Int), (i : Int)]) (by rw [List.length_set]; omega)
    refine ⟨r', ?_, by rw [e2, List.length_set], ?_, ?_⟩
    · rw [sspaddmm_fill, if_pos (by omega)]
      exact e1
    · intro j h1 h2
      by_cases hj : j = i
      · subst hj
        rw [e4 (p + j) (Or.inl (by omega))]
        exact getD_set_eq _ _ _ _ (by omega)
      · exact e3 j (by omega) (by omega)
    · intro q hq
      rw [e4 q (by omega)]
      exact getD_set_ne _ _ _ _ _ (by omega)

theorem sspaddmm_rows_spec [CommRing α] (dim_j dim_k : Nat) (alpha : α) (csr : List Nat)
    (indices : List (List Int)) (values : List (List α)) (dense : Tensor α) :
    ∀ (n h p : Nat) (newi : List (List Int)) (newv : List α),
      (∀ h', h ≤ h' → h' < h + n → ∀ i', csr.getD h' 0 ≤ i' → i' < csr.getD (h' + 1) 0 →
        0 ≤ accessor indices 1 i' ∧ accessor indices 1 i' < dim_j) →
      p + dim_k * csrRowCount csr h n ≤ newi.length →
      p + dim_k * csrRowCount csr h n ≤ newv.length →
      (∀ q, p ≤ q → newv.getD q 0 = 0) →
      ∃ newi' newv',
        sspaddmm_rows dim_j dim_k alpha csr indices values dense n h p newi newv =
          .ok (p + dim_k * csrRowCount csr h n, newi', newv') ∧
        newi'.length = newi.length ∧ newv'.length = newv.length ∧
        (∀ q, q < p → newi'.getD q [] = newi.getD q [] ∧ newv'.getD q 0 = newv.getD q 0) ∧
        (∀ h' k, h ≤ h' → h' < h + n → csr.getD h' 0 ≠ csr.getD (h' + 1) 0 → k < dim_k →
          newi'.getD (p + dim_k * csrRowCount csr h (h' - h) + k) [] = [(h' : Int), (k : Int)] ∧
          newv'.getD (p + dim_k * csrRowCount csr h (h' - h) + k) 0 =
            ((List.range' (csr.getD h' 0) (csr.getD (h' + 1) 0 - csr.getD h' 0)).map
              (fun i' => alpha * (values.getD i' []).getD 0 0 *
                dense.data.getD ((accessor indices 1 i').toNat * dense.stride 0
                  + k * dense.stride 1) 0)).sum)
  | 0, h, p, newi, newv, _, _, _, _ => by
    refine ⟨newi, newv, ?_, rfl, rfl, fun q _ => ⟨rfl, rfl⟩, fun h' k h1 h2 => by omega⟩
    simp [sspaddmm_rows, csrRowCount]
  | n + 1, h, p, newi, newv, hc, hli, hlv, hz => by
    have hsucc := csrRowCount_succ csr h n
    by_cases hne : csr.getD h 0 ≠ csr.getD (h + 1) 0
    · rw [if_pos hne] at hsucc
      have hexp : dim_k * csrRowCount csr h (n + 1) =
          dim_k + dim_k * csrRowCount csr (h + 1) n := by rw [hsucc]; ring
      rw [hexp] at hli hlv
      obtain ⟨newv1, a1, a2, a3, a4⟩ := sspaddmm_row_spec dim_j dim_k alpha indices values
        dense p (csr.getD (h + 1) 0 - csr.getD h 0) (csr.getD h 0) newv
        (fun i' h1 h2 => hc h (le_refl h) (by omega) i' h1 (by omega)) (by omega)
      obtain ⟨newi1, f1, f2, f3, f4⟩ := sspaddmm_fill_spec h p dim_k 0 newi (by omega)
      obtain ⟨newi', newv', b1, b2, b3, b4, b5⟩ := sspaddmm_rows_spec dim_j dim_k alpha csr
        indices values dense n (h + 1) (p + dim_k) newi1 newv1
        (fun h' h1 h2 => hc h' (by omega) (by omega))
        (by rw [f2]; omega) (by rw [a2]; omega)
        (fun q hq => by rw [a4 q (Or.inr hq)]; exact hz q (by omega))
      refine ⟨newi', newv', ?_, by rw [b2, f2], by rw [b3, a2], ?_, ?_⟩
      · rw [sspaddmm_rows, a1]
        simp only
        rw [if_pos hne, f1]
        simp only
        rw [b1, hexp, Nat.add_assoc]
      · intro q hq
        have := b4 q (by omega)
        rw [this.1, this.2, f4 q (Or.inl (by omega)), a4 q (Or.inl hq)]
        exact ⟨rfl, rfl⟩
      · intro h' k h1 h2 h3 hk
        by_cases hh : h' = h
        · subst hh
          have e0 : csrRowCount csr h' (h' - h') = 0 := by simp [csrRowCount]
          rw [e0, Nat.mul_zero, Nat.add_zero]
          have := b4 (p + k) (by omega)
          rw [this.1, this.2, f3 k (Nat.zero_le _) (by omega), a3 k hk,
            hz (p + k) (by omega), zero_add]
          exact ⟨rfl, rfl⟩
        · have e1 : h' - h = (h' - (h + 1)) + 1 := by omega
          have e2 : dim_k * csrRowCount csr h (h' - h) =
              dim_k + dim_k * csrRowCount csr (h + 1) (h' - (h + 1)) := by
            rw [e1, csrRowCount_succ, if_pos hne]; ring
          have := b5 h' k (by omega) (by omega) h3 hk
          rw [e2]
          have e3 : p + (dim_k + dim_k * csrRowCount csr (h + 1) (h' - (h + 1))) + k =
              p + dim_k + dim_k * csrRowCount csr (h + 1) (h' - (h + 1)) + k := by omega
          rw [e3]
          exact this
    · rw [if_neg hne, Nat.zero_add] at hsucc
      rw [hsucc] at hli hlv
      have heq : csr.getD h 0 = csr.getD (h + 1) 0 := by
        by_contra c; exact hne c
      obtain ⟨newi', newv', b1, b2, b3, b4, b5⟩ := sspaddmm_rows_spec dim_j dim_k alpha csr
        indices values dense n (h + 1) p newi newv
        (fun h' h1 h2 => hc h' (by omega) (by omega)) hli hlv hz
      refine ⟨newi', newv', ?_, b2, b3, b4, ?_⟩
      · rw [sspaddmm_rows, ← heq, Nat.sub_self, sspaddmm_row]
        simp only [ne_eq, not_true_eq_false, if_false]
        rw [b1, hsucc]
      · intro h' k h1 h2 h3 hk
        have hh : h' ≠ h := by
          intro c; subst c; exact hne h3
        have e1 : h' - h = (h' - (h + 1)) + 1 := by omega
        have e2 : csrRowCount csr h (h' - h) = csrRowCount csr (h + 1) (h' - (h + 1)) := by
          rw [e1, csrRowCount_succ, if_neg hne, Nat.zero_add]
        rw [e2]
        exact b5 h' k (by omega) (by omega) h3 hk

theorem rowHasEntry_iff (I : List (List Int)) (nnz h : Nat) :
    rowHasEntry I nnz h = true ↔ ∃ i, i < nnz ∧ accessor I 0 i = (h : Int) := by
  simp [rowHasEntry]

theorem distinctRows_le (I : List (List Int)) (nnz : Nat) : distinctRows I nnz ≤ nnz := by
  unfold distinctRows
  have := (List.dedup_sublist ((List.range nnz).map (fun i => accessor I 0 i))).length_le
  simpa using this

theorem distinctRows_eq_rowsBefore (I : List (List Int)) (nnz dim_i : Nat)
    (hrange : ∀ i, i < nnz → 0 ≤ accessor I 0 i ∧ accessor I 0 i < dim_i) :
    distinctRows I nnz = rowsBefore I nnz dim_i := by
  unfold distinctRows rowsBefore
  rw [← List.card_toFinset, List.countP_eq_length_filter,
    ← List.toFinset_card_of_nodup (List.Nodup.filter _ (List.nodup_range dim_i))]
  have himg : ((List.range nnz).map (fun i => accessor I 0 i)).toFinset =
      (((List.range dim_i).filter (rowHasEntry I nnz)).toFinset).image
        (fun h : Nat => (h : Int)) := by
    ext x
    simp only [List.mem_toFinset, List.mem_map, List.mem_range, Finset.mem_image,
      List.mem_filter, rowHasEntry_iff]
    constructor
    · rintro ⟨i, hi, rfl⟩
      have hr := hrange i hi
      refine ⟨(accessor I 0 i).toNat, ⟨by omega, i, hi, by omega⟩, by omega⟩
    · rintro ⟨h, ⟨_, i, hi, e⟩, rfl⟩
      exact ⟨i, hi, e⟩
  rw [himg, Finset.card_image_of_injective _ Nat.cast_injective]

theorem rowsBefore_lt (I : List (List Int)) (nnz h d : Nat) (hd : h < d)
    (hh : rowHasEntry I nnz h = true) : rowsBefore I nnz h + 1 ≤ rowsBefore I nnz d := by
  unfold rowsBefore
  have h1 : (List.range (h + 1)).countP (rowHasEntry I nnz) =
      (List.range h).countP (rowHasEntry I nnz) + 1 := by
    rw [List.range_succ, List.countP_append]
    simp [hh]
  have h2 : (List.range (h + 1)).countP (rowHasEntry I nnz) ≤
      (List.range d).countP (rowHasEntry I nnz) :=
    List.Sublist.countP_le _ (List.range_sublist.mpr (by omega))
  omega

theorem csrRowCount_eq_rowsBefore (I : List (List Int)) (nnz : Nat) (csr : List Nat)
    (h : Nat)
    (hiff : ∀ h', h' < h →
      (csr.getD h' 0 ≠ csr.getD (h' + 1) 0 ↔ rowHasEntry I nnz h' = true)) :
    csrRowCount csr 0 h = rowsBefore I nnz h := by
  unfold csrRowCount rowsBefore
  rw [← List.range_eq_range']
  apply List.countP_congr
  intro x hx
  simp only [List.mem_range] at hx
  simp only [decide_eq_true_eq]
  exact hiff x hx

theorem sspaddmm_newi_length (ti : List (List Int)) (t_nnz r_nnz : Nat) :
    (sspaddmm_newi ti t_nnz r_nnz).length = r_nnz := by
  simp [sspaddmm_newi]

theorem sspaddmm_newi_getD (ti : List (List Int)) (t_nnz r_nnz q : Nat) (hq : q < t_nnz)
    (hr : t_nnz ≤ r_nnz) :
    (sspaddmm_newi ti t_nnz r_nnz).getD q [] = readColumn 2 ti q := by
  unfold sspaddmm_newi
  have hq' : q < r_nnz := by omega
  have h0 : t_nnz ≠ 0 := by omega
  simp [List.getD_eq_getElem?_getD, hq', hq, h0]

theorem sspaddmm_newv_length [CommRing α] (tv : List (List α)) (beta : α)
    (t_nnz r_nnz : Nat) : (sspaddmm_newv tv beta t_nnz r_nnz).length = r_nnz := by
  unfold sspaddmm_newv
  split_ifs <;> simp

theorem sspaddmm_newv_getD [CommRing α] (tv : List (List α)) (beta : α)
    (t_nnz r_nnz q : Nat) (hq : q < t_nnz) (hr : t_nnz ≤ r_nnz) :
    (sspaddmm_newv tv beta t_nnz r_nnz).getD q 0 = beta * (tv.getD q []).getD 0 0 := by
  unfold sspaddmm_newv
  have hq' : q < r_nnz := by omega
  have h0 : t_nnz ≠ 0 := by omega
  rw [if_pos h0, getD_map_mul]
  simp [List.getD_eq_getElem?_getD, hq', hq]

theorem sspaddmm_newv_zero [CommRing α] (tv : List (List α)) (beta : α)
    (t_nnz r_nnz q : Nat) (hq : t_nnz ≤ q) :
    (sspaddmm_newv tv beta t_nnz r_nnz).getD q 0 = 0 := by
  unfold sspaddmm_newv
  by_cases h0 : t_nnz ≠ 0
  · rw [if_pos h0, getD_map_mul]
    by_cases hq' : q < r_nnz
    · have : ¬ q < t_nnz := by omega
      simp [List.getD_eq_getElem?_getD, hq', this]
    · have hn : (List.range r_nnz)[q]? = none := by
        rw [List.getElem?_eq_none_iff]; simp; omega
      simp [List.getD_eq_getElem?_getD, hn]
  · rw [if_neg h0]
    by_cases hq' : q < r_nnz
    · simp [List.getD_eq_getElem?_getD, hq']
    · simp [List.getD_eq_getElem?_getD, hq']

theorem getD_map_singleton [Zero α] (l : List α) (q : Nat) (hq : q < l.length) :
    (l.map (fun v => [v])).getD q [] = [l.getD q 0] := by
  simp [List.getD_eq_getElem?_getD, hq]

theorem lt_length_of_getD_ne {β : Type} (l : List β) (q : Nat) (d : β)
    (h : l.getD q d ≠ d) : q < l.length := by
  by_contra c
  apply h
  rw [List.getD_eq_getElem?_getD, List.getElem?_eq_none_iff.mpr (by omega)]
  rfl

/-- The output of `_sspaddmm_out_cpu` for a shape-valid call with in-range, row-sorted
indices: the call succeeds, the buffers have the allocated length, the first `t.nnz` entries
are those of `t` scaled by `beta`, and each row that stores a nonzero owns a block of `dim_k`
entries placed after the blocks of the rows before it. -/
theorem sspaddmm_layout [CommRing α]
    (coalesce : SparseTensor α → SparseTensor α) (f : Bool) (r t sparse_ : SparseTensor α)
    (dense : Tensor α) (beta alpha : α) (dim_i dim_j dim_k : Nat)
    (h2 : sparse_.sparseDims = 2) (h0 : sparse_.denseDims = 0)
    (hS : (coalesce sparse_).sizes = [dim_i, dim_j])
    (hD : dense.sizes = [dim_j, dim_k]) (hT : t.sizes = [dim_i, dim_k])
    (hf : f = true → r = t)
    (hsorted : ∀ j, j < (coalesce sparse_).nnz → ∀ i, i ≤ j →
      accessor (coalesce sparse_)._indices 0 i ≤ accessor (coalesce sparse_)._indices 0 j)
    (hrange : ∀ i, i < (coalesce sparse_).nnz →
      (0 ≤ accessor (coalesce sparse_)._indices 0 i ∧
        accessor (coalesce sparse_)._indices 0 i < dim_i) ∧
      (0 ≤ accessor (coalesce sparse_)._indices 1 i ∧
        accessor (coalesce sparse_)._indices 1 i < dim_j)) :
    ∃ res, _sspaddmm_out_cpu coalesce f r t sparse_ dense beta alpha = .ok res ∧
      res.sizes = [dim_i, dim_k] ∧ res.sparseDims = 2 ∧ res.denseDims = 0 ∧
      res.indices.length = (coalesce sparse_).nnz * dim_k + t.nnz ∧
      res.values.length = (coalesce sparse_).nnz * dim_k + t.nnz ∧
      res.nnz = t.nnz +
        dim_k * rowsBefore (coalesce sparse_)._indices (coalesce sparse_).nnz dim_i ∧
      (∀ q, q < t.nnz → res.indices.getD q [] = readColumn 2 t._indices q ∧
        res.values.getD q [] = [beta * (t._values.getD q []).getD 0 0]) ∧
      (∀ h k, h < dim_i →
        rowHasEntry (coalesce sparse_)._indices (coalesce sparse_).nnz h = true → k < dim_k →
        res.indices.getD (t.nnz +
            dim_k * rowsBefore (coalesce sparse_)._indices (coalesce sparse_).nnz h + k) [] =
          [(h : Int), (k : Int)] ∧
        res.values.getD (t.nnz +
            dim_k * rowsBefore (coalesce sparse_)._indices (coalesce sparse_).nnz h + k) [] =
          [alpha * rowDot (coalesce sparse_) dense h k]) := by
  have hsz0 : (coalesce sparse_).size 0 = dim_i := by simp [SparseTensor.size, hS]
  have hsz1 : (coalesce sparse_).size 1 = dim_j := by simp [SparseTensor.size, hS]
  have hd0 : dense.size 0 = dim_j := by simp [Tensor.size, hD]
  have hd1 : dense.size 1 = dim_k := by simp [Tensor.size, hD]
  have hdd : dense.dim = 2 := by simp [Tensor.dim, hD]
  have hds0 : dense.stride 0 = dim_k := by simp [Tensor.stride, hD]
  have hds1 : dense.stride 1 = 1 := by simp [Tensor.stride, hD]
  obtain ⟨t1, ht1, hn1, hi1, hv1, hs0, hs1⟩ : ∃ t1 : SparseTensor α,
      (if f = true then r.sparse_raw_resize_ [dim_i, dim_k] 2 0 else t) = t1 ∧
      t1.nnz = t.nnz ∧ t1._indices = t._indices ∧ t1._values = t._values ∧
      t1.size 0 = dim_i ∧ t1.size 1 = dim_k := by
    by_cases hft : f = true
    · rw [if_pos hft, hf hft]
      exact ⟨_, rfl, rfl, rfl, rfl, rfl, rfl⟩
    · rw [if_neg hft]
      exact ⟨_, rfl, rfl, rfl, rfl, by simp [SparseTensor.size, hT],
        by simp [SparseTensor.size, hT]⟩
  obtain ⟨csr, c1, hle, hmono, c6, hlist⟩ := csr_rows (coalesce sparse_)._indices dim_i
    (coalesce sparse_).nnz hsorted (fun i hi => (hrange i hi).1)
  have hiff : ∀ h', h' < dim_i → (csr.getD h' 0 ≠ csr.getD (h' + 1) 0 ↔
      rowHasEntry (coalesce sparse_)._indices (coalesce sparse_).nnz h' = true) := by
    intro h' hh'
    rw [rowHasEntry_iff]
    constructor
    · intro hne
      have hm := hmono h' hh'
      have hl := hle h' hh'
      exact ⟨csr.getD h' 0, by omega, (c6 h' _ hh' (by omega)).mp ⟨le_refl _, by omega⟩⟩
    · rintro ⟨i, hi, e⟩
      have := (c6 h' i hh' hi).mpr e
      omega
  have hcnt : ∀ h, h ≤ dim_i → csrRowCount csr 0 h =
      rowsBefore (coalesce sparse_)._indices (coalesce sparse_).nnz h := by
    intro h hh
    exact csrRowCount_eq_rowsBefore _ _ csr h (fun h' hh' => hiff h' (by omega))
  have hbound : rowsBefore (coalesce sparse_)._indices (coalesce sparse_).nnz dim_i ≤
      (coalesce sparse_).nnz := by
    rw [← distinctRows_eq_rowsBefore _ _ dim_i (fun i hi => (hrange i hi).1)]
    exact distinctRows_le _ _
  have hmul : dim_k * rowsBefore (coalesce sparse_)._indices (coalesce sparse_).nnz dim_i ≤
      (coalesce sparse_).nnz * dim_k := by
    rw [Nat.mul_comm]
    exact Nat.mul_le_mul_right _ hbound
  obtain ⟨newi', newv', e, l1, l2, pre, blk⟩ := sspaddmm_rows_spec dim_j dim_k alpha csr
    (coalesce sparse_)._indices (coalesce sparse_)._values dense dim_i 0 t.nnz
    (sspaddmm_newi t._indices t.nnz ((coalesce sparse_).nnz * dim_k + t.nnz))
    (sspaddmm_newv t._values beta t.nnz ((coalesce sparse_).nnz * dim_k + t.nnz))
    (fun h' _ hh i' _ hi => (hrange i' (by have := hle h' (by omega); omega)).2)
    (by rw [sspaddmm_newi_length, hcnt dim_i (le_refl _)]; omega)
    (by rw [sspaddmm_newv_length, hcnt dim_i (le_refl _)]; omega)
    (fun q hq => sspaddmm_newv_zero _ _ _ _ q hq)
  rw [sspaddmm_newi_length] at l1
  rw [sspaddmm_newv_length] at l2
  unfold _sspaddmm_out_cpu
  rw [if_neg (by simp [h2]), if_neg (by simp [h0]), if_neg (by simp [hdd])]
  simp only [hsz0, hsz1, hd0, hd1, ht1]
  rw [if_neg (by simp), if_neg (by simp [hs0]), if_neg (by simp [hs1]), c1]
  simp only [hn1, hi1, hv1]
  rw [e]
  simp only
  refine ⟨_, rfl, rfl, rfl, rfl, l1, by simp only [List.length_map]; exact l2,
    by simp only; rw [hcnt dim_i (le_refl _)], ?_, ?_⟩
  · intro q hq
    simp only
    have := pre q hq
    rw [this.1, getD_map_singleton _ _ (by omega), this.2,
      sspaddmm_newi_getD _ _ _ q hq (by omega), sspaddmm_newv_getD _ _ _ _ q hq (by omega)]
    exact ⟨rfl, rfl⟩
  · intro h k hh hent hk
    simp only
    have hb := blk h k (Nat.zero_le _) (by omega) ((hiff h hh).mpr hent) hk
    rw [Nat.sub_zero, hcnt h (by omega)] at hb
    have hpos : t.nnz +
        dim_k * rowsBefore (coalesce sparse_)._indices (coalesce sparse_).nnz h + k <
        newi'.length := by
      apply lt_length_of_getD_ne _ _ []
      rw [hb.1]
      simp
    refine ⟨hb.1, ?_⟩
    rw [getD_map_singleton _ _ (by omega), hb.2, hlist h hh, sum_map_mul_left', hds0, hds1]
    simp only [rowDot, hd1, Nat.mul_one]

theorem getD_take_lt {β : Type} (l : List β) (n q : Nat) (d : β) (hq : q < n) :
    (l.take n).getD q d = l.getD q d := by
  simp [List.getD_eq_getElem?_getD, List.getElem?_take, hq]

/-- C20: `_sspaddmm_out_cpu` lays out its output as a prefix followed by row blocks. For a
shape-valid call with in-range, row-sorted indices and a well-formed 2-D `t` with scalar
values, the call succeeds; output entries `[0, t.nnz)` carry the index columns of `t` in the
order of `t`, with values `beta` times those of `t`; each row `h` of the coalesced operand
that stores a nonzero owns the `dim_k` consecutive entries starting at
`t.nnz + dim_k * (number of rows below h that store a nonzero)`, with coordinates
`(h, 0), ..., (h, dim_k - 1)` and values `alpha * (sum over the nonzeros i of row h of
value[i] * dense[col[i]][k])`; the final nnz counts the prefix and one block per such row, so
that rows without nonzeros contribute no entry. -/
theorem sspaddmm_prefix_then_rows [CommRing α]
    (coalesce : SparseTensor α → SparseTensor α) (f : Bool) (r t sparse_ : SparseTensor α)
    (dense : Tensor α) (beta alpha : α) (dim_i dim_j dim_k : Nat)
    (h2 : sparse_.sparseDims = 2) (h0 : sparse_.denseDims = 0)
    (hS : (coalesce sparse_).sizes = [dim_i, dim_j])
    (hD : dense.sizes = [dim_j, dim_k]) (hT : t.sizes = [dim_i, dim_k])
    (hTw : t.WellFormed) (ht2 : t.sparseDims = 2)
    (hf : f = true → r = t)
    (hsorted : ∀ j, j < (coalesce sparse_).nnz → ∀ i, i ≤ j →
      accessor (coalesce sparse_)._indices 0 i ≤ accessor (coalesce sparse_)._indices 0 j)
    (hrange : ∀ i, i < (coalesce sparse_).nnz →
      (0 ≤ accessor (coalesce sparse_)._indices 0 i ∧
        accessor (coalesce sparse_)._indices 0 i < dim_i) ∧
      (0 ≤ accessor (coalesce sparse_)._indices 1 i ∧
        accessor (coalesce sparse_)._indices 1 i < dim_j)) :
    ∃ res, _sspaddmm_out_cpu coalesce f r t sparse_ dense beta alpha = .ok res ∧
      res.nnz = t.nnz +
        dim_k * rowsBefore (coalesce sparse_)._indices (coalesce sparse_).nnz dim_i ∧
      (∀ q, q < t.nnz → res._indices.getD q [] = t._indices.getD q [] ∧
        res._values.getD q [] = [beta * (t._values.getD q []).getD 0 0]) ∧
      (∀ h k : Nat, h < dim_i →
        rowHasEntry (coalesce sparse_)._indices (coalesce sparse_).nnz h = true → k < dim_k →
        t.nnz + dim_k * rowsBefore (coalesce sparse_)._indices (coalesce sparse_).nnz h + k
          < res.nnz ∧
        res._indices.getD (t.nnz +
            dim_k * rowsBefore (coalesce sparse_)._indices (coalesce sparse_).nnz h + k) [] =
          [(h : Int), (k : Int)] ∧
        res._values.getD (t.nnz +
            dim_k * rowsBefore (coalesce sparse_)._indices (coalesce sparse_).nnz h + k) [] =
          [alpha * rowDot (coalesce sparse_) dense h k]) := by
  obtain ⟨res, e, _, _, _, _, _, hn, pre, blk⟩ := sspaddmm_layout coalesce f r t sparse_ dense
    beta alpha dim_i dim_j dim_k h2 h0 hS hD hT hf hsorted hrange
  refine ⟨res, e, hn, ?_, ?_⟩
  · intro q hq
    have hp := pre q hq
    have hqn : q < res.nnz := by omega
    refine ⟨(getD_take_lt res.indices res.nnz q [] hqn).trans (hp.1.trans ?_),
      (getD_take_lt res.values res.nnz q [] hqn).trans hp.2⟩
    have hlen : q < t._indices.length := by
      unfold SparseTensor._indices
      rw [List.length_take]
      have := hTw.2.1
      omega
    rw [readColumn_eq 2 _ q hlen (fun c hc => by
      have := hTw.2.2.2.1 c hc
      omega)]
    simp [List.getD_eq_getElem?_getD, hlen]
  · intro h k hh hent hk
    have hb := blk h k hh hent hk
    have hlt := rowsBefore_lt (coalesce sparse_)._indices (coalesce sparse_).nnz h dim_i hh
      hent
    have hm : dim_k * (rowsBefore (coalesce sparse_)._indices (coalesce sparse_).nnz h + 1) ≤
        dim_k * rowsBefore (coalesce sparse_)._indices (coalesce sparse_).nnz dim_i :=
      Nat.mul_le_mul_left _ hlt
    rw [Nat.mul_add, Nat.mul_one] at hm
    have hpos : t.nnz +
        dim_k * rowsBefore (coalesce sparse_)._indices (coalesce sparse_).nnz h + k
          < res.nnz := by omega
    exact ⟨hpos, (getD_take_lt res.indices res.nnz _ [] hpos).trans hb.1,
      (getD_take_lt res.values res.nnz _ [] hpos).trans hb.2⟩

/-- The layout at the product of `{(0,0): 1, (1,1): 2}` and `[[1, 2], [3, 4]]` appended to
twice `{(0,1): 5}`: the entry of `t` first, then the blocks of rows 0 and 1. -/
theorem sspaddmm_prefix_then_rows_witness :
    ∃ res, _sspaddmm_out_cpu id false SparseTensor.fresh exSpT exS exD 2 1 = .ok res ∧
      res.nnz = exSpT.nnz + 2 * rowsBefore (id exS)._indices (id exS).nnz 2 ∧
      (∀ q, q < exSpT.nnz → res._indices.getD q [] = exSpT._indices.getD q [] ∧
        res._values.getD q [] = [2 * (exSpT._values.getD q []).getD 0 0]) ∧
      (∀ h k : Nat, h < 2 →
        rowHasEntry (id exS)._indices (id exS).nnz h = true → k < 2 →
        exSpT.nnz + 2 * rowsBefore (id exS)._indices (id exS).nnz h + k < res.nnz ∧
        res._indices.getD (exSpT.nnz +
            2 * rowsBefore (id exS)._indices (id exS).nnz h + k) [] =
          [(h : Int), (k : Int)] ∧
        res._values.getD (exSpT.nnz +
            2 * rowsBefore (id exS)._indices (id exS).nnz h + k) [] =
          [1 * rowDot (id exS) exD h k]) :=
  sspaddmm_prefix_then_rows id false SparseTensor.fresh exSpT exS exD 2 1 2 2 2
    rfl rfl rfl rfl rfl (by decide) rfl (by decide) (by decide) (by decide)

/-- C28, evaluated: dividing the uncoalesced integer tensor that stores `1` twice at
coordinate `(0)` by `2` divides each stored value, so the logical value of the quotient at
`(0)` is `0 + 0 = 0`, out of place and in place, whereas the truncating quotient of the
tensor's logical value `2` by `2` is `1`. -/
theorem div_scalar_uncoalesced_value :
    (div_out_sparse_scalar false SparseTensor.fresh exDup 2).map
        (fun q => q.valueAt [0] 0) = .ok 0 ∧
      (div_out_sparse_scalar true exDup exDup 2).map (fun q => q.valueAt [0] 0) = .ok 0 ∧
      exDup.valueAt [0] 0 = 2 ∧ Int.tdiv (exDup.valueAt [0] 0) 2 = 1 := by
  refine ⟨rfl, rfl, by decide, by decide⟩

theorem slotSum_cons [CommRing α] (f : Nat → Nat) (v : List α) (vals : List (List α))
    (n q i : Nat) :
    slotSum f (v :: vals) (n + 1) q i =
      (if f 0 = q then v.getD i 0 else 0) + slotSum (fun p => f (p + 1)) vals n q i := by
  unfold slotSum
  rw [List.range_succ_eq_map, List.filter_cons]
  by_cases h : f 0 = q
  · simp [h, List.filter_map, Function.comp_def]
  · simp [h, List.filter_map, Function.comp_def]

theorem slotSum_shift_zero [CommRing α] (g : Nat → Nat) (vals : List (List α)) (n i : Nat) :
    slotSum (fun p => g p + 1) vals n 0 i = 0 := by
  unfold slotSum
  have : (List.range n).filter (fun p => decide (g p + 1 = 0)) = [] := by
    rw [List.filter_eq_nil_iff]
    intro a _
    simp
  rw [this]
  rfl

theorem slotSum_shift_succ [CommRing α] (g : Nat → Nat) (vals : List (List α))
    (n q i : Nat) :
    slotSum (fun p => g p + 1) vals n (q + 1) i = slotSum g vals n q i := by
  unfold slotSum
  congr 2
  apply List.filter_congr
  intro x _
  simp

theorem slotSum_head [CommRing α] (g : Nat → Nat) (v : List α) (vals : List (List α))
    (n q i : Nat) :
    slotSum (fun p => if p = 0 then 0 else g (p - 1) + 1) (v :: vals) (n + 1) q i =
      (if q = 0 then v.getD i 0 else 0) + slotSum (fun p => g p + 1) vals n q i := by
  rw [slotSum_cons]
  have e : (fun p => if p + 1 = 0 then 0 else g (p + 1 - 1) + 1) = fun p => g p + 1 := by
    funext p
    simp
  simp only [if_true, e]
  by_cases hq : q = 0
  · subst hq; simp
  · rw [if_neg (fun c => hq c.symm), if_neg hq]

/-- Slot maps of the add merge: every entry of either operand is sent to one output slot,
which carries the entry's coordinate, and every output block is the sum of the `t` blocks
sent to it plus `alpha` times the sum of the `src` blocks sent to it. -/
theorem mergeAdd_slots [CommRing α] (n bs : Nat) (alpha : α)
    (T S : List (List Int × List α))
    (hT : ∀ p ∈ T, p.1.length = n) (hS : ∀ p ∈ S, p.1.length = n) :
    ∃ ft fs : Nat → Nat,
      (∀ p, p < T.length → ft p < (mergeAdd bs alpha T S).length ∧
        ((mergeAdd bs alpha T S).map Prod.fst).getD (ft p) [] =
          (T.map Prod.fst).getD p []) ∧
      (∀ p, p < S.length → fs p < (mergeAdd bs alpha T S).length ∧
        ((mergeAdd bs alpha T S).map Prod.fst).getD (fs p) [] =
          (S.map Prod.fst).getD p []) ∧
      (∀ q i, q < (mergeAdd bs alpha T S).length → i < bs →
        (((mergeAdd bs alpha T S).map Prod.snd).getD q []).getD i 0 =
          slotSum ft (T.map Prod.snd) T.length q i +
            alpha * slotSum fs (S.map Prod.snd) S.length q i) := by
  induction T, S using @mergeAdd.induct α _ bs alpha with
  | case1 =>
    refine ⟨id, id, fun p hp => by simp at hp, fun p hp => by simp at hp, ?_⟩
    intro q i hq
    simp [mergeAdd] at hq
  | case2 s ss ih =>
    obtain ⟨ft', fs', a1, a2, a3⟩ := ih hT (fun p hp => hS p (by simp [hp]))
    refine ⟨fun p => ft' p + 1, fun p => if p = 0 then 0 else fs' (p - 1) + 1,
      fun p hp => by simp at hp, ?_, ?_⟩
    · intro p hp
      rw [mergeAdd]
      cases p with
      | zero => simp
      | succ p' =>
        have := a2 p' (by simpa using hp)
        simp only [List.length_cons, List.map_cons, Nat.add_one_ne_zero, if_false,
          Nat.add_sub_cancel, List.getD_cons_succ]
        exact ⟨by omega, this.2⟩
    · intro q i hq hi
      rw [mergeAdd] at hq ⊢
      simp only [List.map_cons, List.length_cons]
      rw [slotSum_head]
      cases q with
      | zero =>
        simp only [List.getD_cons_zero, if_true, slotSum_shift_zero,
          axpy_zero_getD bs alpha s.2 i hi]
        simp [slotSum]
      | succ q' =>
        have := a3 q' i (by simpa using hq) hi
        simp only [List.getD_cons_succ, Nat.add_one_ne_zero, if_false, slotSum_shift_succ,
          zero_add]
        rw [this]
  | case3 t ts ih =>
    obtain ⟨ft', fs', a1, a2, a3⟩ := ih (fun p hp => hT p (by simp [hp])) hS
    refine ⟨fun p => if p = 0 then 0 else ft' (p - 1) + 1, fun p => fs' p + 1,
      ?_, fun p hp => by simp at hp, ?_⟩
    · intro p hp
      rw [mergeAdd]
      cases p with
      | zero => simp
      | succ p' =>
        have := a1 p' (by simpa using hp)
        simp only [List.length_cons, List.map_cons, Nat.add_one_ne_zero, if_false,
          Nat.add_sub_cancel, List.getD_cons_succ]
        exact ⟨by omega, this.2⟩
    · intro q i hq hi
      rw [mergeAdd] at hq ⊢
      simp only [List.map_cons, List.length_cons]
      rw [slotSum_head]
      cases q with
      | zero =>
        simp only [List.getD_cons_zero, if_true, slotSum_shift_zero,
          axpy_zero_getD bs 1 t.2 i hi]
        simp [slotSum]
      | succ q' =>
        have := a3 q' i (by simpa using hq) hi
        simp only [List.getD_cons_succ, Nat.add_one_ne_zero, if_false, slotSum_shift_succ,
          zero_add]
        rw [this]
  | case4 t ts s ss h ih =>
    obtain ⟨ft', fs', a1, a2, a3⟩ := ih (fun p hp => hT p (by simp [hp])) hS
    refine ⟨fun p => if p = 0 then 0 else ft' (p - 1) + 1, fun p => fs' p + 1, ?_, ?_, ?_⟩
    · intro p hp
      rw [mergeAdd, if_pos h]
      cases p with
      | zero => simp
      | succ p' =>
        have := a1 p' (by simpa using hp)
        simp only [List.length_cons, List.map_cons, Nat.add_one_ne_zero, if_false,
          Nat.add_sub_cancel, List.getD_cons_succ]
        exact ⟨by omega, this.2⟩
    · intro p hp
      rw [mergeAdd, if_pos h]
      have := a2 p hp
      simp only [List.length_cons, List.map_cons, List.getD_cons_succ]
      exact ⟨by omega, this.2⟩
    · intro q i hq hi
      rw [mergeAdd, if_pos h] at hq ⊢
      simp only [List.map_cons, List.length_cons]
      rw [slotSum_head]
      cases q with
      | zero =>
        simp only [List.getD_cons_zero, if_true, slotSum_shift_zero,
          axpy_zero_getD bs 1 t.2 i hi]
        simp
      | succ q' =>
        have := a3 q' i (by simpa using hq) hi
        simp only [List.getD_cons_succ, Nat.add_one_ne_zero, if_false, slotSum_shift_succ,
          zero_add]
        rw [this]
        simp
  | case5 t ts s ss h1 h2 ih =>
    obtain ⟨ft', fs', a1, a2, a3⟩ := ih hT (fun p hp => hS p (by simp [hp]))
    refine ⟨fun p => ft' p + 1, fun p => if p = 0 then 0 else fs' (p - 1) + 1, ?_, ?_, ?_⟩
    · intro p hp
      rw [mergeAdd, if_neg h1, if_pos h2]
      have := a1 p hp
      simp only [List.length_cons, List.map_cons, List.getD_cons_succ]
      exact ⟨by omega, this.2⟩
    · intro p hp
      rw [mergeAdd, if_neg h1, if_pos h2]
      cases p with
      | zero => simp
      | succ p' =>
        have := a2 p' (by simpa using hp)
        simp only [List.length_cons, List.map_cons, Nat.add_one_ne_zero, if_false,
          Nat.add_sub_cancel, List.getD_cons_succ]
        exact ⟨by omega, this.2⟩
    · intro q i hq hi
      rw [mergeAdd, if_neg h1, if_pos h2] at hq ⊢
      simp only [List.map_cons, List.length_cons]
      rw [slotSum_head]
      cases q with
      | zero =>
        simp only [List.getD_cons_zero, if_true, slotSum_shift_zero,
          axpy_zero_getD bs alpha s.2 i hi]
        simp
      | succ q' =>
        have := a3 q' i (by simpa using hq) hi
        simp only [List.getD_cons_succ, Nat.add_one_ne_zero, if_false, slotSum_shift_succ,
          zero_add]
        rw [this]
        simp
  | case6 t ts s ss h1 h2 ih =>
    have e : t.1 = s.1 := tupleLt_total t.1 s.1
      (by rw [hT t (by simp), hS s (by simp)]) (by simpa using h1) (by simpa using h2)
    obtain ⟨ft', fs', a1, a2, a3⟩ := ih (fun p hp => hT p (by simp [hp]))
      (fun p hp => hS p (by simp [hp]))
    refine ⟨fun p => if p = 0 then 0 else ft' (p - 1) + 1,
      fun p => if p = 0 then 0 else fs' (p - 1) + 1, ?_, ?_, ?_⟩
    · intro p hp
      rw [mergeAdd, if_neg h1, if_neg h2]
      cases p with
      | zero => simp [e]
      | succ p' =>
        have := a1 p' (by simpa using hp)
        simp only [List.length_cons, List.map_cons, Nat.add_one_ne_zero, if_false,
          Nat.add_sub_cancel, List.getD_cons_succ]
        exact ⟨by omega, this.2⟩
    · intro p hp
      rw [mergeAdd, if_neg h1, if_neg h2]
      cases p with
      | zero => simp
      | succ p' =>
        have := a2 p' (by simpa using hp)
        simp only [List.length_cons, List.map_cons, Nat.add_one_ne_zero, if_false,
          Nat.add_sub_cancel, List.getD_cons_succ]
        exact ⟨by omega, this.2⟩
    · intro q i hq hi
      rw [mergeAdd, if_neg h1, if_neg h2] at hq ⊢
      simp only [List.map_cons, List.length_cons]
      rw [slotSum_head, slotSum_head]
      cases q with
      | zero =>
        simp only [List.getD_cons_zero, if_true, slotSum_shift_zero,
          axpy_block_getD bs alpha s.2 _ i hi (axpy_length _ _ _ _ _ _ _ _ |>.trans
            (List.length_replicate _ _)), axpy_zero_getD bs 1 t.2 i hi]
        ring
      | succ q' =>
        have := a3 q' i (by simpa using hq) hi
        simp only [List.getD_cons_succ, Nat.add_one_ne_zero, if_false, slotSum_shift_succ,
          zero_add]
        rw [this]

theorem wf_zip_snd (t : SparseTensor α) (h : t.WellFormed) :
    (t._indices.zip t._values).map Prod.snd = t._values := by
  obtain ⟨_, h2, h3, _, _⟩ := h
  rw [List.map_snd_zip]
  simp [SparseTensor._indices, SparseTensor._values, h2, h3]

theorem wf_zip_length (t : SparseTensor α) (h : t.WellFormed) :
    (t._indices.zip t._values).length = t.nnz := by
  obtain ⟨_, h2, h3, _, _⟩ := h
  simp [SparseTensor._indices, SparseTensor._values, h2, h3]

/-- C27: sparse add preserves the logical value, also for uncoalesced operands. For
well-formed operands of equal sizes and split with both nnz > 0, in whatever order and with
whatever repetition their index columns come, the call succeeds and for every coordinate `c`
the sum of the result's blocks stored at `c` is the sum of `t`'s blocks at `c` plus `alpha`
times the sum of `src`'s blocks at `c`. Moreover every input entry is accumulated into one
output slot carrying its own coordinate: there are slot maps `ft`, `fs` from the entries of
`t` and `src` to output slots below the result's nnz such that each entry's slot holds the
entry's coordinate and each output block is the sum of the `t` blocks sent to it plus `alpha`
times the sum of the `src` blocks sent to it. -/
theorem s_add_uncoalesced_value [CommRing α] (f : Bool) (r t src : SparseTensor α)
    (alpha : α) (ht : t.WellFormed) (hs : src.WellFormed)
    (hsz : t.sizes = src.sizes) (hd : t.sparseDims = src.sparseDims)
    (hdd : t.denseDims = src.denseDims) (htn : 0 < t.nnz) (hsn : 0 < src.nnz) :
    ∃ res, s_add_out_sparse_cpu f r t src alpha = .ok res ∧
      (∀ c i, i < src.blockSize →
        res.valueAt c i = t.valueAt c i + alpha * src.valueAt c i) ∧
      ∃ ft fs : Nat → Nat,
        (∀ p, p < t.nnz → ft p < res.nnz ∧
          res._indices.getD (ft p) [] = t._indices.getD p []) ∧
        (∀ p, p < src.nnz → fs p < res.nnz ∧
          res._indices.getD (fs p) [] = src._indices.getD p []) ∧
        (∀ q i, q < res.nnz → i < src.blockSize →
          (res._values.getD q []).getD i 0 =
            slotSum ft t._values t.nnz q i + alpha * slotSum fs src._values src.nnz q i) := by
  obtain ⟨res, h, _, _, _, _, _, _, hN, hI, hV⟩ := s_add_general_eq t src alpha
  rw [wf_entries t _ ht hd, wf_entries src _ hs rfl] at hN hI hV
  have hTl : ∀ p ∈ t._indices.zip t._values, p.1.length = src.sparseDims := by
    intro p hp
    rw [← hd]
    exact ht.2.2.2.1 p.1 (List.of_mem_zip hp).1
  have hSl : ∀ p ∈ src._indices.zip src._values, p.1.length = src.sparseDims := by
    intro p hp
    exact hs.2.2.2.1 p.1 (List.of_mem_zip hp).1
  refine ⟨res, s_add_out_general f r t src res alpha hsz hd hdd htn hsn h, ?_, ?_⟩
  · intro c i hi
    simp only [SparseTensor.valueAt, logicalValue_eq_entrySum]
    rw [hI, hV, zip_map_fst_snd, mergeAdd_sum _ _ _ _ _ hTl hSl c i hi]
  · obtain ⟨ft, fs, a1, a2, a3⟩ := mergeAdd_slots src.sparseDims src.blockSize alpha
      (t._indices.zip t._values) (src._indices.zip src._values) hTl hSl
    simp only [← hN, ← hI, ← hV, wf_zip_fst t ht, wf_zip_fst src hs, wf_zip_snd t ht,
      wf_zip_snd src hs, wf_zip_length t ht, wf_zip_length src hs] at a1 a2 a3
    exact ⟨ft, fs, a1, a2, a3⟩

/-- Sparse add of the uncoalesced `{(1): 3, (1): 4, (0): 1}` and `{(1): 2, (0): 5}`: the
five stored entries go to four output slots, and the sums per coordinate are `9` at `(1)` and
`6` at `(0)`. -/
theorem s_add_uncoalesced_value_witness :
    s_add_out_sparse_cpu false SparseTensor.fresh exUnT exUnS 1 =
      .ok { sizes := [4], sparseDims := 1, denseDims := 0,
            indices := [[1], [0], [1], [0], [0]], values := [[5], [5], [4], [1], [0]],
            nnz := 4, coalesced := false } ∧
    ∃ res, s_add_out_sparse_cpu false SparseTensor.fresh exUnT exUnS 1 = .ok res ∧
      (∀ c i, i < exUnS.blockSize →
        res.valueAt c i = exUnT.valueAt c i + 1 * exUnS.valueAt c i) ∧
      ∃ ft fs : Nat → Nat,
        (∀ p, p < exUnT.nnz → ft p < res.nnz ∧
          res._indices.getD (ft p) [] = exUnT._indices.getD p []) ∧
        (∀ p, p < exUnS.nnz → fs p < res.nnz ∧
          res._indices.getD (fs p) [] = exUnS._indices.getD p []) ∧
        (∀ q i, q < res.nnz → i < exUnS.blockSize →
          (res._values.getD q []).getD i 0 =
            slotSum ft exUnT._values exUnT.nnz q i +
              1 * slotSum fs exUnS._values exUnS.nnz q i) :=
  ⟨rfl, s_add_uncoalesced_value false SparseTensor.fresh exUnT exUnS 1 (by decide) (by decide)
    rfl rfl rfl (by decide) (by decide)⟩

theorem count_set_add (l : List (Option Nat)) (h : Nat) (x b : Option Nat)
    (hh : h < l.length) :
    (l.set h x).count b + (if l.getD h none = b then 1 else 0) =
      l.count b + (if x = b then 1 else 0) := by
  induction l generalizing h with
  | nil => simp at hh
  | cons a l ih =>
    cases h with
    | zero =>
      simp only [List.set_cons_zero, List.count_cons, List.getD_cons_zero, beq_iff_eq]
      omega
    | succ h' =>
      have := ih h' (by simpa using hh)
      simp only [List.set_cons_succ, List.count_cons, List.getD_cons_succ]
      omega

theorem getD_some_lt (l : List (Option Nat)) (h p : Nat) (e : l.getD h none = some p) :
    h < l.length := by
  by_contra c
  rw [List.getD_eq_getElem?_getD, List.getElem?_eq_none_iff.mpr (by omega)] at e
  simp at e

theorem getD_some_mem (l : List (Option Nat)) (h p : Nat) (e : l.getD h none = some p) :
    some p ∈ l := by
  have hl := getD_some_lt l h p e
  rw [List.getD_eq_getElem?_getD, List.getElem?_eq_getElem hl] at e
  simp only [Option.getD_some] at e
  rw [← e]
  exact List.getElem_mem hl

theorem getD_append_left {β : Type} (l : List β) (x d : β) (h : Nat) (hh : h < l.length) :
    (l ++ [x]).getD h d = l.getD h d := by
  simp [List.getD_eq_getElem?_getD, List.getElem?_append_left hh]

theorem getD_append_length {β : Type} (l : List β) (x d : β) :
    (l ++ [x]).getD l.length d = x := by
  simp [List.getD_eq_getElem?_getD]

theorem getD_set_same {β : Type} (l : List β) (i : Nat) (v d : β) (h : i < l.length) :
    (l.set i v).getD i d = v := by
  simp [List.getD_eq_getElem?_getD, h]

theorem getD_set_other {β : Type} (l : List β) (i j : Nat) (v d : β) (h : i ≠ j) :
    (l.set i v).getD j d = l.getD j d := by
  simp [List.getD_eq_getElem?_getD, List.getElem?_set_ne h]

theorem pImpl_of_getD (s : RState) (h p : Nat) (e : s.handles.getD h none = some p) :
    s.pImpl h = .ok p := by
  unfold RState.pImpl
  rw [e]

theorem pImpl_of_dead (s : RState) (h : Nat) (e : s.handles.getD h none = none) :
    s.pImpl h = .error .DeadHandle := by
  unfold RState.pImpl
  rw [e]

/-- A held impl other than the singleton is not deleted and its count is positive. -/
theorem inv_held (s : RState) (hI : s.Inv) (h p : Nat)
    (e : s.handles.getD h none = some p) (hp : p ≠ NullType.singleton) :
    p < s.refcount.length ∧ s.deleted.getD p true = false ∧ 0 < s.holders p ∧
      s.refcount.getD p 0 = (s.holders p : Int) := by
  have hm := getD_some_mem _ _ _ e
  have hlt : p < s.refcount.length := hI.1.2.2.1 (some p) hm p rfl
  have hc : 0 < s.holders p := List.count_pos_iff.mpr hm
  obtain ⟨a, b⟩ := hI.2 p hlt hp
  have hd : s.deleted.getD p true = false := by
    cases hv : s.deleted.getD p true with
    | false => rfl
    | true => have := a.mp hv; omega
  exact ⟨hlt, hd, hc, b hd⟩

/-- A change of the handles alone that keeps the number of holders of every non-singleton
impl keeps the invariant. -/
theorem inv_same_heap (s s' : RState) (hI : s.Inv) (hr : s'.refcount = s.refcount)
    (hd : s'.deleted = s.deleted)
    (hv : ∀ h ∈ s'.handles, ∀ p ∈ h, p < s.refcount.length)
    (hc : ∀ p, p ≠ NullType.singleton → s'.holders p = s.holders p) : s'.Inv := by
  obtain ⟨⟨v1, v2, _, v4⟩, hp⟩ := hI
  refine ⟨⟨by rw [hr, hd]; exact v1, by rw [hr]; exact v2, by rw [hr]; exact hv,
    by rw [hd]; exact v4⟩, ?_⟩
  intro p hlt hne
  rw [hr] at hlt
  rw [hr, hd, hc p hne]
  exact hp p hlt hne

theorem holders_append (s : RState) (x : Option Nat) (p : Nat) :
    ({ s with handles := s.handles ++ [x] } : RState).holders p =
      s.holders p + (if x = some p then 1 else 0) := by
  simp only [RState.holders, List.count_append, List.count_cons, List.count_nil, beq_iff_eq]
  omega

theorem mk_default_spec (s : RState) (hI : s.Inv) :
    (Retainable.mk_default s).1.Inv ∧
      (Retainable.mk_default s).1.refcount = s.refcount ∧
      (Retainable.mk_default s).1.deleted = s.deleted ∧
      (Retainable.mk_default s).1.handles = s.handles ++ [some NullType.singleton] ∧
      (Retainable.mk_default s).2 = s.handles.length := by
  refine ⟨?_, rfl, rfl, rfl, rfl⟩
  refine inv_same_heap s _ hI ?_ ?_ ?_ ?_
  · rfl
  · rfl
  · intro h hh p hp
    simp only [Retainable.mk_default, List.mem_append, List.mem_singleton] at hh
    rcases hh with hh | hh
    · exact hI.1.2.2.1 h hh p hp
    · subst hh
      simp only [Option.mem_def, Option.some.injEq] at hp
      subst hp
      exact hI.1.2.1
  · intro p hp
    unfold Retainable.mk_default
    simp only
    rw [holders_append]
    have : ¬ (some NullType.singleton = some p) := by
      intro c; exact hp (Option.some.inj c).symm
    rw [if_neg this, Nat.add_zero]

theorem mk_copy_spec (s : RState) (rhs : Nat) (hI : s.Inv) :
    (s.handles.getD rhs none = none → Retainable.mk_copy s rhs = .error .DeadHandle) ∧
    (∀ p, s.handles.getD rhs none = some p →
      ∃ s1, Retainable.mk_copy s rhs = .ok (s1, s.handles.length) ∧ s1.Inv ∧
        s1.refcount.getD NullType.singleton 0 = s.refcount.getD NullType.singleton 0 ∧
        s1.handles = s.handles ++ [some p]) := by
  constructor
  · intro e
    unfold Retainable.mk_copy
    rw [pImpl_of_dead s rhs e]
  · intro p e
    unfold Retainable.mk_copy
    rw [pImpl_of_getD s rhs p e]
    simp only
    by_cases hp : p = NullType.singleton
    · rw [if_neg (by simp [hp])]
      refine ⟨_, rfl, ?_, rfl, rfl⟩
      subst hp
      exact (mk_default_spec s hI).1
    · rw [if_pos hp]
      obtain ⟨hlt, hd, hc, hrc⟩ := inv_held s hI rhs p e hp
      have hpi : ({ s with handles := s.handles ++ [some p] } : RState).pImpl s.handles.length
          = .ok p := by
        apply pImpl_of_getD
        exact getD_append_length _ _ _
      unfold Retainable.retain
      rw [hpi]
      simp only
      rw [if_neg hp, if_neg (by rw [hd]; simp)]
      refine ⟨_, rfl, ?_, ?_, rfl⟩
      · obtain ⟨⟨v1, v2, v3, v4⟩, hq⟩ := hI
        refine ⟨⟨by simpa using v1, by simpa using v2, ?_, v4⟩, ?_⟩
        · intro h hh q hq'
          simp only [List.mem_append, List.mem_singleton, List.length_set] at hh ⊢
          rcases hh with hh | hh
          · exact v3 h hh q hq'
          · subst hh
            simp only [Option.mem_def, Option.some.injEq] at hq'
            subst hq'
            exact hlt
        · intro q hql hqn
          simp only [List.length_set] at hql
          have hh := holders_append s (some p) q
          simp only [RState.holders] at hh ⊢
          rw [hh]
          by_cases hqp : q = p
          · subst hqp
            rw [if_pos rfl, getD_set_same _ _ _ _ hlt, hd]
            simp only [RState.holders] at hrc
            refine ⟨by simp, fun _ => ?_⟩
            rw [hrc]
            push_cast
            ring
          · have : ¬ (some p = some q) := fun c => hqp (Option.some.inj c).symm
            rw [if_neg this, Nat.add_zero, getD_set_other _ _ _ _ _ (fun c => hqp c.symm)]
            exact hq q hql hqn
      · simp only
        exact getD_set_other _ _ _ _ _ hp

theorem mk_move_spec (s : RState) (rhs : Nat) (hI : s.Inv) :
    (s.handles.getD rhs none = none → Retainable.mk_move s rhs = .error .DeadHandle) ∧
    (∀ p, s.handles.getD rhs none = some p →
      ∃ s1, Retainable.mk_move s rhs = .ok (s1, s.handles.length) ∧ s1.Inv ∧
        s1.refcount = s.refcount ∧ s1.deleted = s.deleted ∧
        s1.handles = (s.handles ++ [some p]).set rhs (some NullType.singleton)) := by
  constructor
  · intro e
    unfold Retainable.mk_move
    rw [pImpl_of_dead s rhs e]
  · intro p e
    unfold Retainable.mk_move
    rw [pImpl_of_getD s rhs p e]
    refine ⟨_, rfl, ?_, rfl, rfl, rfl⟩
    have hrl := getD_some_lt _ _ _ e
    refine inv_same_heap s _ hI ?_ ?_ ?_ ?_
    · rfl
    · rfl
    · intro h hh q hq
      simp only [RState.setPImpl] at hh
      rcases List.mem_or_eq_of_mem_set hh with hh | hh
      · simp only [List.mem_append, List.mem_singleton] at hh
        rcases hh with hh | hh
        · exact hI.1.2.2.1 h hh q hq
        · subst hh
          exact hI.1.2.2.1 (some p) (getD_some_mem _ _ _ e) q hq
      · subst hh
        simp only [Option.mem_def, Option.some.injEq] at hq
        subst hq
        exact hI.1.2.1
    · intro q hq
      have h1 := count_set_add (s.handles ++ [some p]) rhs (some NullType.singleton) (some q)
        (by simp; omega)
      rw [getD_append_left _ _ _ _ hrl, e] at h1
      have h2 := holders_append s (some p) q
      simp only [RState.holders, RState.setPImpl] at h2 ⊢
      have : ¬ (some NullType.singleton = some q) := fun c => hq (Option.some.inj c).symm
      rw [if_neg this] at h1
      omega

theorem swap_spec (s : RState) (a b : Nat) (hI : s.Inv) :
    ((s.handles.getD a none = none ∨ s.handles.getD b none = none) →
      Retainable.swap s a b = .error .DeadHandle) ∧
    (∀ pa pb, s.handles.getD a none = some pa → s.handles.getD b none = some pb →
      Retainable.swap s a b = .ok ((s.setPImpl a pb).setPImpl b pa) ∧
        ((s.setPImpl a pb).setPImpl b pa).Inv) := by
  constructor
  · intro e
    unfold Retainable.swap
    cases ha : s.handles.getD a none with
    | none => rw [pImpl_of_dead s a ha]
    | some pa =>
      rw [pImpl_of_getD s a pa ha]
      simp only
      rcases e with e | e
      · rw [ha] at e; cases e
      · rw [pImpl_of_dead s b e]
  · intro pa pb ea eb
    refine ⟨?_, ?_⟩
    · unfold Retainable.swap
      rw [pImpl_of_getD s a pa ea, pImpl_of_getD s b pb eb]
    · have hal := getD_some_lt _ _ _ ea
      have hbl := getD_some_lt _ _ _ eb
      refine inv_same_heap s _ hI ?_ ?_ ?_ ?_
      · rfl
      · rfl
      · intro h hh q hq
        simp only [RState.setPImpl] at hh
        rcases List.mem_or_eq_of_mem_set hh with hh | hh
        · rcases List.mem_or_eq_of_mem_set hh with hh | hh
          · exact hI.1.2.2.1 h hh q hq
          · subst hh
            exact hI.1.2.2.1 (some pb) (getD_some_mem _ _ _ eb) q hq
        · subst hh
          exact hI.1.2.2.1 (some pa) (getD_some_mem _ _ _ ea) q hq
      · intro q _
        have h1 := count_set_add s.handles a (some pb) (some q) hal
        have h2 := count_set_add (s.handles.set a (some pb)) b (some pa) (some q)
          (by simpa using hbl)
        have hg : (s.handles.set a (some pb)).getD b none = some pb := by
          by_cases hab : a = b
          · subst hab; exact getD_set_same _ _ _ _ hal
          · rw [getD_set_other _ _ _ _ _ hab]; exact eb
        rw [hg] at h2
        rw [ea] at h1
        simp only [RState.holders, RState.setPImpl]
        omega

theorem destroy_spec (s : RState) (a : Nat) (hI : s.Inv) :
    (s.handles.getD a none = none → Retainable.destroy s a = .error .DeadHandle) ∧
    (∀ p, s.handles.getD a none = some p →
      ∃ s1, Retainable.destroy s a = .ok s1 ∧ s1.Inv ∧
        s1.refcount.getD NullType.singleton 0 = s.refcount.getD NullType.singleton 0 ∧
        s1.handles = s.handles.set a none) := by
  constructor
  · intro e
    unfold Retainable.destroy
    rw [pImpl_of_dead s a e]
  · intro p e
    have hal := getD_some_lt _ _ _ e
    have hcnt : ∀ q, (s.handles.set a none).count (some q) + (if p = q then 1 else 0) =
        s.handles.count (some q) := by
      intro q
      have h1 := count_set_add s.handles a none (some q) hal
      rw [e] at h1
      simp only [Option.some.injEq, reduceCtorEq, if_false, Nat.add_zero] at h1
      exact h1
    have hvalid : ∀ h ∈ s.handles.set a none, ∀ q ∈ h, q < s.refcount.length := by
      intro h hh q hq
      rcases List.mem_or_eq_of_mem_set hh with hh | hh
      · exact hI.1.2.2.1 h hh q hq
      · subst hh; simp at hq
    unfold Retainable.destroy
    rw [pImpl_of_getD s a p e]
    simp only
    by_cases hp : p = NullType.singleton
    · rw [if_neg (by simp [hp])]
      simp only
      refine ⟨_, rfl, ?_, rfl, rfl⟩
      refine inv_same_heap s _ hI ?_ ?_ hvalid ?_
      · rfl
      · rfl
      · intro q hq
        have := hcnt q
        rw [if_neg (by rw [hp]; exact fun c => hq c.symm)] at this
        simp only [RState.holders]
        omega
    · rw [if_pos hp]
      obtain ⟨hlt, hd, hc, hrc⟩ := inv_held s hI a p e hp
      unfold Retainable.release
      rw [pImpl_of_getD s a p e]
      simp only
      rw [if_neg hp, if_neg (by rw [hd]; simp), getD_set_same _ _ _ _ hlt]
      obtain ⟨⟨v1, v2, v3, v4⟩, hq⟩ := hI
      have hpc := hcnt p
      rw [if_pos rfl] at hpc
      simp only [RState.holders] at hrc hc
      by_cases hz : s.refcount.getD p 0 - 1 = 0
      · rw [if_pos hz]
        simp only
        refine ⟨_, rfl, ?_, getD_set_other _ _ _ _ _ hp, rfl⟩
        refine ⟨⟨by simpa using v1, by simpa using v2, by simpa using hvalid, ?_⟩, ?_⟩
        · simp only
          rw [getD_set_other _ _ _ _ _ hp]
          exact v4
        · intro q hql hqn
          simp only [List.length_set] at hql
          simp only [RState.holders]
          by_cases hqp : q = p
          · subst hqp
            rw [getD_set_same _ _ _ _ (by omega)]
            refine ⟨⟨fun _ => by omega, fun _ => rfl⟩, fun c => by simp at c⟩
          · have hcq := hcnt q
            rw [if_neg (fun c => hqp c.symm)] at hcq
            rw [getD_set_other _ _ _ _ _ (fun c => hqp c.symm),
              getD_set_other _ _ _ _ _ (fun c => hqp c.symm)]
            have := hq q hql hqn
            simp only [RState.holders] at this
            rw [show (s.handles.set a none).count (some q) = s.handles.count (some q) by omega]
            exact this
      · rw [if_neg hz]
        simp only
        refine ⟨_, rfl, ?_, getD_set_other _ _ _ _ _ hp, rfl⟩
        refine ⟨⟨by simpa using v1, by simpa using v2, by simpa using hvalid, v4⟩, ?_⟩
        intro q hql hqn
        simp only [List.length_set] at hql
        simp only [RState.holders]
        by_cases hqp : q = p
        · subst hqp
          rw [getD_set_same _ _ _ _ hlt, hd]
          refine ⟨⟨fun c => by simp at c, fun c => by omega⟩, fun _ => by omega⟩
        · have hcq := hcnt q
          rw [if_neg (fun c => hqp c.symm)] at hcq
          rw [getD_set_other _ _ _ _ _ (fun c => hqp c.symm)]
          have := hq q hql hqn
          simp only [RState.holders] at this
          rw [show (s.handles.set a none).count (some q) = s.handles.count (some q) by omega]
          exact this

theorem mk_copy_safe (s : RState) (rhs : Nat) (hI : s.Inv) :
    (∀ e, Retainable.mk_copy s rhs = .error e → e = .DeadHandle) ∧
    (∀ s1 tmp, Retainable.mk_copy s rhs = .ok (s1, tmp) → s1.Inv ∧
      s1.refcount.getD NullType.singleton 0 = s.refcount.getD NullType.singleton 0) := by
  obtain ⟨a, b⟩ := mk_copy_spec s rhs hI
  cases h : s.handles.getD rhs none with
  | none =>
    rw [a h]
    exact ⟨fun e he => (by cases he; rfl), fun s1 tmp he => by cases he⟩
  | some p =>
    obtain ⟨s1, e1, i1, r1, _⟩ := b p h
    rw [e1]
    exact ⟨fun e he => (by cases he), fun s1' tmp he => by cases he; exact ⟨i1, r1⟩⟩

theorem mk_move_safe (s : RState) (rhs : Nat) (hI : s.Inv) :
    (∀ e, Retainable.mk_move s rhs = .error e → e = .DeadHandle) ∧
    (∀ s1 tmp, Retainable.mk_move s rhs = .ok (s1, tmp) → s1.Inv ∧
      s1.refcount.getD NullType.singleton 0 = s.refcount.getD NullType.singleton 0) := by
  obtain ⟨a, b⟩ := mk_move_spec s rhs hI
  cases h : s.handles.getD rhs none with
  | none =>
    rw [a h]
    exact ⟨fun e he => (by cases he; rfl), fun s1 tmp he => by cases he⟩
  | some p =>
    obtain ⟨s1, e1, i1, r1, _⟩ := b p h
    rw [e1]
    exact ⟨fun e he => (by cases he), fun s1' tmp he => by cases he; exact ⟨i1, by rw [r1]⟩⟩

theorem swap_safe (s : RState) (a b : Nat) (hI : s.Inv) :
    (∀ e, Retainable.swap s a b = .error e → e = .DeadHandle) ∧
    (∀ s1, Retainable.swap s a b = .ok s1 → s1.Inv ∧
      s1.refcount.getD NullType.singleton 0 = s.refcount.getD NullType.singleton 0) := by
  obtain ⟨x, y⟩ := swap_spec s a b hI
  cases ha : s.handles.getD a none with
  | none =>
    rw [x (Or.inl ha)]
    exact ⟨fun e he => (by cases he; rfl), fun s1 he => by cases he⟩
  | some pa =>
    cases hb : s.handles.getD b none with
    | none =>
      rw [x (Or.inr hb)]
      exact ⟨fun e he => (by cases he; rfl), fun s1 he => by cases he⟩
    | some pb =>
      obtain ⟨e1, i1⟩ := y pa pb ha hb
      rw [e1]
      exact ⟨fun e he => (by cases he), fun s1' he => by cases he; exact ⟨i1, rfl⟩⟩

theorem destroy_safe (s : RState) (a : Nat) (hI : s.Inv) :
    (∀ e, Retainable.destroy s a = .error e → e = .DeadHandle) ∧
    (∀ s1, Retainable.destroy s a = .ok s1 → s1.Inv ∧
      s1.refcount.getD NullType.singleton 0 = s.refcount.getD NullType.singleton 0) := by
  obtain ⟨x, y⟩ := destroy_spec s a hI
  cases ha : s.handles.getD a none with
  | none =>
    rw [x ha]
    exact ⟨fun e he => (by cases he; rfl), fun s1 he => by cases he⟩
  | some p =>
    obtain ⟨s1, e1, i1, r1, _⟩ := y p ha
    rw [e1]
    exact ⟨fun e he => (by cases he), fun s1' he => by cases he; exact ⟨i1, r1⟩⟩

theorem copy_assign_safe (s : RState) (self rhs : Nat) (hI : s.Inv) :
    (∀ e, Retainable.copy_assign s self rhs = .error e → e = .DeadHandle) ∧
    (∀ s1, Retainable.copy_assign s self rhs = .ok s1 → s1.Inv ∧
      s1.refcount.getD NullType.singleton 0 = s.refcount.getD NullType.singleton 0) := by
  unfold Retainable.copy_assign
  obtain ⟨c1, c2⟩ := mk_copy_safe s rhs hI
  cases h1 : Retainable.mk_copy s rhs with
  | error e =>
    exact ⟨fun e' he => (by cases he; exact c1 e h1), fun s1 he => by cases he⟩
  | ok pr =>
    obtain ⟨s1, tmp⟩ := pr
    obtain ⟨i1, r1⟩ := c2 s1 tmp h1
    simp only
    obtain ⟨w1, w2⟩ := swap_safe s1 tmp self i1
    cases h2 : Retainable.swap s1 tmp self with
    | error e =>
      exact ⟨fun e' he => (by cases he; exact w1 e h2), fun s1 he => by cases he⟩
    | ok s2 =>
      obtain ⟨i2, r2⟩ := w2 s2 h2
      simp only
      obtain ⟨d1, d2⟩ := destroy_safe s2 tmp i2
      refine ⟨d1, fun s3 he => ?_⟩
      obtain ⟨i3, r3⟩ := d2 s3 he
      exact ⟨i3, by rw [r3, r2, r1]⟩

theorem reset_safe (s : RState) (self : Nat) (hI : s.Inv) :
    (∀ e, Retainable.reset s self = .error e → e = .DeadHandle) ∧
    (∀ s1, Retainable.reset s self = .ok s1 → s1.Inv ∧
      s1.refcount.getD NullType.singleton 0 = s.refcount.getD NullType.singleton 0) := by
  unfold Retainable.reset
  obtain ⟨i1, r1, _, _, _⟩ := mk_default_spec s hI
  obtain ⟨w1, w2⟩ := swap_safe (Retainable.mk_default s).1 (Retainable.mk_default s).2 self i1
  cases h2 : Retainable.swap (Retainable.mk_default s).1 (Retainable.mk_default s).2 self with
  | error e =>
    exact ⟨fun e' he => (by cases he; exact w1 e h2), fun s1 he => by cases he⟩
  | ok s2 =>
    obtain ⟨i2, r2⟩ := w2 s2 h2
    simp only
    obtain ⟨d1, d2⟩ := destroy_safe s2 (Retainable.mk_default s).2 i2
    refine ⟨d1, fun s3 he => ?_⟩
    obtain ⟨i3, r3⟩ := d2 s3 he
    exact ⟨i3, by rw [r3, r2, r1]⟩

/-- Every operation keeps the invariant and leaves the singleton's refcount alone; the only
fault it can raise from a state with the invariant is the use of a handle outside its
lifetime. -/
theorem apply_safe (s : RState) (op : ROp) (hI : s.Inv) :
    (∀ e, op.apply s = .error e → e = .DeadHandle) ∧
    (∀ s1, op.apply s = .ok s1 → s1.Inv ∧
      s1.refcount.getD NullType.singleton 0 = s.refcount.getD NullType.singleton 0) := by
  cases op with
  | default_ctor =>
    obtain ⟨i1, r1, _, _, _⟩ := mk_default_spec s hI
    refine ⟨fun e he => (by cases he), fun s1 he => ?_⟩
    simp only [ROp.apply] at he
    cases he
    exact ⟨i1, by rw [r1]⟩
  | copy_ctor rhs =>
    obtain ⟨c1, c2⟩ := mk_copy_safe s rhs hI
    simp only [ROp.apply]
    cases h1 : Retainable.mk_copy s rhs with
    | error e => exact ⟨fun e' he => (by cases he; exact c1 e h1), fun s1 he => by cases he⟩
    | ok pr =>
      obtain ⟨s1, tmp⟩ := pr
      exact ⟨fun e he => (by cases he), fun s1' he => by cases he; exact c2 s1 tmp h1⟩
  | move_ctor rhs =>
    obtain ⟨c1, c2⟩ := mk_move_safe s rhs hI
    simp only [ROp.apply]
    cases h1 : Retainable.mk_move s rhs with
    | error e => exact ⟨fun e' he => (by cases he; exact c1 e h1), fun s1 he => by cases he⟩
    | ok pr =>
      obtain ⟨s1, tmp⟩ := pr
      exact ⟨fun e he => (by cases he), fun s1' he => by cases he; exact c2 s1 tmp h1⟩
  | copy_assign self rhs => exact copy_assign_safe s self rhs hI
  | move_assign self rhs => exact swap_safe s rhs self hI
  | swap self rhs => exact swap_safe s self rhs hI
  | reset self => exact reset_safe s self hI
  | destroy self => exact destroy_safe s self hI

/-- An operation whose handle arguments are within their lifetime succeeds. -/
theorem apply_live (s : RState) (op : ROp) (hI : s.Inv) (hL : op.Live s) :
    ∃ s1, op.apply s = .ok s1 := by
  cases op with
  | default_ctor => exact ⟨_, rfl⟩
  | copy_ctor rhs =>
    simp only [ROp.Live] at hL
    cases h : s.handles.getD rhs none with
    | none => exact absurd h hL
    | some p =>
      obtain ⟨s1, e1, _⟩ := (mk_copy_spec s rhs hI).2 p h
      exact ⟨s1, by simp only [ROp.apply, e1]⟩
  | move_ctor rhs =>
    simp only [ROp.Live] at hL
    cases h : s.handles.getD rhs none with
    | none => exact absurd h hL
    | some p =>
      obtain ⟨s1, e1, _⟩ := (mk_move_spec s rhs hI).2 p h
      exact ⟨s1, by simp only [ROp.apply, e1]⟩
  | copy_assign self rhs =>
    simp only [ROp.Live] at hL
    cases h : s.handles.getD rhs none with
    | none => exact absurd h hL.2
    | some p =>
      cases hs : s.handles.getD self none with
      | none => exact absurd hs hL.1
      | some q =>
        obtain ⟨s1, e1, i1, _, hh1⟩ := (mk_copy_spec s rhs hI).2 p h
        have hsl := getD_some_lt _ _ _ hs
        have g1 : s1.handles.getD s.handles.length none = some p := by
          rw [hh1]; exact getD_append_length _ _ _
        have g2 : s1.handles.getD self none = some q := by
          rw [hh1, getD_append_left _ _ _ _ hsl]; exact hs
        obtain ⟨e2, i2⟩ := (swap_spec s1 s.handles.length self i1).2 p q g1 g2
        have g3 : ((s1.setPImpl s.handles.length q).setPImpl self p).handles.getD
            s.handles.length none = some q := by
          simp only [RState.setPImpl]
          rw [getD_set_other _ _ _ _ _ (by omega)]
          exact getD_set_same _ _ _ _ (by rw [hh1]; simp)
        obtain ⟨s3, e3, _⟩ := (destroy_spec _ s.handles.length i2).2 q g3
        exact ⟨s3, by simp only [ROp.apply, Retainable.copy_assign, e1, e2, e3]⟩
  | move_assign self rhs =>
    simp only [ROp.Live] at hL
    cases h : s.handles.getD rhs none with
    | none => exact absurd h hL.2
    | some p =>
      cases hs : s.handles.getD self none with
      | none => exact absurd hs hL.1
      | some q =>
        exact ⟨_, ((swap_spec s rhs self hI).2 p q h hs).1⟩
  | swap self rhs =>
    simp only [ROp.Live] at hL
    cases h : s.handles.getD rhs none with
    | none => exact absurd h hL.2
    | some p =>
      cases hs : s.handles.getD self none with
      | none => exact absurd hs hL.1
      | some q =>
        exact ⟨_, ((swap_spec s self rhs hI).2 q p hs h).1⟩
  | reset self =>
    simp only [ROp.Live] at hL
    cases hs : s.handles.getD self none with
    | none => exact absurd hs hL
    | some q =>
      obtain ⟨i1, _, _, hh1, hh2⟩ := mk_default_spec s hI
      have hsl := getD_some_lt _ _ _ hs
      have g1 : (Retainable.mk_default s).1.handles.getD (Retainable.mk_default s).2 none =
          some NullType.singleton := by
        rw [hh1, hh2]; exact getD_append_length _ _ _
      have g2 : (Retainable.mk_default s).1.handles.getD self none = some q := by
        rw [hh1, getD_append_left _ _ _ _ hsl]; exact hs
      obtain ⟨e2, i2⟩ := (swap_spec _ (Retainable.mk_default s).2 self i1).2 _ q g1 g2
      have g3 : ((((Retainable.mk_default s).1).setPImpl (Retainable.mk_default s).2
          q).setPImpl self NullType.singleton).handles.getD (Retainable.mk_default s).2 none
            = some q := by
        simp only [RState.setPImpl]
        rw [getD_set_other _ _ _ _ _ (by rw [hh2]; omega)]
        exact getD_set_same _ _ _ _ (by rw [hh1, hh2]; simp)
      obtain ⟨s3, e3, _⟩ := (destroy_spec _ (Retainable.mk_default s).2 i2).2 q g3
      exact ⟨s3, by simp only [ROp.apply, Retainable.reset, e2, e3]⟩
  | destroy self =>
    simp only [ROp.Live] at hL
    cases hs : s.handles.getD self none with
    | none => exact absurd hs hL
    | some q =>
      obtain ⟨s1, e1, _⟩ := (destroy_spec s self hI).2 q hs
      exact ⟨s1, e1⟩

theorem adopted_inv (s : RState) (h : s.Adopted) : s.Inv := by
  refine ⟨h.1, fun p hp hn => ?_⟩
  obtain ⟨a, b, c⟩ := h.2 p hp hn
  rw [a, b, c]
  exact ⟨⟨fun x => (by cases x), fun x => (by omega)⟩, fun _ => (by simp)⟩

theorem run_safe (ops : List ROp) : ∀ (s : RState), s.Inv →
    (∀ e, ROp.run s ops = .error e → e = .DeadHandle) ∧
    (∀ s1, ROp.run s ops = .ok s1 → s1.Inv ∧
      s1.refcount.getD NullType.singleton 0 = s.refcount.getD NullType.singleton 0) := by
  induction ops with
  | nil =>
    intro s hI
    exact ⟨fun e he => (by cases he), fun s1 he => by cases he; exact ⟨hI, rfl⟩⟩
  | cons op ops ih =>
    intro s hI
    obtain ⟨a1, a2⟩ := apply_safe s op hI
    rw [ROp.run]
    cases h : op.apply s with
    | error e => exact ⟨fun e' he => (by cases he; exact a1 e h), fun s1 he => by cases he⟩
    | ok s1 =>
      obtain ⟨i1, r1⟩ := a2 s1 h
      obtain ⟨b1, b2⟩ := ih s1 i1
      refine ⟨b1, fun s2 he => ?_⟩
      obtain ⟨i2, r2⟩ := b2 s2 he
      exact ⟨i2, by rw [r2, r1]⟩

/-- C25, counterexample: handle 0 holds impl 1 and handle 1 holds impl 2; after the move
assignment of handle 1 to handle 0 the source, handle 1, holds impl 1: it is defined, not
nulled. -/
theorem move_assign_source_defined :
    Retainable.move_assign exHeap 0 1 =
        .ok { refcount := [7, 1, 1], deleted := [false, false, false],
              handles := [some 2, some 1] } ∧
      Retainable.defined
        { refcount := [7, 1, 1], deleted := [false, false, false],
          handles := [some 2, some 1] } 1 = .ok true ∧
      exHeap.pImpl 1 = .ok 2 := by
  refine ⟨rfl, rfl, rfl⟩

/-- C25, amended: move assignment swaps. For live handles `a` holding `pa` and `b` holding
`pb`, the move assignment `a = move(b)` succeeds; afterwards `a` holds `pb`, `b` holds `pa`
when it is another handle than `a` (so that `b` is undefined exactly when `a` was), and no
refcount and no deletion mark has changed. -/
theorem move_assign_swaps (s : RState) (a b pa pb : Nat)
    (ha : s.handles.getD a none = some pa) (hb : s.handles.getD b none = some pb) :
    ∃ s1, Retainable.move_assign s a b = .ok s1 ∧
      s1.pImpl a = .ok pb ∧
      (a ≠ b → s1.pImpl b = .ok pa ∧
        Retainable.defined s1 b = .ok (decide (pa ≠ NullType.singleton))) ∧
      s1.refcount = s.refcount ∧ s1.deleted = s.deleted := by
  have hal := getD_some_lt _ _ _ ha
  have hbl := getD_some_lt _ _ _ hb
  refine ⟨(s.setPImpl b pa).setPImpl a pb, ?_, ?_, ?_, rfl, rfl⟩
  · unfold Retainable.move_assign Retainable.swap
    rw [pImpl_of_getD s b pb hb, pImpl_of_getD s a pa ha]
  · apply pImpl_of_getD
    simp only [RState.setPImpl]
    exact getD_set_same _ _ _ _ (by simpa using hal)
  · intro hab
    have g : ((s.setPImpl b pa).setPImpl a pb).handles.getD b none = some pa := by
      simp only [RState.setPImpl]
      rw [getD_set_other _ _ _ _ _ hab]
      exact getD_set_same _ _ _ _ hbl
    refine ⟨pImpl_of_getD _ _ _ g, ?_⟩
    unfold Retainable.defined
    rw [pImpl_of_getD _ _ _ g]

/-- Move assignment of an undefined handle to the handle holding impl 1: the target becomes
undefined and the source holds impl 1. -/
theorem move_assign_swaps_witness :
    ∃ s1, Retainable.move_assign
        { refcount := [7, 1], deleted := [false, false], handles := [some 1, some 0] } 0 1
          = .ok s1 ∧
      s1.pImpl 0 = .ok 0 ∧
      ((0 : Nat) ≠ 1 → s1.pImpl 1 = .ok 1 ∧
        Retainable.defined s1 1 = .ok (decide (1 ≠ NullType.singleton))) ∧
      s1.refcount = [7, 1] ∧ s1.deleted = [false, false] :=
  move_assign_swaps
    { refcount := [7, 1], deleted := [false, false], handles := [some 1, some 0] } 0 1 1 0
    rfl rfl

/-- C26: the refcount invariant of `Retainable`. From a state in which every non-singleton
impl is adopted by exactly one handle with refcount 1, any sequence of default construction,
copy and move construction, copy and move assignment (self-assignment included), swap, reset
and destruction that runs to its end leaves a state in which every non-singleton impl is
deleted exactly when no live handle holds it, the refcount of every impl that is not deleted
is the number of live handles holding it, and the singleton is not deleted and has the
refcount it started with. The only fault such a sequence can raise is the use of a handle
outside its lifetime, never an access to a deleted impl; and in every state reached an
operation on handles within their lifetime succeeds. -/
theorem retainable_refcount_invariant (s : RState) (ops : List ROp) (h : s.Adopted) :
    (∀ e, ROp.run s ops = .error e → e = .DeadHandle) ∧
    (∀ s1, ROp.run s ops = .ok s1 →
      s1.Inv ∧
      s1.refcount.getD NullType.singleton 0 = s.refcount.getD NullType.singleton 0 ∧
      s1.deleted.getD NullType.singleton true = false ∧
      ∀ op : ROp, op.Live s1 → ∃ s2, op.apply s1 = .ok s2) := by
  obtain ⟨a, b⟩ := run_safe ops s (adopted_inv s h)
  refine ⟨a, fun s1 he => ?_⟩
  obtain ⟨i1, r1⟩ := b s1 he
  exact ⟨i1, r1, i1.1.2.2.2, fun op hL => apply_live s1 op i1 hL⟩

/-- A run from two adopted impls: copy assignment releases and deletes impl 1, reset and
destruction then release impl 2 to zero; the singleton keeps its refcount 7. -/
theorem retainable_refcount_invariant_witness :
    exHeap.Adopted ∧
    ROp.run exHeap [.copy_assign 0 1, .copy_assign 0 0, .reset 1, .destroy 0] =
      .ok { refcount := [7, 0, 0], deleted := [false, true, true],
            handles := [none, some 0, none, none, none] } ∧
    ((∀ e, ROp.run exHeap [.copy_assign 0 1, .copy_assign 0 0, .reset 1, .destroy 0] =
        .error e → e = .DeadHandle) ∧
    (∀ s1, ROp.run exHeap [.copy_assign 0 1, .copy_assign 0 0, .reset 1, .destroy 0] =
        .ok s1 →
      s1.Inv ∧
      s1.refcount.getD NullType.singleton 0 = exHeap.refcount.getD NullType.singleton 0 ∧
      s1.deleted.getD NullType.singleton true = false ∧
      ∀ op : ROp, op.Live s1 → ∃ s2, op.apply s1 = .ok s2)) :=
  ⟨by decide, rfl,
    retainable_refcount_invariant exHeap
      [.copy_assign 0 1, .copy_assign 0 0, .reset 1, .destroy 0] (by decide)⟩

theorem to_csr_loop_schedule (indices : List Int) (dim nnz : Nat) :
    ∀ (k i : Nat) (csr : List Nat),
      _to_csr_loop indices dim nnz k i csr =
        _to_csr_schedule indices dim nnz (List.range' i k) csr
  | 0, i, csr => rfl
  | k + 1, i, csr => by
    rw [_to_csr_loop, List.range'_succ, _to_csr_schedule]
    simp only [_to_csr_body]
    cases h : (if indices.getD i 0 ≠ (if i + 1 = nnz then (dim : Int)
        else indices.getD (i + 1) 0) then
        csr_stamp (i + 1) ((if i + 1 = nnz then (dim : Int)
          else indices.getD (i + 1) 0) - indices.getD i 0).toNat (indices.getD i 0) csr
        else .ok csr) with
    | error e => rfl
    | ok csr' => exact to_csr_loop_schedule indices dim nnz k (i + 1) csr'

/-- The value a loop index writes is determined by the slot: it is the number of positions
whose row lies below the slot. -/
theorem csrWrites_value (indices : List Int) (dim nnz : Nat)
    (hs : ∀ i j, i ≤ j → j < nnz → indices.getD i 0 ≤ indices.getD j 0)
    (i j : Nat) (hi : i < nnz) (hw : csrWrites indices dim nnz i j) :
    i + 1 = countBelow indices nnz (j : Int) := by
  have hiff : ∀ (i' : Nat), i' < nnz →
      (indices.getD i' 0 < (j : Int) ↔ i' < countBelow indices nnz (j : Int)) := by
    intro i' hi'
    have := countP_downward (fun i => decide (indices.getD i 0 < (j : Int))) nnz
      (fun a b hab hb hP => by
        simp only [decide_eq_true_eq] at hP ⊢
        have := hs a b hab hb
        omega) i' hi'
    simpa [countBelow] using this
  obtain ⟨w1, w2⟩ := hw
  have h1 := (hiff i hi).mp w1
  have hle := countBelow_le indices nnz (j : Int)
  by_cases hl : i + 1 = nnz
  · omega
  · rw [if_neg hl] at w2
    have h2 : ¬ (i + 1 < countBelow indices nnz (j : Int)) := by
      intro c
      have := (hiff (i + 1) (by omega)).mpr c
      omega
    omega

theorem csr_stamp_window (v dim : Nat) (hp0 hp1 : Int) (h0 : 0 ≤ hp0) (h1 : hp0 ≤ hp1)
    (h2 : hp1 ≤ (dim : Int)) (csr : List Nat) (hl : csr.length = dim + 1) :
    ∃ csr', (if hp0 ≠ hp1 then csr_stamp v (hp1 - hp0).toNat hp0 csr
        else .ok csr) = .ok csr' ∧ csr'.length = dim + 1 ∧
      ∀ j : Nat, csr'.getD j 0 =
        if hp0 < (j : Int) ∧ (j : Int) ≤ hp1 then v else csr.getD j 0 := by
  obtain ⟨a, ha⟩ : ∃ a : Nat, hp0 = (a : Int) := ⟨hp0.toNat, by omega⟩
  subst ha
  by_cases hne : (a : Int) ≠ hp1
  · rw [if_pos hne]
    obtain ⟨csr', e1, e2, e3⟩ := csr_stamp_spec v (hp1 - (a : Int)).toNat a csr (by omega)
    refine ⟨csr', e1, by rw [e2, hl], ?_⟩
    intro j
    rw [e3 j]
    by_cases c : a < j ∧ j ≤ a + (hp1 - (a : Int)).toNat
    · rw [if_pos c, if_pos ⟨by omega, by omega⟩]
    · rw [if_neg c, if_neg (by omega)]
  · rw [if_neg hne]
    refine ⟨csr, rfl, hl, ?_⟩
    intro j
    have : (a : Int) = hp1 := by
      by_contra c; exact hne c
    rw [if_neg (by omega)]

theorem to_csr_body_spec (indices : List Int) (dim nnz : Nat)
    (hs : ∀ i j, i ≤ j → j < nnz → indices.getD i 0 ≤ indices.getD j 0)
    (hr : ∀ i, i < nnz → 0 ≤ indices.getD i 0 ∧ indices.getD i 0 < dim)
    (i : Nat) (hi : i < nnz) (csr : List Nat) (hl : csr.length = dim + 1) :
    ∃ csr', _to_csr_body indices dim nnz i csr = .ok csr' ∧ csr'.length = dim + 1 ∧
      ∀ j, csr'.getD j 0 = if csrWrites indices dim nnz i j then i + 1 else csr.getD j 0 := by
  unfold _to_csr_body csrWrites
  simp only
  obtain ⟨r0, r1⟩ := hr i hi
  have hhp1 : indices.getD i 0 ≤ (if i + 1 = nnz then (dim : Int)
      else indices.getD (i + 1) 0) ∧
      (if i + 1 = nnz then (dim : Int) else indices.getD (i + 1) 0) ≤ dim := by
    by_cases hl' : i + 1 = nnz
    · rw [if_pos hl']; omega
    · rw [if_neg hl']
      have := hs i (i + 1) (by omega) (by omega)
      have := hr (i + 1) (by omega)
      omega
  exact csr_stamp_window (i + 1) dim _ _ r0 hhp1.1 hhp1.2 csr hl

/-- A schedule over loop indices below nnz: every slot some scheduled index writes holds the
number of positions with a row below the slot, every other slot is untouched. -/
theorem to_csr_schedule_spec (indices : List Int) (dim nnz : Nat)
    (hs : ∀ i j, i ≤ j → j < nnz → indices.getD i 0 ≤ indices.getD j 0)
    (hr : ∀ i, i < nnz → 0 ≤ indices.getD i 0 ∧ indices.getD i 0 < dim) :
    ∀ (order : List Nat) (csr : List Nat), (∀ i ∈ order, i < nnz) → csr.length = dim + 1 →
      ∃ csr', _to_csr_schedule indices dim nnz order csr = .ok csr' ∧
        csr'.length = dim + 1 ∧
        ∀ j, csr'.getD j 0 =
          if ∃ i ∈ order, csrWrites indices dim nnz i j then countBelow indices nnz (j : Int)
          else csr.getD j 0
  | [], csr, _, hl => ⟨csr, rfl, hl, fun j => by simp⟩
  | i :: rest, csr, ho, hl => by
    have hi : i < nnz := ho i (by simp)
    obtain ⟨csr1, a1, a2, a3⟩ := to_csr_body_spec indices dim nnz hs hr i hi csr hl
    obtain ⟨csr', b1, b2, b3⟩ := to_csr_schedule_spec indices dim nnz hs hr rest csr1
      (fun i' hi' => ho i' (by simp [hi'])) a2
    refine ⟨csr', by rw [_to_csr_schedule, a1]; exact b1, b2, ?_⟩
    intro j
    rw [b3 j]
    by_cases c1 : ∃ i' ∈ rest, csrWrites indices dim nnz i' j
    · rw [if_pos c1, if_pos (by
        obtain ⟨i', h1, h2⟩ := c1
        exact ⟨i', by simp [h1], h2⟩)]
    · rw [if_neg c1, a3 j]
      by_cases c2 : csrWrites indices dim nnz i j
      · rw [if_pos c2, if_pos ⟨i, by simp, c2⟩]
        exact csrWrites_value indices dim nnz hs i j hi c2
      · rw [if_neg c2, if_neg]
        rintro ⟨i', h1, h2⟩
        simp only [List.mem_cons] at h1
        rcases h1 with h1 | h1
        · subst h1; exact c2 h2
        · exact c1 ⟨i', h1, h2⟩

theorem list_eq_of_getD {β : Type} (l l' : List β) (d : β) (hl : l.length = l'.length)
    (h : ∀ j, l.getD j d = l'.getD j d) : l = l' := by
  apply List.ext_getElem hl
  intro j h1 h2
  have := h j
  rw [List.getD_eq_getElem?_getD, List.getD_eq_getElem?_getD, List.getElem?_eq_getElem h1,
    List.getElem?_eq_getElem h2] at this
  simpa using this

/-- C23: the CSR stamping loop is order-independent. For non-decreasing row indices with
values in `[0, dim)`, no slot of `csr` is written by two different loop indices, and running
the loop body for the indices `0, ..., nnz - 1` in any order succeeds with the same array as
the sequential loop of `_to_csr`. -/
theorem to_csr_order_independent (indices : List Int) (dim nnz : Nat) (order : List Nat)
    (hs : ∀ j, j < nnz → ∀ i, i ≤ j → indices.getD i 0 ≤ indices.getD j 0)
    (hr : ∀ i, i < nnz → 0 ≤ indices.getD i 0 ∧ indices.getD i 0 < dim)
    (hp : order.Perm (List.range nnz)) :
    (∀ i i' j, i < nnz → i' < nnz → csrWrites indices dim nnz i j →
      csrWrites indices dim nnz i' j → i = i') ∧
    ∃ csr, _to_csr indices dim nnz = .ok csr ∧
      _to_csr_schedule indices dim nnz order (List.replicate (dim + 1) 0) = .ok csr := by
  have hs' : ∀ i j, i ≤ j → j < nnz → indices.getD i 0 ≤ indices.getD j 0 :=
    fun i j hij hj => hs j hj i hij
  constructor
  · intro i i' j hi hi' hw hw'
    have e1 := csrWrites_value indices dim nnz hs' i j hi hw
    have e2 := csrWrites_value indices dim nnz hs' i' j hi' hw'
    omega
  · obtain ⟨c1, a1, a2, a3⟩ := to_csr_schedule_spec indices dim nnz hs' hr (List.range nnz)
      (List.replicate (dim + 1) 0) (fun i hi => by simpa using hi) (by simp)
    obtain ⟨c2, b1, b2, b3⟩ := to_csr_schedule_spec indices dim nnz hs' hr order
      (List.replicate (dim + 1) 0) (fun i hi => by simpa using hp.mem_iff.mp hi) (by simp)
    have heq : c2 = c1 := by
      apply list_eq_of_getD c2 c1 0 (by rw [a2, b2])
      intro j
      rw [a3 j, b3 j]
      have : (∃ i ∈ order, csrWrites indices dim nnz i j) ↔
          (∃ i ∈ List.range nnz, csrWrites indices dim nnz i j) := by
        constructor
        · rintro ⟨i, h1, h2⟩; exact ⟨i, hp.mem_iff.mp h1, h2⟩
        · rintro ⟨i, h1, h2⟩; exact ⟨i, hp.mem_iff.mpr h1, h2⟩
      by_cases c : ∃ i ∈ order, csrWrites indices dim nnz i j
      · rw [if_pos c, if_pos (this.mp c)]
      · rw [if_neg c, if_neg (fun x => c (this.mpr x))]
    refine ⟨c1, ?_, by rw [b1, heq]⟩
    unfold _to_csr
    simp only
    by_cases hn : nnz > 0
    · rw [if_pos hn, to_csr_loop_schedule, ← List.range_eq_range']
      exact a1
    · rw [if_neg hn]
      have e : nnz = 0 := by omega
      subst e
      simp only [List.range_zero, _to_csr_schedule] at a1
      exact a1

/-- The rows `[0, 0, 2]` of a matrix with 3 rows: the loop body run in the order 2, 0, 1
gives the row offsets `[0, 2, 2, 3]` of the sequential loop. -/
theorem to_csr_order_independent_witness :
    _to_csr_schedule [0, 0, 2] 3 3 [2, 0, 1] (List.replicate (3 + 1) 0) = .ok [0, 2, 2, 3] ∧
    ((∀ i i' j, i < 3 → i' < 3 → csrWrites [0, 0, 2] 3 3 i j →
      csrWrites [0, 0, 2] 3 3 i' j → i = i') ∧
    ∃ csr, _to_csr [0, 0, 2] 3 3 = .ok csr ∧
      _to_csr_schedule [0, 0, 2] 3 3 [2, 0, 1] (List.replicate (3 + 1) 0) = .ok csr) :=
  ⟨rfl, to_csr_order_independent [0, 0, 2] 3 3 [2, 0, 1] (by decide) (by decide) (by decide)⟩

theorem worker_loop_schedule [CommRing α] (r : Tensor α) (alpha : α) (sparseDims : Nat)
    (indices : List (List Int)) (values : List (List α)) :
    ∀ (n k : Nat) (data : List α),
      add_dense_sparse_worker_loop r alpha sparseDims indices values n k data =
        add_dense_sparse_worker_schedule r alpha sparseDims indices values
          (List.range' k n) data
  | 0, k, data => rfl
  | n + 1, k, data => by
    rw [add_dense_sparse_worker_loop, List.range'_succ, add_dense_sparse_worker_schedule]
    simp only [add_dense_sparse_worker_body]
    by_cases h : 0 ≤ flat_index r sparseDims indices k ∧
        (flat_index r sparseDims indices k).toNat < data.length
    · rw [if_pos h, if_pos h]
      exact worker_loop_schedule r alpha sparseDims indices values n (k + 1) _
    · rw [if_neg h, if_neg h]

/-- A schedule whose offsets are inside the buffer succeeds, and every element of the result
is the original element plus the contributions of the scheduled nonzeros with that offset. -/
theorem worker_schedule_spec [CommRing α] (r : Tensor α) (alpha : α) (sparseDims : Nat)
    (indices : List (List Int)) (values : List (List α)) (len : Nat) :
    ∀ (order : List Nat) (data : List α), data.length = len →
      (∀ k ∈ order, 0 ≤ flat_index r sparseDims indices k ∧
        (flat_index r sparseDims indices k).toNat < len) →
      ∃ data', add_dense_sparse_worker_schedule r alpha sparseDims indices values order data
          = .ok data' ∧ data'.length = len ∧
        ∀ p, data'.getD p 0 = data.getD p 0 +
          ((order.filter
            (fun k => decide ((flat_index r sparseDims indices k).toNat = p))).map
            (fun k => alpha * (values.getD k []).getD 0 0)).sum
  | [], data, hl, _ => ⟨data, rfl, hl, fun p => by simp⟩
  | k :: rest, data, hl, hb => by
    obtain ⟨b0, b1⟩ := hb k (by simp)
    obtain ⟨data', e1, e2, e3⟩ := worker_schedule_spec r alpha sparseDims indices values len
      rest (data.set (flat_index r sparseDims indices k).toNat
        (data.getD (flat_index r sparseDims indices k).toNat 0 +
          alpha * (values.getD k []).getD 0 0))
      (by rw [List.length_set]; exact hl) (fun k' hk' => hb k' (by simp [hk']))
    refine ⟨data', ?_, e2, ?_⟩
    · rw [add_dense_sparse_worker_schedule]
      simp only [add_dense_sparse_worker_body]
      rw [if_pos ⟨b0, by rw [hl]; exact b1⟩]
      exact e1
    · intro p
      rw [e3 p, List.filter_cons]
      by_cases hp : (flat_index r sparseDims indices k).toNat = p
      · subst hp
        rw [getD_set_same _ _ _ _ (by rw [hl]; exact b1)]
        simp only [decide_True, if_true, List.map_cons, List.sum_cons]
        ring
      · rw [getD_set_other _ _ _ _ _ hp]
        simp only [hp, decide_False, Bool.false_eq_true, if_false]

/-- The flat offset of an in-range coordinate column of full length is the row-major offset
of the coordinate, shifted by the starting value of the accumulator. -/
theorem flat_index_offset (r : Tensor α) (sparse : SparseTensor α) (off : Int)
    (hS : sparse.WellFormed) (hdim : sparse.sparseDims = r.dim) (k : Nat)
    (hk : k < sparse.nnz) :
    flat_index_loop r sparse._indices k sparse.sparseDims 0 off =
      off + offsetOf r.sizes (sparse._indices.getD k []) ∧
    sparse._indices.getD k [] ∈ sparse._indices ∧
    (sparse._indices.getD k []).length = r.sizes.length := by
  obtain ⟨_, w2, _, w4, _⟩ := hS
  have hIlen : sparse._indices.length = sparse.nnz := by
    simp [SparseTensor._indices, w2]
  have hk' : k < sparse._indices.length := by omega
  have e : sparse._indices.getD k [] = sparse._indices[k] := by
    simp [List.getD_eq_getElem?_getD, hk']
  have hm : sparse._indices.getD k [] ∈ sparse._indices := by
    rw [e]; exact List.getElem_mem hk'
  have hrc := readColumn_eq sparse.sparseDims _ k hk' w4
  refine ⟨?_, hm, by rw [w4 _ hm, hdim]; rfl⟩
  rw [flat_index_loop_eq r _ k sparse.sparseDims 0 off (by rw [hdim]; simp [Tensor.dim]),
    ← List.range_eq_range', List.drop_zero, e, ← hrc]
  rfl

/-- C24: the flat offsets of the dense += sparse worker do not collide. For a contiguous
row-major dense tensor `r` and a well-formed sparse operand with as many sparse dimensions
as `r` has dimensions, strictly increasing index columns (coalesced) and all indices in
range, the offsets `storage_offset + Σ_d stride[d] * indices[d][k]` of two different nonzeros
differ, whatever the storage offset; and running the loop body for the nonzeros in any order
succeeds with the same buffer as the sequential loop of `add_dense_sparse_worker_cpu`. -/
theorem worker_offsets_disjoint [CommRing α] (r : Tensor α) (value : α)
    (sparse : SparseTensor α) (order : List Nat)
    (hR : r.WellFormed) (hS : sparse.WellFormed) (hdim : sparse.sparseDims = r.dim)
    (hc : StrictlyIncreasing sparse._indices)
    (hr : ∀ c ∈ sparse._indices, InRange r.sizes c)
    (hp : order.Perm (List.range sparse.nnz)) :
    (∀ (off : Int) (k1 k2 : Nat), k1 < sparse.nnz → k2 < sparse.nnz → k1 ≠ k2 →
      flat_index_loop r sparse._indices k1 sparse.sparseDims 0 off ≠
        flat_index_loop r sparse._indices k2 sparse.sparseDims 0 off) ∧
    ∃ res, add_dense_sparse_worker_cpu r value sparse sparse._indices sparse._values
        = .ok res ∧
      add_dense_sparse_worker_schedule r value sparse.sparseDims sparse._indices
        sparse._values order r.data = .ok res.data := by
  have hIlen : sparse._indices.length = sparse.nnz := by
    simp [SparseTensor._indices, hS.2.1]
  have hbound : ∀ k, k < sparse.nnz → 0 ≤ flat_index r sparse.sparseDims sparse._indices k ∧
      (flat_index r sparse.sparseDims sparse._indices k).toNat < r.data.length := by
    intro k hk
    obtain ⟨e1, hm, hl⟩ := flat_index_offset r sparse 0 hS hdim k hk
    obtain ⟨b1, b2⟩ := offsetOf_bounds r.sizes _ (hr _ hm)
    rw [hl, List.drop_length] at b2
    unfold Tensor.WellFormed at hR
    unfold flat_index
    rw [e1, hR]
    simp only [List.prod_nil, Nat.cast_one] at b2
    omega
  constructor
  · intro off k1 k2 h1 h2 hne
    obtain ⟨e1, m1, l1⟩ := flat_index_offset r sparse off hS hdim k1 h1
    obtain ⟨e2, m2, l2⟩ := flat_index_offset r sparse off hS hdim k2 h2
    have hne' : sparse._indices.getD k1 [] ≠ sparse._indices.getD k2 [] := by
      have := strictlyIncreasing_ne _ hc k1 k2 (by omega) (by omega) hne
      simpa [List.getD_eq_getElem?_getD, hIlen, h1, h2] using this
    have := offsetOf_separated r.sizes _ _ (hr _ m1) (hr _ m2) (by rw [l1, l2]) hne'
    rw [l1, List.drop_length] at this
    simp only [List.prod_nil, Nat.cast_one] at this
    rw [e1, e2]
    omega
  · obtain ⟨d1, a1, a2, a3⟩ := worker_schedule_spec r value sparse.sparseDims sparse._indices
      sparse._values r.data.length (List.range sparse.nnz) r.data rfl
      (fun k hk => hbound k (by simpa using hk))
    obtain ⟨d2, b1, b2, b3⟩ := worker_schedule_spec r value sparse.sparseDims sparse._indices
      sparse._values r.data.length order r.data rfl
      (fun k hk => hbound k (by simpa using hp.mem_iff.mp hk))
    have heq : d2 = d1 := by
      apply list_eq_of_getD d2 d1 0 (by rw [a2, b2])
      intro p
      rw [a3 p, b3 p]
      congr 1
      exact ((hp.filter _).map _).sum_eq
    refine ⟨{ r with data := d1 }, ?_, by rw [b1, heq]⟩
    unfold add_dense_sparse_worker_cpu
    rw [worker_loop_schedule, ← List.range_eq_range', a1]

/-- The worker on the 2×2 matrix `[[1, 2], [3, 4]]` and `{(0,0): 1, (1,1): 2}` with scalar
10: the nonzeros processed in the order 1, 0 give `[[11, 2], [3, 24]]`, as in order. -/
theorem worker_offsets_disjoint_witness :
    add_dense_sparse_worker_schedule exD 10 exS.sparseDims exS._indices exS._values [1, 0]
      exD.data = .ok [11, 2, 3, 24] ∧
    ((∀ (off : Int) (k1 k2 : Nat), k1 < exS.nnz → k2 < exS.nnz → k1 ≠ k2 →
      flat_index_loop exD exS._indices k1 exS.sparseDims 0 off ≠
        flat_index_loop exD exS._indices k2 exS.sparseDims 0 off) ∧
    ∃ res, add_dense_sparse_worker_cpu exD 10 exS exS._indices exS._values = .ok res ∧
      add_dense_sparse_worker_schedule exD 10 exS.sparseDims exS._indices exS._values [1, 0]
        exD.data = .ok res.data) :=
  ⟨rfl, worker_offsets_disjoint exD 10 exS [1, 0] (by decide) (by decide) rfl (by decide)
    (by decide) (by decide)⟩

theorem compact_step_new (rows : List Int) (j : Nat) (i prev : Int) (indices vi : List Int)
    (hsort : ∀ b, b < rows.length → ∀ a, a ≤ b → rows.getD a 0 ≤ rows.getD b 0)
    (hnn : ∀ a, a < rows.length → 0 ≤ rows.getD a 0)
    (hj : j < rows.length) (hI : CompactInv rows j i prev indices vi)
    (hne : vi.getD j 0 ≠ prev) :
    (0 ≤ i + 1 ∧ (i + 1).toNat < indices.length) ∧
    CompactInv rows (j + 1) (i + 1) (vi.getD j 0)
      (indices.set (i + 1).toNat (vi.getD j 0)) (vi.set j (i + 1)) := by
  obtain ⟨l1, l2, i1, i2, p0, p1, ip, un, rw', inc, src⟩ := hI
  have hcur : vi.getD j 0 = rows.getD j 0 := un j (le_refl _)
  have hlt : prev < vi.getD j 0 := by
    rw [hcur] at hne ⊢
    by_cases hj0 : j = 0
    · have := p0 hj0
      have := hnn j hj
      omega
    · obtain ⟨e, _⟩ := p1 (by omega)
      have := hsort j hj (j - 1) (by omega)
      omega
  have hb : (i + 1).toNat < indices.length := by omega
  refine ⟨⟨by omega, hb⟩, ?_⟩
  refine ⟨by rw [List.length_set]; exact l1, by rw [List.length_set]; exact l2, by omega,
    by push_cast; omega, fun c => by omega, fun _ => ⟨by simpa using hcur, by omega⟩,
    fun _ => getD_set_same _ _ _ _ hb, ?_, ?_, ?_, ?_⟩
  · intro j' hj'
    rw [getD_set_other _ _ _ _ _ (by omega)]
    exact un j' (by omega)
  · intro j' hj'
    by_cases e : j' = j
    · subst e
      rw [getD_set_same _ _ _ _ (by omega)]
      exact ⟨by omega, le_refl _, by rw [getD_set_same _ _ _ _ hb]; exact hcur⟩
    · rw [getD_set_other _ _ _ _ _ (fun c => e c.symm)]
      obtain ⟨a1, a2, a3⟩ := rw' j' (by omega)
      refine ⟨a1, by omega, ?_⟩
      rw [getD_set_other _ _ _ _ _ (by omega)]
      exact a3
  · intro a b hab hbi
    by_cases e : (b : Int) = i + 1
    · have eb : (i + 1).toNat = b := by omega
      rw [eb, getD_set_same _ _ _ _ (by omega), getD_set_other _ _ _ _ _ (by omega)]
      have hi0 : 0 ≤ i := by omega
      have hip := ip hi0
      by_cases ea : (a : Int) = i
      · have : i.toNat = a := by omega
        rw [this] at hip
        rw [hip]; exact hlt
      · have := inc a i.toNat (by omega) (by omega)
        rw [hip] at this
        omega
    · rw [getD_set_other _ _ _ _ _ (by omega), getD_set_other _ _ _ _ _ (by omega)]
      exact inc a b hab (by omega)
  · intro a ha
    by_cases e : (a : Int) = i + 1
    · have ea : (i + 1).toNat = a := by omega
      refine ⟨j, by omega, ?_⟩
      rw [ea, getD_set_same _ _ _ _ (by omega)]
      exact hcur.symm
    · obtain ⟨j', h1, h2⟩ := src a (by omega)
      refine ⟨j', by omega, ?_⟩
      rw [getD_set_other _ _ _ _ _ (by omega)]
      exact h2

theorem compact_step_same (rows : List Int) (j : Nat) (i prev : Int) (indices vi : List Int)
    (hnn : ∀ a, a < rows.length → 0 ≤ rows.getD a 0)
    (hj : j < rows.length) (hI : CompactInv rows j i prev indices vi)
    (he : vi.getD j 0 = prev) :
    CompactInv rows (j + 1) i prev indices (vi.set j i) := by
  obtain ⟨l1, l2, i1, i2, p0, p1, ip, un, rw', inc, src⟩ := hI
  have hcur : vi.getD j 0 = rows.getD j 0 := un j (le_refl _)
  have hj0 : 0 < j := by
    by_contra c
    have := p0 (by omega)
    have := hnn j hj
    omega
  obtain ⟨e1, e2⟩ := p1 hj0
  refine ⟨by rw [List.length_set]; exact l1, l2, i1, by push_cast; omega, fun c => by omega,
    fun _ => ⟨by simp only [Nat.add_sub_cancel]; rw [← hcur, he], e2⟩, ip, ?_, ?_, inc, ?_⟩
  · intro j' hj'
    rw [getD_set_other _ _ _ _ _ (by omega)]
    exact un j' (by omega)
  · intro j' hj'
    by_cases e : j' = j
    · subst e
      rw [getD_set_same _ _ _ _ (by omega)]
      exact ⟨e2, le_refl _, by rw [ip e2, ← he, hcur]⟩
    · rw [getD_set_other _ _ _ _ _ (fun c => e c.symm)]
      exact rw' j' (by omega)
  · intro a ha
    obtain ⟨j', h1, h2⟩ := src a ha
    exact ⟨j', by omega, h2⟩

theorem compact_loop_spec (rows : List Int)
    (hsort : ∀ b, b < rows.length → ∀ a, a ≤ b → rows.getD a 0 ≤ rows.getD b 0)
    (hnn : ∀ a, a < rows.length → 0 ≤ rows.getD a 0) :
    ∀ (n j : Nat) (i prev : Int) (indices vi : List Int), j + n = rows.length →
      CompactInv rows j i prev indices vi →
      ∃ i' prev' indices' vi', hspmm_compact_loop n j i prev indices vi
          = .ok (i', indices', vi') ∧
        CompactInv rows rows.length i' prev' indices' vi'
  | 0, j, i, prev, indices, vi, hjn, hI => by
    have : j = rows.length := by omega
    subst this
    exact ⟨i, prev, indices, vi, rfl, hI⟩
  | n + 1, j, i, prev, indices, vi, hjn, hI => by
    have hj : j < rows.length := by omega
    have hl := hI.1
    rw [hspmm_compact_loop, if_pos (by omega)]
    by_cases hne : vi.getD j 0 ≠ prev
    · obtain ⟨hb, hI'⟩ := compact_step_new rows j i prev indices vi hsort hnn hj hI hne
      rw [if_pos hne, if_pos hb]
      exact compact_loop_spec rows hsort hnn n (j + 1) _ _ _ _ (by omega) hI'
    · have he : vi.getD j 0 = prev := by
        by_contra c; exact hne c
      rw [if_neg hne]
      exact compact_loop_spec rows hsort hnn n (j + 1) _ _ _ _ (by omega)
        (compact_step_same rows j i prev indices vi hnn hj hI he)

theorem compact_init (rows : List Int) :
    CompactInv rows 0 (-1) (-1) (List.replicate rows.length 0) rows := by
  refine ⟨rfl, by simp, le_refl _, by omega, fun _ => rfl, fun c => by omega,
    fun c => by omega, fun _ _ => rfl, fun j' hj' => by omega, fun a b _ hb => by omega,
    fun a ha => by omega⟩

theorem pairwise_lt_getD (out : List Int) (hp : out.Pairwise (fun a b => a < b))
    (a b : Nat) (hab : a < b) (hb : b < out.length) : out.getD a 0 < out.getD b 0 := by
  have := (List.pairwise_iff_getElem.mp hp) a b (by omega) hb hab
  simpa [List.getD_eq_getElem?_getD, hb, show a < out.length by omega] using this

theorem getD_eq_getElem_lt {β : Type} (l : List β) (a : Nat) (d : β) (h : a < l.length) :
    l.getD a d = l[a] := by
  simp [List.getD_eq_getElem?_getD, h]

theorem rowIndices_length (indices : List (List Int)) :
    (rowIndices indices).length = indices.length := by
  simp [rowIndices]

/-- The compaction of a well-formed operand with non-decreasing, non-negative rows: it
succeeds with an output row `out` and rewritten rows `vi`; `out` is strictly increasing,
holds exactly the row values of the operand, and `out[vi[j]]` is the row of nonzero `j`. -/
theorem hspmm_compact_spec (sparse : SparseTensor α) (hS : sparse.WellFormed)
    (hn : 0 < sparse.nnz)
    (hsorted : ∀ j, j < sparse.nnz → ∀ i, i ≤ j →
      accessor sparse._indices 0 i ≤ accessor sparse._indices 0 j)
    (hnn : ∀ j, j < sparse.nnz → 0 ≤ accessor sparse._indices 0 j) :
    ∃ (out vi : List Int),
      hspmm_compact sparse =
        .ok (out.map (fun x => [x]), out.length, hspmm_newSparse sparse out.length vi) ∧
      1 ≤ out.length ∧ out.length ≤ sparse.nnz ∧
      out.Pairwise (fun a b => a < b) ∧
      (∀ x, x ∈ out ↔ ∃ j, j < sparse.nnz ∧ accessor sparse._indices 0 j = x) ∧
      (∀ j, j < sparse.nnz → 0 ≤ vi.getD j 0 ∧ vi.getD j 0 < (out.length : Int) ∧
        out.getD (vi.getD j 0).toNat 0 = accessor sparse._indices 0 j) := by
  have hIlen : sparse._indices.length = sparse.nnz := by
    simp [SparseTensor._indices, hS.2.1]
  have hrl : (rowIndices sparse._indices).length = sparse.nnz := by
    rw [rowIndices_length, hIlen]
  obtain ⟨i, prev, indices, vi, e, hI⟩ := compact_loop_spec (rowIndices sparse._indices)
    (fun b hb a hab => by
      rw [rowIndices_getD, rowIndices_getD]
      exact hsorted b (by omega) a hab)
    (fun a ha => by rw [rowIndices_getD]; exact hnn a (by omega))
    sparse.nnz 0 (-1) (-1) (List.replicate (rowIndices sparse._indices).length 0)
    (rowIndices sparse._indices) (by omega) (compact_init _)
  rw [hrl] at e hI
  obtain ⟨l1, l2, i1, i2, p0, p1, ip, un, rw', inc, src⟩ := hI
  rw [hrl] at l1 l2
  obtain ⟨_, hi0⟩ := p1 hn
  have hlen : (indices.take (i + 1).toNat).length = (i + 1).toNat := by
    rw [List.length_take]; omega
  have hget : ∀ a, a < (i + 1).toNat →
      (indices.take (i + 1).toNat).getD a 0 = indices.getD a 0 := by
    intro a ha
    exact getD_take_lt _ _ _ _ ha
  refine ⟨indices.take (i + 1).toNat, vi, ?_, by omega, by omega, ?_, ?_, ?_⟩
  · unfold hspmm_compact
    simp only
    rw [e]
    simp only [hlen]
  · rw [List.pairwise_iff_getElem]
    intro a b ha hb hab
    have h1 := hget a (by omega)
    have h2 := hget b (by omega)
    have := inc a b hab (by omega)
    rw [← h1, ← h2, getD_eq_getElem_lt _ _ _ ha, getD_eq_getElem_lt _ _ _ hb] at this
    exact this
  · intro x
    constructor
    · intro hx
      obtain ⟨a, ha, rfl⟩ := List.mem_iff_getElem.mp hx
      obtain ⟨j', h1, h2⟩ := src a (by omega)
      refine ⟨j', h1, ?_⟩
      rw [← rowIndices_getD, h2, ← hget a (by omega)]
      exact getD_eq_getElem_lt _ _ _ ha
    · rintro ⟨j, hj, rfl⟩
      obtain ⟨a1, a2, a3⟩ := rw' j hj
      have hb : (vi.getD j 0).toNat < (indices.take (i + 1).toNat).length := by omega
      rw [← rowIndices_getD, ← a3, ← hget _ (by omega), getD_eq_getElem_lt _ _ _ hb]
      exact List.getElem_mem _
  · intro j hj
    obtain ⟨a1, a2, a3⟩ := rw' j hj
    refine ⟨a1, by omega, ?_⟩
    rw [hget _ (by omega), a3, rowIndices_getD]

/-- The compacted clone of a well-formed 2-D operand: same split, nnz, flag, values and
column coordinates; row coordinates `vi`; index columns strictly increasing when the
operand's are. -/
theorem hspmm_newSparse_spec (sparse : SparseTensor α) (hS : sparse.WellFormed)
    (h2 : sparse.sparseDims = 2) (out vi : List Int)
    (hp : out.Pairwise (fun a b => a < b))
    (hv : ∀ j, j < sparse.nnz → 0 ≤ vi.getD j 0 ∧ vi.getD j 0 < (out.length : Int) ∧
      out.getD (vi.getD j 0).toNat 0 = accessor sparse._indices 0 j) :
    (hspmm_newSparse sparse out.length vi)._values = sparse._values ∧
    (∀ j, j < sparse.nnz →
      accessor (hspmm_newSparse sparse out.length vi)._indices 0 j = vi.getD j 0 ∧
      accessor (hspmm_newSparse sparse out.length vi)._indices 1 j =
        accessor sparse._indices 1 j) ∧
    (StrictlyIncreasing sparse._indices →
      StrictlyIncreasing (hspmm_newSparse sparse out.length vi)._indices) := by
  obtain ⟨_, w2, w3, w4, _⟩ := hS
  have hIlen : sparse._indices.length = sparse.nnz := by
    simp [SparseTensor._indices, w2]
  have hNI : (hspmm_newSparse sparse out.length vi)._indices =
      (List.range sparse.nnz).map
        (fun j => (sparse._indices.getD j []).set 0 (vi.getD j 0)) := by
    simp [SparseTensor._indices, hspmm_newSparse]
  have hcol : ∀ j, j < sparse.nnz → ∃ a b : Int, sparse._indices.getD j [] = [a, b] := by
    intro j hj
    have hj' : j < sparse._indices.length := by omega
    have e : sparse._indices.getD j [] = sparse._indices[j] := by
      simp [List.getD_eq_getElem?_getD, hj']
    have hl := w4 _ (List.getElem_mem hj')
    rw [h2, ← e] at hl
    match hc' : sparse._indices.getD j [], hl with
    | [a, b], _ => exact ⟨a, b, rfl⟩
  have hNget : ∀ j, j < sparse.nnz →
      (hspmm_newSparse sparse out.length vi)._indices.getD j [] =
        (sparse._indices.getD j []).set 0 (vi.getD j 0) := by
    intro j hj
    rw [hNI]
    simp [List.getD_eq_getElem?_getD, hj]
  refine ⟨?_, ?_, ?_⟩
  · simp [SparseTensor._values, hspmm_newSparse, w3]
  · intro j hj
    obtain ⟨a, b, e⟩ := hcol j hj
    unfold accessor
    rw [hNget j hj, e]
    exact ⟨rfl, rfl⟩
  · intro hc
    unfold StrictlyIncreasing
    rw [List.pairwise_iff_getElem]
    intro j1 j2 h1 h2' h12
    have hl : (hspmm_newSparse sparse out.length vi)._indices.length = sparse.nnz := by
      rw [hNI]; simp
    have g1 := hNget j1 (by omega)
    have g2 := hNget j2 (by omega)
    rw [getD_eq_getElem_lt _ _ _ h1] at g1
    rw [getD_eq_getElem_lt _ _ _ h2'] at g2
    rw [g1, g2]
    obtain ⟨a1, b1, e1⟩ := hcol j1 (by omega)
    obtain ⟨a2, b2, e2⟩ := hcol j2 (by omega)
    have hj1 : j1 < sparse._indices.length := by omega
    have hj2 : j2 < sparse._indices.length := by omega
    have hlt := (List.pairwise_iff_getElem.mp hc) j1 j2 hj1 hj2 h12
    rw [← getD_eq_getElem_lt _ _ [] hj1, ← getD_eq_getElem_lt _ _ [] hj2, e1, e2] at hlt
    rw [e1, e2]
    obtain ⟨u1, u2, u3⟩ := hv j1 (by omega)
    obtain ⟨v1, v2, v3⟩ := hv j2 (by omega)
    have r1 : accessor sparse._indices 0 j1 = a1 := by unfold accessor; rw [e1]; rfl
    have r2 : accessor sparse._indices 0 j2 = a2 := by unfold accessor; rw [e2]; rfl
    rw [r1] at u3
    rw [r2] at v3
    simp only [List.set_cons_zero, tupleLt]
    simp only [tupleLt] at hlt
    have key : vi.getD j1 0 < vi.getD j2 0 ∨ (vi.getD j1 0 = vi.getD j2 0 ∧ b1 < b2) := by
      by_cases c1 : a1 < a2
      · left
        by_contra c
        rcases Nat.lt_or_ge (vi.getD j2 0).toNat (vi.getD j1 0).toNat with h | h
        · have := pairwise_lt_getD out hp _ _ h (by omega)
          omega
        · have : (vi.getD j2 0).toNat = (vi.getD j1 0).toNat := by omega
          rw [this] at v3
          omega
      · have c2 : ¬ a2 < a1 := by
          intro c
          simp [c1, c] at hlt
        have ea : a1 = a2 := by omega
        right
        constructor
        · by_contra c
          rcases Nat.lt_or_ge (vi.getD j1 0).toNat (vi.getD j2 0).toNat with h | h
          · have := pairwise_lt_getD out hp _ _ h (by omega)
            omega
          · have h' : (vi.getD j2 0).toNat < (vi.getD j1 0).toNat := by omega
            have := pairwise_lt_getD out hp _ _ h' (by omega)
            omega
        · simp only [c1, c2, if_false] at hlt
          by_contra c
          simp [c] at hlt
    rcases key with k | ⟨k1, k2⟩
    · rw [if_pos k]
    · rw [k1, if_neg (lt_irrefl _), if_neg (lt_irrefl _), if_pos k2]

theorem rowIndices_singletons (out : List Int) :
    rowIndices (out.map (fun x => [x])) = out := by
  unfold rowIndices
  rw [List.map_map]
  conv_rhs => rw [← List.map_id out]
  apply List.map_congr_left
  intro a _
  rfl

theorem distinctRows_of_compact (I : List (List Int)) (nnz : Nat) (out : List Int)
    (hp : out.Pairwise (fun a b => a < b))
    (hm : ∀ x, x ∈ out ↔ ∃ j, j < nnz ∧ accessor I 0 j = x) :
    out.length = distinctRows I nnz := by
  have hnd : out.Nodup := hp.imp (fun h => ne_of_lt h)
  unfold distinctRows
  rw [← List.card_toFinset, ← List.toFinset_card_of_nodup hnd]
  congr 1
  ext x
  simp only [List.mem_toFinset, List.mem_map, List.mem_range]
  exact hm x

theorem rowDot_congr [CommRing α] (A B : SparseTensor α) (dense : Tensor α) (a h k : Nat)
    (hn : A.nnz = B.nnz) (hv : A._values = B._values)
    (hrow : ∀ i, i < B.nnz →
      (accessor A._indices 0 i = (a : Int) ↔ accessor B._indices 0 i = (h : Int)))
    (hcol : ∀ i, i < B.nnz → accessor A._indices 1 i = accessor B._indices 1 i) :
    rowDot A dense a k = rowDot B dense h k := by
  unfold rowDot
  rw [hn, hv]
  have hf : (List.range B.nnz).filter (fun i => decide (accessor A._indices 0 i = (a : Int)))
      = (List.range B.nnz).filter (fun i => decide (accessor B._indices 0 i = (h : Int))) := by
    apply List.filter_congr
    intro i hi
    simp only [List.mem_range] at hi
    simp only [decide_eq_decide]
    exact hrow i hi
  rw [hf]
  apply congrArg
  apply List.map_congr_left
  intro i hi
  have hi' : i < B.nnz := by
    have := (List.mem_filter.mp hi).1
    simpa using this
  rw [hcol i hi']

theorem rowDot_empty_row [CommRing α] (S : SparseTensor α) (dense : Tensor α) (h k : Nat)
    (hno : ∀ i, i < S.nnz → accessor S._indices 0 i ≠ (h : Int)) :
    rowDot S dense h k = 0 := by
  unfold rowDot
  have : (List.range S.nnz).filter
      (fun i => decide (accessor S._indices 0 i = (h : Int))) = [] := by
    rw [List.filter_eq_nil_iff]
    intro i hi
    simp only [List.mem_range] at hi
    simpa using hno i hi
  rw [this]
  simp

theorem rowBlock_absent (cols : List (List Int)) (vals : List (List α)) (x : List Int)
    (hx : x ∉ cols) : rowBlock cols vals x = [] := by
  induction cols generalizing vals with
  | nil => cases vals <;> rfl
  | cons c cs ih =>
    cases vals with
    | nil => rfl
    | cons v vs =>
      simp only [List.mem_cons, not_or] at hx
      rw [rowBlock, if_neg (fun e => hx.1 e.symm)]
      exact ih vs hx.2

theorem rowBlock_at (cols : List (List Int)) (vals : List (List α)) (hnd : cols.Nodup)
    (a : Nat) (ha : a < cols.length) (hv : a < vals.length) :
    rowBlock cols vals (cols.getD a []) = vals.getD a [] := by
  induction cols generalizing vals a with
  | nil => simp at ha
  | cons c cs ih =>
    cases vals with
    | nil => simp at hv
    | cons v vs =>
      cases a with
      | zero => simp [rowBlock]
      | succ a' =>
        have hnd' := List.nodup_cons.mp hnd
        simp only [List.length_cons, Nat.add_lt_add_iff_right] at ha hv
        have hm : cs.getD a' [] ∈ cs := by
          rw [getD_eq_getElem_lt _ _ _ ha]
          exact List.getElem_mem ha
        have hne : c ≠ cs.getD a' [] := fun e => hnd'.1 (e ▸ hm)
        simp only [List.getD_cons_succ]
        rw [rowBlock, if_neg hne]
        exact ih vs hnd'.2 a' ha hv

/-- The dense row of the tensor that `set_indices_and_values` builds from a strictly
increasing index row and a values matrix with one row per index. -/
theorem denseRow_set [CommRing α] (r1 : SparseTensor α) (out : List Int)
    (values : Tensor α) (n : Nat) (hp : out.Pairwise (fun a b => a < b))
    (hs : values.sizes = [out.length, n]) :
    (∀ a c, a < out.length → c < n → 0 ≤ out.getD a 0 →
      (set_indices_and_values r1 (out.map (fun x => [x])) values).denseRow
          (out.getD a 0).toNat c = values.data.getD (a * n + c) 0) ∧
    (∀ h c : Nat, (h : Int) ∉ out →
      (set_indices_and_values r1 (out.map (fun x => [x])) values).denseRow h c = 0) := by
  have hs0 : values.size 0 = out.length := by simp [Tensor.size, hs]
  have hs1 : values.size 1 = n := by simp [Tensor.size, hs]
  have hI : (set_indices_and_values r1 (out.map (fun x => [x])) values)._indices =
      out.map (fun x => [x]) := by
    simp [set_indices_and_values, SparseTensor._indices, hs0]
  have hV : (set_indices_and_values r1 (out.map (fun x => [x])) values)._values =
      (List.range out.length).map (fun a => (List.range n).map
        (fun c => values.data.getD (a * n + c) 0)) := by
    simp [set_indices_and_values, SparseTensor._values, hs0, hs1]
  have hnd : (out.map (fun x : Int => [x])).Nodup := by
    apply List.Nodup.map
    · intro x y hxy
      simpa using hxy
    · exact hp.imp (fun h => ne_of_lt h)
  constructor
  · intro a c ha hc h0
    unfold SparseTensor.denseRow
    rw [hI, hV]
    have e : (((out.getD a 0).toNat : Nat) : Int) = out.getD a 0 := by omega
    have e2 : [out.getD a 0] = (out.map (fun x : Int => [x])).getD a [] := by
      simp [List.getD_eq_getElem?_getD, ha]
    rw [e, e2, rowBlock_at _ _ hnd a (by simpa using ha) (by simpa using ha)]
    simp [List.getD_eq_getElem?_getD, ha, hc]
  · intro h c hh
    unfold SparseTensor.denseRow
    rw [hI]
    have : [(h : Int)] ∉ out.map (fun x => [x]) := by
      intro hm
      simp only [List.mem_map] at hm
      obtain ⟨x, hx, e⟩ := hm
      have : x = (h : Int) := by simpa using e
      rw [this] at hx
      exact hh hx
    rw [rowBlock_absent _ _ _ this]
    rfl

/-- A shape-valid `hspmm_out_sparse_cpu` call on a coalesced operand with nnz > 0,
non-decreasing rows that are not negative and columns in range: the call returns the tensor
that `set_indices_and_values` builds from the output row `out` of the compaction and the
values `vals` of the inner product. -/
theorem hspmm_out_nonempty [CommRing α] [DecidableEq α]
    (coalesce : SparseTensor α → SparseTensor α) (r sparse_ : SparseTensor α)
    (dense : Tensor α) (m k n : Nat)
    (h2 : sparse_.sparseDims = 2) (h0 : sparse_.denseDims = 0)
    (hsz : sparse_.sizes = [m, k])
    (hS : (coalesce sparse_).sizes = [m, k]) (hS2 : (coalesce sparse_).sparseDims = 2)
    (hW : (coalesce sparse_).WellFormed)
    (hflag : (coalesce sparse_).coalesced = true)
    (hid : ∀ x : SparseTensor α, x.coalesced = true → coalesce x = x)
    (hD : dense.sizes = [k, n])
    (hn : 0 < (coalesce sparse_).nnz)
    (hsorted : ∀ j, j < (coalesce sparse_).nnz → ∀ i, i ≤ j →
      accessor (coalesce sparse_)._indices 0 i ≤ accessor (coalesce sparse_)._indices 0 j)
    (hnn : ∀ j, j < (coalesce sparse_).nnz → 0 ≤ accessor (coalesce sparse_)._indices 0 j)
    (hcol : ∀ i, i < (coalesce sparse_).nnz →
      0 ≤ accessor (coalesce sparse_)._indices 1 i ∧
        accessor (coalesce sparse_)._indices 1 i < k) :
    ∃ (out vi : List Int) (vals : Tensor α),
      hspmm_compact (coalesce sparse_) =
        .ok (out.map (fun x => [x]), out.length,
          hspmm_newSparse (coalesce sparse_) out.length vi) ∧
      hspmm_out_sparse_cpu coalesce r sparse_ dense =
        .ok (set_indices_and_values (r.sparse_raw_resize_ [m, n] 1 1)
          (out.map (fun x => [x])) vals) ∧
      vals.sizes = [out.length, n] ∧
      1 ≤ out.length ∧ out.length ≤ (coalesce sparse_).nnz ∧
      out.Pairwise (fun a b => a < b) ∧
      (∀ x, x ∈ out ↔
        ∃ j, j < (coalesce sparse_).nnz ∧ accessor (coalesce sparse_)._indices 0 j = x) ∧
      (∀ j, j < (coalesce sparse_).nnz → 0 ≤ vi.getD j 0 ∧ vi.getD j 0 < (out.length : Int) ∧
        out.getD (vi.getD j 0).toNat 0 = accessor (coalesce sparse_)._indices 0 j) := by
  have hsz0 : sparse_.size 0 = m := by simp [SparseTensor.size, hsz]
  have hsz1 : sparse_.size 1 = k := by simp [SparseTensor.size, hsz]
  have hd0 : dense.size 0 = k := by simp [Tensor.size, hD]
  have hd1 : dense.size 1 = n := by simp [Tensor.size, hD]
  have hdd : dense.dim = 2 := by simp [Tensor.dim, hD]
  have hS0 : (coalesce sparse_).denseDims = 0 := by
    have := hW.1
    rw [hS, hS2] at this
    simp at this
    omega
  obtain ⟨out, vi, e, b1, b2, hp, hm, hv⟩ := hspmm_compact_spec (coalesce sparse_) hW
    hn hsorted hnn
  obtain ⟨_, nacc, _⟩ := hspmm_newSparse_spec (coalesce sparse_) hW hS2 out vi hp hv
  have hNS : coalesce (hspmm_newSparse (coalesce sparse_) out.length vi) =
      hspmm_newSparse (coalesce sparse_) out.length vi := hid _ hflag
  have hmono : ∀ j, j < (coalesce sparse_).nnz → ∀ i, i ≤ j →
      vi.getD i 0 ≤ vi.getD j 0 := by
    intro j hj i hij
    by_contra c
    obtain ⟨u1, u2, u3⟩ := hv i (by omega)
    obtain ⟨v1, v2, v3⟩ := hv j hj
    have := pairwise_lt_getD out hp (vi.getD j 0).toNat (vi.getD i 0).toNat (by omega)
      (by omega)
    have := hsorted j hj i hij
    omega
  obtain ⟨vals, e2, s1, _, _⟩ := s_addmm_entries coalesce true
    { sizes := [out.length, n], data := List.replicate (out.length * n) 0 }
    { sizes := [out.length, n], data := List.replicate (out.length * n) 0 }
    (hspmm_newSparse (coalesce sparse_) out.length vi) dense 0 1 out.length k n
    hS2 hS0 (by rw [hNS]; simp [hspmm_newSparse, hS]) hD rfl
    (by simp [Tensor.WellFormed]) (fun _ => rfl)
    (by
      rw [hNS]
      intro j hj i hij
      have hj' : j < (coalesce sparse_).nnz := hj
      rw [(nacc j hj').1, (nacc i (by omega)).1]
      exact hmono j hj' i hij)
    (by
      rw [hNS]
      intro i hi
      have hi' : i < (coalesce sparse_).nnz := hi
      obtain ⟨v1, v2, _⟩ := hv i hi'
      rw [(nacc i hi').1, (nacc i hi').2]
      exact ⟨⟨v1, v2⟩, hcol i hi'⟩)
  have hcall : hspmm_out_sparse_cpu coalesce r sparse_ dense =
      .ok (set_indices_and_values (r.sparse_raw_resize_ [m, n] 1 1)
        (out.map (fun x => [x])) vals) := by
    unfold hspmm_out_sparse_cpu
    rw [if_neg (by simp [h2]), if_neg (by simp [h0]), if_neg (by simp [hdd])]
    simp only [hsz0, hsz1, hd0, hd1]
    rw [if_neg (by simp), if_neg (by omega), e]
    simp only
    rw [e2]
  exact ⟨out, vi, vals, e, hcall, s1, b1, b2, hp, hm, hv⟩

/-- C21: row compaction in `hspmm_out_sparse_cpu`. For a shape-valid call whose coalesced
2-D operand is well-formed with nnz > 0, non-decreasing row coordinates all ≥ 0 and columns
in range, the call returns a tensor `res` with one sparse dimension whose index tensor and
nnz are what the compaction of the operand computes; the single index row of `res` is
strictly increasing and holds exactly the row values of the operand, its length, the nnz of
`res`, is the number of distinct rows with `1 ≤ nnz ≤` the operand's nnz, every rewritten
row coordinate of the compacted operand lies in `[0, nnz)`, and the index row of `res` at the
rewritten coordinate of nonzero `j` is the original row of `j`. -/
theorem hspmm_row_compaction [CommRing α] [DecidableEq α]
    (coalesce : SparseTensor α → SparseTensor α) (r sparse_ : SparseTensor α)
    (dense : Tensor α) (m k n : Nat)
    (h2 : sparse_.sparseDims = 2) (h0 : sparse_.denseDims = 0)
    (hsz : sparse_.sizes = [m, k])
    (hS : (coalesce sparse_).sizes = [m, k]) (hS2 : (coalesce sparse_).sparseDims = 2)
    (hW : (coalesce sparse_).WellFormed)
    (hflag : (coalesce sparse_).coalesced = true)
    (hid : ∀ x : SparseTensor α, x.coalesced = true → coalesce x = x)
    (hD : dense.sizes = [k, n])
    (hn : 0 < (coalesce sparse_).nnz)
    (hsorted : ∀ j, j < (coalesce sparse_).nnz → ∀ i, i ≤ j →
      accessor (coalesce sparse_)._indices 0 i ≤ accessor (coalesce sparse_)._indices 0 j)
    (hnn : ∀ j, j < (coalesce sparse_).nnz → 0 ≤ accessor (coalesce sparse_)._indices 0 j)
    (hcol : ∀ i, i < (coalesce sparse_).nnz →
      0 ≤ accessor (coalesce sparse_)._indices 1 i ∧
        accessor (coalesce sparse_)._indices 1 i < k) :
    ∃ res newSparse, hspmm_out_sparse_cpu coalesce r sparse_ dense = .ok res ∧
      hspmm_compact (coalesce sparse_) = .ok (res.indices, res.nnz, newSparse) ∧
      res.sizes = [m, n] ∧ res.sparseDims = 1 ∧ res.denseDims = 1 ∧
      res._indices = res.indices ∧ res._indices.length = res.nnz ∧
      (∀ c ∈ res._indices, c.length = 1) ∧
      (rowIndices res._indices).Pairwise (fun a b => a < b) ∧
      (∀ x, x ∈ rowIndices res._indices ↔
        ∃ j, j < (coalesce sparse_).nnz ∧ accessor (coalesce sparse_)._indices 0 j = x) ∧
      res.nnz = distinctRows (coalesce sparse_)._indices (coalesce sparse_).nnz ∧
      1 ≤ res.nnz ∧ res.nnz ≤ (coalesce sparse_).nnz ∧
      ∀ j, j < (coalesce sparse_).nnz →
        0 ≤ accessor newSparse._indices 0 j ∧
        accessor newSparse._indices 0 j < (res.nnz : Int) ∧
        accessor res._indices 0 (accessor newSparse._indices 0 j).toNat =
          accessor (coalesce sparse_)._indices 0 j := by
  obtain ⟨out, vi, vals, e, hcall, s1, b1, b2, hp, hm, hv⟩ :=
    hspmm_out_nonempty coalesce r sparse_ dense m k n h2 h0 hsz hS hS2 hW hflag hid hD hn
      hsorted hnn hcol
  obtain ⟨_, hacc, _⟩ := hspmm_newSparse_spec (coalesce sparse_) hW hS2 out vi hp hv
  have key : ∃ res : SparseTensor α,
      hspmm_out_sparse_cpu coalesce r sparse_ dense = .ok res ∧
      res.sizes = [m, n] ∧ res.sparseDims = 1 ∧ res.denseDims = 1 ∧
      res.indices = out.map (fun x => [x]) ∧ res.nnz = out.length :=
    ⟨_, hcall, rfl, rfl, rfl, rfl, by simp [set_indices_and_values, Tensor.size, s1]⟩
  obtain ⟨res, hres, z1, z2, z3, hi, hnz⟩ := key
  have hview : res._indices = out.map (fun x => [x]) := by
    simp [SparseTensor._indices, hi, hnz]
  refine ⟨res, hspmm_newSparse (coalesce sparse_) out.length vi, hres, ?_, z1, z2, z3, ?_, ?_,
    ?_, ?_, ?_, ?_, ?_, ?_, ?_⟩
  · rw [hi, hnz]; exact e
  · rw [hview, hi]
  · rw [hview, hnz]; simp
  · intro c hc
    rw [hview] at hc
    simp only [List.mem_map] at hc
    obtain ⟨x, _, rfl⟩ := hc
    rfl
  · rw [hview, rowIndices_singletons]; exact hp
  · rw [hview, rowIndices_singletons]; exact hm
  · rw [hnz]; exact distinctRows_of_compact _ _ out hp hm
  · rw [hnz]; exact b1
  · rw [hnz]; exact b2
  · intro j hj
    obtain ⟨v1, v2, v3⟩ := hv j hj
    rw [(hacc j hj).1, hnz, hview]
    refine ⟨v1, v2, ?_⟩
    rw [← rowIndices_getD, rowIndices_singletons]
    exact v3

/-- The call at `{(0,0): 1, (0,1): 2, (2,1): 3}` and `[[1, 2], [3, 4]]`: the output index row
is `[0, 2]` with nnz 2, and the rows of the three nonzeros are rewritten to `0, 0, 1`. -/
theorem hspmm_row_compaction_witness :
    (hspmm_out_sparse_cpu id SparseTensor.fresh exS3 exD).map
        (fun res => (res._indices, res.nnz)) = .ok ([[0], [2]], 2) ∧
    hspmm_compact (id exS3) =
      .ok ([[0], [2]], 2,
        { sizes := [2, 2], sparseDims := 2, denseDims := 0,
          indices := [[0, 0], [0, 1], [1, 1]], values := [[1], [2], [3]], nnz := 3,
          coalesced := true }) ∧
    ∃ res newSparse, hspmm_out_sparse_cpu id SparseTensor.fresh exS3 exD = .ok res ∧
      hspmm_compact (id exS3) = .ok (res.indices, res.nnz, newSparse) ∧
      res.sizes = [3, 2] ∧ res.sparseDims = 1 ∧ res.denseDims = 1 ∧
      res._indices = res.indices ∧ res._indices.length = res.nnz ∧
      (∀ c ∈ res._indices, c.length = 1) ∧
      (rowIndices res._indices).Pairwise (fun a b => a < b) ∧
      (∀ x, x ∈ rowIndices res._indices ↔
        ∃ j, j < (id exS3).nnz ∧ accessor (id exS3)._indices 0 j = x) ∧
      res.nnz = distinctRows (id exS3)._indices (id exS3).nnz ∧
      1 ≤ res.nnz ∧ res.nnz ≤ (id exS3).nnz ∧
      ∀ j, j < (id exS3).nnz →
        0 ≤ accessor newSparse._indices 0 j ∧
        accessor newSparse._indices 0 j < (res.nnz : Int) ∧
        accessor res._indices 0 (accessor newSparse._indices 0 j).toNat =
          accessor (id exS3)._indices 0 j :=
  ⟨rfl, rfl,
    hspmm_row_compaction id SparseTensor.fresh exS3 exD 3 2 2 rfl rfl rfl rfl rfl (by decide)
      rfl (fun _ _ => rfl) rfl (by decide) (by decide) (by decide) (by decide)⟩

/-- C22: hspmm agrees with the dense-output product. For a shape-valid call whose coalesced
operand `S` is well-formed, flagged coalesced, strictly increasing and in range (`coalesce`
returning a tensor flagged coalesced as it is), `hspmm_out_sparse_cpu` succeeds with an
`m × n` result with one sparse and one dense dimension, and so does
`s_addmm_out_sparse_dense_cpu` for `S`, `D`, `beta = 0`, `alpha = 1` and any `t` of shape
`(m, n)`; row `h` of the densified hspmm result (the value block stored for `h`, zeros when
`h` is not retained) equals row `h` of the dense product, entry by entry; and the compacted
operand handed to the inner product has strictly increasing index columns. -/
theorem hspmm_agrees_with_addmm [CommRing α] [DecidableEq α]
    (coalesce : SparseTensor α → SparseTensor α) (r sparse_ : SparseTensor α)
    (dense : Tensor α) (f : Bool) (r' t' : Tensor α) (m k n : Nat)
    (h2 : sparse_.sparseDims = 2) (h0 : sparse_.denseDims = 0)
    (hsz : sparse_.sizes = [m, k])
    (hS : (coalesce sparse_).sizes = [m, k]) (hS2 : (coalesce sparse_).sparseDims = 2)
    (hW : (coalesce sparse_).WellFormed)
    (hflag : (coalesce sparse_).coalesced = true)
    (hid : ∀ x : SparseTensor α, x.coalesced = true → coalesce x = x)
    (hc : StrictlyIncreasing (coalesce sparse_)._indices)
    (hD : dense.sizes = [k, n])
    (hrange : ∀ i, i < (coalesce sparse_).nnz →
      (0 ≤ accessor (coalesce sparse_)._indices 0 i ∧
        accessor (coalesce sparse_)._indices 0 i < m) ∧
      (0 ≤ accessor (coalesce sparse_)._indices 1 i ∧
        accessor (coalesce sparse_)._indices 1 i < k))
    (hT : t'.sizes = [m, n]) (hTw : t'.WellFormed) (hf : f = true → r' = t') :
    ∃ res dres, hspmm_out_sparse_cpu coalesce r sparse_ dense = .ok res ∧
      s_addmm_out_sparse_dense_cpu coalesce f r' t' sparse_ dense 0 1 = .ok dres ∧
      res.sizes = [m, n] ∧ res.sparseDims = 1 ∧ res.denseDims = 1 ∧
      (∀ h c, h < m → c < n → res.denseRow h c = dres.data.getD (h * n + c) 0) ∧
      ((coalesce sparse_).nnz ≠ 0 →
        ∃ indices outNnz newSparse,
          hspmm_compact (coalesce sparse_) = .ok (indices, outNnz, newSparse) ∧
          StrictlyIncreasing newSparse._indices) := by
  have hsz0 : sparse_.size 0 = m := by simp [SparseTensor.size, hsz]
  have hsz1 : sparse_.size 1 = k := by simp [SparseTensor.size, hsz]
  have hd0 : dense.size 0 = k := by simp [Tensor.size, hD]
  have hd1 : dense.size 1 = n := by simp [Tensor.size, hD]
  have hdd : dense.dim = 2 := by simp [Tensor.dim, hD]
  have hIlen : (coalesce sparse_)._indices.length = (coalesce sparse_).nnz := by
    simp [SparseTensor._indices, hW.2.1]
  have hS0 : (coalesce sparse_).denseDims = 0 := by
    have := hW.1
    rw [hS, hS2] at this
    simp at this
    omega
  have hsorted := coalesced_rows_sorted (coalesce sparse_)._indices (coalesce sparse_).nnz
    hIlen (fun c hc' => by rw [← hS2]; exact hW.2.2.2.1 c hc') hc
  obtain ⟨dres, d1, _, _, d3⟩ := s_addmm_entries coalesce f r' t' sparse_ dense 0 1 m k n
    h2 h0 hS hD hT hTw hf hsorted hrange
  unfold hspmm_out_sparse_cpu
  rw [if_neg (by simp [h2]), if_neg (by simp [h0]), if_neg (by simp [hdd])]
  simp only [hsz0, hsz1, hd0, hd1]
  rw [if_neg (by simp)]
  by_cases hn : (coalesce sparse_).nnz = 0
  · rw [if_pos hn]
    refine ⟨_, dres, rfl, d1, rfl, rfl, rfl, ?_, fun c => absurd hn c⟩
    intro h c hh hc'
    rw [d3 h c hh hc', rowDot_empty_row _ _ _ _ (fun i hi => by omega)]
    simp [SparseTensor.denseRow, zero_sparse_, SparseTensor._indices, rowBlock]
  · rw [if_neg hn]
    obtain ⟨out, vi, e, b1, b2, hp, hm, hv⟩ := hspmm_compact_spec (coalesce sparse_) hW
      (by omega) hsorted (fun j hj => (hrange j hj).1.1)
    obtain ⟨nv, nacc, nsorted⟩ := hspmm_newSparse_spec (coalesce sparse_) hW hS2 out vi hp hv
    have hNS : coalesce (hspmm_newSparse (coalesce sparse_) out.length vi) =
        hspmm_newSparse (coalesce sparse_) out.length vi := hid _ hflag
    have hinj : ∀ a b : Nat, a < out.length → b < out.length →
        out.getD a 0 = out.getD b 0 → a = b := by
      intro a b ha hb hab
      rcases Nat.lt_trichotomy a b with h | h | h
      · have := pairwise_lt_getD out hp a b h hb; omega
      · exact h
      · have := pairwise_lt_getD out hp b a h ha; omega
    have hmono : ∀ j, j < (coalesce sparse_).nnz → ∀ i, i ≤ j →
        vi.getD i 0 ≤ vi.getD j 0 := by
      intro j hj i hij
      by_contra c
      obtain ⟨u1, u2, u3⟩ := hv i (by omega)
      obtain ⟨v1, v2, v3⟩ := hv j hj
      have := pairwise_lt_getD out hp (vi.getD j 0).toNat (vi.getD i 0).toNat (by omega)
        (by omega)
      have := hsorted j hj i hij
      omega
    obtain ⟨vals, e2, s1, _, s3⟩ := s_addmm_entries coalesce true
      { sizes := [out.length, n], data := List.replicate (out.length * n) 0 }
      { sizes := [out.length, n], data := List.replicate (out.length * n) 0 }
      (hspmm_newSparse (coalesce sparse_) out.length vi) dense 0 1 out.length k n
      hS2 hS0 (by rw [hNS]; simp [hspmm_newSparse, hS]) hD rfl
      (by simp [Tensor.WellFormed]) (fun _ => rfl)
      (by
        rw [hNS]
        intro j hj i hij
        have hj' : j < (coalesce sparse_).nnz := hj
        rw [(nacc j hj').1, (nacc i (by omega)).1]
        exact hmono j hj' i hij)
      (by
        rw [hNS]
        intro i hi
        have hi' : i < (coalesce sparse_).nnz := hi
        obtain ⟨v1, v2, _⟩ := hv i hi'
        rw [(nacc i hi').1, (nacc i hi').2]
        exact ⟨⟨v1, v2⟩, (hrange i hi').2⟩)
    rw [hNS] at s3
    rw [e]
    simp only
    rw [e2]
    simp only
    obtain ⟨q1, q2⟩ := denseRow_set (r.sparse_raw_resize_ [m, n] 1 1) out vals n hp s1
    refine ⟨_, dres, rfl, d1, rfl, rfl, rfl, ?_,
      fun _ => ⟨_, _, _, rfl, nsorted hc⟩⟩
    intro h c hh hc'
    rw [d3 h c hh hc', zero_mul, zero_add, one_mul]
    by_cases hmem : (h : Int) ∈ out
    · obtain ⟨a, ha, ea⟩ := List.mem_iff_getElem.mp hmem
      have ea' : out.getD a 0 = (h : Int) := by
        rw [getD_eq_getElem_lt _ _ _ ha]; exact ea
      have := q1 a c ha hc' (by omega)
      rw [ea', Int.toNat_ofNat] at this
      rw [this, s3 a c ha hc', zero_mul, zero_add, one_mul]
      refine rowDot_congr (hspmm_newSparse (coalesce sparse_) out.length vi)
        (coalesce sparse_) dense a h c rfl nv ?_ ?_
      · intro i hi
        obtain ⟨v1, v2, v3⟩ := hv i hi
        rw [(nacc i hi).1]
        constructor
        · intro hvi
          rw [← v3, hvi, Int.toNat_ofNat, ea']
        · intro hrow
          have := hinj (vi.getD i 0).toNat a (by omega) ha (by rw [v3, hrow, ea'])
          omega
      · intro i hi
        exact (nacc i hi).2
    · rw [q2 h c hmem, rowDot_empty_row]
      intro i hi hrow
      exact hmem ((hm (h : Int)).mpr ⟨i, hi, hrow⟩)

/-- The product of `{(0,0): 1, (0,1): 2, (2,1): 3}` and `[[1, 2], [3, 4]]`: hspmm retains
the rows 0 and 2 with blocks `[7, 10]` and `[9, 12]`; the dense product is
`[[7, 10], [0, 0], [9, 12]]`. -/
theorem hspmm_agrees_with_addmm_witness :
    hspmm_out_sparse_cpu id SparseTensor.fresh exS3 exD =
      .ok { sizes := [3, 2], sparseDims := 1, denseDims := 1, indices := [[0], [2]],
            values := [[7, 10], [9, 12]], nnz := 2, coalesced := false } ∧
    s_addmm_out_sparse_dense_cpu id false Tensor.fresh exT3 exS3 exD 0 1 =
      .ok { sizes := [3, 2], data := [7, 10, 0, 0, 9, 12] } ∧
    ∃ res dres, hspmm_out_sparse_cpu id SparseTensor.fresh exS3 exD = .ok res ∧
      s_addmm_out_sparse_dense_cpu id false Tensor.fresh exT3 exS3 exD 0 1 = .ok dres ∧
      res.sizes = [3, 2] ∧ res.sparseDims = 1 ∧ res.denseDims = 1 ∧
      (∀ h c, h < 3 → c < 2 → res.denseRow h c = dres.data.getD (h * 2 + c) 0) ∧
      ((id exS3).nnz ≠ 0 →
        ∃ indices outNnz newSparse,
          hspmm_compact (id exS3) = .ok (indices, outNnz, newSparse) ∧
          StrictlyIncreasing newSparse._indices) :=
  ⟨rfl, rfl,
    hspmm_agrees_with_addmm id SparseTensor.fresh exS3 exD false Tensor.fresh exT3
      3 2 2 rfl rfl rfl rfl rfl (by decide) rfl
      (fun _ _ => rfl) (by decide) rfl (by decide) rfl (by decide) (by decide)⟩

end SparseTensorMath
